import Mathlib


/-!
# Verification development for the iresearch segment-level core

Shallow embedding of
* `core/utils/levenshtein_utils.cpp` (parametric Levenshtein description, its
  serialisation, the automaton builder and the on-line distance computation),
* `core/search/conjunction.hpp` (conjunction of doc iterators),
* `core/search/column_existence_filter.cpp` (existence and prefix queries),
together with a model of the columnar store taken from the specification.

Conventions.  Machine integers are natural numbers.  In the description builder
`uint8_t` distances never exceed `max_distance <= 31` and `uint32_t` offsets never
exceed a few multiples of it, so no wrap-around is reachable there (`subsumes_u32`
gives the subsumption test on arbitrary 32-bit offsets); the serialisation code,
where 32-bit wrap-around is part of the algorithm, is modelled with explicit
reduction modulo `2^32`.  UTF-8 words are modelled by their sequence of code points,
except for the checked `edit_distance`, which decodes bytes.
-/

namespace irs

/-! ## Parametric description: positions and states (levenshtein_utils.cpp 51-226) -/

/-- The invalid parametric state, `INVALID_STATE`. -/
def INVALID_STATE : Nat := 0

/-- A `position`: parametric offset, distance and the transposition flag. -/
structure position where
  offset : Nat
  distance : Nat
  transpose : Bool
deriving DecidableEq, Repr

/-- The ordering `position::operator<`: by offset, then distance, then flag. -/
def position.lt (lhs rhs : position) : Bool :=
  if lhs.offset = rhs.offset then
    if lhs.distance = rhs.distance then
      (!lhs.transpose && rhs.transpose)
    else decide (lhs.distance < rhs.distance)
  else decide (lhs.offset < rhs.offset)

/-- The helper `abs_diff`. -/
def abs_diff (lhs rhs : Nat) : Nat :=
  if lhs < rhs then rhs - lhs else lhs - rhs

/-- The predicate `subsumes(lhs, rhs)` on offsets whose difference plus the distance stays
below 2^32, as in every state the description builder reaches. -/
def subsumes (lhs rhs : position) : Bool :=
  if lhs.transpose || !rhs.transpose then
    decide (abs_diff lhs.offset rhs.offset + lhs.distance ≤ rhs.distance)
  else
    decide (abs_diff lhs.offset rhs.offset + lhs.distance < rhs.distance)

/-- A `parametric_state` is the vector `positions_`. -/
abbrev parametric_state := List position

/-- The helper `irstd::swap_remove(vec, it)`: the last element is moved into slot `i`
and the vector shrinks by one. -/
def swap_remove (v : List position) (i : Nat) : List position :=
  match v.getLast? with
  | none => v
  | some last => (v.set i last).dropLast

/-- The removal loop of `parametric_state::emplace` (lines 119-129): `i` is the cursor
`begin`, the end of the vector is `end`; the first argument bounds the number of
iterations, and the length of the vector is always enough. -/
def remove_subsumed (new_pos : position) : Nat → List position → Nat → List position
  | 0, v, _ => v
  | fuel + 1, v, i =>
    if h : i < v.length then
      if subsumes new_pos (v.get ⟨i, h⟩) then
        remove_subsumed new_pos fuel (swap_remove v i) i
      else
        remove_subsumed new_pos fuel v (i + 1)
    else v

/-- The method `parametric_state::emplace(new_pos)`: the new vector and the returned flag. -/
def parametric_state.emplace (positions : parametric_state) (new_pos : position) :
    parametric_state × Bool :=
  if positions.any (fun pos => subsumes pos new_pos) then
    (positions, false)
  else
    (remove_subsumed new_pos positions.length positions 0 ++ [new_pos], true)

/-- The deletion loop of `add_elementary_transitions` (lines 252-256), `j = 1 .. count`. -/
def add_deletions (pos : position) (chi : Nat) :
    List Nat → parametric_state → parametric_state
  | [], state => state
  | j :: js, state =>
    add_deletions pos chi js
      (if chi.testBit j then
        (state.emplace ⟨pos.offset + 1 + j, pos.distance + j, false⟩).1
      else state)

/-- The function `add_elementary_transitions(state, pos, chi, max_distance, with_transpositions)`. -/
def add_elementary_transitions (state : parametric_state) (pos : position) (chi : Nat)
    (max_distance : Nat) (with_transpositions : Bool) : parametric_state :=
  let s1 :=
    if chi.testBit 0 then
      let s := (state.emplace ⟨pos.offset + 1, pos.distance, false⟩).1
      if pos.transpose then (s.emplace ⟨pos.offset + 2, pos.distance, false⟩).1 else s
    else state
  if pos.distance < max_distance then
    let s2 := (s1.emplace ⟨pos.offset, pos.distance + 1, false⟩).1
    let s3 := (s2.emplace ⟨pos.offset + 1, pos.distance + 1, false⟩).1
    let s4 := add_deletions pos chi (List.range' 1 (max_distance - pos.distance)) s3
    if with_transpositions && chi.testBit 1 then
      (s4.emplace ⟨pos.offset, pos.distance + 1, true⟩).1
    else s4
  else s1

/-- Insertion of one position into a sorted vector. -/
def sort_insert (p : position) : List position → List position
  | [] => [p]
  | q :: qs => if position.lt p q then p :: q :: qs else q :: sort_insert p qs

/-- The call `std::sort(begin, end)` with `position::operator<`.  That order is a strict
total order, so the sorted vector does not depend on the sorting algorithm. -/
def sort_positions (l : List position) : List position :=
  l.foldr sort_insert []

/-- The function `add_transition(to, from, cv, max_distance, with_transpositions)`. -/
def add_transition (src : parametric_state) (cv : Nat) (max_distance : Nat)
    (with_transpositions : Bool) : parametric_state :=
  sort_positions
    (src.foldl
      (fun dst pos =>
        add_elementary_transitions dst pos (cv >>> pos.offset) max_distance with_transpositions)
      [])

/-- The size of a characteristic vector, `chi_size`. -/
def chi_size (max_distance : Nat) : Nat := 2 * max_distance + 1

/-- The number of characteristic vectors, `chi_max`. -/
def chi_max (chi_size : Nat) : Nat := 1 <<< chi_size

/-- The table `NUM_STATES` of `predict_num_states`. -/
def NUM_STATES : List Nat :=
  [2, 2, 6, 8, 31, 68, 197, 769, 1354, 9628, 9714, 0]

/-- The function `predict_num_states(max_distance, with_transpositions)`. -/
def predict_num_states (max_distance : Nat) (with_transpositions : Bool) : Nat :=
  NUM_STATES.getD (2 * max_distance + (if with_transpositions then 1 else 0)) 0

/-- The smallest offset of a state, `min_element` by offset, 0 for the empty state. -/
def min_offset : List position → Nat
  | [] => 0
  | p :: ps => ps.foldl (fun m q => if q.offset < m then q.offset else m) p.offset

/-- The function `normalize(state)`: the returned minimal offset and the shifted, sorted state. -/
def normalize (state : parametric_state) : Nat × parametric_state :=
  let m := min_offset state
  (m, sort_positions (state.map (fun pos => { pos with offset := pos.offset - m })))

/-- The function `distance(state, max_distance, offset)` (lines 333-347). -/
def distance (state : parametric_state) (max_distance : Nat) (offset : Nat) : Nat :=
  state.foldl
    (fun min_dist pos =>
      let dist := pos.distance + abs_diff offset pos.offset
      if dist < min_dist then dist else min_dist)
    (max_distance + 1)

/-- The comparison `position::operator==`. -/
def position.eq (lhs rhs : position) : Bool :=
  lhs.offset == rhs.offset && lhs.distance == rhs.distance && lhs.transpose == rhs.transpose

/-- The comparison `parametric_state::operator==`, equality of the position vectors. -/
def parametric_state.eq : parametric_state → parametric_state → Bool
  | [], [] => true
  | a :: as, b :: bs => position.eq a b && parametric_state.eq as bs
  | _, _ => false

/-- The container `parametric_states`: the states in the order of their ids. -/
abbrev parametric_states := List parametric_state

/-- Lookup of the id of a stored state equal to `state`; `i` is the id of the first state
of the list. -/
def parametric_states.find (state : parametric_state) :
    List parametric_state → Nat → Option Nat
  | [], _ => none
  | s :: ss, i =>
    if parametric_state.eq s state then some i else parametric_states.find state ss (i + 1)

/-- The method `parametric_states::emplace(state)`: the id of an equal stored state
(`try_emplace` finds the key), or the state is appended and gets the next id. -/
def parametric_states.emplace (states : parametric_states) (state : parametric_state) :
    parametric_states × Nat :=
  match parametric_states.find state states 0 with
  | some id => (states, id)
  | none => (states ++ [state], states.length)

/-- The class `parametric_description` with the members set by its constructor; the fields
are named after their getters (`size()` is `num_states`). -/
structure parametric_description where
  transitions : List (Nat × Nat)
  distances : List Nat
  chi_size : Nat
  chi_max : Nat
  num_states : Nat
  max_distance : Nat
deriving DecidableEq, Repr

/-- The supported maximum, `parametric_description::MAX_DISTANCE`. -/
def MAX_DISTANCE : Nat := 31

/-- The constructor `parametric_description(transitions, distance, max_distance)`. -/
def parametric_description.mk' (transitions : List (Nat × Nat)) (distances : List Nat)
    (max_distance : Nat) : parametric_description :=
  { transitions := transitions
    distances := distances
    chi_size := irs.chi_size max_distance
    chi_max := irs.chi_max (irs.chi_size max_distance)
    num_states := transitions.length / irs.chi_max (irs.chi_size max_distance)
    max_distance := max_distance }

/-- The default-constructed (invalid) description returned for an unsupported distance. -/
def parametric_description.invalid : parametric_description :=
  { transitions := [], distances := [], chi_size := 0, chi_max := 0, num_states := 0,
    max_distance := 0 }

/-- The inner loop of `make_parametric_description` (lines 485-493) over the
characteristic vectors `chis` for the state `src`. -/
def build_row (src : parametric_state) (max_distance : Nat) (with_transpositions : Bool) :
    List Nat → parametric_states → List (Nat × Nat) → parametric_states × List (Nat × Nat)
  | [], states, row => (states, row.reverse)
  | chi :: chis, states, row =>
    let dst := normalize (add_transition src chi max_distance with_transpositions)
    let r := states.emplace dst.2
    build_row src max_distance with_transpositions chis r.1 ((r.2, dst.1) :: row)

/-- The outer loop of `make_parametric_description` (lines 484-499).  `capacity` is
`num_states * chi_max`, the reserved capacity of `transitions` (0 when the number of states
is not predicted); the first argument bounds the number of iterations and `none` is
returned when it is exhausted. -/
def build_states (max_distance : Nat) (with_transpositions : Bool) (capacity : Nat) :
    Nat → parametric_states → List (Nat × Nat) → Nat →
      Option (parametric_states × List (Nat × Nat))
  | 0, _, _, _ => none
  | fuel + 1, states, transitions, from_id =>
    if from_id = states.length then some (states, transitions)
    else
      let r := build_row (states.getD from_id []) max_distance with_transpositions
        (List.range (chi_max (chi_size max_distance))) states []
      let transitions' := transitions ++ r.2
      if capacity ≠ 0 ∧ transitions'.length = capacity then some (r.1, transitions')
      else build_states max_distance with_transpositions capacity fuel r.1 transitions'
        (from_id + 1)

/-- The distance table of `make_parametric_description` (lines 501-508). -/
def distance_table (states : parametric_states) (max_distance : Nat) : List Nat :=
  states.flatMap (fun state =>
    (List.range (chi_size max_distance)).map (fun offset =>
      distance state max_distance offset % 256))

/-- The function `make_parametric_description(max_distance, with_transpositions)`.  The
first argument bounds the number of iterations of the state loop. -/
def make_parametric_description (fuel : Nat) (max_distance : Nat)
    (with_transpositions : Bool) : Option parametric_description :=
  if max_distance > MAX_DISTANCE then some parametric_description.invalid
  else
    let num_states := predict_num_states max_distance with_transpositions
    let capacity := num_states * chi_max (chi_size max_distance)
    match build_states max_distance with_transpositions capacity fuel
        [[], [⟨0, 0, false⟩]] [] 0 with
    | none => none
    | some (states, transitions) =>
      some (parametric_description.mk' transitions (distance_table states max_distance)
        max_distance)

end irs


namespace irs

/-! ## The descriptions for `max_distance <= 2` as literal tables -/

/-- Unpacking of one row of a transition table written as a numeral: the digits in base
2048, lowest first, are the entries of the row, each being `16 * next_state + offset_shift`. -/
def unpack_transitions : Nat → Nat → List (Nat × Nat)
  | 0, _ => []
  | k + 1, code => ((code % 2048) / 16, code % 16) :: unpack_transitions k (code / 2048)

/-- Unpacking of one row of a distance table written as a numeral, one entry per digit in
base 16, lowest first. -/
def unpack_distances : Nat → Nat → List Nat
  | 0, _ => []
  | k + 1, code => code % 16 :: unpack_distances k (code / 16)

/-- The table that `make_parametric_description(0, false)` builds. -/
def description_0_false : parametric_description :=
  { transitions :=
      [(0, 0), (0, 0), (0, 0), (1, 1)]
    distances :=
      [1, 0]
    chi_size := 1
    chi_max := 2
    num_states := 2
    max_distance := 0 }

/-- The table that `make_parametric_description(0, true)` builds. -/
def description_0_true : parametric_description :=
  { transitions :=
      [(0, 0), (0, 0), (0, 0), (1, 1)]
    distances :=
      [1, 0]
    chi_size := 1
    chi_max := 2
    num_states := 2
    max_distance := 0 }

/-- The table that `make_parametric_description(1, false)` builds. -/
def description_1_false : parametric_description :=
  { transitions :=
      [(0, 0), (0, 0), (0, 0), (0, 0), (0, 0), (0, 0), (0, 0), (0, 0), (2, 0), (1, 1), (3, 0), (1, 1),
      (2, 0), (1, 1), (3, 0), (1, 1), (0, 0), (4, 1), (4, 2), (2, 1), (0, 0), (4, 1), (4, 2), (2, 1),
      (0, 0), (4, 1), (4, 2), (2, 1), (4, 3), (5, 1), (2, 2), (3, 1), (0, 0), (4, 1), (0, 0), (4, 1),
      (0, 0), (4, 1), (0, 0), (4, 1), (0, 0), (4, 1), (0, 0), (4, 1), (4, 3), (5, 1), (4, 3), (5, 1)]
    distances :=
      [2, 2, 2, 0, 1, 2, 1, 1, 2, 1, 1, 1, 1, 2, 2, 1, 2, 1]
    chi_size := 3
    chi_max := 8
    num_states := 6
    max_distance := 1 }

/-- The table that `make_parametric_description(1, true)` builds. -/
def description_1_true : parametric_description :=
  { transitions :=
      [(0, 0), (0, 0), (0, 0), (0, 0), (0, 0), (0, 0), (0, 0), (0, 0), (2, 0), (1, 1), (3, 0), (4, 0),
      (2, 0), (1, 1), (3, 0), (4, 0), (0, 0), (5, 1), (5, 2), (2, 1), (0, 0), (5, 1), (5, 2), (2, 1),
      (0, 0), (2, 1), (5, 2), (2, 1), (5, 3), (6, 1), (2, 2), (6, 1), (2, 1), (2, 1), (1, 2), (1, 2),
      (3, 1), (3, 1), (4, 1), (4, 1), (0, 0), (5, 1), (0, 0), (5, 1), (0, 0), (5, 1), (0, 0), (5, 1),
      (0, 0), (5, 1), (5, 2), (2, 1), (5, 3), (7, 1), (2, 2), (6, 1), (0, 0), (5, 1), (0, 0), (5, 1),
      (5, 3), (7, 1), (5, 3), (7, 1)]
    distances :=
      [2, 2, 2, 0, 1, 2, 1, 1, 2, 1, 1, 1, 1, 0, 1, 1, 2, 2, 1, 1, 1, 1, 2, 1]
    chi_size := 3
    chi_max := 8
    num_states := 8
    max_distance := 1 }

/-- Unpacking of a parametric state written as a numeral: the digits in base 256, lowest
first, are the positions of the state, each being `1 + 16 * offset + 2 * distance + transpose`;
the digit 0 ends the state.  The first argument bounds the number of positions. -/
def unpack_state : Nat → Nat → parametric_state
  | 0, _ => []
  | k + 1, code =>
    if code = 0 then []
    else
      ⟨(code % 256 - 1) / 16, (code % 256 - 1) % 16 / 2, decide ((code % 256 - 1) % 2 = 1)⟩ ::
        unpack_state k (code / 256)

/-- Equality of two lists of parametric states, by `parametric_state::operator==`. -/
def states_eq : List parametric_state → List parametric_state → Bool
  | [], [] => true
  | a :: as, b :: bs => parametric_state.eq a b && states_eq as bs
  | _, _ => false

/-- Equality of two lists of transitions. -/
def transitions_eq : List (Nat × Nat) → List (Nat × Nat) → Bool
  | [], [] => true
  | a :: as, b :: bs => Nat.beq a.1 b.1 && Nat.beq a.2 b.2 && transitions_eq as bs
  | _, _ => false

/-- The check of one row of a table: with the first `known[k]` states of `states` known, the
inner loop of `make_parametric_description` for the state `k` builds the row `rows[k]` and
leaves the first `known[k + 1]` states known. -/
def check_row (max_distance : Nat) (with_transpositions : Bool) (states : List parametric_state)
    (known rows : List Nat) (k : Nat) : Bool :=
  let r := build_row (states.getD k []) max_distance with_transpositions
    (List.range (chi_max (chi_size max_distance))) (states.take (known.getD k 0)) []
  states_eq r.1 (states.take (known.getD (k + 1) 0)) &&
    transitions_eq r.2 (unpack_transitions (chi_max (chi_size max_distance)) (rows.getD k 0))

/-- The check of the rows `lo, ..., lo + len - 1` of a table. -/
def check_rows (max_distance : Nat) (with_transpositions : Bool)
    (states : List parametric_state) (known rows : List Nat) (lo len : Nat) : Bool :=
  (List.range' lo len).all (check_row max_distance with_transpositions states known rows)

/-- The rows of the transition table that `make_parametric_description(2, false)` builds, one numeral per
state (see `unpack_transitions`). -/
def rows_2_false : List Nat :=
  [0x0, 0x220c0088400220c0088200220c0088400220c0088200220c0088400220c0088200220c0088400220c008820,
   0x421c0488800421c0308500421c0488800421c0308500421c0488800421c0308500421c0488800421c030850,
   0x62300588a00823c0708d0062300588a00421c048880062300588a00823c0708d0062300588a00421c048880,
   0x823c0708d00823c0889000421c0488800421c0308500823c0708d00823c0889000421c0488800421c030850,
   0xa24c8a0923262488908000a24c8a0923262488908000a24c8a0923262488908000a24c8a092326248890800,
   0xc2140309300c2140309300c2140309300c2140309300c2140309300c2140309300c2140309300c214030930,
   0xe218c38863102148408520e218c388630a24c8289320e218c38863102148408520e218c388630a24c828932,
   0x102148b89332c2508a89240a24c8a092326248890800102148b89332c2508a89240a24c8a092326248890800,
   0x122200489600c214030930122200489600c214030930122200489600c214030930122200489600c214030930,
   0x1421c8c08641421c8c08641a2208c88531a2208c88531421c8c08641421c8c0864102148b8933102148b8933,
   0x162280588a01c2340708d0162280588a012220048880162280588a01c2340708d0162280588a012220048880,
   0x18208c608231421c8508721e224c788931a22086888218208c608231421c8508720e218c3886310214840852,
   0x1a2208c88533c25c8e8934202588e0943362548d0925102148b89332c2508a89240a24c8a092326248890800,
   0x1c2340709e0222400889b0122200489600c2140309301c2340709e0222400889b0122200489600c214030930,
   0x1e224c788931a2208688821e224c78893202588809620e218c38863102148408520e218c388630a24c828932,
   0x202588e0943362548d0925202588e0943362548d09250a24c8a0923262488908000a24c8a092326248890800,
   0x222400889b0222400889b00c2140309300c214030930222400889b0222400889b00c2140309300c214030930,
   0x2420009080024200090800242000908002420009080024200090800242000908002420009080024200090800,
   0x2624889080026248890800262488908002624889080026248890800262488908002624889080026248890800,
   0x28248ca09232420009080028248ca09232420009080028248ca09232420009080028248ca092324200090800,
   0x2a2490a89242a2490a892424200090800242000908002a2490a89242a2490a89242420009080024200090800,
   0x2c2508a89242c2508a892426248890800262488908002c2508a89242c2508a89242624889080026248890800,
   0x2e24ccb89332a2490a892428248ca0923242000908002e24ccb89332a2490a892428248ca092324200090800,
   0x302190c0864302190c086432214cc885332214cc8853302190c0864302190c08642e24ccb89332e24ccb8933,
   0x32214cc88533a24d0e893438250ce0943342494d09252e24ccb89332a2490a892428248ca092324200090800,
   0x342494d0925342494d0925342494d0925342494d092524200090800242000908002420009080024200090800,
   0x362548d0925362548d0925362548d0925362548d092526248890800262488908002624889080026248890800,
   0x38250ce0943342494d092538250ce0943342494d092528248ca09232420009080028248ca092324200090800,
   0x3a24d0e89343a24d0e8934342494d0925342494d09252a2490a89242a2490a89242420009080024200090800,
   0x3c25c8e89343c25c8e8934362548d0925362548d09252c2508a89242c2508a89242624889080026248890800]

/-- The states that `make_parametric_description(2, false)` finds, in the order of their ids, one numeral
per state (see `unpack_state`). -/
def states_2_false : List parametric_state :=
  List.map (unpack_state 8)
    [0x0, 0x1, 0x1303, 0x231303, 0x351303, 0x251505, 0x3, 0x2305, 0x35251505, 0x2503, 0x331505,
     0x2303, 0x332305, 0x4535251505, 0x352503, 0x452305, 0x45251505, 0x3503, 0x5, 0x1505, 0x2505,
     0x3505, 0x351505, 0x352505, 0x3305, 0x45352505, 0x4505, 0x451505, 0x452505, 0x453505,
     0x45351505]

/-- The number of states that `make_parametric_description(2, false)` knows before it builds the row of
each state, and after the last row. -/
def known_2_false : List Nat :=
  [2, 2, 5, 10, 16, 18, 21, 21, 21, 24, 24, 26, 26, 26, 31, 31, 31, 31, 31, 31, 31, 31, 31, 31, 31,
   31, 31, 31, 31, 31, 31, 31]

/-- The table that `make_parametric_description(2, false)` builds. -/
def description_2_false : parametric_description :=
  { transitions := List.flatMap rows_2_false (unpack_transitions 32)
    distances := List.flatMap
      [0x33333, 0x33210, 0x33211, 0x32111, 0x32211, 0x33222, 0x33321, 0x32122, 0x32222, 0x33221,
       0x21222, 0x32121, 0x21122, 0x22222, 0x32221, 0x22122, 0x23222, 0x32321, 0x33332, 0x33322,
       0x33232, 0x32332, 0x32322, 0x32232, 0x21232, 0x22232, 0x23332, 0x23322, 0x23232, 0x22332,
       0x22322]
      (unpack_distances 5)
    chi_size := 5
    chi_max := 32
    num_states := 31
    max_distance := 2 }

/-- The rows of the transition table that `make_parametric_description(2, true)` builds, one numeral per
state (see `unpack_transitions`). -/
def rows_2_true : List Nat :=
  [0x0, 0x800c0088500800c0088200800c0088500800c0088200800c0088500800c0088200800c0088500800c008820,
   0x120300588a012020038860120300588a012020038860120300588a012020038860120300588a012020038860,
   0x220400789502804c028920220400788e0120200108d0220400789502804c028920220400788e0120200108d0,
   0x82104188312c058028851082104188312c058010821082104188312c058028851082104188312c058010821,
   0x2806c0d09902804c0c0970120300588a0120200388602806c0d09902804c0c0970120300588a012020038860,
   0xc2748f09c33a2708e08000c2748f09c33a2708e08000c2748f09c33a2708e08000c2748f09c33a2708e0800,
   0x4007c0389d04007c0389d04007c0389d04007c0389d04007c0389d04007c0389d04007c0389d04007c0389d0,
   0x44280910a021427c8509f24221cd088730c2748309d244280910a021427c8509f24221cd088730c2748309d2,
   0x122244608c11642c8508a1122244408810e41c830861122244608c11642c8508a1122244408810e41c830861,
   0x1a2189209d31a2189189c40c2748f09c30c2748e08001a2189209d31a2189189c40c2748f09c30c2748e0800,
   0x4e098058a504007c0389d04e098058a504007c0389d04e098058a504007c0389d04e098058a504007c0389d0,
   0x44280910a021427c8509f24221cd088730c2748309d244280910a021427c8509f24221cd088730c2748309d2,
   0x1a2189209d34a2789189c40c2748f09c33a2708e08001a2189209d34a2789189c40c2748f09c33a2708e0800,
   0x58288958a0358288958a03242289509f3242289509f352284940874522849408741a2189209d31a2189209d3,
   0x220401789502804c170920220401688e0120200588d0220401789502804c170920220401688e0120200588d0,
   0x602249808922a2308a88c26222cd888b3242288908a2602249808921c2208708824221cd088731a218868862,
   0x222444809015e4bc8a8951282504989315c4b8890921222444809015a4b48708e1122244408811642c8688d1,
   0x6a2349a08636e2909b09d46a2349a08636628c9909c51a2189209d34a2789189c41a2189209d33a2708e0800,
   0x7029c9c0a72322988c8a626222cd888b32e2948b8a5244280910a021427c8509f24221cd088730c2748309d2,
   0x282504d89b1344688c899128250498931304608b8971122244608c11642c8508a1122244408810e41c830861,
   0x58288958a0358288958a03242289509f3242289509f352284940874522849408741a2189209d31a2189209d3,
   0x84108210420640c81903202604c098130a414829052084108210420640c81903202604c0981304408811022,
   0x2e2949c89e36628c9909c52e2949c89e36628c9909c50c2748f09c33a2708e08000c2748f09c33a2708e0800,
   0x760e80c0b30760e80c0b304007c0389d04007c0389d0760e80c0b30760e80c0b304007c0389d04007c0389d0,
   0x6a2349a08636a2349b09d42e2949c89e32e2949909c51a2189209d31a2189189c40c2748f09c30c2748e0800,
   0x7a0f00d0b70760e80c0b304e098058a504007c0389d07a0f00d0b70760e80c0b304e098058a504007c0389d0,
   0x7029c9c0a72322988c8a626222cd888b32e2948b8a5244280910a021427c8509f24221cd088730c2748309d2,
   0x382000e0800382000e0800382000e0800382000e0800382000e0800382000e0800382000e0800382000e0800,
   0x3a2708e08003a2708e08003a2708e08003a2708e08003a2708e08003a2708e08003a2708e08003a2708e0800,
   0x3c270cf09c3382000e08003c270cf09c3382000e08003c270cf09c3382000e08003c270cf09c3382000e0800,
   0xc2748309c33a2708e88000c2748309c33a2708e88000c2748309c33a2708e88000c2748309c33a2708e8800,
   0x402804f89f10e41c8e89d1402804f89f10e41c8e89d1402804f89f10e41c8e89d1402804f89f10e41c8e89d1,
   0x44280910a021427c8509f24221cd088730c2748309d244280910a021427c8509f24221cd088730c2748309d2,
   0x44280910a021427c8509f24221cd088730c2748309d244280910a021427c8509f24221cd088730c2748309d2,
   0x462711189c4462711189c4382000e0800382000e0800462711189c4462711189c4382000e0800382000e0800,
   0x48274d209d3462711189c43c270cf09c3382000e080048274d209d3462711189c43c270cf09c3382000e0800,
   0x4a2789189c44a2789189c43a2708e08003a2708e08004a2789189c44a2789189c43a2708e08003a2708e0800,
   0x1a2188689d34a2789289c40c2748309c33a2708e88001a2188689d34a2789289c40c2748309c33a2708e8800,
   0x4e29c530a611642c928a51402804f89f10e41c8e89d14e29c530a611642c928a51402804f89f10e41c8e89d1,
   0x56280d58a0356280d58a035427cd509f35427cd509f35021d1408745021d14087448274d209d348274d209d3,
   0x58288958a0358288958a03242289509f3242289509f352284940874522849408741a2189209d31a2189209d3,
   0x68218da08636c2751b09d468218da0863642715909c548274d209d3462711189c448274d209d3382000e0800,
   0x56280d58a0356280d58a035427cd509f35427cd509f35021d1408745021d14087448274d209d348274d209d3,
   0x58288958a0358288958a03242289509f3242289509f352284940874522849408741a2189209d31a2189209d3,
   0x86108178ac0821001709207e0f8168a904e0980588d086108178ac0821001709207e0f8168a904e0980588d0,
   0x7a0f00d0b707a0f00c0b304e098058a504e0980389d07a0f00d0b707a0f00c0b304e098058a504e0980389d0,
   0x86108178ac0821001709207e0f8168a904e0980588d086108178ac0821001709207e0f8168a904e0980588d0,
   0x602249808922a2308a88c26222cd888b3242288908a2602249808921c2208708824221cd088731a218868862,
   0x7029c9c0a72322988c8a626222cd888b32e2948b8a5244280910a021427c8509f24221cd088730c2748309d2,
   0x642715909c5642715909c5642715909c5642715909c5382000e0800382000e0800382000e0800382000e0800,
   0x6628c9909c56628c9909c56628c9909c56628c9909c53a2708e08003a2708e08003a2708e08003a2708e0800,
   0x68218da08636c2751b09d472278dc89e3642715909c548274d209d3462711189c43c270cf09c3382000e0800,
   0x6a2349a08636e2909b09d42e2949c89e36628c9909c51a2189209d34a2789189c40c2748f09c33a2708e0800,
   0x6c2751b09d46c2751b09d4642715909c5642715909c5462711189c4462711189c4382000e0800382000e0800,
   0x6e2909b09d46e2909b09d46628c9909c56628c9909c54a2789189c44a2789189c43a2708e08003a2708e0800,
   0x7029c9c0a72322988c8a626222cd888b32e2948b8a5244280910a021427c8509f24221cd088730c2748309d2,
   0x72278dc89e3642715909c572278dc89e3642715909c53c270cf09c3382000e08003c270cf09c3382000e0800,
   0x2e2948b89e36628c9989c52e2948b89e36628c9989c50c2748309c33a2708e88000c2748309c33a2708e8800,
   0x762ec5d0ba130460998b31762ec5d0ba130460998b31402804f89f10e41c8e89d1402804f89f10e41c8e89d1,
   0x6a2349a88636e2909b89d42e2948b89e36628c9989c51a2188689d34a2789289c40c2748309c33a2708e8800,
   0x7a2f45e0bc1344689b8b71762ec5d0ba130460998b314e29c530a611642c928a51402804f89f10e41c8e89d1,
   0x58288960a0358288960a03242288909f3242288909f352284948874522849488741a2188689d31a2188689d3,
   0x8630c610c215e4bc960ac182304600c015c4b88909217e2fc5f0be15a4b4948a914e29c530a611642c8688d1,
   0x6a2349a88636e2909b89d46a2349a88636628c9989c51a2188689d34a2789289c41a2188689d33a2708e8800,
   0x7a2f45e0bc1344689b8b717a2f45e0bc130460998b314e29c530a611642c928a514e29c530a610e41c8e89d1,
   0x58288960a0358288960a03242288909f3242288909f352284948874522849488741a2188689d31a2188689d3,
   0x8630c610c215e4bc960ac182304600c015c4b88909217e2fc5f0be15a4b4948a914e29c530a611642c8688d1]

/-- The states that `make_parametric_description(2, true)` finds, in the order of their ids, one numeral
per state (see `unpack_state`). -/
def states_2_true : List parametric_state :=
  List.map (unpack_state 8)
    [0x0, 0x1, 0x1303, 0x231304, 0x1104, 0x351303, 0x251505, 0x3, 0x2306, 0x231306, 0x35251605,
     0x2503, 0x231606, 0x35251505, 0x331605, 0x231303, 0x33231606, 0x33231306, 0x4535261505,
     0x452306, 0x45231306, 0x33261605, 0x2106, 0x45251505, 0x3503, 0x4535251605, 0x352503,
     0x45231606, 0x5, 0x1505, 0x2505, 0x251506, 0x1306, 0x2305, 0x231605, 0x3505, 0x352505,
     0x351505, 0x35251506, 0x351306, 0x3305, 0x331505, 0x45352605, 0x332605, 0x33261505, 0x2303,
     0x35251603, 0x231603, 0x33231605, 0x452305, 0x4505, 0x451505, 0x45352505, 0x4535251505,
     0x453505, 0x45351505, 0x45231605, 0x452505, 0x45251506, 0x451306, 0x4535251506, 0x45351306,
     0x331506, 0x331306, 0x4535261506, 0x4535261306, 0x33261506, 0x33261306]

/-- The number of states that `make_parametric_description(2, true)` knows before it builds the row of
each state, and after the last row. -/
def known_2_true : List Nat :=
  [2, 2, 6, 13, 22, 23, 28, 31, 33, 35, 35, 37, 40, 40, 40, 45, 48, 50, 50, 56, 57, 57, 57, 57, 58,
   60, 60, 62, 62, 62, 62, 62, 62, 62, 62, 62, 62, 62, 62, 62, 62, 62, 62, 62, 62, 62, 68, 68, 68,
   68, 68, 68, 68, 68, 68, 68, 68, 68, 68, 68, 68, 68, 68, 68, 68, 68, 68, 68, 68]

/-- The table that `make_parametric_description(2, true)` builds. -/
def description_2_true : parametric_description :=
  { transitions := List.flatMap rows_2_true (unpack_transitions 32)
    distances := List.flatMap
      [0x33333, 0x33210, 0x33211, 0x32111, 0x32101, 0x32211, 0x33222, 0x33321, 0x32122, 0x32112,
       0x32222, 0x33221, 0x32122, 0x32222, 0x21222, 0x32111, 0x21122, 0x21112, 0x22222, 0x22122,
       0x22112, 0x21222, 0x21012, 0x23222, 0x32321, 0x22222, 0x32221, 0x22122, 0x33332, 0x33322,
       0x33232, 0x33222, 0x33212, 0x32122, 0x32122, 0x32332, 0x32232, 0x32322, 0x32222, 0x32212,
       0x21232, 0x21222, 0x22232, 0x21232, 0x21222, 0x32121, 0x32221, 0x32121, 0x21122, 0x22122,
       0x23332, 0x23322, 0x22232, 0x22222, 0x22332, 0x22322, 0x22122, 0x23232, 0x23222, 0x23212,
       0x22222, 0x22212, 0x21222, 0x21212, 0x22222, 0x22212, 0x21222, 0x21212]
      (unpack_distances 5)
    chi_size := 5
    chi_max := 32
    num_states := 68
    max_distance := 2 }

end irs

namespace irs

/-! ## Accessors of `parametric_description` (levenshtein_utils.hpp) -/

/-- Modelled from the spec: the accessor `parametric_description::transition(from, chi)`,
the entry `transitions[s, chi]` of the table kept row by row, `chi_max` entries per state
(the header declaring it is not among the sources).  An index outside the table, which the
code asserts not to happen, reads as the dead transition. -/
def parametric_description.transition (d : parametric_description) (src chi : Nat) :
    Nat × Nat :=
  d.transitions.getD (src * d.chi_max + chi) (0, 0)

/-- Modelled from the spec: the accessor `parametric_description::distance(state, offset)`,
the entry `distance[s, offset]` of the table kept row by row, `chi_size` entries per state
(the header declaring it is not among the sources).  The table only holds the offsets of the
characteristic window; an offset outside of it yields `max_distance + 1`, the value at which
every distance is clamped. -/
def parametric_description.distance (d : parametric_description) (state offset : Nat) : Nat :=
  if offset ≥ d.chi_size then d.max_distance + 1
  else d.distances.getD (state * d.chi_size + offset) 0

/-- Subtraction of two `size_t` values, wrapping around below zero. -/
def sub_size_t (a b : Nat) : Nat :=
  if b ≤ a then a - b else 2 ^ 64 - (b - a)

/-! ## Serialisation (levenshtein_utils.cpp 513-553) -/

/-- Modelled from the spec: `data_output::write_vint` / `write_vlong`, the varint encoding, seven
bits per byte, lowest first, the high bit set on every byte but the last (store_utils is not
among the sources). -/
def write_varint (n : Nat) : List Nat :=
  if h : n < 128 then [n] else (n % 128 + 128) :: write_varint (n / 128)
termination_by n
decreasing_by omega

/-- Modelled from the spec: `data_input::read_vint` / `read_vlong`, the inverse of the varint
encoding: the value read and the rest of the stream, or `none` at the end of the stream. -/
def read_varint : List Nat → Option (Nat × List Nat)
  | [] => none
  | b :: rest =>
    if b < 128 then some (b, rest)
    else
      match read_varint rest with
      | none => none
      | some (v, rest') => some (b % 128 + 128 * v, rest')

/-- Modelled from the spec: the zigzag encoding of a signed 32-bit value given by its two's
complement `v < 2^32`: non-negative `x` becomes `2x`, negative `x` becomes `-2x - 1`. -/
def zig_zag_encode32 (v : Nat) : Nat :=
  if v < 2 ^ 31 then 2 * v else 2 * (2 ^ 32 - v) - 1

/-- Modelled from the spec: the inverse of the zigzag encoding, as a two's complement. -/
def zig_zag_decode32 (v : Nat) : Nat :=
  if v % 2 = 0 then v / 2 else 2 ^ 32 - (v + 1) / 2

/-- The helper `write_zvint(out, v)`, a zigzag varint; `v` is a 32-bit two's complement. -/
def write_zvint (v : Nat) : List Nat :=
  write_varint (zig_zag_encode32 v)

/-- The helper `read_zvint(in)`. -/
def read_zvint (input : List Nat) : Option (Nat × List Nat) :=
  match read_varint input with
  | none => none
  | some (v, rest) => some (zig_zag_decode32 v, rest)

/-- Subtraction of `uint32_t` values. -/
def sub_u32 (a b : Nat) : Nat := (a + 2 ^ 32 - b % 2 ^ 32) % 2 ^ 32

/-- Addition of `uint32_t` values. -/
def add_u32 (a b : Nat) : Nat := (a + b) % 2 ^ 32

/-- The transition loop of `write` (lines 521-526). -/
def write_transitions : List (Nat × Nat) → Nat → Nat → List Nat
  | [], _, _ => []
  | transition :: rest, last_state, last_offset =>
    write_zvint (sub_u32 transition.1 last_state) ++
      write_zvint (sub_u32 transition.2 last_offset) ++
      write_transitions rest transition.1 transition.2

/-- The function `write(description, out)`: the bytes appended to `out`. -/
def write (description : parametric_description) : List Nat :=
  [description.max_distance] ++
    write_varint description.transitions.length ++
    write_transitions description.transitions 0 0 ++
    write_varint description.distances.length ++
    description.distances

/-- The transition loop of `read` (lines 541-546) for `count` transitions. -/
def read_transitions : Nat → List Nat → Nat → Nat → Option (List (Nat × Nat) × List Nat)
  | 0, input, _, _ => some ([], input)
  | count + 1, input, last_state, last_offset =>
    match read_zvint input with
    | none => none
    | some (d1, input1) =>
      match read_zvint input1 with
      | none => none
      | some (d2, input2) =>
        let first := add_u32 last_state d1
        let second := add_u32 last_offset d2
        match read_transitions count input2 first second with
        | none => none
        | some (rest, input3) => some ((first, second) :: rest, input3)

/-- The call `data_input::read_bytes(buf, count)`. -/
def read_bytes (count : Nat) (input : List Nat) : Option (List Nat × List Nat) :=
  if count ≤ input.length then some (input.take count, input.drop count) else none

/-- The function `read(in)`: the description and the rest of the stream, `none` when the
stream ends early. -/
def read (input : List Nat) : Option (parametric_description × List Nat) :=
  match input with
  | [] => none
  | max_distance :: input1 =>
    match read_varint input1 with
    | none => none
    | some (tcount, input2) =>
      match read_transitions tcount input2 0 0 with
      | none => none
      | some (transitions, input3) =>
        match read_varint input3 with
        | none => none
        | some (dcount, input4) =>
          match read_bytes dcount input4 with
          | none => none
          | some (distances, input5) =>
            some (parametric_description.mk' transitions distances max_distance, input5)

/-! ## On-line distance computation (levenshtein_utils.cpp 411-418, 687-717) -/

/-- The function `chi(begin, end, c)`: bit `i` is set when the `i`-th code point of the
window equals `c`; `i` is the index of the first element and `acc` the bits set so far. -/
def chi : List Nat → Nat → Nat → Nat → Nat
  | [], _, _, acc => acc
  | x :: window, c, i, acc => chi window c (i + 1) (acc ||| ((if c = x then 1 else 0) <<< i))

/-- The loop of `edit_distance` (lines 698-716) over the code points of `rhs`. -/
def edit_distance_loop (description : parametric_description) (lhs_chars : List Nat) :
    List Nat → Nat → Nat → Nat
  | [], state, offset =>
    description.distance state (sub_size_t lhs_chars.length offset)
  | c :: rhs, state, offset =>
    let window :=
      (lhs_chars.take (min (offset + description.chi_size) lhs_chars.length)).drop offset
    let transition := description.transition state (chi window c 0 0)
    if transition.1 = INVALID_STATE then description.max_distance + 1
    else edit_distance_loop description lhs_chars rhs transition.1 (offset + transition.2)

/-- The function `edit_distance(description, lhs, lhs_size, rhs, rhs_size)` (the unchecked
overload) on the code points of two valid UTF-8 words. -/
def edit_distance (description : parametric_description) (lhs rhs : List Nat) : Nat :=
  edit_distance_loop description lhs rhs 1 0

/-! ## The automaton (automaton.hpp, automaton_utils.hpp) -/

/-! State ids (`automaton::StateId`) are natural numbers; the invalid state id
`fst::kNoStateId` is modelled by `none`. -/

/-- Labels of arcs.  Modelled from the spec: the builder emits arcs
`from -codepoint-> to`, a single default (rho) arc, and byte range arcs
(`RangeLabel::From(min, max)`); the expansion of a code point arc into arcs over the bytes
of its UTF-8 encoding is done by `Utf8TransitionsBuilder` and `Utf8EmplaceArc`, which are
not among the sources, and is not modelled. -/
inductive label where
  | range (min max : Nat)
  | cp (c : Nat)
  | rho
deriving DecidableEq, Repr

/-- An arc of the automaton. -/
structure arc where
  ilabel : label
  nextstate : Nat
deriving DecidableEq, Repr

/-- A state of the automaton: the weight when it is final, and its outgoing arcs in the
order of their insertion. -/
structure fst_state where
  final : Option Nat
  arcs : List arc
deriving DecidableEq, Repr

/-- The `automaton`: its states by id and the start state. -/
structure automaton where
  states : List fst_state
  start : Option Nat
deriving DecidableEq, Repr

/-- The empty automaton. -/
def automaton.empty : automaton := { states := [], start := none }

/-- The call `a.AddState()`: the new automaton and the id of the new state. -/
def automaton.AddState (a : automaton) : automaton × Nat :=
  ({ a with states := a.states ++ [{ final := none, arcs := [] }] }, a.states.length)

/-- The call `a.SetStart(s)`. -/
def automaton.SetStart (a : automaton) (s : Nat) : automaton :=
  { a with start := some s }

/-- The call `a.SetFinal(s, {true, weight})`. -/
def automaton.SetFinal (a : automaton) (s : Nat) (weight : Nat) : automaton :=
  { a with states := a.states.modify (fun st => { st with final := some weight }) s }

/-- The call `a.EmplaceArc(s, label, to)`. -/
def automaton.EmplaceArc (a : automaton) (s : Nat) (l : label) (to_ : Nat) :
    automaton :=
  { a with states := a.states.modify (fun st => { st with arcs := st.arcs ++ [⟨l, to_⟩] }) s }

/-- The test `a.Final(s)` as a boolean: the state is final. -/
def automaton.Final (a : automaton) (s : Nat) : Bool :=
  match a.states.get? s with
  | some st => st.final.isSome
  | none => false

/-- Modelled from the spec: `Utf8TransitionsBuilder::Insert(a, from, default_state, begin,
end)`, which emits one arc per listed code point and a single default (rho) arc to
`default_state` when there is one.  The expansion of an arc into the arcs of the bytes of
its code point, with the states between them, is not part of the model. -/
def Utf8TransitionsBuilder.Insert (a : automaton) (src : Nat)
    (default_state : Option Nat) (arcs : List (Nat × Nat)) : automaton :=
  let a1 := arcs.foldl (fun acc e => acc.EmplaceArc src (label.cp e.1) e.2) a
  match default_state with
  | none => a1
  | some s => a1.EmplaceArc src label.rho s

/-- The first byte of the UTF-8 encoding of a code point. -/
def first_byte (c : Nat) : Nat :=
  if c < 0x80 then c
  else if c < 0x800 then 0xC0 + c / 0x40
  else if c < 0x10000 then 0xE0 + c / 0x1000
  else 0xF0 + c / 0x40000

/-- The size of the UTF-8 encoding of a code point, `utf8_utils::FromChar32`. -/
def utf8_size (c : Nat) : Nat :=
  if c < 0x80 then 1 else if c < 0x800 then 2 else if c < 0x10000 then 3 else 4

/-- An arc with a code point label is taken on that code point; a byte range arc is taken
when the first byte of the code point lies in the range (the builder only emits such arcs
for single bytes below 128 and for the whole range of bytes into the sink). -/
def label.matches (l : label) (c : Nat) : Bool :=
  match l with
  | label.range lo hi => decide (lo ≤ first_byte c) && decide (first_byte c ≤ hi)
  | label.cp c' => decide (c = c')
  | label.rho => false

/-- The state reached from a state with the arcs `arcs` on the code point `c`: by the first
arc the code point matches, else by the default arc, else there is none. -/
def next_state (arcs : List arc) (c : Nat) : Option Nat :=
  match arcs.find? (fun a => a.ilabel.matches c) with
  | some a => some a.nextstate
  | none =>
    match arcs.find? (fun a => a.ilabel = label.rho) with
    | some a => some a.nextstate
    | none => none

/-- The run of the automaton from the state `s` over a word. -/
def automaton.run (a : automaton) : Nat → List Nat → Option Nat
  | s, [] => some s
  | s, c :: word =>
    match a.states.get? s with
    | none => none
    | some st =>
      match next_state st.arcs c with
      | none => none
      | some s' => automaton.run a s' word

/-- Modelled from the spec: acceptance of a word (`accept` of automaton_utils.hpp): the
weight of the final state the run from the start state ends in, `none` when the word is
not accepted. -/
def automaton.accept (a : automaton) (word : List Nat) : Option Nat :=
  match a.start with
  | none => none
  | some s =>
    match a.run s word with
    | none => none
    | some s' =>
      match a.states.get? s' with
      | none => none
      | some st => st.final

/-! ## The automaton builder (levenshtein_utils.cpp 353-434, 555-685) -/

/-- The struct `character`: the characteristic bitset as its 64-bit words, the size of the
UTF-8 encoding and the code point. -/
structure character where
  chi : List Nat
  size : Nat
  cp : Nat
deriving DecidableEq, Repr

/-- Ordered insertion of a code point, unless it is present. -/
def insert_unique (c : Nat) : List Nat → List Nat
  | [] => [c]
  | x :: xs => if c < x then c :: x :: xs else if c = x then x :: xs else x :: insert_unique c xs

/-- The calls `std::sort` and `std::unique` of `make_alphabet`: the distinct code points in
ascending order. -/
def sort_unique (chars : List Nat) : List Nat :=
  chars.foldr insert_unique []

/-- The characteristic bitset of the code point `c` over the word `chars` (lines 396-402):
`words` 64-bit words, bit `i` of the set being `c == chars[i]`. -/
def make_bitset (chars : List Nat) (c : Nat) (words : Nat) : List Nat :=
  (List.range words).map (fun k => chi ((chars.drop (64 * k)).take 64) c 0 0)

/-- The function `make_alphabet(word, utf8_size)`: the entry for rho followed by the entries
of the distinct code points of the word.  The bitsets have room for `utf8_size + 64` bits. -/
def make_alphabet (chars : List Nat) : List character :=
  let words := (chars.length + 64 + 63) / 64
  { chi := List.replicate words 0, size := 0, cp := 2 ^ 32 - 1 } ::
    (sort_unique chars).map (fun c =>
      { chi := make_bitset chars c words, size := utf8_size c, cp := c })

/-- The function `chi(bs, offset, mask)` (lines 423-434) on the words of a bitset. -/
def chi_bitset (bs : List Nat) (offset : Nat) (mask : Nat) : Nat :=
  let word := offset / 64
  let align := offset - 64 * word
  if align = 0 then bs.getD word 0 &&& mask
  else
    let lhs := bs.getD word 0 >>> align
    let rhs := (bs.getD (word + 1) 0 <<< (64 - align)) % 2 ^ 64
    (lhs ||| rhs) &&& mask

/-- The local struct `state` of `make_levenshtein_automaton`. -/
structure builder_state where
  offset : Nat
  state_id : Nat
  src : Nat
deriving DecidableEq, Repr

/-- The variables changed by the loop over the alphabet (lines 625-655). -/
structure entry_state where
  a : automaton
  transitions : List (Option Nat)
  stack : List builder_state
  default_state : Option Nat
  arcs : List (Nat × Nat)
  ascii : Bool
deriving DecidableEq, Repr

/-- The first half of an iteration of the loop over the alphabet (lines 626-646) for the
popped `state`: the characteristic vector `chi` of the entry is looked up in the
description and the automaton state `to` of the transition is found in the table
`transitions` or created; the new automaton, table and stack, and `to`. -/
def entry_target (description : parametric_description) (utf8_size : Nat)
    (state : builder_state) (a : automaton) (transitions : List (Option Nat))
    (stack : List builder_state) (chi : Nat) :
    automaton × List (Option Nat) × List builder_state × Nat :=
  let num_offsets := 1 + utf8_size
  let transition := description.transition state.state_id chi
  let offset := if transition.1 ≠ 0 then transition.2 + state.offset else 0
  let idx := transition.1 * num_offsets + offset
  if transition.1 = INVALID_STATE then
    (a, transitions.set idx (some INVALID_STATE), stack, INVALID_STATE)
  else
    match transitions.getD idx none with
    | some to_ => (a, transitions, stack, to_)
    | none =>
      let added := a.AddState
      let distance := description.distance transition.1 (sub_size_t utf8_size offset)
      let a' :=
        if distance ≤ description.max_distance then added.1.SetFinal added.2 distance
        else added.1
      (a', transitions.set idx (some added.2), ⟨offset, transition.1, added.2⟩ :: stack,
        added.2)

/-- One iteration of the loop over the alphabet (lines 626-654) for the popped `state`. -/
def process_entry (description : parametric_description) (utf8_size : Nat) (mask : Nat)
    (state : builder_state) (s : entry_state) (entry : character) : entry_state :=
  let chi := chi_bitset entry.chi state.offset mask
  let r := entry_target description utf8_size state s.a s.transitions s.stack chi
  if chi ≠ 0 ∧ some r.2.2.2 ≠ s.default_state then
    { a := r.1, transitions := r.2.1, stack := r.2.2.1, default_state := s.default_state,
      arcs := s.arcs ++ [(entry.cp, r.2.2.2)], ascii := s.ascii && decide (entry.size = 1) }
  else
    { a := r.1, transitions := r.2.1, stack := r.2.2.1, default_state := some r.2.2.2,
      arcs := s.arcs, ascii := s.ascii }

/-- The emission of the arcs of the popped state (lines 657-670). -/
def emit_arcs (src : Nat) (s : entry_state) : automaton :=
  if s.default_state = some INVALID_STATE ∧ s.arcs = [] then
    s.a.EmplaceArc src (label.range 0 255) INVALID_STATE
  else if s.default_state = some INVALID_STATE ∧ s.ascii = true ∧ s.a.Final src = false then
    s.arcs.foldl (fun acc e => acc.EmplaceArc src (label.range e.1 e.1) e.2) s.a
  else
    Utf8TransitionsBuilder.Insert s.a src s.default_state s.arcs

/-- The loop over the state stack (lines 616-671); the first argument bounds the number of
iterations and `none` is returned when it is exhausted. -/
def build_automaton (description : parametric_description) (alphabet : List character)
    (utf8_size : Nat) (mask : Nat) :
    Nat → automaton → List (Option Nat) → List builder_state → Option automaton
  | _, a, _, [] => some a
  | 0, _, _, _ :: _ => none
  | fuel + 1, a, transitions, state :: stack =>
    let s := alphabet.foldl (process_entry description utf8_size mask state)
      { a := a, transitions := transitions, stack := stack, default_state := none,
        arcs := [], ascii := true }
    build_automaton description alphabet utf8_size mask fuel (emit_arcs state.src s)
      s.transitions s.stack

/-- The chain of states for the prefix (lines 589-599): one state and one arc per code
point of the prefix.  The arcs that `Utf8EmplaceArc` (not under src) adds for the bytes of
a code point are modelled as one arc labelled with the code point, without the states
between the bytes of a multi-byte character. -/
def add_prefix : List Nat → automaton → Nat → automaton × Nat
  | [], a, start_state => (a, start_state)
  | c :: cs, a, start_state =>
    let added := a.AddState
    add_prefix cs (added.1.EmplaceArc start_state (label.cp c) added.2) added.2

/-- The function `make_levenshtein_automaton(description, prefix, target)` on the code
points of a valid UTF-8 prefix and target.  The first argument bounds the number of
iterations of the loop over the state stack. -/
def make_levenshtein_automaton (fuel : Nat) (description : parametric_description)
    (pfx target : List Nat) : Option automaton :=
  let utf8_size := target.length
  let alphabet := make_alphabet target
  let num_offsets := 1 + utf8_size
  let mask := (1 <<< description.chi_size) - 1
  let transitions : List (Option Nat) :=
    List.replicate (description.num_states * num_offsets) none
  let a0 := automaton.empty.AddState.1
  let added := a0.AddState
  let a1 := added.1.SetStart added.2
  let p := add_prefix pfx a1 added.2
  let distance := description.distance 1 utf8_size
  let a2 := if distance ≤ description.max_distance then p.1.SetFinal p.2 distance else p.1
  build_automaton description alphabet utf8_size mask fuel a2 transitions [⟨0, 1, p.2⟩]

end irs

namespace irs

/-! ## Doc iterators and their conjunction (conjunction.hpp) -/

/-- Modelled from the spec: the reserved doc id `doc_limits::invalid()`, the value of an
iterator before its first call (type_limits.hpp is not among the sources). -/
def doc_limits.invalid : Nat := 0

/-- Modelled from the spec: `doc_limits::min()`, the first assignable doc id. -/
def doc_limits.min : Nat := 1

/-- Modelled from the spec: `doc_limits::eof()`, the value of an exhausted iterator, the
largest 32-bit doc id. -/
def doc_limits.eof : Nat := 2 ^ 32 - 1

/-- The default of `cost::extract`, `cost::kMax`. -/
def cost.kMax : Nat := 2 ^ 64 - 1

/-- Modelled from the spec: a child `doc_iterator` over a strictly increasing finite list of
doc ids, with its `document` attribute (`value`) and its optional `cost` attribute.  The
position of the iterator is its value: `invalid` before the first call, `eof` when
exhausted. -/
structure doc_iterator where
  docs : List Nat
  value : Nat
  cost : Option Nat
deriving DecidableEq, Repr

/-- The call `it.next()`: the iterator moves to the next doc id after its value; it returns
false and the value becomes `eof` when there is none. -/
def doc_iterator.next (it : doc_iterator) : doc_iterator × Bool :=
  match it.docs.find? (fun d => decide (it.value < d)) with
  | some d => ({ it with value := d }, true)
  | none => ({ it with value := doc_limits.eof }, false)

/-- The call `it.seek(target)`: the iterator stays where it is when the target is not
after its value, and moves to the smallest doc id not before the target otherwise, or to
`eof`; it returns the new value. -/
def doc_iterator.seek (it : doc_iterator) (target : Nat) : doc_iterator × Nat :=
  if target ≤ it.value then (it, it.value)
  else
    match it.docs.find? (fun d => decide (target ≤ d)) with
    | some d => ({ it with value := d }, d)
    | none => ({ it with value := doc_limits.eof }, doc_limits.eof)

/-- The call `cost::extract(it, cost::kMax)`. -/
def cost.extract (it : doc_iterator) : Nat :=
  it.cost.getD cost.kMax

/-- The class `conjunction`: the member `itrs_`; `front_` is its first element. -/
structure conjunction where
  itrs_ : List doc_iterator
deriving DecidableEq, Repr

/-- The constructor of `conjunction` (lines 92-118): the sub-iterators are sorted in
ascending order of their cost.  `std::sort` is modelled by insertion sort; nothing proved
below depends on the order it gives to iterators of equal cost. -/
def conjunction.make (itrs : List doc_iterator) : conjunction :=
  { itrs_ := itrs.insertionSort (fun lhs rhs => cost.extract lhs ≤ cost.extract rhs) }

/-- The method `conjunction::value()`, the value of `front_`. -/
def conjunction.value (c : conjunction) : Nat :=
  match c.itrs_ with
  | [] => doc_limits.invalid
  | front :: _ => front.value

/-- The `cost` attribute of the conjunction, the one of `front_` (line 113), as read by
`cost::extract`. -/
def conjunction.cost (c : conjunction) : Nat :=
  match c.itrs_ with
  | [] => cost.kMax
  | front :: _ => cost.extract front

/-- The method `conjunction::seek_rest(target)` on the iterators after the first. -/
def seek_rest : List doc_iterator → Nat → List doc_iterator × Nat
  | [], target => ([], target)
  | it :: its, target =>
    let r := it.seek target
    if target < r.2 then (r.1 :: its, r.2)
    else
      let rr := seek_rest its target
      (r.1 :: rr.1, rr.2)

/-- The method `conjunction::converge(target)`; the first argument bounds the number of
iterations of its loop and `none` is returned when it is exhausted. -/
def converge : Nat → doc_iterator → List doc_iterator → Nat →
    Option (conjunction × Nat)
  | 0, _, _, _ => none
  | fuel + 1, front, tail, target =>
    let r := seek_rest tail target
    if target = r.2 then some ({ itrs_ := front :: r.1 }, target)
    else
      let f := front.seek r.2
      if f.2 = doc_limits.eof then some ({ itrs_ := f.1 :: r.1 }, f.2)
      else converge fuel f.1 r.1 f.2

/-- The method `conjunction::next()`. -/
def conjunction.next (fuel : Nat) (c : conjunction) : Option (conjunction × Bool) :=
  match c.itrs_ with
  | [] => none
  | front :: tail =>
    let r := front.next
    if r.2 = false then some ({ itrs_ := r.1 :: tail }, false)
    else
      match converge fuel r.1 tail r.1.value with
      | none => none
      | some (c', target) => some (c', decide (target ≠ doc_limits.eof))

/-- The method `conjunction::seek(target)`. -/
def conjunction.seek (fuel : Nat) (c : conjunction) (target : Nat) :
    Option (conjunction × Nat) :=
  match c.itrs_ with
  | [] => none
  | front :: tail =>
    let r := front.seek target
    if r.2 = doc_limits.eof then some ({ itrs_ := r.1 :: tail }, doc_limits.eof)
    else converge fuel r.1 tail r.2

/-- The caller's loop `while (it.next()) visit(it.value())`: for every document produced,
the value of the conjunction and the values of all its sub-iterators at that moment.  The
first argument bounds the number of calls of `next` and the iterations inside each. -/
def conjunction.collect : Nat → conjunction → Option (List (Nat × List Nat))
  | 0, _ => none
  | fuel + 1, c =>
    match c.next (fuel + 1) with
    | none => none
    | some (_, false) => some []
    | some (c', true) =>
      match conjunction.collect fuel c' with
      | none => none
      | some rest => some ((c'.value, c'.itrs_.map (fun it => it.value)) :: rest)

/-! ### Well-behaved children and the states of a conjunction between two calls -/

/-- A well-behaved child: its doc ids are strictly increasing and assignable (at least
`min`, below `eof`), and its value is `invalid`, one of its doc ids, or `eof`. -/
def doc_iterator.well_behaved (it : doc_iterator) : Prop :=
  it.docs.Pairwise (fun a b => a < b) ∧
  (∀ d ∈ it.docs, doc_limits.min ≤ d ∧ d < doc_limits.eof) ∧
  (it.value = doc_limits.invalid ∨ it.value ∈ it.docs ∨ it.value = doc_limits.eof)

instance (it : doc_iterator) : Decidable it.well_behaved := by
  unfold doc_iterator.well_behaved; infer_instance

/-- The doc id `d` belongs to every iterator of the list. -/
def common (itrs : List doc_iterator) (d : Nat) : Prop :=
  ∀ it ∈ itrs, d ∈ it.docs

instance (itrs : List doc_iterator) (d : Nat) : Decidable (common itrs d) := by
  unfold common; infer_instance

/-- The states of a conjunction between two calls of `next` or `seek`: the children are
well behaved, none of the others is ahead of the lead, and unless the lead is exhausted
all of them are positioned on the value of the lead. -/
def conjunction.consistent (c : conjunction) : Prop :=
  c.itrs_ ≠ [] ∧
  (∀ it ∈ c.itrs_, it.well_behaved) ∧
  (∀ it ∈ c.itrs_, it.value ≤ c.value) ∧
  (c.value = doc_limits.eof ∨ ∀ it ∈ c.itrs_, it.value = c.value)

instance (c : conjunction) : Decidable c.consistent := by
  unfold conjunction.consistent; infer_instance

/-- The number of doc ids of the lead after its value, a bound on the work left. -/
def conjunction.remaining (c : conjunction) : Nat :=
  match c.itrs_ with
  | [] => 0
  | front :: _ => (front.docs.filter (fun d => decide (front.value < d))).length

/-- The doc ids of the lead that belong to every child, in the order of the lead. -/
def common_docs (itrs : List doc_iterator) : List Nat :=
  match itrs with
  | [] => []
  | front :: _ => front.docs.filter (fun d => decide (common itrs d))

/-- The columns `A = {2, 4, 6, 8, 10}` of scenario S4 as a fresh child iterator. -/
def scenario_A : doc_iterator := { docs := [2, 4, 6, 8, 10], value := 0, cost := some 5 }

/-- The columns `B = {3, 4, 5, 6, 7}` of scenario S4 as a fresh child iterator. -/
def scenario_B : doc_iterator := { docs := [3, 4, 5, 6, 7], value := 0, cost := some 5 }

/-- The order by cost used by the constructor. -/
abbrev cost_le (lhs rhs : doc_iterator) : Prop := cost.extract lhs ≤ cost.extract rhs

instance cost_le_total : IsTotal doc_iterator cost_le :=
  ⟨fun a b => Nat.le_total (cost.extract a) (cost.extract b)⟩

instance cost_le_trans : IsTrans doc_iterator cost_le :=
  ⟨fun _ _ _ h1 h2 => Nat.le_trans h1 h2⟩

end irs

namespace irs

/-! ## The columnar store

The writer and the reader of the columnar store are not among the sources (only their tests
are); the definitions of this section are modelled from the specification, sections 3.2,
4.1 and 4.2.  The data file, compression, encryption and checksums are left out: a block
holds what the reader materialises from the data file. -/

/-- Modelled from the spec: the fixed block size of 1024 keys, which the writer and the
reader of the columnar store, missing from the sources, share. -/
def BLOCK_SIZE : Nat := 1024

/-- Modelled from the spec: the physical variants of a block (section 3.2.1), which the
missing writer chooses per block. -/
inductive variant where
  | dense_fixed
  | dense_variable
  | sparse_fixed
  | sparse_variable
  | dense_mask
  | sparse_mask
deriving DecidableEq, Repr

/-- The variant omits the key bitmap. -/
def variant.dense : variant → Bool
  | variant.dense_fixed => true
  | variant.dense_variable => true
  | variant.dense_mask => true
  | _ => false

/-- Modelled from the spec: a block of the missing column writer: its first key, the number
of its keys, its variant, and what the variant stores: the key bitmap over the span of the
block (sparse variants), the common size of the values (fixed variants), the offsets of the
values in the payload (variable variants) and the payload bytes. -/
structure column_block where
  first_key : Nat
  count : Nat
  tag : variant
  bitmap : List Bool
  value_size : Nat
  offsets : List Nat
  payload : List Nat
deriving DecidableEq, Repr

/-- Modelled from the spec: a column as the missing reader sees it: the number of its keys
and the index of its blocks. -/
structure column where
  size : Nat
  blocks : List column_block
deriving DecidableEq, Repr

/-- The key bitmap of the keys `keys`, all at least `pos`, in ascending order: bit `i` is
set when `pos + i` is a key. -/
def bitmap_of : Nat → List Nat → List Bool
  | _, [] => []
  | pos, k :: ks => List.replicate (k - pos) false ++ true :: bitmap_of (k + 1) ks

/-- The offsets of the values in the payload, starting at `start`, with the end of the last
one. -/
def offsets_of : Nat → List (List Nat) → List Nat
  | start, [] => [start]
  | start, v :: vs => start :: offsets_of (start + v.length) vs

/-- Modelled from the spec: the variant selection of the missing writer (section 4.1) for a
block of `n` keys spanning `d` doc ids, with `l` payload bytes in total, `f` telling whether
all values have the same length. -/
def select_variant (n d l : Nat) (f : Bool) : variant :=
  if l = 0 ∧ d = n then variant.dense_mask
  else if l = 0 ∧ d > n then variant.sparse_mask
  else if d = n ∧ f = true then variant.dense_fixed
  else if d = n ∧ f = false then variant.dense_variable
  else if d > n ∧ f = true then variant.sparse_fixed
  else variant.sparse_variable

/-- Modelled from the spec: the flush of one block by the missing writer: the variant is
selected, dense blocks omit the key bitmap, fixed blocks omit the offsets, mask blocks store
membership only. -/
def make_block (entries : List (Nat × List Nat)) : column_block :=
  let keys := entries.map (fun e => e.1)
  let values := entries.map (fun e => e.2)
  let first := keys.headD 0
  let last := keys.getLastD 0
  let n := entries.length
  let d := last - first + 1
  let l := values.flatten.length
  let size := (values.headD []).length
  let f := values.all (fun v => decide (v.length = size))
  let tag := select_variant n d l f
  { first_key := first
    count := n
    tag := tag
    bitmap := if tag.dense then [] else bitmap_of first keys
    value_size :=
      if tag = variant.dense_fixed ∨ tag = variant.sparse_fixed then size else 0
    offsets :=
      if tag = variant.dense_variable ∨ tag = variant.sparse_variable then offsets_of 0 values
      else []
    payload := if tag = variant.dense_mask ∨ tag = variant.sparse_mask then [] else values.flatten }

/-- The buffering of the pairs in blocks, `BLOCK_SIZE` keys per block but for the last
one; the first argument bounds the number of blocks. -/
def split_blocks : Nat → List (Nat × List Nat) → List (List (Nat × List Nat))
  | 0, _ => []
  | _, [] => []
  | fuel + 1, e :: es =>
    (e :: es).take BLOCK_SIZE :: split_blocks fuel ((e :: es).drop BLOCK_SIZE)

/-- The flushed blocks of the entries. -/
def make_blocks (fuel : Nat) (entries : List (Nat × List Nat)) : List column_block :=
  (split_blocks fuel entries).map make_block

/-- Modelled from the spec: the missing column writer: it accepts the pairs in the order
of their keys, buffers them in blocks of 1024 keys and flushes each block in its
best-fitting variant; a key outside the 31-bit doc id space fails the write
(`capacity_exceeded`). -/
def write_column (entries : List (Nat × List Nat)) : Option column :=
  if entries.all (fun e => decide (e.1 < 2 ^ 31)) then
    some { size := entries.length, blocks := make_blocks entries.length entries }
  else none

/-- The scan of a key bitmap for the first key not before `target`: `pos` is the key of the
first bit and `rank` the number of keys before it; the key found and its rank. -/
def bitmap_find : List Bool → Nat → Nat → Nat → Option (Nat × Nat)
  | [], _, _, _ => none
  | b :: bs, pos, rank, target =>
    if b then
      if target ≤ pos then some (pos, rank) else bitmap_find bs (pos + 1) (rank + 1) target
    else bitmap_find bs (pos + 1) rank target

/-- Modelled from the spec: the lookup of the missing reader in a materialised block, step 3
of the seek algorithm: the smallest key of the block not before `target` and its rank; in
a dense block the rank is `target - base`, in a sparse block it is found in the bitmap. -/
def column_block.find (b : column_block) (target : Nat) : Option (Nat × Nat) :=
  if b.tag.dense then
    if target ≤ b.first_key then (if 0 < b.count then some (b.first_key, 0) else none)
    else if target - b.first_key < b.count then some (target, target - b.first_key)
    else none
  else bitmap_find b.bitmap b.first_key 0 target

/-- Modelled from the spec: the value of the key of rank `rank` in a materialised block:
`value_size` bytes at `rank * value_size` in a fixed block, the bytes between two
consecutive offsets in a variable block, nothing in a mask block. -/
def column_block.value_at (b : column_block) (rank : Nat) : List Nat :=
  match b.tag with
  | variant.dense_mask => []
  | variant.sparse_mask => []
  | variant.dense_fixed => (b.payload.drop (rank * b.value_size)).take b.value_size
  | variant.sparse_fixed => (b.payload.drop (rank * b.value_size)).take b.value_size
  | _ =>
    (b.payload.drop (b.offsets.getD rank 0)).take
      (b.offsets.getD (rank + 1) 0 - b.offsets.getD rank 0)

/-- The binary search of the block index: the number of blocks among the first `hi` whose
first key is not after `target`, given that the first `lo` are such; the first argument
bounds the number of iterations. -/
def locate_block (blocks : List column_block) (target : Nat) : Nat → Nat → Nat → Nat
  | 0, lo, _ => lo
  | fuel + 1, lo, hi =>
    if lo < hi then
      let mid := (lo + hi) / 2
      match blocks.get? mid with
      | none => lo
      | some b =>
        if b.first_key ≤ target then locate_block blocks target fuel (mid + 1) hi
        else locate_block blocks target fuel lo mid
    else lo

/-- Modelled from the spec: the seek algorithm of the missing reader (section 4.2): the block
whose key range covers the target is located by binary search of the block index and
searched; when the target lies behind its keys the answer is the first key of the next
block.  The key found and its value, `none` when no key is left. -/
def column.lookup (c : column) (target : Nat) : Option (Nat × List Nat) :=
  let k := locate_block c.blocks target c.blocks.length 0 c.blocks.length
  let in_block (i : Nat) : Option (Nat × List Nat) :=
    match c.blocks.get? i with
    | none => none
    | some b =>
      match b.find target with
      | none => none
      | some (key, rank) => some (key, b.value_at rank)
  match in_block (k - 1) with
  | some r => some r
  | none => if 0 < k then in_block k else none

/-- Modelled from the spec: the iterator of the missing column reader with its `document`
and `payload` attributes. -/
structure column_iterator where
  col : column
  value : Nat
  payload : List Nat
deriving DecidableEq, Repr

/-- Modelled from the spec: `column_reader::iterator(ColumnHint::kNormal)` of the missing
reader: a fresh iterator stands before the first key. -/
def column.iterator (c : column) : column_iterator :=
  { col := c, value := doc_limits.invalid, payload := [] }

/-- Modelled from the spec: `seek(target)` of the missing column iterator: at `eof` it stays
there; a target not after the current position leaves the position unchanged; otherwise
the iterator moves to the smallest key not before the target, or to `eof`. -/
def column_iterator.seek (it : column_iterator) (target : Nat) : column_iterator × Nat :=
  if it.value = doc_limits.eof then ({ it with payload := [] }, doc_limits.eof)
  else if target ≤ it.value then (it, it.value)
  else
    match it.col.lookup target with
    | some (key, bytes) => ({ it with value := key, payload := bytes }, key)
    | none => ({ it with value := doc_limits.eof, payload := [] }, doc_limits.eof)

/-- Modelled from the spec: `next()` of the missing column iterator: it advances to the next
present key and returns false when the keys are exhausted, the state becoming `eof`. -/
def column_iterator.next (it : column_iterator) : column_iterator × Bool :=
  if it.value = doc_limits.eof then ({ it with payload := [] }, false)
  else
    match it.col.lookup (it.value + 1) with
    | some (key, bytes) => ({ it with value := key, payload := bytes }, true)
    | none => ({ it with value := doc_limits.eof, payload := [] }, false)

/-- The loop `while (it.next()) visit(it.value(), payload)` of the tests: the visited pairs
and the iterator after the loop; the first argument bounds the number of calls. -/
def column_iterator.visit : Nat → column_iterator →
    Option (List (Nat × List Nat) × column_iterator)
  | 0, _ => none
  | fuel + 1, it =>
    match it.next with
    | (it', false) => some ([], it')
    | (it', true) =>
      match column_iterator.visit fuel it' with
      | none => none
      | some (rest, last) => some ((it'.value, it'.payload) :: rest, last)

/-- The first key not before `target` in a list of keys, with its rank counted from
`rank`. -/
def first_key_from : List Nat → Nat → Nat → Option (Nat × Nat)
  | [], _, _ => none
  | k :: ks, rank, target =>
    if target ≤ k then some (k, rank) else first_key_from ks (rank + 1) target

/-- The pairs of a column holding the keys `lo .. hi - 1` with empty values. -/
def mask_entries (lo hi : Nat) : List (Nat × List Nat) :=
  (List.range' lo (hi - lo)).map (fun d => (d, []))

end irs

namespace irs

/-! ## The run of the parametric automaton, and the invariant of the automaton builder -/

/-- The characteristic vector of the code point `c` over the window of the target `X` at the
offset `off`, as `edit_distance` computes it (lines 703-706). -/
def window_chi (d : parametric_description) (X : List Nat) (off c : Nat) : Nat :=
  chi ((X.take (min (off + d.chi_size) X.length)).drop off) c 0 0

/-- One step of the parametric automaton on the target `X`: from the parametric state `ps`
at the offset `off` on the code point `c`, as `edit_distance` takes it; `none` when the
transition is dead. -/
def parametric_step (d : parametric_description) (X : List Nat) (ps off c : Nat) :
    Option (Nat × Nat) :=
  if (d.transition ps (window_chi d X off c)).1 = INVALID_STATE then none
  else
    some ((d.transition ps (window_chi d X off c)).1,
      off + (d.transition ps (window_chi d X off c)).2)

/-- The run of the parametric automaton on the target `X` over a word. -/
def parametric_run (d : parametric_description) (X : List Nat) :
    List Nat → Nat → Nat → Option (Nat × Nat)
  | [], ps, off => some (ps, off)
  | c :: word, ps, off =>
    match parametric_step d X ps off c with
    | none => none
    | some (ps', off') => parametric_run d X word ps' off'

/-- The weight with which an automaton state made for `(ps, off)` is final. -/
def final_weight (d : parametric_description) (X : List Nat) (ps off : Nat) : Option Nat :=
  if d.distance ps (sub_size_t X.length off) ≤ d.max_distance then
    some (d.distance ps (sub_size_t X.length off))
  else none

/-- The description fits the target `X`: the pairs of parametric state and offset that its
runs on `X` reach, all satisfying `R`, are states of the description at offsets inside the
word. -/
structure description_fits (d : parametric_description) (X : List Nat)
    (R : Nat → Nat → Prop) : Prop where
  start : R 1 0
  step : ∀ ps off c ps' off', R ps off → parametric_step d X ps off c = some (ps', off') →
    R ps' off'
  state_lt : ∀ ps off, R ps off → ps < d.num_states
  state_ne : ∀ ps off, R ps off → ps ≠ 0
  offset_le : ∀ ps off, R ps off → off ≤ X.length
  chi_size_le : d.chi_size ≤ 64

/-- The state `ns` that an automaton state made for `(ps, off)` reaches on the code point
`c` follows the parametric automaton: it is a state made for the pair the parametric step
gives, or there is none (or it is the sink) when the step is dead.  `tags` gives the pair
each automaton state was made for. -/
def step_ok (d : parametric_description) (X : List Nat) (tags : List (Nat × Nat))
    (ns : Option Nat) (ps off c : Nat) : Prop :=
  match parametric_step d X ps off c with
  | none => ns = none ∨ ns = some 0
  | some tag => ∃ s', ns = some s' ∧ 1 ≤ s' ∧ tags[s']? = some tag

/-- The arcs of an automaton state made for `(ps, off)` follow the parametric automaton on
every code point. -/
def arcs_simulate (d : parametric_description) (X : List Nat) (tags : List (Nat × Nat))
    (arcs : List arc) (ps off : Nat) : Prop :=
  ∀ c, step_ok d X tags (next_state arcs c) ps off c

/-- The invariant of the loop over the state stack of `make_levenshtein_automaton`, the
part on the automaton: `tags` gives the pair of parametric state and offset each automaton
state was made for; the state 0 is the sink and the state 1 the start. -/
structure builder_inv_states (a : automaton) (tags : List (Nat × Nat)) : Prop where
  len_eq : a.states.length = tags.length
  start : a.start = some 1
  tag1 : tags[1]? = some (1, 0)
  state0 : a.states[0]? = some ⟨none, []⟩

/-- The invariant of the loop over the state stack, the part on the table: the pairs fit
the description, the final weights are those of the description, and the table maps the
index of a pair to the automaton state made for it. -/
structure builder_inv_table (d : parametric_description) (X : List Nat)
    (R : Nat → Nat → Prop) (a : automaton) (table : List (Option Nat))
    (tags : List (Nat × Nat)) : Prop where
  tags_fit : ∀ s ps off, 1 ≤ s → tags[s]? = some (ps, off) → R ps off
  finals : ∀ s st ps off, 1 ≤ s → a.states[s]? = some st → tags[s]? = some (ps, off) →
    st.final = final_weight d X ps off
  table_len : table.length = d.num_states * (1 + X.length)
  table_ok : ∀ (i s : Nat), table[i]? = some (some s) →
    (s = 0 ∧ i = 0) ∨
    (2 ≤ s ∧ ∃ ps off, tags[s]? = some (ps, off) ∧ i = ps * (1 + X.length) + off)

/-- The invariant of the loop over the state stack, the part on the stack: the states on
the stack have no arcs yet, the others follow the parametric automaton. -/
structure builder_inv_stack (d : parametric_description) (X : List Nat) (a : automaton)
    (stack : List builder_state) (tags : List (Nat × Nat)) : Prop where
  stack_ok : ∀ item ∈ stack, 1 ≤ item.src ∧
    tags[item.src]? = some (item.state_id, item.offset) ∧
    ∃ st, a.states[item.src]? = some st ∧ st.arcs = []
  stack_nodup : (stack.map (fun item => item.src)).Nodup
  processed : ∀ s st ps off, 1 ≤ s → a.states[s]? = some st → tags[s]? = some (ps, off) →
    (∀ item ∈ stack, item.src ≠ s) → arcs_simulate d X tags st.arcs ps off

/-- The invariant of the loop over the state stack of `make_levenshtein_automaton`. -/
def builder_inv (d : parametric_description) (X : List Nat) (R : Nat → Nat → Prop)
    (a : automaton) (table : List (Option Nat)) (stack : List builder_state)
    (tags : List (Nat × Nat)) : Prop :=
  builder_inv_states a tags ∧ builder_inv_table d X R a table tags ∧
    builder_inv_stack d X a stack tags

/-- The automaton state `s'` is the one the table holds for the transition of the
parametric state `ps` at `off` on the characteristic vector `chi` (the sink when the
transition is dead). -/
def target_of (d : parametric_description) (X : List Nat) (table : List (Option Nat))
    (tags : List (Nat × Nat)) (ps off chi : Nat) (s' : Nat) : Prop :=
  if (d.transition ps chi).1 = 0 then s' = 0
  else
    table[(d.transition ps chi).1 * (1 + X.length) + (off + (d.transition ps chi).2)]? =
      some (some s') ∧ 2 ≤ s' ∧
    tags[s']? = some ((d.transition ps chi).1, off + (d.transition ps chi).2)

/-- The number of free slots of the table of the builder. -/
def count_none (table : List (Option Nat)) : Nat :=
  table.countP (fun x => x.isNone)

/-- The invariant of the loop over the alphabet for the popped state `st`, after the entry
of rho and the entries of the code points `pre`. -/
structure entry_inv (d : parametric_description) (X : List Nat) (R : Nat → Nat → Prop)
    (st : builder_state) (pre : List Nat) (s : entry_state) (tags : List (Nat × Nat))
    (bound : Nat) : Prop where
  base : builder_inv d X R s.a s.transitions (st :: s.stack) tags
  measure : count_none s.transitions + s.stack.length ≤ bound
  default_ok : ∃ s0, s.default_state = some s0 ∧
    target_of d X s.transitions tags st.state_id st.offset 0 s0
  arcs_ok : ∀ e ∈ s.arcs,
    target_of d X s.transitions tags st.state_id st.offset (window_chi d X st.offset e.1) e.2
  ascii_ok : s.ascii = true → ∀ e ∈ s.arcs, e.1 < 128
  resolved : ∀ c ∈ pre, (∃ e ∈ s.arcs, e.1 = c) ∨
    ∃ s0, s.default_state = some s0 ∧
      target_of d X s.transitions tags st.state_id st.offset (window_chi d X st.offset c) s0

end irs

namespace irs

/-! ## Subsumption on machine integers, and antichains of positions -/

/-- The predicate `subsumes(lhs, rhs)` on the machine integers: the offsets are `uint32_t`
values and the sum of their difference and the distance is an `unsigned int`, taken modulo
2^32.  It agrees with `subsumes` as long as the sum does not wrap around. -/
def subsumes_u32 (lhs rhs : position) : Bool :=
  if lhs.transpose || !rhs.transpose then
    decide ((abs_diff lhs.offset rhs.offset + lhs.distance) % 2 ^ 32 ≤ rhs.distance)
  else
    decide ((abs_diff lhs.offset rhs.offset + lhs.distance) % 2 ^ 32 < rhs.distance)

/-- The subsumption rule in the words of the specification, over the integers:
`|p.offset - q.offset| + p.distance <= q.distance - c`, where `c` is 1 when `q` is a
transposition position and `p` is not, and 0 otherwise. -/
def subsumes_rule (p q : position) : Prop :=
  |(p.offset : Int) - (q.offset : Int)| + (p.distance : Int) ≤
    (q.distance : Int) - (if q.transpose = true ∧ p.transpose = false then 1 else 0)

/-- A state is an antichain under subsumption: no position of it subsumes a position at
another index. -/
def antichain (s : parametric_state) : Prop :=
  s.Pairwise (fun a b => subsumes a b = false ∧ subsumes b a = false)

end irs

namespace irs

/-! ## The column existence filter (column_existence_filter.cpp)

The segment reader, the columns directory, `doc_iterator::empty()` and `make_disjunction`
are not among the sources; they are modelled from the specification as far as the filter
uses them. -/

/-- Modelled from the spec: `column_meta`, an entry of the columns directory of a segment:
the name of the column, as bytes, and its id. -/
structure column_meta where
  name : List Nat
  id : Nat
deriving DecidableEq, Repr

/-- Modelled from the spec: the segment reader (`sub_reader`) as the filter uses it: the
columns directory in the order in which `columns()` iterates over it, and the column
readers by column id. -/
structure sub_reader where
  columns : List column_meta
  readers : List (Nat × column)
deriving DecidableEq, Repr

/-- Modelled from the spec: `sub_reader::column_reader(field_id)`: the reader of the column
with this id, `none` (a null pointer) when the segment has none. -/
def sub_reader.column_reader_by_id (rdr : sub_reader) (id : Nat) : Option column :=
  match rdr.readers.find? (fun r => r.1 == id) with
  | some r => some r.2
  | none => none

/-- Modelled from the spec: `sub_reader::column_reader(name)`: the column of that name is
looked up in the directory and its reader is returned, `none` when there is no such column
or it has no reader. -/
def sub_reader.column_reader (rdr : sub_reader) (field : List Nat) : Option column :=
  match rdr.columns.find? (fun m => m.name == field) with
  | some m => rdr.column_reader_by_id m.id
  | none => none

/-- The class `column_existence_iterator` (lines 32-87) without scoring: the wrapped
iterator `it_` of the column (`doc_` is its `document` attribute) and the estimate
`cost_`. -/
structure column_existence_iterator where
  it_ : column_iterator
  cost_ : Nat
deriving DecidableEq, Repr

/-- The method `column_existence_iterator::next()`: `return it_->next()`. -/
def column_existence_iterator.next (self : column_existence_iterator) :
    column_existence_iterator × Bool :=
  let r := self.it_.next
  ({ self with it_ := r.1 }, r.2)

/-- The method `column_existence_iterator::value()`: `return doc_->value`. -/
def column_existence_iterator.value (self : column_existence_iterator) : Nat :=
  self.it_.value

/-- The method `column_existence_iterator::seek(target)`: `it_->seek(target); return
value()`. -/
def column_existence_iterator.seek (self : column_existence_iterator) (target : Nat) :
    column_existence_iterator × Nat :=
  let r := self.it_.seek target
  let self' : column_existence_iterator := { self with it_ := r.1 }
  (self', self'.value)

/-- The value of the `cost` attribute of the iterator. -/
def column_existence_iterator.cost (self : column_existence_iterator) : Nat :=
  self.cost_

/-- The iterators that the queries of the filter return: `doc_iterator::empty()`, a
`column_existence_iterator`, or the result of `make_disjunction` for the given
sub-iterators (kept as it is handed over; disjunction.hpp is not among the sources). -/
inductive query_iterator where
  | empty
  | existence (it : column_existence_iterator)
  | disjunction (itrs : List column_existence_iterator)
deriving DecidableEq, Repr

/-- The column holds the key `doc`. -/
def column.has (c : column) (doc : Nat) : Bool :=
  match c.lookup doc with
  | some (key, _) => key == doc
  | none => false

/-- Modelled from the spec: the documents an iterator of the filter yields: none for the
empty iterator, the keys of the column for an existence iterator, and for a disjunction
the documents of any of its sub-iterators. -/
def query_iterator.yields (q : query_iterator) (doc : Nat) : Bool :=
  match q with
  | query_iterator.empty => false
  | query_iterator.existence it => it.it_.col.has doc
  | query_iterator.disjunction itrs => itrs.any (fun it => it.it_.col.has doc)

/-- The method `column_existence_query::execute(rdr, ord, ctx)` (lines 100-117) for the
field `field_`. -/
def column_existence_query.execute (field_ : List Nat) (rdr : sub_reader) : query_iterator :=
  match rdr.column_reader field_ with
  | none => query_iterator.empty
  | some column => query_iterator.existence { it_ := column.iterator, cost_ := column.size }

/-- Modelled from the spec: the order of the names in the columns directory, the
lexicographic comparison of byte strings. -/
def bytes_lt : List Nat → List Nat → Bool
  | _, [] => false
  | [], _ :: _ => true
  | a :: as, b :: bs => if a < b then true else if b < a then false else bytes_lt as bs

/-- Modelled from the spec: `irs::starts_with(first, second)`: the byte string `first`
begins with `second`. -/
def starts_with : List Nat → List Nat → Bool
  | _, [] => true
  | [], _ :: _ => false
  | a :: as, b :: bs => a == b && starts_with as bs

/-- The loop of `column_prefix_existence_query::execute` (lines 148-169).  The columns
iterator stands on `cur` with the columns `rest` after it.  A column without a reader makes
the loop `continue` without advancing the iterator; the first argument bounds the number
of iterations and `none` is returned when it is exhausted. -/
def prefix_loop (rdr : sub_reader) (prefix_ : List Nat) :
    Nat → column_meta → List column_meta → List column_existence_iterator →
      Option (List column_existence_iterator)
  | 0, _, _, _ => none
  | fuel + 1, cur, rest, itrs =>
    if starts_with cur.name prefix_ then
      match rdr.column_reader_by_id cur.id with
      | none => prefix_loop rdr prefix_ fuel cur rest itrs
      | some column =>
        let itrs' := itrs ++ [{ it_ := column.iterator, cost_ := column.size }]
        match rest with
        | [] => some itrs'
        | next :: rest' => prefix_loop rdr prefix_ fuel next rest' itrs'
    else some itrs

/-- The method `column_prefix_existence_query::execute(rdr, ord, ctx)` (lines 135-172) for
the prefix `prefix_`.  Modelled from the spec: `it->seek(prefix_)` moves the columns
iterator to the first column whose name is not less than the prefix and returns false
when there is none. -/
def column_prefix_existence_query.execute (fuel : Nat) (prefix_ : List Nat)
    (rdr : sub_reader) : Option query_iterator :=
  match rdr.columns.dropWhile (fun m => bytes_lt m.name prefix_) with
  | [] => some query_iterator.empty
  | cur :: rest =>
    match prefix_loop rdr prefix_ fuel cur rest [] with
    | none => none
    | some itrs => some (query_iterator.disjunction itrs)

/-- The filter `by_column_existence`: its field and the option `prefix_match`. -/
structure by_column_existence where
  field : List Nat
  prefix_match : Bool
deriving DecidableEq, Repr

/-- The prepared queries of the filter. -/
inductive prepared_query where
  | column_existence_query (field_ : List Nat)
  | column_prefix_existence_query (prefix_ : List Nat)
deriving DecidableEq, Repr

/-- The method `by_column_existence::prepare` (lines 189-208) without the statistics. -/
def by_column_existence.prepare (f : by_column_existence) : prepared_query :=
  if f.prefix_match then prepared_query.column_prefix_existence_query f.field
  else prepared_query.column_existence_query f.field

/-- The method `execute` of a prepared query. -/
def prepared_query.execute (fuel : Nat) (q : prepared_query) (rdr : sub_reader) :
    Option query_iterator :=
  match q with
  | prepared_query.column_existence_query field_ =>
    some (column_existence_query.execute field_ rdr)
  | prepared_query.column_prefix_existence_query prefix_ =>
    column_prefix_existence_query.execute fuel prefix_ rdr

/-- The existence iterator that the prefix query makes for a column of the directory
(lines 155-161), `none` when the column has no reader. -/
def existence_of (rdr : sub_reader) (m : column_meta) : Option column_existence_iterator :=
  match rdr.column_reader_by_id m.id with
  | none => none
  | some column => some { it_ := column.iterator, cost_ := column.size }

/-- A column with the keys 1 and 3. -/
def sample_column : column := { size := 2, blocks := [make_block [(1, [7]), (3, [9])]] }

/-- A segment with the columns `a`, `ab` and `b`: `a` and `b` hold the keys 1 and 3, `ab`
holds no key. -/
def sample_reader : sub_reader :=
  { columns := [⟨[97], 0⟩, ⟨[97, 98], 1⟩, ⟨[98], 2⟩]
    readers := [(0, sample_column), (1, { size := 0, blocks := [] }), (2, sample_column)] }

end irs

namespace irs

/-! ## The checked `edit_distance` (levenshtein_utils.cpp 719-758) -/

/-- A continuation byte of a UTF-8 sequence, `10xxxxxx`. -/
def is_continuation (b : Nat) : Bool :=
  decide (0x80 ≤ b) && decide (b < 0xC0)

/-- Modelled from the spec: `utf8_utils::ToChar32(it, end)` (utf8_utils.hpp is not among
the sources): the code point at the front of a byte sequence and the bytes after it,
`none` (`kInvalidChar32`) when the sequence does not begin with a complete UTF-8 encoded
code point, a lead byte followed by the continuation bytes it announces. -/
def ToChar32 : List Nat → Option (Nat × List Nat)
  | [] => none
  | b0 :: rest =>
    if b0 < 0x80 then some (b0, rest)
    else if b0 < 0xC0 then none
    else if b0 < 0xE0 then
      match rest with
      | b1 :: r =>
        if is_continuation b1 then some ((b0 - 0xC0) * 0x40 + (b1 - 0x80), r) else none
      | _ => none
    else if b0 < 0xF0 then
      match rest with
      | b1 :: b2 :: r =>
        if is_continuation b1 && is_continuation b2 then
          some ((b0 - 0xE0) * 0x1000 + (b1 - 0x80) * 0x40 + (b2 - 0x80), r)
        else none
      | _ => none
    else if b0 < 0xF8 then
      match rest with
      | b1 :: b2 :: b3 :: r =>
        if is_continuation b1 && is_continuation b2 && is_continuation b3 then
          some ((b0 - 0xF0) * 0x40000 + (b1 - 0x80) * 0x1000 + (b2 - 0x80) * 0x40 +
            (b3 - 0x80), r)
        else none
      | _ => none
    else none

/-- The loop of `ToUTF32` over the bytes; the first argument bounds the number of code
points. -/
def ToUTF32_loop : Nat → List Nat → Option (List Nat)
  | _, [] => some []
  | 0, _ :: _ => none
  | fuel + 1, b :: bytes =>
    match ToChar32 (b :: bytes) with
    | none => none
    | some (c, rest) =>
      match ToUTF32_loop fuel rest with
      | none => none
      | some chars => some (c :: chars)

/-- Modelled from the spec: `utf8_utils::ToUTF32<true>(str, out)`: the code points of a
byte string, `none` (the call returns false) when it is not valid UTF-8.  A string has at
most as many code points as bytes. -/
def ToUTF32 (str : List Nat) : Option (List Nat) :=
  ToUTF32_loop str.length str

/-- The loop of the checked `edit_distance` (lines 733-754) over the bytes of `rhs`:
`none` when it returns false, the distance it sets when it returns true.  The first
argument bounds the number of code points. -/
def edit_distance_checked_loop (description : parametric_description) (lhs_chars : List Nat) :
    Nat → List Nat → Nat → Nat → Option Nat
  | _, [], state, offset =>
    some (description.distance state (sub_size_t lhs_chars.length offset))
  | 0, _ :: _, _, _ => none
  | fuel + 1, b :: rhs, state, offset =>
    match ToChar32 (b :: rhs) with
    | none => none
    | some (c, rest) =>
      let window :=
        (lhs_chars.take (min (offset + description.chi_size) lhs_chars.length)).drop offset
      let transition := description.transition state (chi window c 0 0)
      if transition.1 = INVALID_STATE then some (description.max_distance + 1)
      else
        edit_distance_checked_loop description lhs_chars fuel rest transition.1
          (offset + transition.2)

/-- The function `edit_distance(distance, description, lhs, lhs_size, rhs, rhs_size)`, the
checked overload, on the bytes of the two words: `none` when it returns false, and the
value it stores in `distance` when it returns true. -/
def edit_distance_checked (description : parametric_description) (lhs rhs : List Nat) :
    Option Nat :=
  match ToUTF32 lhs with
  | none => none
  | some lhs_chars => edit_distance_checked_loop description lhs_chars rhs.length rhs 1 0

end irs

namespace irs

/-! ## The states that the description builder can reach -/

/-- The position lies in the triangle of the positions that can be reached when the
diagonal of the input stands at `base - n`: its distance is at most `n`, its offset
differs from `base - n` by at most its distance, and a transposition position lies at
least two below the upper edge. -/
def in_triangle (n base : Nat) (p : position) : Prop :=
  p.distance ≤ n ∧ p.offset + n ≤ base + p.distance ∧ base ≤ p.offset + n + p.distance ∧
  (p.transpose = true → p.offset + n + 2 ≤ base + p.distance)

/-- The invariant of the states kept by `make_parametric_description`: no position occurs
twice, all positions lie in one triangle, and a non-empty state has a position of
offset 0. -/
def state_inv (n : Nat) (s : parametric_state) : Prop :=
  s.Nodup ∧ (∃ base, ∀ p ∈ s, in_triangle n base p) ∧ (s ≠ [] → ∃ p ∈ s, p.offset = 0)

/-- A state without repeated positions, all with an offset of at most `2 n` and a distance
of at most `n`; there are finitely many such states. -/
def bounded (n : Nat) (s : parametric_state) : Prop :=
  s.Nodup ∧ ∀ p ∈ s, p.offset ≤ 2 * n ∧ p.distance ≤ n

/-- The invariant of the container of the states: the states are pairwise distinct, each
satisfies `state_inv`, and the two initial states are there. -/
def states_inv (n : Nat) (states : parametric_states) : Prop :=
  states.Nodup ∧ (∀ s ∈ states, state_inv n s) ∧ 2 ≤ states.length

/-- The code of a position in a finite type, one to one on the positions of bounded
states. -/
def position.code (n : Nat) (p : position) : Fin (2 * n + 1) × Fin (n + 1) × Bool :=
  (⟨p.offset % (2 * n + 1), Nat.mod_lt _ (Nat.succ_pos _)⟩,
    ⟨p.distance % (n + 1), Nat.mod_lt _ (Nat.succ_pos _)⟩, p.transpose)

end irs

namespace irs

/-! ## Label order of the arcs of the automaton -/

/-- The strict order of the labels of the arcs of one state: byte ranges by their bounds,
code points by their value, and the default (rho) label after both.  Two labels in this
order never match the same code point. -/
def label.before : label → label → Bool
  | label.range _ hi, label.range lo _ => decide (hi < lo)
  | label.cp c, label.cp c' => decide (c < c')
  | label.range _ _, label.rho => true
  | label.cp _, label.rho => true
  | _, _ => false

/-- The arcs are in strictly increasing label order. -/
def label_sorted (arcs : List arc) : Prop :=
  arcs.Pairwise (fun x y => label.before x.ilabel y.ilabel = true)

/-- The invariant of the automaton under construction: the arcs of every state are in
strictly increasing label order, every final weight is at most `max_distance`, and the
pending states (those on the stack, whose arcs are still to be emitted) are distinct and
have no arcs yet. -/
def builder_sorted (max_distance : Nat) (a : automaton) (pending : List Nat) : Prop :=
  (∀ (i : Nat) (st : fst_state), a.states[i]? = some st → label_sorted st.arcs) ∧
  (∀ (i : Nat) (st : fst_state) (w : Nat), a.states[i]? = some st → st.final = some w →
    w ≤ max_distance) ∧
  (∀ s ∈ pending, ∃ st, a.states[s]? = some st ∧ st.arcs = []) ∧
  pending.Nodup

/-- The automaton that `make_levenshtein_automaton` builds from the description for the
distance 1 without transpositions, the prefix `b` and the target `a`. -/
def sample_automaton : automaton :=
  { states :=
      [{ final := none, arcs := [] },
        { final := none, arcs := [⟨label.cp 98, 2⟩] },
        { final := some 1, arcs := [⟨label.cp 97, 4⟩, ⟨label.rho, 3⟩] },
        { final := some 1, arcs := [⟨label.cp 97, 6⟩, ⟨label.rho, 0⟩] },
        { final := some 0, arcs := [⟨label.rho, 5⟩] },
        { final := some 1, arcs := [⟨label.range 0 255, 0⟩] },
        { final := some 1, arcs := [⟨label.range 0 255, 0⟩] }]
    start := some 1 }

end irs

namespace irs

/-! ## The positions that a transition emplaces -/

/-- The position `q` is one of those that `add_elementary_transitions` emplaces for the
position `pos` and the characteristic vector `chi`. -/
def emits (pos : position) (chi : Nat) (max_distance : Nat) (with_transpositions : Bool)
    (q : position) : Prop :=
  (chi.testBit 0 = true ∧ q = ⟨pos.offset + 1, pos.distance, false⟩) ∨
  (chi.testBit 0 = true ∧ pos.transpose = true ∧ q = ⟨pos.offset + 2, pos.distance, false⟩) ∨
  (pos.distance < max_distance ∧ q = ⟨pos.offset, pos.distance + 1, false⟩) ∨
  (pos.distance < max_distance ∧ q = ⟨pos.offset + 1, pos.distance + 1, false⟩) ∨
  (pos.distance < max_distance ∧ ∃ j, 1 ≤ j ∧ j ≤ max_distance - pos.distance ∧
    chi.testBit j = true ∧ q = ⟨pos.offset + 1 + j, pos.distance + j, false⟩) ∨
  (pos.distance < max_distance ∧ with_transpositions = true ∧ chi.testBit 1 = true ∧
    q = ⟨pos.offset, pos.distance + 1, true⟩)

/-- The state `s` holds nothing but positions of `s0` and positions in `E`, and subsumes all
of them. -/
def represents (s s0 : parametric_state) (E : position → Prop) : Prop :=
  (∀ x ∈ s, x ∈ s0 ∨ E x) ∧
  (∀ q, ((∃ p ∈ s0, subsumes p q = true) ∨ E q) → ∃ p ∈ s, subsumes p q = true)

end irs

namespace irs

/-! ## The states and the tables of a built description -/

/-- The order by offset, then distance, then transposition flag (unset before set), in the
words of the specification; `position::operator<` is its strict part. -/
def position.key_le (a b : position) : Prop :=
  a.offset < b.offset ∨
  (a.offset = b.offset ∧
    (a.distance < b.distance ∨
      (a.distance = b.distance ∧ (a.transpose = true → b.transpose = true))))

/-- The distance of a state at an offset in the words of the specification: the minimum of
`max_distance + 1` and, over the positions `p` of the state, of
`p.distance + |offset - p.offset|`, the absolute value taken over the integers. -/
def min_distance_rule (state : parametric_state) (max_distance offset : Nat) : Nat :=
  (state.map (fun p => p.distance + ((offset : Int) - (p.offset : Int)).natAbs)).foldr min
    (max_distance + 1)

/-- The states with which the state loop of `make_parametric_description(1, false)` ends,
in the order of their ids. -/
def states_1_false : parametric_states :=
  [[], [⟨0, 0, false⟩], [⟨0, 1, false⟩, ⟨1, 1, false⟩],
    [⟨0, 1, false⟩, ⟨1, 1, false⟩, ⟨2, 1, false⟩], [⟨0, 1, false⟩],
    [⟨0, 1, false⟩, ⟨2, 1, false⟩]]

/-- The states and the transitions with which `make_parametric_description` leaves its
state loop (lines 474-499), for a supported `max_distance`; the first argument bounds the
number of iterations. -/
def parametric_description_states (fuel : Nat) (max_distance : Nat)
    (with_transpositions : Bool) : Option (parametric_states × List (Nat × Nat)) :=
  build_states max_distance with_transpositions
    (predict_num_states max_distance with_transpositions * chi_max (chi_size max_distance))
    fuel [[], [⟨0, 0, false⟩]] [] 0

/-- The first `rows` rows of the table `transitions` are those of the states `states`: the
entry of the row `k` for the characteristic vector `chi` holds the id of the normalized
state that `add_transition` gives for the state `k`, and the offset that `normalize`
returned. -/
def rows_ok (max_distance : Nat) (with_transpositions : Bool) (states : parametric_states)
    (transitions : List (Nat × Nat)) (rows : Nat) : Prop :=
  transitions.length = rows * chi_max (chi_size max_distance) ∧ rows ≤ states.length ∧
  ∀ k chi, k < rows → chi < chi_max (chi_size max_distance) →
    ∃ id, transitions[k * chi_max (chi_size max_distance) + chi]? =
        some (id, (normalize
          (add_transition (states.getD k []) chi max_distance with_transpositions)).1) ∧
      states[id]? = some (normalize
        (add_transition (states.getD k []) chi max_distance with_transpositions)).2

end irs

namespace irs

/-! ## The loop of `conjunction::converge` and the score of a conjunction -/

/-- The values that the variable `target` of `conjunction::converge` takes: its argument,
then the value the lead returns in each iteration of the loop; the last one is the
value returned.  The first argument bounds the number of iterations. -/
def converge_targets : Nat → doc_iterator → List doc_iterator → Nat → List Nat
  | 0, _, _, _ => []
  | fuel + 1, front, tail, target =>
    let r := seek_rest tail target
    if target = r.2 then [target]
    else
      let f := front.seek r.2
      if f.2 = doc_limits.eof then [target, f.2]
      else target :: converge_targets fuel f.1 r.1 f.2

/-- Modelled from the spec: the `score` attribute of a child or of the conjunction (the
scoring closure; `irs::score` is not among the sources): the default score function, or a
function that yields a value for the current document. -/
inductive score_function (α : Type) where
  | default
  | func (value : α)
deriving DecidableEq, Repr

/-- Modelled from the spec: the test `score.IsDefault()`. -/
def score_function.IsDefault {α : Type} : score_function α → Bool
  | score_function.default => true
  | score_function.func _ => false

/-- Modelled from the spec: the call `score(res)`: the value written to the buffer; the
default score function writes the default value. -/
def score_function.call {α : Type} (dflt : α) : score_function α → α
  | score_function.default => dflt
  | score_function.func v => v

/-- The loop of `prepare_score` (lines 160-167) that copies the non-default scores of the
children, in the order of `itrs_`, to `scores_`. -/
def collect_scores {α : Type} : List (score_function α) → List (score_function α)
  | [] => []
  | sub_score :: rest =>
    if !sub_score.IsDefault then sub_score :: collect_scores rest else collect_scores rest

/-- The closure installed for two scores (lines 178-184): the first score is written to
`res`, the last to the buffer `temp` of the merger, and the merger folds `temp` into
`res`. -/
def score_closure2 {α : Type} (merge : α → α → α) (dflt : α)
    (scores_ : List (score_function α)) : α :=
  let res := (scores_.headD score_function.default).call dflt
  let temp := (scores_.getLastD score_function.default).call dflt
  merge res temp

/-- The closure installed for three scores (lines 187-195). -/
def score_closure3 {α : Type} (merge : α → α → α) (dflt : α)
    (scores_ : List (score_function α)) : α :=
  let res := (scores_.headD score_function.default).call dflt
  let temp := (scores_.getD 1 score_function.default).call dflt
  let res := merge res temp
  let temp := (scores_.getLastD score_function.default).call dflt
  merge res temp

/-- The loop of the general closure (lines 205-208) over the scores after the first. -/
def score_loop {α : Type} (merge : α → α → α) (dflt : α) :
    List (score_function α) → α → α
  | [], res => res
  | s :: rest, res =>
    let temp := s.call dflt
    score_loop merge dflt rest (merge res temp)

/-- The closure installed for more than three scores (lines 198-209). -/
def score_closure_general {α : Type} (merge : α → α → α) (dflt : α)
    (scores_ : List (score_function α)) : α :=
  let res := (scores_.headD score_function.default).call dflt
  score_loop merge dflt scores_.tail res

/-- The method `conjunction::prepare_score()`: the score of the conjunction for the scores
of its children in the order of `itrs_`, the merger `merge` and the default value
`dflt`. -/
def prepare_score {α : Type} (merge : α → α → α) (dflt : α)
    (sub_scores : List (score_function α)) : score_function α :=
  let scores_ := collect_scores sub_scores
  match scores_.length with
  | 0 => score_function.default
  | 1 => scores_.headD score_function.default
  | 2 => score_function.func (score_closure2 merge dflt scores_)
  | 3 => score_function.func (score_closure3 merge dflt scores_)
  | _ => score_function.func (score_closure_general merge dflt scores_)

end irs

namespace irs

/-! ## The offsets of the states that a run over a target reaches -/

/-- The positions of a parametric state at the offset `off` of a target of `L` code
points: a transposition position lies two before the end of the target at least, and a
position that lies after the end of the target comes with a position before or at the end
from which the end is reached within the same distance. -/
def target_covered (L off : Nat) (state : parametric_state) : Prop :=
  (∀ p ∈ state, p.transpose = true → off + p.offset + 2 ≤ L) ∧
  (∀ p ∈ state, L < off + p.offset →
    ∃ q ∈ state, off + q.offset ≤ L ∧ q.distance + (L - (off + q.offset)) ≤ p.distance)

/-- The parametric state `ps` of the states `S` stands at an offset inside a target of `L`
code points, with its positions covered. -/
def offset_fits (L : Nat) (S : parametric_states) (ps off : Nat) : Prop :=
  off ≤ L ∧ ∃ state, S[ps]? = some state ∧ target_covered L off state

/-- The states that the loop over the state stack (lines 616-671) pops, in the order of
their processing; each is the entry that was pushed when its automaton state was made.
The first argument bounds the number of iterations. -/
def build_automaton_states (description : parametric_description) (alphabet : List character)
    (utf8_size : Nat) (mask : Nat) :
    Nat → automaton → List (Option Nat) → List builder_state → List builder_state
  | _, _, _, [] => []
  | 0, _, _, _ :: _ => []
  | fuel + 1, a, transitions, state :: stack =>
    let s := alphabet.foldl (process_entry description utf8_size mask state)
      { a := a, transitions := transitions, stack := stack, default_state := none,
        arcs := [], ascii := true }
    state :: build_automaton_states description alphabet utf8_size mask fuel
      (emit_arcs state.src s) s.transitions s.stack

/-- The states that the loop over the state stack of `make_levenshtein_automaton` pops
for a description, a prefix and a target. -/
def levenshtein_automaton_states (fuel : Nat) (description : parametric_description)
    (pfx target : List Nat) : List builder_state :=
  let utf8_size := target.length
  let alphabet := make_alphabet target
  let num_offsets := 1 + utf8_size
  let mask := (1 <<< description.chi_size) - 1
  let transitions : List (Option Nat) :=
    List.replicate (description.num_states * num_offsets) none
  let a0 := automaton.empty.AddState.1
  let added := a0.AddState
  let a1 := added.1.SetStart added.2
  let p := add_prefix pfx a1 added.2
  let distance := description.distance 1 utf8_size
  let a2 := if distance ≤ description.max_distance then p.1.SetFinal p.2 distance else p.1
  build_automaton_states description alphabet utf8_size mask fuel a2 transitions
    [⟨0, 1, p.2⟩]

/-- The invariant of the loop over the state stack on the sink and the stack: the state 0
is not final and has no arcs, and every state on the stack is an automaton state other
than the state 0, made for a pair of parametric state and offset that satisfies `P`, and
final with the weight of that pair. -/
def builder_tagged (d : parametric_description) (X : List Nat) (P : Nat → Nat → Prop)
    (a : automaton) (stack : List builder_state) : Prop :=
  a.states[0]? = some ⟨none, []⟩ ∧
  ∀ item ∈ stack, 1 ≤ item.src ∧ P item.state_id item.offset ∧
    ∃ st, a.states[item.src]? = some st ∧
      st.final = final_weight d X item.state_id item.offset

/-- The states of `a` are states of `b` with the same final weight. -/
def finals_kept (a b : automaton) : Prop :=
  ∀ (i : Nat) (st : fst_state), a.states[i]? = some st →
    ∃ st', b.states[i]? = some st' ∧ st'.final = st.final

end irs

namespace irs

/-! ## Assertions, out-parameters and the characteristic bitset -/

/-- The loop of the checked `edit_distance` (lines 733-754) with the out-parameter
`distance`: what the function returns and the value of `distance` afterwards.  The first
argument bounds the number of code points. -/
def edit_distance_out_loop (description : parametric_description) (lhs_chars : List Nat) :
    Nat → List Nat → Nat → Nat → Nat → Bool × Nat
  | _, [], state, offset, _ =>
    (true, description.distance state (sub_size_t lhs_chars.length offset))
  | 0, _ :: _, _, _, distance => (false, distance)
  | fuel + 1, b :: rhs, state, offset, distance =>
    match ToChar32 (b :: rhs) with
    | none => (false, distance)
    | some (c, rest) =>
      let window :=
        (lhs_chars.take (min (offset + description.chi_size) lhs_chars.length)).drop offset
      let transition := description.transition state (chi window c 0 0)
      if transition.1 = INVALID_STATE then (true, description.max_distance + 1)
      else
        edit_distance_out_loop description lhs_chars fuel rest transition.1
          (offset + transition.2) distance

/-- The function `edit_distance(distance, description, lhs, lhs_size, rhs, rhs_size)`, the
checked overload (lines 719-758), on the bytes of the two words, with the out-parameter
`distance`: what the function returns and the value of `distance` afterwards. -/
def edit_distance_out (distance : Nat) (description : parametric_description)
    (lhs rhs : List Nat) : Bool × Nat :=
  match ToUTF32 lhs with
  | none => (false, distance)
  | some lhs_chars =>
    edit_distance_out_loop description lhs_chars rhs.length rhs 1 0 distance

/-- The words of the bitset that `chi(bs, offset, mask)` (lines 423-434) reads: `bs[word]`,
and `bs[word + 1]` when the offset is not aligned. -/
def chi_bitset_words (offset : Nat) : List Nat :=
  let word := offset / 64
  let align := offset - 64 * word
  if align = 0 then [word] else [word, word + 1]

/-- The assertion `IRS_ASSERT(!doc_limits::eof(target))` at the entry of `seek_rest` and of
`converge` (lines 218, 234). -/
def target_assert (target : Nat) : Bool :=
  decide (target ≠ doc_limits.eof)

/-- The assertions that a call of `conjunction::converge(target)` meets: the one at its
entry and the one of every call of `seek_rest` in its loop.  The first argument bounds the
number of iterations. -/
def converge_asserts : Nat → doc_iterator → List doc_iterator → Nat → Bool
  | 0, _, _, target => target_assert target
  | fuel + 1, front, tail, target =>
    target_assert target &&
      (let r := seek_rest tail target
      if target = r.2 then true
      else
        let f := front.seek r.2
        if f.2 = doc_limits.eof then true
        else converge_asserts fuel f.1 r.1 f.2)

/-- A call of a method of the conjunction. -/
inductive conjunction_call where
  | next
  | seek (target : Nat)
deriving DecidableEq, Repr

/-- What a call of `next` or `seek` shows: whether the assertions met during the call
hold, whether the call reports the end (`next` returns false, `seek` returns `eof`), and
`value()` after the call. -/
structure call_record where
  asserts : Bool
  ended : Bool
  value : Nat
deriving DecidableEq, Repr

/-- One call on the conjunction: the conjunction after it and its record; `none` when the
bound on the iterations of `converge` is exhausted. -/
def conjunction.call (fuel : Nat) (c : conjunction) :
    conjunction_call → Option (conjunction × call_record)
  | conjunction_call.next =>
    match c.itrs_ with
    | [] => none
    | front :: tail =>
      match c.next fuel with
      | none => none
      | some (c', b) =>
        some (c',
          { asserts :=
              if front.next.2 = false then true
              else converge_asserts fuel front.next.1 tail front.next.1.value
            ended := !b
            value := c'.value })
  | conjunction_call.seek target =>
    match c.itrs_ with
    | [] => none
    | front :: tail =>
      match c.seek fuel target with
      | none => none
      | some (c', r) =>
        some (c',
          { asserts :=
              if (front.seek target).2 = doc_limits.eof then true
              else converge_asserts fuel (front.seek target).1 tail (front.seek target).2
            ended := decide (r = doc_limits.eof)
            value := c'.value })

/-- A sequence of calls on the conjunction: the records of the calls, in their order;
`none` when the bound on the iterations of a call is exhausted. -/
def conjunction.calls (fuel : Nat) : List conjunction_call → conjunction →
    Option (List call_record)
  | [], _ => some []
  | k :: ks, c =>
    match c.call fuel k with
    | none => none
    | some (c', record) =>
      match conjunction.calls fuel ks c' with
      | none => none
      | some records => some (record :: records)

end irs

namespace irs

/-! ## The nearest neighbours stream (nearest_neighbors_stream.cpp) -/

/-- The check of `top_k` in `parse_vpack_options` (lines 66-74): a number above the
largest `int32_t` is refused, every other one is stored. -/
def parse_top_k (top_k : Nat) : Option Nat :=
  if top_k > 2 ^ 31 - 1 then none else some top_k

/-- The members of `nearest_neighbors_stream` that `next` and `reset` use: the token ids
of the line, their number, the index of the current token, the neighbours of the last
token (their words), the position `neighbors_it_` in them as an index (the end is the
number of neighbours), and `top_k_`. -/
structure nearest_neighbors_stream where
  line_token_ids_ : List Nat
  n_tokens_ : Nat
  current_token_ind_ : Nat
  neighbors_ : List (List Nat)
  neighbors_it_ : Nat
  top_k_ : Nat
deriving DecidableEq, Repr

/-- What a call of `next` does: it returns false, it emits a term with an increment, or it
reads the element at the end position of the neighbours. -/
inductive next_outcome where
  | finished (s : nearest_neighbors_stream)
  | emitted (s : nearest_neighbors_stream) (term : List Nat) (inc : Nat)
  | reads_end
deriving DecidableEq, Repr

/-- The method `nearest_neighbors_stream::reset(data)` (lines 258-275) on the token ids
that the dictionary reads from the data. -/
def nearest_neighbors_stream.reset (s : nearest_neighbors_stream) (token_ids : List Nat) :
    nearest_neighbors_stream :=
  { s with
    line_token_ids_ := token_ids
    n_tokens_ := token_ids.length
    current_token_ind_ := 0
    neighbors_ := []
    neighbors_it_ := 0 }

/-- The method `nearest_neighbors_stream::next()` (lines 234-256).  Modelled from the
spec: `getNN token_id top_k` stands for `model_->getNN(model_dict_->getWord(token_id),
top_k)`, the words of the neighbours that the model returns (fasttext is not among the
sources). -/
def nearest_neighbors_stream.next (getNN : Nat → Nat → List (List Nat))
    (s : nearest_neighbors_stream) : next_outcome :=
  if s.neighbors_it_ = s.neighbors_.length ∧ s.current_token_ind_ = s.n_tokens_ then
    next_outcome.finished s
  else
    let s1 :=
      if s.neighbors_it_ = s.neighbors_.length then
        { s with
          neighbors_ := getNN (s.line_token_ids_.getD s.current_token_ind_ 0) s.top_k_
          neighbors_it_ := 0
          current_token_ind_ := s.current_token_ind_ + 1 }
      else s
    match s1.neighbors_[s1.neighbors_it_]? with
    | none => next_outcome.reads_end
    | some neighbor =>
      next_outcome.emitted { s1 with neighbors_it_ := s1.neighbors_it_ + 1 } neighbor
        (if s1.neighbors_it_ = 0 then 1 else 0)

/-! ## The collation token stream (collation_token_stream.cpp) -/

/-- The size of the buffers `term_buf` and `raw_term_buf`, `MAX_TOKEN_SIZE` (line 222). -/
def MAX_TOKEN_SIZE : Nat := 2 ^ 15

/-- What `collation_token_stream::reset` does with its buffers: the indexes at which it
reads or writes `raw_term_buf` or `term_buf` itself, and the size of the term when it
returns true. -/
structure collation_outcome where
  accesses : List Nat
  term_size : Option Nat
deriving DecidableEq, Repr

/-- The loop of the re-encoding for `forceUtf8` (lines 293-308): `i` runs over the `count`
bytes left of the sort key, `termBufIdx` is the size of the term so far.  Modelled from
the spec: `recalc b` is the size of the entry of `kRecalcMap` for the byte `b`
(collation_token_stream_encoder.hpp is not among the sources). -/
def recode_loop (recalc : Nat → Nat) (raw_term_buf : Nat → Nat) :
    Nat → Nat → Nat → List Nat → collation_outcome
  | 0, _, termBufIdx, accesses => { accesses := accesses, term_size := some termBufIdx }
  | count + 1, i, termBufIdx, accesses =>
    let size := recalc (raw_term_buf i)
    if termBufIdx + size > MAX_TOKEN_SIZE then
      { accesses := accesses ++ [i], term_size := none }
    else if size = 2 then
      recode_loop recalc raw_term_buf count (i + 1) (termBufIdx + 2)
        (accesses ++ [i, termBufIdx, termBufIdx + 1])
    else
      recode_loop recalc raw_term_buf count (i + 1) (termBufIdx + 1)
        (accesses ++ [i, termBufIdx])

/-- The part of `collation_token_stream::reset` after the call of the collator (lines
275-311).  Modelled from the spec: `key_size` is the positive size of the sort key that
`Collator::getSortKey` reports, which may exceed the capacity of the buffer it was given,
and `raw_term_buf` the bytes it has written (ICU is not among the sources). -/
def collation_reset (forceUtf8 : Bool) (recalc : Nat → Nat) (raw_term_buf : Nat → Nat)
    (key_size : Nat) : collation_outcome :=
  let term_size := key_size - 1
  if term_size > MAX_TOKEN_SIZE then { accesses := [term_size], term_size := none }
  else if forceUtf8 then recode_loop recalc raw_term_buf term_size 0 0 [term_size]
  else { accesses := [term_size], term_size := some term_size }

/-! ## The link meta of the ArangoDB adapter (IResearchLinkMeta.cpp) -/

/-- Modelled from the spec: an entry of `IResearchLinkMeta::Tokenizers` with its `name()`
and `args()` (IResearchLinkMeta.h is not among the sources). -/
structure tokenizer_entry where
  name : List Nat
  args : List Nat
deriving DecidableEq, Repr

/-- The call `expected.erase(itr)` for an iterator on an element equal to `pair`: one
occurrence of the pair leaves the multiset, which is the list of its elements. -/
def erase_pair (pair : List Nat × List Nat) :
    List (List Nat × List Nat) → List (List Nat × List Nat)
  | [] => []
  | q :: qs => if q = pair then qs else q :: erase_pair pair qs

/-- The second loop of `equalTokenizers` (lines 147-156) over the entries of `rhs`: the
pair of the entry is looked up in the multiset `expected`, and one occurrence of it is
erased.  Which of several equal elements `find` returns makes no difference. -/
def equalTokenizers_loop : List tokenizer_entry → List (List Nat × List Nat) → Bool
  | [], _ => true
  | entry :: rhs, expected =>
    if (entry.name, entry.args) ∈ expected then
      equalTokenizers_loop rhs (erase_pair (entry.name, entry.args) expected)
    else false

/-- The function `equalTokenizers(lhs, rhs)` (lines 134-159). -/
def equalTokenizers (lhs rhs : List tokenizer_entry) : Bool :=
  if lhs.length ≠ rhs.length then false
  else equalTokenizers_loop rhs (lhs.map (fun entry => (entry.name, entry.args)))

/-- Modelled from the spec: a VelocyPack value (`arangodb::velocypack::Slice`, which is
not among the sources): none, null, a boolean, a number, a string, an array, or an object
as the list of its keys and values in the order of `ObjectIterator`. -/
inductive vpack where
  | none_
  | null
  | bool (b : Bool)
  | number (n : Int)
  | string (s : String)
  | array (items : List vpack)
  | object (entries : List (vpack × vpack))

/-- The test `slice.isObject()`. -/
def vpack.isObject : vpack → Bool
  | vpack.object _ => true
  | _ => false

/-- The test `slice.isBool()`. -/
def vpack.isBool : vpack → Bool
  | vpack.bool _ => true
  | _ => false

/-- The test `slice.isNumber()`. -/
def vpack.isNumber : vpack → Bool
  | vpack.number _ => true
  | _ => false

/-- The key is the string `name`. -/
def vpack.isKey (key : vpack) (name : String) : Bool :=
  match key with
  | vpack.string s => s == name
  | _ => false

/-- Modelled from the spec: `slice.get(name)` on the entries of an object: the value of
the first entry with that key, the none value when there is no such entry. -/
def vpack.lookup (name : String) : List (vpack × vpack) → vpack
  | [] => vpack.none_
  | entry :: entries => if entry.1.isKey name then entry.2 else vpack.lookup name entries

/-- Modelled from the spec: `slice.hasKey(name)` on the entries of an object. -/
def vpack.hasKey (name : String) (entries : List (vpack × vpack)) : Bool :=
  entries.any (fun entry => entry.1.isKey name)

/-- An optional boolean attribute of the link meta (lines 399-437): the error field when
the attribute is there and is not a boolean. -/
def init_bool (fieldName : String) (entries : List (vpack × vpack)) : Option String :=
  if !vpack.hasKey fieldName entries then none
  else if !(vpack.lookup fieldName entries).isBool then some fieldName
  else none

/-- The loop over the entries of one tokenizer (lines 468-485), `index` being
`entryItr.index()`: the error field when an entry is neither a string nor an object or its
pool is not made.  Modelled from the spec: `emplace name entry` tells whether
`_tokenizers.emplace_back` returns without an exception. -/
def init_tokenizer_entries (emplace : String → vpack → Bool) (name : String) :
    List vpack → Nat → Option String
  | [], _ => none
  | entry :: entries, index =>
    match entry with
    | vpack.string _ =>
      if emplace name entry then init_tokenizer_entries emplace name entries (index + 1)
      else some ("tokenizers" ++ "=>" ++ name ++ "=>[" ++ toString index ++ "]")
    | vpack.object _ =>
      if emplace name entry then init_tokenizer_entries emplace name entries (index + 1)
      else some ("tokenizers" ++ "=>" ++ name ++ "=>[" ++ toString index ++ "]")
    | _ => some ("tokenizers" ++ "=>" ++ name ++ "=>[" ++ toString index ++ "]")

/-- The loop over the entries of the attribute `tokenizers` (lines 453-486), `index` being
`itr.index()`. -/
def init_tokenizers (emplace : String → vpack → Bool) :
    List (vpack × vpack) → Nat → Option String
  | [], _ => none
  | entry :: entries, index =>
    match entry.1 with
    | vpack.string name =>
      match entry.2 with
      | vpack.array items =>
        match init_tokenizer_entries emplace name items 0 with
        | some error => some error
        | none => init_tokenizers emplace entries (index + 1)
      | _ => some ("tokenizers" ++ "=>" ++ name)
    | _ => some ("tokenizers" ++ "=>[" ++ toString index ++ "]")

/-- The attributes of the link meta before `fields` (lines 388-488): the error field of
the first attribute that is refused.  Modelled from the spec: `getNumber` refuses a value
of `boost` that is there and is not a number. -/
def init_attributes (emplace : String → vpack → Bool) (entries : List (vpack × vpack)) :
    Option String :=
  if vpack.hasKey "boost" entries && !(vpack.lookup "boost" entries).isNumber then
    some "boost"
  else
    match init_bool "includeAllFields" entries with
    | some error => some error
    | none =>
      match init_bool "nestListValues" entries with
      | some error => some error
      | none =>
        if !vpack.hasKey "tokenizers" entries then none
        else
          match vpack.lookup "tokenizers" entries with
          | vpack.object tokenizers => init_tokenizers emplace tokenizers 0
          | _ => some "tokenizers"

mutual
/-- The method `IResearchLinkMeta::init(slice, errorField, defaults, mask)` (lines
371-555) as far as its result and `errorField` go: what it returns and `errorField`
afterwards. -/
def IResearchLinkMeta.init (emplace : String → vpack → Bool) :
    vpack → String → Bool × String
  | vpack.object entries, errorField =>
    match init_attributes emplace entries with
    | some error => (false, error)
    | none => IResearchLinkMeta.init_fields_of emplace entries errorField
  | _, errorField => (false, errorField)
/-- The attribute `fields` (lines 497-551), looked up in the entries of the slice as
`slice.hasKey` and `slice.get` do: without it the call succeeds, and it has to be an
object. -/
def IResearchLinkMeta.init_fields_of (emplace : String → vpack → Bool) :
    List (vpack × vpack) → String → Bool × String
  | [], errorField => (true, errorField)
  | (key, vpack.object fields) :: entries, errorField =>
    if key.isKey "fields" then IResearchLinkMeta.init_fields emplace fields 0 errorField
    else IResearchLinkMeta.init_fields_of emplace entries errorField
  | (key, _) :: entries, errorField =>
    if key.isKey "fields" then (false, "fields")
    else IResearchLinkMeta.init_fields_of emplace entries errorField
/-- The loop over the entries of the attribute `fields` (lines 516-549), `index` being
`itr.index()`.  The call for a nested field is given `errorField` itself, and
`childErrorField` stays empty. -/
def IResearchLinkMeta.init_fields (emplace : String → vpack → Bool) :
    List (vpack × vpack) → Nat → String → Bool × String
  | [], _, errorField => (true, errorField)
  | (vpack.string name, vpack.object nested) :: entries, index, errorField =>
    let childErrorField := ""
    let result := IResearchLinkMeta.init emplace (vpack.object nested) errorField
    if result.1 = false then (false, "fields" ++ "=>" ++ name ++ "=>" ++ childErrorField)
    else IResearchLinkMeta.init_fields emplace entries (index + 1) result.2
  | (vpack.string name, _) :: _, _, _ => (false, "fields" ++ "=>" ++ name)
  | _ :: _, index, _ => (false, "fields" ++ "=>[" ++ toString index ++ "]")
end

end irs

namespace irs

/-! ## The pairs of parametric state and offset on the state stack of the builder -/

/-- The index of the pair of an entry of the state stack in the table `transitions` of
the automaton builder, for a target of `L` code points. -/
def builder_state.index (L : Nat) (s : builder_state) : Nat :=
  s.state_id * (1 + L) + s.offset

/-- The invariant of the loop over the state stack on the pairs: the table has a slot for
each pair of one of the `N` states and an offset up to `L`; each entry of the stack
satisfies `P`, is the entry of the initial pair or has its automaton state in the table;
and no two entries of the stack are entries of the same pair. -/
structure builder_once (N L : Nat) (P : Nat → Nat → Prop) (table : List (Option Nat))
    (stack : List builder_state) : Prop where
  table_len : table.length = N * (1 + L)
  fits : ∀ item ∈ stack, P item.state_id item.offset
  known : ∀ item ∈ stack,
    item.index L = 1 + L ∨ ∃ v, table[item.index L]? = some (some v)
  nodup : (stack.map (builder_state.index L)).Nodup

/-- The progress of the builder from one point of the loop over the alphabet to a later
one: a slot that is free later was free before, an entry pushed in between is an entry of
a pair other than the initial one whose slot was free, each state added to the automaton
comes with one entry pushed and one slot taken, and the free slots and the entries of the
stack together do not become more. -/
structure builder_progress (L : Nat) (a : automaton) (table : List (Option Nat))
    (stack : List builder_state) (a' : automaton) (table' : List (Option Nat))
    (stack' : List builder_state) : Prop where
  free : ∀ i : Nat, table'[i]? = some none → table[i]? = some none
  pushed : ∀ item ∈ stack', item ∈ stack ∨
    (table[item.index L]? = some none ∧ item.index L ≠ 1 + L)
  states_eq : a'.states.length + stack.length = a.states.length + stack'.length
  states_le : a'.states.length + count_none table' ≤ a.states.length + count_none table
  measure : count_none table' + stack'.length ≤ count_none table + stack.length

end irs

namespace irs

/-! ## The description builder: fuel and the tables for small distances -/

theorem build_states_fuel_mono (n : Nat) (t : Bool) (cap : Nat) :
    ∀ (fuel : Nat) (states : parametric_states) (tr : List (Nat × Nat)) (i : Nat)
      (r : parametric_states × List (Nat × Nat)),
      build_states n t cap fuel states tr i = some r →
      ∀ k, build_states n t cap (fuel + k) states tr i = some r := by
  intro fuel
  induction fuel with
  | zero => intro states tr i r h; simp [build_states] at h
  | succ f ih =>
    intro states tr i r h k
    have e : f + 1 + k = (f + k) + 1 := by omega
    rw [e]
    unfold build_states at h ⊢
    split
    · rename_i h1; rw [if_pos h1] at h; exact h
    · rename_i h1
      rw [if_neg h1] at h
      simp only [] at h ⊢
      split
      · rename_i h2; rw [if_pos h2] at h; exact h
      · rename_i h2; rw [if_neg h2] at h; exact ih _ _ _ _ h k

theorem make_parametric_description_fuel_mono (fuel : Nat) (n : Nat) (t : Bool)
    (d : parametric_description) (h : make_parametric_description fuel n t = some d) (k : Nat) :
    make_parametric_description (fuel + k) n t = some d := by
  unfold make_parametric_description at h ⊢
  split
  · rename_i h1; rw [if_pos h1] at h; exact h
  · rename_i h1
    rw [if_neg h1] at h
    simp only [] at h ⊢
    cases hb : build_states n t (predict_num_states n t * chi_max (chi_size n)) fuel
        [[], [⟨0, 0, false⟩]] [] 0 with
    | none => rw [hb] at h; simp at h
    | some r =>
      rw [hb] at h
      rw [build_states_fuel_mono n t _ fuel _ _ _ r hb k]
      exact h

set_option maxRecDepth 1000000 in
theorem make_parametric_description_0_false :
    make_parametric_description 2 0 false = some description_0_false := by decide!

set_option maxRecDepth 1000000 in
theorem make_parametric_description_0_true :
    make_parametric_description 2 0 true = some description_0_true := by decide!

set_option maxRecDepth 1000000 in
theorem make_parametric_description_1_false :
    make_parametric_description 6 1 false = some description_1_false := by decide!

set_option maxRecDepth 1000000 in
theorem make_parametric_description_1_true :
    make_parametric_description 8 1 true = some description_1_true := by decide!

end irs

namespace irs

/-! ## The tables for distance 2, checked row by row -/

theorem position_eq_sound (a b : position) (h : position.eq a b = true) : a = b := by
  unfold position.eq at h
  simp only [Bool.and_eq_true, beq_iff_eq] at h
  cases a
  cases b
  simp only [position.mk.injEq]
  exact ⟨h.1.1, h.1.2, h.2⟩

theorem parametric_state_eq_sound : ∀ (a b : parametric_state),
    parametric_state.eq a b = true → a = b := by
  intro a
  induction a with
  | nil =>
    intro b h
    cases b with
    | nil => rfl
    | cons y ys => simp [parametric_state.eq] at h
  | cons x xs ih =>
    intro b h
    cases b with
    | nil => simp [parametric_state.eq] at h
    | cons y ys =>
      simp only [parametric_state.eq, Bool.and_eq_true] at h
      rw [position_eq_sound x y h.1, ih ys h.2]

theorem states_eq_sound : ∀ (a b : List parametric_state), states_eq a b = true → a = b := by
  intro a
  induction a with
  | nil =>
    intro b h
    cases b with
    | nil => rfl
    | cons y ys => simp [states_eq] at h
  | cons x xs ih =>
    intro b h
    cases b with
    | nil => simp [states_eq] at h
    | cons y ys =>
      simp only [states_eq, Bool.and_eq_true] at h
      rw [parametric_state_eq_sound x y h.1, ih ys h.2]

theorem transitions_eq_sound : ∀ (a b : List (Nat × Nat)), transitions_eq a b = true → a = b := by
  intro a
  induction a with
  | nil =>
    intro b h
    cases b with
    | nil => rfl
    | cons y ys => simp [transitions_eq] at h
  | cons x xs ih =>
    intro b h
    cases b with
    | nil => simp [transitions_eq] at h
    | cons y ys =>
      simp only [transitions_eq, Bool.and_eq_true] at h
      have h1 : x.1 = y.1 := Nat.eq_of_beq_eq_true h.1.1
      have h2 : x.2 = y.2 := Nat.eq_of_beq_eq_true h.1.2
      rw [ih ys h.2, Prod.ext h1 h2]

theorem check_row_sound (n : Nat) (t : Bool) (S : List parametric_state) (A rows : List Nat)
    (k : Nat) (h : check_row n t S A rows k = true) :
    build_row (S.getD k []) n t (List.range (chi_max (chi_size n))) (S.take (A.getD k 0)) [] =
      (S.take (A.getD (k + 1) 0),
        unpack_transitions (chi_max (chi_size n)) (rows.getD k 0)) := by
  unfold check_row at h
  simp only [Bool.and_eq_true] at h
  exact Prod.ext (states_eq_sound _ _ h.1) (transitions_eq_sound _ _ h.2)

theorem check_rows_elim (n : Nat) (t : Bool) (S : List parametric_state) (A rows : List Nat)
    (lo len : Nat) (h : check_rows n t S A rows lo len = true) (k : Nat) (h1 : lo ≤ k)
    (h2 : k < lo + len) : check_row n t S A rows k = true :=
  List.all_eq_true.mp h k (List.mem_range'_1.mpr ⟨h1, h2⟩)

theorem length_unpack_transitions : ∀ (k code : Nat), (unpack_transitions k code).length = k := by
  intro k
  induction k with
  | zero => intro code; rfl
  | succ k ih => intro code; simp [unpack_transitions, ih]

theorem length_flatMap_unpack (cm : Nat) : ∀ (rows : List Nat),
    (List.flatMap rows (unpack_transitions cm)).length = rows.length * cm := by
  intro rows
  induction rows with
  | nil => simp
  | cons r rs ih =>
    simp only [List.flatMap_cons, List.length_append, ih, length_unpack_transitions,
      List.length_cons]
    rw [Nat.add_mul, Nat.one_mul, Nat.add_comm]

theorem getD_take_of_lt (l : List parametric_state) (a k : Nat) (d : parametric_state)
    (h : k < a) : (l.take a).getD k d = l.getD k d := by
  rw [List.getD_eq_getElem?_getD, List.getD_eq_getElem?_getD, List.getElem?_take_of_lt h]

theorem take_succ_getD (rows : List Nat) (k : Nat) (h : k < rows.length) :
    rows.take (k + 1) = rows.take k ++ [rows.getD k 0] := by
  rw [List.take_succ, List.getD_eq_getElem?_getD, List.getElem?_eq_getElem h]
  rfl

theorem chi_max_pos (cs : Nat) : 0 < chi_max cs := by
  unfold chi_max
  rw [Nat.one_shiftLeft]
  exact Nat.two_pow_pos cs

/-- The outer loop of `make_parametric_description` on a table whose rows are checked. -/
theorem build_states_of_rows (n : Nat) (t : Bool) (S : List parametric_state)
    (A rows : List Nat)
    (hrow : ∀ k, k < rows.length → check_row n t S A rows k = true)
    (hA : ∀ k, k < rows.length → k < A.getD k 0 ∧ A.getD k 0 ≤ S.length) :
    ∀ (m k fuel : Nat), k + m = rows.length → 0 < m → m ≤ fuel →
      build_states n t (rows.length * chi_max (chi_size n)) fuel (S.take (A.getD k 0))
        (List.flatMap (rows.take k) (unpack_transitions (chi_max (chi_size n)))) k =
      some (S.take (A.getD rows.length 0),
        List.flatMap rows (unpack_transitions (chi_max (chi_size n)))) := by
  intro m
  induction m with
  | zero => intro k fuel _ h; omega
  | succ m ih =>
    intro k fuel hk _ hfuel
    obtain ⟨f, hf⟩ : ∃ f, fuel = f + 1 := ⟨fuel - 1, by omega⟩
    subst hf
    have hkR : k < rows.length := by omega
    obtain ⟨hA1, hA2⟩ := hA k hkR
    have hlen : (S.take (A.getD k 0)).length = A.getD k 0 := by
      rw [List.length_take]
      omega
    have hsrc : (S.take (A.getD k 0)).getD k [] = S.getD k [] :=
      getD_take_of_lt S _ k [] hA1
    have hbr := check_row_sound n t S A rows k (hrow k hkR)
    have htake : rows.take (k + 1) = rows.take k ++ [rows.getD k 0] :=
      take_succ_getD rows k hkR
    have htr : List.flatMap (rows.take k) (unpack_transitions (chi_max (chi_size n))) ++
        unpack_transitions (chi_max (chi_size n)) (rows.getD k 0) =
        List.flatMap (rows.take (k + 1)) (unpack_transitions (chi_max (chi_size n))) := by
      rw [htake, List.flatMap_append]
      simp
    have hcm := chi_max_pos (chi_size n)
    unfold build_states
    rw [if_neg (by rw [hlen]; omega)]
    simp only [hsrc, hbr, htr]
    have hl : (List.flatMap (rows.take (k + 1))
        (unpack_transitions (chi_max (chi_size n)))).length =
        (k + 1) * chi_max (chi_size n) := by
      rw [length_flatMap_unpack, List.length_take]
      congr 1
      omega
    by_cases hlast : m = 0
    · have hk1 : k + 1 = rows.length := by omega
      have hcond : rows.length * chi_max (chi_size n) ≠ 0 ∧
          (List.flatMap (rows.take (k + 1))
            (unpack_transitions (chi_max (chi_size n)))).length =
            rows.length * chi_max (chi_size n) := by
        rw [hl, hk1]
        exact ⟨Nat.mul_ne_zero (by omega) (by omega), rfl⟩
      rw [if_pos hcond, hk1, List.take_length]
    · have hcond : ¬ (rows.length * chi_max (chi_size n) ≠ 0 ∧
          (List.flatMap (rows.take (k + 1))
            (unpack_transitions (chi_max (chi_size n)))).length =
            rows.length * chi_max (chi_size n)) := by
        rw [hl]
        intro h
        have := Nat.eq_of_mul_eq_mul_right hcm h.2
        omega
      rw [if_neg hcond]
      exact ih (k + 1) f (by omega) (by omega) (by omega)

/-- The function `make_parametric_description` on a table whose rows are checked. -/
theorem make_parametric_description_of_rows (n : Nat) (t : Bool) (S : List parametric_state)
    (A rows : List Nat) (hn : n ≤ MAX_DISTANCE)
    (hp : predict_num_states n t = rows.length) (hR : 0 < rows.length)
    (h0 : S.take (A.getD 0 0) = [[], [⟨0, 0, false⟩]])
    (hrow : ∀ k, k < rows.length → check_row n t S A rows k = true)
    (hA : ∀ k, k < rows.length → k < A.getD k 0 ∧ A.getD k 0 ≤ S.length)
    (fuel : Nat) (hfuel : rows.length ≤ fuel) :
    make_parametric_description fuel n t =
      some (parametric_description.mk'
        (List.flatMap rows (unpack_transitions (chi_max (chi_size n))))
        (distance_table (S.take (A.getD rows.length 0)) n) n) := by
  have h := build_states_of_rows n t S A rows hrow hA rows.length 0 fuel (by omega) hR hfuel
  rw [h0] at h
  simp only [List.take_zero, List.flatMap_nil] at h
  unfold make_parametric_description
  rw [if_neg (by omega), hp]
  simp only [h]

end irs

namespace irs

set_option maxRecDepth 1000000 in
theorem rows_2_false_from_0 :
    check_rows 2 false states_2_false known_2_false rows_2_false 0 8 = true := by decide!

set_option maxRecDepth 1000000 in
theorem rows_2_false_from_8 :
    check_rows 2 false states_2_false known_2_false rows_2_false 8 8 = true := by decide!

set_option maxRecDepth 1000000 in
theorem rows_2_false_from_16 :
    check_rows 2 false states_2_false known_2_false rows_2_false 16 8 = true := by decide!

set_option maxRecDepth 1000000 in
theorem rows_2_false_from_24 :
    check_rows 2 false states_2_false known_2_false rows_2_false 24 7 = true := by decide!

theorem rows_2_false_checked (k : Nat) (h : k < rows_2_false.length) :
    check_row 2 false states_2_false known_2_false rows_2_false k = true := by
  have hR : rows_2_false.length = 31 := by decide
  rw [hR] at h
  by_cases h0 : k < 8
  · exact check_rows_elim _ _ _ _ _ 0 8 rows_2_false_from_0 k (by omega) (by omega)
  by_cases h1 : k < 16
  · exact check_rows_elim _ _ _ _ _ 8 8 rows_2_false_from_8 k (by omega) (by omega)
  by_cases h2 : k < 24
  · exact check_rows_elim _ _ _ _ _ 16 8 rows_2_false_from_16 k (by omega) (by omega)
  exact check_rows_elim _ _ _ _ _ 24 7 rows_2_false_from_24 k (by omega) (by omega)

set_option maxRecDepth 1000000 in
theorem known_2_false_bounds : ∀ k, k < rows_2_false.length →
    k < known_2_false.getD k 0 ∧ known_2_false.getD k 0 ≤ states_2_false.length := by decide!

set_option maxRecDepth 1000000 in
theorem table_2_false_eq :
    parametric_description.mk'
      (List.flatMap rows_2_false (unpack_transitions (chi_max (chi_size 2))))
      (distance_table (states_2_false.take (known_2_false.getD rows_2_false.length 0)) 2) 2 =
    description_2_false := by decide!

theorem make_parametric_description_2_false :
    make_parametric_description 31 2 false = some description_2_false := by
  rw [make_parametric_description_of_rows 2 false states_2_false known_2_false rows_2_false (by decide)
    (by decide) (by decide) (by decide) rows_2_false_checked known_2_false_bounds 31 (by decide),
    table_2_false_eq]

set_option maxRecDepth 1000000 in
theorem rows_2_true_from_0 :
    check_rows 2 true states_2_true known_2_true rows_2_true 0 4 = true := by decide!

set_option maxRecDepth 1000000 in
theorem rows_2_true_from_4 :
    check_rows 2 true states_2_true known_2_true rows_2_true 4 4 = true := by decide!

set_option maxRecDepth 1000000 in
theorem rows_2_true_from_8 :
    check_rows 2 true states_2_true known_2_true rows_2_true 8 4 = true := by decide!

set_option maxRecDepth 1000000 in
theorem rows_2_true_from_12 :
    check_rows 2 true states_2_true known_2_true rows_2_true 12 4 = true := by decide!

set_option maxRecDepth 1000000 in
theorem rows_2_true_from_16 :
    check_rows 2 true states_2_true known_2_true rows_2_true 16 4 = true := by decide!

set_option maxRecDepth 1000000 in
theorem rows_2_true_from_20 :
    check_rows 2 true states_2_true known_2_true rows_2_true 20 4 = true := by decide!

set_option maxRecDepth 1000000 in
theorem rows_2_true_from_24 :
    check_rows 2 true states_2_true known_2_true rows_2_true 24 4 = true := by decide!

set_option maxRecDepth 1000000 in
theorem rows_2_true_from_28 :
    check_rows 2 true states_2_true known_2_true rows_2_true 28 4 = true := by decide!

set_option maxRecDepth 1000000 in
theorem rows_2_true_from_32 :
    check_rows 2 true states_2_true known_2_true rows_2_true 32 4 = true := by decide!

set_option maxRecDepth 1000000 in
theorem rows_2_true_from_36 :
    check_rows 2 true states_2_true known_2_true rows_2_true 36 4 = true := by decide!

set_option maxRecDepth 1000000 in
theorem rows_2_true_from_40 :
    check_rows 2 true states_2_true known_2_true rows_2_true 40 4 = true := by decide!

set_option maxRecDepth 1000000 in
theorem rows_2_true_from_44 :
    check_rows 2 true states_2_true known_2_true rows_2_true 44 4 = true := by decide!

set_option maxRecDepth 1000000 in
theorem rows_2_true_from_48 :
    check_rows 2 true states_2_true known_2_true rows_2_true 48 4 = true := by decide!

set_option maxRecDepth 1000000 in
theorem rows_2_true_from_52 :
    check_rows 2 true states_2_true known_2_true rows_2_true 52 4 = true := by decide!

set_option maxRecDepth 1000000 in
theorem rows_2_true_from_56 :
    check_rows 2 true states_2_true known_2_true rows_2_true 56 4 = true := by decide!

set_option maxRecDepth 1000000 in
theorem rows_2_true_from_60 :
    check_rows 2 true states_2_true known_2_true rows_2_true 60 4 = true := by decide!

set_option maxRecDepth 1000000 in
theorem rows_2_true_from_64 :
    check_rows 2 true states_2_true known_2_true rows_2_true 64 4 = true := by decide!

theorem rows_2_true_checked (k : Nat) (h : k < rows_2_true.length) :
    check_row 2 true states_2_true known_2_true rows_2_true k = true := by
  have hR : rows_2_true.length = 68 := by decide
  rw [hR] at h
  by_cases h0 : k < 4
  · exact check_rows_elim _ _ _ _ _ 0 4 rows_2_true_from_0 k (by omega) (by omega)
  by_cases h1 : k < 8
  · exact check_rows_elim _ _ _ _ _ 4 4 rows_2_true_from_4 k (by omega) (by omega)
  by_cases h2 : k < 12
  · exact check_rows_elim _ _ _ _ _ 8 4 rows_2_true_from_8 k (by omega) (by omega)
  by_cases h3 : k < 16
  · exact check_rows_elim _ _ _ _ _ 12 4 rows_2_true_from_12 k (by omega) (by omega)
  by_cases h4 : k < 20
  · exact check_rows_elim _ _ _ _ _ 16 4 rows_2_true_from_16 k (by omega) (by omega)
  by_cases h5 : k < 24
  · exact check_rows_elim _ _ _ _ _ 20 4 rows_2_true_from_20 k (by omega) (by omega)
  by_cases h6 : k < 28
  · exact check_rows_elim _ _ _ _ _ 24 4 rows_2_true_from_24 k (by omega) (by omega)
  by_cases h7 : k < 32
  · exact check_rows_elim _ _ _ _ _ 28 4 rows_2_true_from_28 k (by omega) (by omega)
  by_cases h8 : k < 36
  · exact check_rows_elim _ _ _ _ _ 32 4 rows_2_true_from_32 k (by omega) (by omega)
  by_cases h9 : k < 40
  · exact check_rows_elim _ _ _ _ _ 36 4 rows_2_true_from_36 k (by omega) (by omega)
  by_cases h10 : k < 44
  · exact check_rows_elim _ _ _ _ _ 40 4 rows_2_true_from_40 k (by omega) (by omega)
  by_cases h11 : k < 48
  · exact check_rows_elim _ _ _ _ _ 44 4 rows_2_true_from_44 k (by omega) (by omega)
  by_cases h12 : k < 52
  · exact check_rows_elim _ _ _ _ _ 48 4 rows_2_true_from_48 k (by omega) (by omega)
  by_cases h13 : k < 56
  · exact check_rows_elim _ _ _ _ _ 52 4 rows_2_true_from_52 k (by omega) (by omega)
  by_cases h14 : k < 60
  · exact check_rows_elim _ _ _ _ _ 56 4 rows_2_true_from_56 k (by omega) (by omega)
  by_cases h15 : k < 64
  · exact check_rows_elim _ _ _ _ _ 60 4 rows_2_true_from_60 k (by omega) (by omega)
  exact check_rows_elim _ _ _ _ _ 64 4 rows_2_true_from_64 k (by omega) (by omega)

set_option maxRecDepth 1000000 in
theorem known_2_true_bounds : ∀ k, k < rows_2_true.length →
    k < known_2_true.getD k 0 ∧ known_2_true.getD k 0 ≤ states_2_true.length := by decide!

set_option maxRecDepth 1000000 in
theorem table_2_true_eq :
    parametric_description.mk'
      (List.flatMap rows_2_true (unpack_transitions (chi_max (chi_size 2))))
      (distance_table (states_2_true.take (known_2_true.getD rows_2_true.length 0)) 2) 2 =
    description_2_true := by decide!

theorem make_parametric_description_2_true :
    make_parametric_description 68 2 true = some description_2_true := by
  rw [make_parametric_description_of_rows 2 true states_2_true known_2_true rows_2_true (by decide)
    (by decide) (by decide) (by decide) rows_2_true_checked known_2_true_bounds 68 (by decide),
    table_2_true_eq]

end irs

namespace irs

/-! ## C9: the number of states for `max_distance <= 2` -/

theorem description_facts_of_table (fuel n : Nat) (t : Bool) (d : parametric_description)
    (p k : Nat) (hp : fuel = p + k) (htable : make_parametric_description p n t = some d)
    (h1 : d.num_states = [2, 2, 6, 8, 31, 68].getD (2 * n + (if t then 1 else 0)) 0)
    (h2 : d.transitions.length = d.num_states * 2 ^ (2 * n + 1))
    (h3 : d.distances.length = d.num_states * (2 * n + 1))
    (h4 : ∀ tr ∈ d.transitions, tr.1 < d.num_states) :
    ∃ d, make_parametric_description fuel n t = some d ∧
      d.num_states = [2, 2, 6, 8, 31, 68].getD (2 * n + (if t then 1 else 0)) 0 ∧
      d.transitions.length = d.num_states * 2 ^ (2 * n + 1) ∧
      d.distances.length = d.num_states * (2 * n + 1) ∧
      ∀ tr ∈ d.transitions, tr.1 < d.num_states := by
  subst hp
  exact ⟨d, make_parametric_description_fuel_mono p n t d htable k, h1, h2, h3, h4⟩

/-- C9: for `max_distance` in {0, 1, 2}, with and without transpositions, and every bound
on the iterations of the state loop that is at least the predicted number of states,
`make_parametric_description` returns a description with 2, 2, 6, 8, 31, 68 states
respectively, with `num_states * 2^(2*max_distance+1)` transitions and
`num_states * (2*max_distance+1)` distance entries, and every recorded `next_state` is
smaller than the number of states. -/
theorem make_parametric_description_small (max_distance : Nat) (with_transpositions : Bool)
    (fuel : Nat) (hn : max_distance ≤ 2)
    (hfuel : predict_num_states max_distance with_transpositions ≤ fuel) :
    ∃ d, make_parametric_description fuel max_distance with_transpositions = some d ∧
      d.num_states =
        [2, 2, 6, 8, 31, 68].getD
          (2 * max_distance + (if with_transpositions then 1 else 0)) 0 ∧
      d.transitions.length = d.num_states * 2 ^ (2 * max_distance + 1) ∧
      d.distances.length = d.num_states * (2 * max_distance + 1) ∧
      ∀ tr ∈ d.transitions, tr.1 < d.num_states := by
  have h0 : max_distance = 0 ∨ max_distance = 1 ∨ max_distance = 2 := by omega
  rcases h0 with h | h | h <;> subst h <;> cases with_transpositions
  · exact description_facts_of_table fuel 0 false description_0_false 2 (fuel - 2)
      (by simp [predict_num_states, NUM_STATES] at hfuel; omega)
      make_parametric_description_0_false (by decide) (by decide) (by decide) (by decide)
  · exact description_facts_of_table fuel 0 true description_0_true 2 (fuel - 2)
      (by simp [predict_num_states, NUM_STATES] at hfuel; omega)
      make_parametric_description_0_true (by decide) (by decide) (by decide) (by decide)
  · exact description_facts_of_table fuel 1 false description_1_false 6 (fuel - 6)
      (by simp [predict_num_states, NUM_STATES] at hfuel; omega)
      make_parametric_description_1_false (by decide) (by decide) (by decide) (by decide)
  · exact description_facts_of_table fuel 1 true description_1_true 8 (fuel - 8)
      (by simp [predict_num_states, NUM_STATES] at hfuel; omega)
      make_parametric_description_1_true (by decide) (by decide) (by decide) (by decide)
  · exact description_facts_of_table fuel 2 false description_2_false 31 (fuel - 31)
      (by simp [predict_num_states, NUM_STATES] at hfuel; omega)
      make_parametric_description_2_false (by decide) (by decide!) (by decide!) (by decide!)
  · exact description_facts_of_table fuel 2 true description_2_true 68 (fuel - 68)
      (by simp [predict_num_states, NUM_STATES] at hfuel; omega)
      make_parametric_description_2_true (by decide) (by decide!) (by decide!) (by decide!)

theorem make_parametric_description_small_witness :
    ∃ d, make_parametric_description 68 2 true = some d ∧
      d.num_states = [2, 2, 6, 8, 31, 68].getD (2 * 2 + (if true = true then 1 else 0)) 0 ∧
      d.transitions.length = d.num_states * 2 ^ (2 * 2 + 1) ∧
      d.distances.length = d.num_states * (2 * 2 + 1) ∧
      ∀ tr ∈ d.transitions, tr.1 < d.num_states :=
  make_parametric_description_small 2 true 68 (by decide) (by decide)

end irs

namespace irs

/-! ## C5: `read` inverts `write` -/

theorem read_varint_write_varint (n : Nat) (rest : List Nat) :
    read_varint (write_varint n ++ rest) = some (n, rest) := by
  induction n using Nat.strong_induction_on with
  | _ n ih =>
    unfold write_varint
    split
    · rename_i h
      simp [read_varint, h]
    · rename_i h
      have h1 : ¬ (n % 128 + 128 < 128) := by omega
      have h2 := ih (n / 128) (by omega)
      have h3 : (n % 128 + 128) % 128 + 128 * (n / 128) = n := by omega
      rw [List.cons_append, read_varint, if_neg h1, h2]
      simp only [h3]

theorem zig_zag_decode32_encode32 (v : Nat) (hv : v < 2 ^ 32) :
    zig_zag_decode32 (zig_zag_encode32 v) = v := by
  unfold zig_zag_decode32 zig_zag_encode32
  have e32 : (2 : Nat) ^ 32 = 4294967296 := by norm_num
  have e31 : (2 : Nat) ^ 31 = 2147483648 := by norm_num
  rw [e32] at hv ⊢
  rw [e31]
  split
  · rename_i h
    have : 2 * v % 2 = 0 := by omega
    rw [if_pos this]
    omega
  · rename_i h
    have : ¬ ((2 * (4294967296 - v) - 1) % 2 = 0) := by omega
    rw [if_neg this]
    omega

theorem read_zvint_write_zvint (v : Nat) (hv : v < 2 ^ 32) (rest : List Nat) :
    read_zvint (write_zvint v ++ rest) = some (v, rest) := by
  unfold read_zvint write_zvint
  rw [read_varint_write_varint]
  simp [zig_zag_decode32_encode32 v hv]

theorem sub_u32_lt (a b : Nat) : sub_u32 a b < 2 ^ 32 := by
  unfold sub_u32
  exact Nat.mod_lt _ (by norm_num)

theorem add_u32_sub_u32 (x last : Nat) (hx : x < 2 ^ 32) (_hl : last < 2 ^ 32) :
    add_u32 last (sub_u32 x last) = x := by
  unfold add_u32 sub_u32
  have e32 : (2 : Nat) ^ 32 = 4294967296 := by norm_num
  rw [e32] at hx ⊢
  omega

theorem read_transitions_write_transitions (l : List (Nat × Nat)) :
    ∀ (a b : Nat) (rest : List Nat), a < 2 ^ 32 → b < 2 ^ 32 →
      (∀ tr ∈ l, tr.1 < 2 ^ 32 ∧ tr.2 < 2 ^ 32) →
      read_transitions l.length (write_transitions l a b ++ rest) a b = some (l, rest) := by
  induction l with
  | nil => intro a b rest _ _ _; simp [read_transitions, write_transitions]
  | cons tr l ih =>
    intro a b rest ha hb hl
    have htr := hl tr (List.mem_cons_self _ _)
    have hl' : ∀ tr' ∈ l, tr'.1 < 2 ^ 32 ∧ tr'.2 < 2 ^ 32 :=
      fun tr' h => hl tr' (List.mem_cons_of_mem _ h)
    simp only [write_transitions, List.length_cons, read_transitions, List.append_assoc]
    rw [read_zvint_write_zvint _ (sub_u32_lt _ _)]
    simp only []
    rw [read_zvint_write_zvint _ (sub_u32_lt _ _)]
    simp only []
    rw [add_u32_sub_u32 _ _ htr.1 ha, add_u32_sub_u32 _ _ htr.2 hb]
    rw [ih tr.1 tr.2 rest htr.1 htr.2 hl']

theorem read_write_append (d : parametric_description) (rest : List Nat)
    (h : ∀ tr ∈ d.transitions, tr.1 < 2 ^ 32 ∧ tr.2 < 2 ^ 32) :
    read (write d ++ rest) =
      some (parametric_description.mk' d.transitions d.distances d.max_distance, rest) := by
  unfold write read
  simp only [List.singleton_append, List.cons_append, List.append_assoc, List.nil_append]
  rw [read_varint_write_varint]
  simp only []
  rw [read_transitions_write_transitions d.transitions 0 0 _ (by norm_num) (by norm_num) h]
  simp only []
  rw [read_varint_write_varint]
  simp [read_bytes]

/-- C5: for every parametric description whose transition fields are 32-bit values (as
the type `transition_t` makes them, in particular for the description built for
`max_distance = 3` without transpositions), `read` applied to the bytes produced by
`write` consumes them all and yields a description with the same `max_distance`, the same
sequence of `(next_state, offset_shift)` transitions and the same distance bytes; the
delta and zigzag encoding loses nothing, whatever the sign of a delta. -/
theorem read_write_roundtrip (d : parametric_description)
    (h : ∀ tr ∈ d.transitions, tr.1 < 2 ^ 32 ∧ tr.2 < 2 ^ 32) :
    ∃ d', read (write d) = some (d', []) ∧
      d'.max_distance = d.max_distance ∧
      d'.transitions = d.transitions ∧
      d'.distances = d.distances := by
  refine ⟨parametric_description.mk' d.transitions d.distances d.max_distance, ?_, rfl, rfl, rfl⟩
  have := read_write_append d [] h
  simpa using this

theorem read_write_roundtrip_witness :
    (∀ tr ∈ description_1_true.transitions, tr.1 < 2 ^ 32 ∧ tr.2 < 2 ^ 32) ∧
    ∃ d', read (write description_1_true) = some (d', []) ∧
      d'.max_distance = description_1_true.max_distance ∧
      d'.transitions = description_1_true.transitions ∧
      d'.distances = description_1_true.distances :=
  ⟨by decide, read_write_roundtrip description_1_true (by decide)⟩

end irs

namespace irs

/-! ## C10: the constructor of `conjunction` -/

theorem conjunction_make_perm (itrs : List doc_iterator) :
    (conjunction.make itrs).itrs_.Perm itrs :=
  List.perm_insertionSort _ itrs

theorem conjunction_make_sorted (itrs : List doc_iterator) :
    (conjunction.make itrs).itrs_.Sorted cost_le :=
  List.sorted_insertionSort cost_le itrs

theorem conjunction_make_front (itrs : List doc_iterator) (h : itrs ≠ []) :
    ∃ front tail, (conjunction.make itrs).itrs_ = front :: tail ∧ front ∈ itrs ∧
      ∀ it ∈ itrs, cost.extract front ≤ cost.extract it := by
  have hp := conjunction_make_perm itrs
  have hs := conjunction_make_sorted itrs
  cases hc : (conjunction.make itrs).itrs_ with
  | nil =>
    rw [hc] at hp
    exact absurd (List.Perm.eq_nil hp.symm) h
  | cons front tail =>
    rw [hc] at hp hs
    refine ⟨front, tail, rfl, hp.subset (List.mem_cons_self _ _), ?_⟩
    intro it hit
    have hit' : it ∈ front :: tail := hp.symm.subset hit
    rcases List.mem_cons.mp hit' with h1 | h1
    · rw [h1]
    · exact List.rel_of_sorted_cons hs it h1

/-- C10: after the construction of a conjunction over at least one child, the stored
children are a permutation of the input in ascending order of their cost estimate, the
lead is a child of minimal cost, and the cost of the conjunction is the minimum of the
costs of the children: it is the cost of one of them and at most the cost of each. -/
theorem conjunction_make_cost (itrs : List doc_iterator) (h : 1 ≤ itrs.length) :
    (conjunction.make itrs).itrs_.Perm itrs ∧
    (conjunction.make itrs).itrs_.Sorted (fun lhs rhs => cost.extract lhs ≤ cost.extract rhs) ∧
    (∃ front tail, (conjunction.make itrs).itrs_ = front :: tail ∧ front ∈ itrs ∧
      ∀ it ∈ itrs, cost.extract front ≤ cost.extract it) ∧
    (∃ it ∈ itrs, (conjunction.make itrs).cost = cost.extract it) ∧
    ∀ it ∈ itrs, (conjunction.make itrs).cost ≤ cost.extract it := by
  have hne : itrs ≠ [] := by
    intro h0; rw [h0] at h; simp at h
  obtain ⟨front, tail, hc, hmem, hmin⟩ := conjunction_make_front itrs hne
  refine ⟨conjunction_make_perm itrs, conjunction_make_sorted itrs,
    ⟨front, tail, hc, hmem, hmin⟩, ⟨front, hmem, ?_⟩, ?_⟩
  · simp [conjunction.cost, hc]
  · intro it hit
    simp only [conjunction.cost, hc]
    exact hmin it hit

theorem conjunction_make_cost_witness :
    1 ≤ [scenario_A, scenario_B].length ∧
    ((conjunction.make [scenario_A, scenario_B]).itrs_.Perm [scenario_A, scenario_B] ∧
    (conjunction.make [scenario_A, scenario_B]).itrs_.Sorted
      (fun lhs rhs => cost.extract lhs ≤ cost.extract rhs) ∧
    (∃ front tail, (conjunction.make [scenario_A, scenario_B]).itrs_ = front :: tail ∧
      front ∈ [scenario_A, scenario_B] ∧
      ∀ it ∈ [scenario_A, scenario_B], cost.extract front ≤ cost.extract it) ∧
    (∃ it ∈ [scenario_A, scenario_B],
      (conjunction.make [scenario_A, scenario_B]).cost = cost.extract it) ∧
    ∀ it ∈ [scenario_A, scenario_B],
      (conjunction.make [scenario_A, scenario_B]).cost ≤ cost.extract it) :=
  ⟨by decide, conjunction_make_cost [scenario_A, scenario_B] (by decide)⟩

end irs

namespace irs

/-! ## C3, C4: the conjunction produces the intersection -/

theorem doc_limits_eof_eq : doc_limits.eof = 4294967295 := by
  unfold doc_limits.eof; norm_num

theorem find_ge_spec (docs : List Nat) (hs : docs.Pairwise (fun a b => a < b)) (t d : Nat)
    (h : docs.find? (fun x => decide (t ≤ x)) = some d) :
    d ∈ docs ∧ t ≤ d ∧ ∀ x ∈ docs, t ≤ x → d ≤ x := by
  induction docs with
  | nil => simp at h
  | cons a l ih =>
    rw [List.find?_cons] at h
    rw [List.pairwise_cons] at hs
    by_cases hta : t ≤ a
    · simp only [hta, decide_True] at h
      have hd : a = d := by simpa using h
      subst hd
      refine ⟨List.mem_cons_self _ _, hta, ?_⟩
      intro x hx _
      rcases List.mem_cons.mp hx with h1 | h1
      · omega
      · exact Nat.le_of_lt (hs.1 x h1)
    · simp only [hta, decide_False] at h
      obtain ⟨h1, h2, h3⟩ := ih hs.2 h
      refine ⟨List.mem_cons_of_mem _ h1, h2, ?_⟩
      intro x hx htx
      rcases List.mem_cons.mp hx with h4 | h4
      · subst h4; exact absurd htx hta
      · exact h3 x h4 htx

theorem find_ge_none (docs : List Nat) (t : Nat)
    (h : docs.find? (fun x => decide (t ≤ x)) = none) : ∀ x ∈ docs, ¬ t ≤ x := by
  intro x hx
  have := List.find?_eq_none.mp h x hx
  simpa using this

theorem find_gt_spec (docs : List Nat) (hs : docs.Pairwise (fun a b => a < b)) (v d : Nat)
    (h : docs.find? (fun x => decide (v < x)) = some d) :
    d ∈ docs ∧ v < d ∧ ∀ x ∈ docs, v < x → d ≤ x := by
  have h' : docs.find? (fun x => decide (v + 1 ≤ x)) = some d := by
    have e : (fun x => decide (v < x)) = (fun x => decide (v + 1 ≤ x)) := by
      funext x; simp [Nat.lt_iff_add_one_le]
    rw [← e]; exact h
  obtain ⟨h1, h2, h3⟩ := find_ge_spec docs hs (v + 1) d h'
  exact ⟨h1, h2, fun x hx hv => h3 x hx hv⟩

theorem find_gt_none (docs : List Nat) (v : Nat)
    (h : docs.find? (fun x => decide (v < x)) = none) : ∀ x ∈ docs, ¬ v < x := by
  intro x hx
  have := List.find?_eq_none.mp h x hx
  simpa using this

/-- What `seek` does to a well-behaved iterator. -/
theorem doc_iterator.seek_spec (it : doc_iterator) (hw : it.well_behaved) (t : Nat)
    (ht : t ≤ doc_limits.eof) :
    (it.seek t).1.docs = it.docs ∧ (it.seek t).1.cost = it.cost ∧
    (it.seek t).1.value = (it.seek t).2 ∧
    t ≤ (it.seek t).2 ∧ it.value ≤ (it.seek t).2 ∧
    (∀ d ∈ it.docs, t ≤ d → it.value ≤ d → (it.seek t).2 ≤ d) ∧
    (it.seek t).1.well_behaved ∧
    (doc_limits.min ≤ t → (it.seek t).2 ∈ it.docs ∨ (it.seek t).2 = doc_limits.eof) ∧
    (t ≤ it.value → it.seek t = (it, it.value)) := by
  obtain ⟨hs, hr, hv⟩ := hw
  by_cases h : t ≤ it.value
  · have e : it.seek t = (it, it.value) := by unfold doc_iterator.seek; rw [if_pos h]
    rw [e]
    refine ⟨rfl, rfl, rfl, h, Nat.le_refl _, fun d _ _ h2 => h2, ⟨hs, hr, hv⟩, ?_, fun _ => rfl⟩
    intro h1
    rcases hv with h2 | h2 | h2
    · simp only [doc_limits.min, doc_limits.invalid] at h1 h2; omega
    · exact Or.inl h2
    · exact Or.inr h2
  · cases hf : it.docs.find? (fun d => decide (t ≤ d)) with
    | none =>
      have hn := find_ge_none it.docs t hf
      have e : it.seek t = ({ it with value := doc_limits.eof }, doc_limits.eof) := by
        unfold doc_iterator.seek; rw [if_neg h, hf]
      rw [e]
      refine ⟨rfl, rfl, rfl, ht, by omega, ?_, ⟨hs, hr, Or.inr (Or.inr rfl)⟩, fun _ => Or.inr rfl,
        fun h1 => absurd h1 h⟩
      intro d hd htd _
      exact absurd htd (hn d hd)
    | some d =>
      obtain ⟨h1, h2, h3⟩ := find_ge_spec it.docs hs t d hf
      have e : it.seek t = ({ it with value := d }, d) := by
        unfold doc_iterator.seek; rw [if_neg h, hf]
      rw [e]
      refine ⟨rfl, rfl, rfl, h2, by omega, fun x hx htx _ => h3 x hx htx,
        ⟨hs, hr, Or.inr (Or.inl h1)⟩, fun _ => Or.inl h1, fun h1 => absurd h1 h⟩

/-- What `next` does to a well-behaved iterator. -/
theorem doc_iterator.next_spec (it : doc_iterator) (hw : it.well_behaved) :
    it.next.1.docs = it.docs ∧ it.next.1.cost = it.cost ∧ it.next.1.well_behaved ∧
    (it.next.2 = true → it.value < it.next.1.value ∧ it.next.1.value ∈ it.docs ∧
      ∀ d ∈ it.docs, it.value < d → it.next.1.value ≤ d) ∧
    (it.next.2 = false → it.next.1.value = doc_limits.eof ∧ ∀ d ∈ it.docs, ¬ it.value < d) := by
  obtain ⟨hs, hr, hv⟩ := hw
  cases hf : it.docs.find? (fun d => decide (it.value < d)) with
  | none =>
    have hn := find_gt_none it.docs it.value hf
    have e : it.next = ({ it with value := doc_limits.eof }, false) := by
      unfold doc_iterator.next; rw [hf]
    rw [e]
    exact ⟨rfl, rfl, ⟨hs, hr, Or.inr (Or.inr rfl)⟩, fun h => by simp at h, fun _ => ⟨rfl, hn⟩⟩
  | some d =>
    obtain ⟨h1, h2, h3⟩ := find_gt_spec it.docs hs it.value d hf
    have e : it.next = ({ it with value := d }, true) := by
      unfold doc_iterator.next; rw [hf]
    rw [e]
    exact ⟨rfl, rfl, ⟨hs, hr, Or.inr (Or.inl h1)⟩, fun _ => ⟨h2, h1, h3⟩, fun h => by simp at h⟩

theorem common_iff_map (l : List doc_iterator) (d : Nat) :
    common l d ↔ ∀ ds ∈ l.map (fun it => it.docs), d ∈ ds := by
  unfold common
  constructor
  · intro h ds hds
    obtain ⟨it, hit, e⟩ := List.mem_map.mp hds
    rw [← e]; exact h it hit
  · intro h it hit
    exact h it.docs (List.mem_map.mpr ⟨it, hit, rfl⟩)

theorem common_congr (l l' : List doc_iterator)
    (h : l'.map (fun it => it.docs) = l.map (fun it => it.docs)) (d : Nat) :
    common l' d ↔ common l d := by
  rw [common_iff_map, common_iff_map, h]

theorem seek_rest_fixed (tail : List doc_iterator) (target : Nat)
    (h : ∀ it ∈ tail, it.value = target) : seek_rest tail target = (tail, target) := by
  induction tail with
  | nil => rfl
  | cons it its ih =>
    have h1 : it.value = target := h it (List.mem_cons_self _ _)
    have e : it.seek target = (it, it.value) := by
      unfold doc_iterator.seek; rw [if_pos (by omega)]
    unfold seek_rest
    simp only [e]
    rw [if_neg (by omega), ih (fun x hx => h x (List.mem_cons_of_mem _ hx))]

/-- What `seek_rest` does to well-behaved iterators that are not ahead of the target. -/
theorem seek_rest_spec (tail : List doc_iterator) (target : Nat)
    (hw : ∀ it ∈ tail, it.well_behaved) (hv : ∀ it ∈ tail, it.value ≤ target)
    (hmin : doc_limits.min ≤ target) (heof : target < doc_limits.eof) :
    (seek_rest tail target).1.map (fun it => it.docs) = tail.map (fun it => it.docs) ∧
    (∀ it ∈ (seek_rest tail target).1, it.well_behaved) ∧
    target ≤ (seek_rest tail target).2 ∧
    (∀ it ∈ (seek_rest tail target).1, it.value ≤ (seek_rest tail target).2) ∧
    ((seek_rest tail target).2 = target →
      ∀ it ∈ (seek_rest tail target).1, it.value = target ∧ target ∈ it.docs) ∧
    (target < (seek_rest tail target).2 →
      ∃ it ∈ tail, ∀ d ∈ it.docs, target ≤ d → (seek_rest tail target).2 ≤ d) := by
  induction tail with
  | nil =>
    refine ⟨rfl, ?_, Nat.le_refl _, ?_, ?_, ?_⟩
    · intro it hit; simp [seek_rest] at hit
    · intro it hit; simp [seek_rest] at hit
    · intro _ it hit; simp [seek_rest] at hit
    · intro h; simp [seek_rest] at h
  | cons it its ih =>
    have hwi := hw it (List.mem_cons_self _ _)
    have hvi := hv it (List.mem_cons_self _ _)
    obtain ⟨s1, _, s3, s4, _, s6, s7, s8, _⟩ := doc_iterator.seek_spec it hwi target (Nat.le_of_lt heof)
    obtain ⟨i1, i2, i3, i4, i5, i6⟩ := ih (fun x hx => hw x (List.mem_cons_of_mem _ hx))
      (fun x hx => hv x (List.mem_cons_of_mem _ hx))
    by_cases hlt : target < (it.seek target).2
    · have e : seek_rest (it :: its) target = ((it.seek target).1 :: its, (it.seek target).2) := by
        simp only [seek_rest]; rw [if_pos hlt]
      rw [e]
      refine ⟨?_, ?_, s4, ?_, ?_, ?_⟩
      · simp [s1]
      · intro x hx
        rcases List.mem_cons.mp hx with h1 | h1
        · rw [h1]; exact s7
        · exact hw x (List.mem_cons_of_mem _ h1)
      · intro x hx
        rcases List.mem_cons.mp hx with h1 | h1
        · rw [h1]; exact Nat.le_of_eq s3
        · have := hv x (List.mem_cons_of_mem _ h1)
          show x.value ≤ (it.seek target).2
          omega
      · intro h1
        have h2 : (it.seek target).2 = target := h1
        omega
      · intro _
        refine ⟨it, List.mem_cons_self _ _, ?_⟩
        intro d hd htd
        exact s6 d hd htd (by omega)
    · have e : seek_rest (it :: its) target =
          ((it.seek target).1 :: (seek_rest its target).1, (seek_rest its target).2) := by
        simp only [seek_rest]; rw [if_neg hlt]
      rw [e]
      have hval : (it.seek target).1.value = target := by omega
      refine ⟨?_, ?_, i3, ?_, ?_, ?_⟩
      · simp [s1, i1]
      · intro x hx
        rcases List.mem_cons.mp hx with h1 | h1
        · rw [h1]; exact s7
        · exact i2 x h1
      · intro x hx
        rcases List.mem_cons.mp hx with h1 | h1
        · rw [h1, hval]; exact i3
        · exact i4 x h1
      · intro h1 x hx
        rcases List.mem_cons.mp hx with h2 | h2
        · rw [h2]
          refine ⟨hval, ?_⟩
          rw [s1]
          rcases s8 hmin with h3 | h3
          · have h4 : (it.seek target).2 = target := by omega
            rw [h4] at h3; exact h3
          · omega
        · exact i5 h1 x h2
      · intro h1
        obtain ⟨y, hy, hy2⟩ := i6 h1
        exact ⟨y, List.mem_cons_of_mem _ hy, hy2⟩

theorem length_filter_gt_mono (l : List Nat) (a b : Nat) (hab : a ≤ b) :
    (l.filter (fun d => decide (b < d))).length ≤ (l.filter (fun d => decide (a < d))).length := by
  induction l with
  | nil => simp
  | cons x l ih =>
    simp only [List.filter_cons]
    by_cases h1 : b < x
    · have h2 : a < x := by omega
      simp only [h1, h2, decide_True, if_true, List.length_cons]
      omega
    · by_cases h2 : a < x
      · simp only [h1, h2, decide_True, decide_False, if_true, List.length_cons]
        simp only [Bool.false_eq_true, if_false]
        omega
      · simp only [h1, h2, decide_False, Bool.false_eq_true, if_false]
        exact ih

theorem length_filter_gt_lt (l : List Nat) (a b : Nat) (hab : a < b) (hb : b ∈ l) :
    (l.filter (fun d => decide (b < d))).length < (l.filter (fun d => decide (a < d))).length := by
  induction l with
  | nil => simp at hb
  | cons x l ih =>
    simp only [List.filter_cons]
    rcases List.mem_cons.mp hb with h | h
    · subst h
      have h1 : ¬ b < b := by omega
      simp only [h1, hab, decide_True, decide_False, Bool.false_eq_true, if_false, if_true,
        List.length_cons]
      have := length_filter_gt_mono l a b (Nat.le_of_lt hab)
      omega
    · have ih' := ih h
      by_cases h1 : b < x
      · have h2 : a < x := by omega
        simp only [h1, h2, decide_True, if_true, List.length_cons]
        omega
      · by_cases h2 : a < x
        · simp only [h1, h2, decide_True, decide_False, if_true, List.length_cons,
            Bool.false_eq_true, if_false]
          omega
        · simp only [h1, h2, decide_False, Bool.false_eq_true, if_false]
          exact ih'

theorem well_behaved_range (it : doc_iterator) (hw : it.well_behaved) (d : Nat)
    (hd : d ∈ it.docs) : doc_limits.min ≤ d ∧ d < doc_limits.eof :=
  hw.2.1 d hd

/-- What `converge` does when the lead stands on one of its doc ids and no other child is
ahead of it: it ends, on the smallest common doc id that is not before the target, or on
`eof` when there is none. -/
theorem converge_spec : ∀ (fuel : Nat) (front : doc_iterator) (tail : List doc_iterator)
    (target : Nat), front.well_behaved → (∀ it ∈ tail, it.well_behaved) →
    front.value = target → target ∈ front.docs → (∀ it ∈ tail, it.value ≤ target) →
    (front.docs.filter (fun d => decide (target < d))).length < fuel →
    ∃ c' r, converge fuel front tail target = some (c', r) ∧
      c'.itrs_.map (fun it => it.docs) = (front :: tail).map (fun it => it.docs) ∧
      c'.consistent ∧ c'.value = r ∧ target ≤ r ∧
      (∀ d, common (front :: tail) d → target ≤ d → r ≤ d) ∧
      (r ≠ doc_limits.eof → common (front :: tail) r) := by
  intro fuel
  induction fuel with
  | zero => intro front tail target _ _ _ _ _ h; simp at h
  | succ fuel ih =>
    intro front tail target hwf hwt hval hmem hle hfuel
    obtain ⟨hmin, heof⟩ := well_behaved_range front hwf target hmem
    obtain ⟨r1, r2, r3, r4, r5, r6⟩ := seek_rest_spec tail target hwt hle hmin heof
    by_cases heq : target = (seek_rest tail target).2
    · have e : converge (fuel + 1) front tail target =
          some ({ itrs_ := front :: (seek_rest tail target).1 }, target) := by
        simp only [converge]; rw [if_pos heq]
      refine ⟨_, _, e, ?_, ?_, ?_, Nat.le_refl _, fun d _ h => h, ?_⟩
      · simp [r1]
      · refine ⟨by simp, ?_, ?_, Or.inr ?_⟩
        · intro x hx
          rcases List.mem_cons.mp hx with h1 | h1
          · rw [h1]; exact hwf
          · exact r2 x h1
        · intro x hx
          rcases List.mem_cons.mp hx with h1 | h1
          · rw [h1]; exact Nat.le_refl _
          · show x.value ≤ front.value
            rw [hval, (r5 heq.symm x h1).1]
        · intro x hx
          rcases List.mem_cons.mp hx with h1 | h1
          · rw [h1]; rfl
          · show x.value = front.value
            rw [hval, (r5 heq.symm x h1).1]
      · exact hval
      · intro _
        have hc : common (front :: (seek_rest tail target).1) target := by
          intro x hx
          rcases List.mem_cons.mp hx with h1 | h1
          · rw [h1]; exact hmem
          · exact (r5 heq.symm x h1).2
        exact (common_congr (front :: tail) (front :: (seek_rest tail target).1)
          (by simp [r1]) target).mp hc
    · have hlt : target < (seek_rest tail target).2 := by omega
      obtain ⟨w, hw1, hw2⟩ := r6 hlt
      -- the bound on the result of `seek_rest`
      have hrle : (seek_rest tail target).2 ≤ doc_limits.eof := by
        by_contra hcon
        have hcon' : doc_limits.eof < (seek_rest tail target).2 := by omega
        -- the value of an iterator never exceeds `eof`
        have : ∀ (l : List doc_iterator), (∀ it ∈ l, it.well_behaved) →
            (∀ it ∈ l, it.value ≤ target) → (seek_rest l target).2 ≤ doc_limits.eof := by
          intro l
          induction l with
          | nil => intro _ _; exact Nat.le_of_lt heof
          | cons a l ihl =>
            intro ha hb
            have hwa := ha a (List.mem_cons_self _ _)
            obtain ⟨_, _, _, _, _, _, _, q8, _⟩ :=
              doc_iterator.seek_spec a hwa target (Nat.le_of_lt heof)
            by_cases hq : target < (a.seek target).2
            · have e : seek_rest (a :: l) target = ((a.seek target).1 :: l, (a.seek target).2) := by
                simp only [seek_rest]; rw [if_pos hq]
              rw [e]
              rcases q8 hmin with h3 | h3
              · exact Nat.le_of_lt (well_behaved_range a hwa _ h3).2
              · exact Nat.le_of_eq h3
            · have e : seek_rest (a :: l) target =
                  ((a.seek target).1 :: (seek_rest l target).1, (seek_rest l target).2) := by
                simp only [seek_rest]; rw [if_neg hq]
              rw [e]
              exact ihl (fun x hx => ha x (List.mem_cons_of_mem _ hx))
                (fun x hx => hb x (List.mem_cons_of_mem _ hx))
        have := this tail hwt hle
        omega
      obtain ⟨f1, _, f3, f4, f5, f6, f7, f8, _⟩ :=
        doc_iterator.seek_spec front hwf (seek_rest tail target).2 hrle
      have hkey : ∀ d, common (front :: tail) d → target ≤ d →
          (front.seek (seek_rest tail target).2).2 ≤ d := by
        intro d hd htd
        have h1 : (seek_rest tail target).2 ≤ d :=
          hw2 d (hd w (List.mem_cons_of_mem _ hw1)) htd
        exact f6 d (hd front (List.mem_cons_self _ _)) h1 (by omega)
      by_cases hfe : (front.seek (seek_rest tail target).2).2 = doc_limits.eof
      · have e : converge (fuel + 1) front tail target =
            some ({ itrs_ := (front.seek (seek_rest tail target).2).1 :: (seek_rest tail target).1 },
              (front.seek (seek_rest tail target).2).2) := by
          simp only [converge]; rw [if_neg heq, if_pos hfe]
        refine ⟨_, _, e, ?_, ?_, ?_, by omega, hkey, fun h => absurd hfe h⟩
        · simp [r1, f1]
        · refine ⟨by simp, ?_, ?_, Or.inl ?_⟩
          · intro x hx
            rcases List.mem_cons.mp hx with h1 | h1
            · rw [h1]; exact f7
            · exact r2 x h1
          · intro x hx
            show x.value ≤ (front.seek (seek_rest tail target).2).1.value
            rcases List.mem_cons.mp hx with h1 | h1
            · rw [h1]
            · have := r4 x h1
              omega
          · show (front.seek (seek_rest tail target).2).1.value = doc_limits.eof
            omega
        · exact f3
      · have e : converge (fuel + 1) front tail target =
            converge fuel (front.seek (seek_rest tail target).2).1 (seek_rest tail target).1
              (front.seek (seek_rest tail target).2).2 := by
          simp only [converge]; rw [if_neg heq, if_neg hfe]
        have hmem' : (front.seek (seek_rest tail target).2).2 ∈
            (front.seek (seek_rest tail target).2).1.docs := by
          rw [f1]
          rcases f8 (by omega) with h3 | h3
          · exact h3
          · exact absurd h3 hfe
        have hmeas : ((front.seek (seek_rest tail target).2).1.docs.filter
            (fun d => decide ((front.seek (seek_rest tail target).2).2 < d))).length < fuel := by
          rw [f1]
          have := length_filter_gt_lt front.docs target
            (front.seek (seek_rest tail target).2).2 (by omega) (by rw [f1] at hmem'; exact hmem')
          omega
        obtain ⟨c', r, g1, g2, g3, g4, g5, g6, g7⟩ :=
          ih (front.seek (seek_rest tail target).2).1 (seek_rest tail target).1
            (front.seek (seek_rest tail target).2).2 f7 r2 f3 hmem'
            (fun x hx => by have := r4 x hx; omega) hmeas
        have hdocs : ((front.seek (seek_rest tail target).2).1 :: (seek_rest tail target).1).map
            (fun it => it.docs) = (front :: tail).map (fun it => it.docs) := by
          simp [r1, f1]
        refine ⟨c', r, by rw [e]; exact g1, by rw [g2]; exact hdocs, g3, g4, by omega, ?_, ?_⟩
        · intro d hd htd
          exact g6 d ((common_congr _ _ hdocs d).mpr hd) (hkey d hd htd)
        · intro hr
          exact (common_congr _ _ hdocs r).mp (g7 hr)

theorem length_filter_le_length (l : List Nat) (p : Nat → Bool) :
    (l.filter p).length ≤ l.length :=
  List.length_filter_le p l

/-- A `seek` that is not after the position of a consistent conjunction changes nothing
and returns the position. -/
theorem conjunction_seek_fixed (c : conjunction) (hc : c.consistent) (fuel t : Nat)
    (ht : t ≤ c.value) (hfuel : 0 < fuel) : c.seek fuel t = some (c, c.value) := by
  obtain ⟨hne, _, _, hpos⟩ := hc
  obtain ⟨itrs⟩ := c
  cases itrs with
  | nil => exact absurd rfl hne
  | cons front tail =>
    have ht' : t ≤ front.value := ht
    have e : front.seek t = (front, front.value) := by
      unfold doc_iterator.seek; rw [if_pos ht']
    by_cases he : front.value = doc_limits.eof
    · simp only [conjunction.seek, e]
      rw [if_pos he]
      simp [conjunction.value, he]
    · simp only [conjunction.seek, e]
      rw [if_neg he]
      obtain ⟨k, hk⟩ : ∃ k, fuel = k + 1 := ⟨fuel - 1, by omega⟩
      subst hk
      have hall : ∀ it ∈ tail, it.value = front.value := by
        rcases hpos with h | h
        · exact absurd h he
        · intro it hit; exact h it (List.mem_cons_of_mem _ hit)
      have e2 := seek_rest_fixed tail front.value hall
      simp only [converge, e2]
      simp [conjunction.value]

/-- What `seek` does to a consistent conjunction. -/
theorem conjunction_seek_spec (c : conjunction) (hc : c.consistent) (fuel t : Nat)
    (ht1 : doc_limits.min ≤ t) (ht2 : t ≤ doc_limits.eof)
    (hfuel : ∀ it ∈ c.itrs_, it.docs.length < fuel) :
    ∃ c' r, c.seek fuel t = some (c', r) ∧ c'.consistent ∧ c'.value = r ∧
      c'.itrs_.map (fun it => it.docs) = c.itrs_.map (fun it => it.docs) ∧
      t ≤ r ∧ c.value ≤ r ∧
      (r ≠ doc_limits.eof → common c.itrs_ r) ∧
      (∀ d, common c.itrs_ d → t ≤ d → c.value ≤ d → r ≤ d) := by
  obtain ⟨hne, hwb, hle, hpos⟩ := hc
  obtain ⟨itrs⟩ := c
  cases itrs with
  | nil => exact absurd rfl hne
  | cons front tail =>
    have hwf := hwb front (List.mem_cons_self _ _)
    have hwt : ∀ it ∈ tail, it.well_behaved := fun x hx => hwb x (List.mem_cons_of_mem _ hx)
    obtain ⟨f1, _, f3, f4, f5, f6, f7, f8, _⟩ := doc_iterator.seek_spec front hwf t ht2
    have hdocs : ((front.seek t).1 :: tail).map (fun it => it.docs) =
        (front :: tail).map (fun it => it.docs) := by simp [f1]
    have htl : ∀ it ∈ tail, it.value ≤ (front.seek t).2 := by
      intro x hx
      have h1 : x.value ≤ front.value := hle x (List.mem_cons_of_mem _ hx)
      omega
    by_cases he : (front.seek t).2 = doc_limits.eof
    · have e : conjunction.seek fuel { itrs_ := front :: tail } t =
          some ({ itrs_ := (front.seek t).1 :: tail }, doc_limits.eof) := by
        simp only [conjunction.seek]; rw [if_pos he]
      refine ⟨_, _, e, ?_, ?_, hdocs, ht2, ?_, fun h => absurd rfl h, ?_⟩
      · refine ⟨by simp, ?_, ?_, Or.inl ?_⟩
        · intro x hx
          rcases List.mem_cons.mp hx with h1 | h1
          · rw [h1]; exact f7
          · exact hwt x h1
        · intro x hx
          show x.value ≤ (front.seek t).1.value
          rcases List.mem_cons.mp hx with h1 | h1
          · rw [h1]
          · have := htl x h1; omega
        · show (front.seek t).1.value = doc_limits.eof
          omega
      · show (front.seek t).1.value = doc_limits.eof
        omega
      · show front.value ≤ doc_limits.eof
        omega
      · intro d hd htd hvd
        have := f6 d (hd front (List.mem_cons_self _ _)) htd hvd
        omega
    · have e : conjunction.seek fuel { itrs_ := front :: tail } t =
          converge fuel (front.seek t).1 tail (front.seek t).2 := by
        simp only [conjunction.seek]; rw [if_neg he]
      have hmem : (front.seek t).2 ∈ (front.seek t).1.docs := by
        rw [f1]
        rcases f8 ht1 with h | h
        · exact h
        · exact absurd h he
      have hmeas : ((front.seek t).1.docs.filter
          (fun d => decide ((front.seek t).2 < d))).length < fuel := by
        rw [f1]
        have h1 := hfuel front (List.mem_cons_self _ _)
        have h2 := length_filter_le_length front.docs (fun d => decide ((front.seek t).2 < d))
        omega
      obtain ⟨c', r, g1, g2, g3, g4, g5, g6, g7⟩ :=
        converge_spec fuel (front.seek t).1 tail (front.seek t).2 f7 hwt f3 hmem htl hmeas
      refine ⟨c', r, by rw [e]; exact g1, g3, g4, by rw [g2]; exact hdocs, by omega, ?_, ?_, ?_⟩
      · show front.value ≤ r
        omega
      · intro hr
        exact (common_congr _ _ hdocs r).mp (g7 hr)
      · intro d hd htd hvd
        have h1 := f6 d (hd front (List.mem_cons_self _ _)) htd hvd
        exact g6 d ((common_congr _ _ hdocs d).mpr hd) h1

/-- What `next` does to a consistent conjunction. -/
theorem conjunction_next_spec (c : conjunction) (hc : c.consistent) (fuel : Nat)
    (hfuel : c.remaining ≤ fuel) :
    ∃ c' b, c.next fuel = some (c', b) ∧ c'.consistent ∧
      c'.itrs_.map (fun it => it.docs) = c.itrs_.map (fun it => it.docs) ∧
      (b = true → c'.remaining < c.remaining ∧ c.value < c'.value ∧ c'.value ≠ doc_limits.eof ∧ common c.itrs_ c'.value ∧
        (∀ it ∈ c'.itrs_, it.value = c'.value) ∧
        ∀ d, common c.itrs_ d → c.value < d → c'.value ≤ d) ∧
      (b = false → c'.value = doc_limits.eof ∧ ∀ d, common c.itrs_ d → ¬ c.value < d) := by
  obtain ⟨hne, hwb, hle, hpos⟩ := hc
  obtain ⟨itrs⟩ := c
  cases itrs with
  | nil => exact absurd rfl hne
  | cons front tail =>
    have hwf := hwb front (List.mem_cons_self _ _)
    have hwt : ∀ it ∈ tail, it.well_behaved := fun x hx => hwb x (List.mem_cons_of_mem _ hx)
    obtain ⟨n1, _, n3, n4, n5⟩ := doc_iterator.next_spec front hwf
    have hdocs : (front.next.1 :: tail).map (fun it => it.docs) =
        (front :: tail).map (fun it => it.docs) := by simp [n1]
    cases hb : front.next.2 with
    | false =>
      obtain ⟨m1, m2⟩ := n5 hb
      have e : conjunction.next fuel { itrs_ := front :: tail } =
          some ({ itrs_ := front.next.1 :: tail }, false) := by
        simp only [conjunction.next]; rw [if_pos hb]
      refine ⟨_, _, e, ?_, hdocs, fun h => by simp at h, fun _ => ⟨m1, ?_⟩⟩
      · refine ⟨by simp, ?_, ?_, Or.inl m1⟩
        · intro x hx
          rcases List.mem_cons.mp hx with h1 | h1
          · rw [h1]; exact n3
          · exact hwt x h1
        · intro x hx
          show x.value ≤ front.next.1.value
          rw [m1]
          rcases List.mem_cons.mp hx with h1 | h1
          · rw [h1, m1]
          · have hx1 : x.value ≤ front.value := hle x (List.mem_cons_of_mem _ h1)
            rcases hwf.2.2 with h2 | h2 | h2
            · simp only [doc_limits.invalid] at h2; omega
            · have := (well_behaved_range front hwf _ h2).2; omega
            · omega
      · intro d hd
        exact m2 d (hd front (List.mem_cons_self _ _))
    | true =>
      obtain ⟨m1, m2, m3⟩ := n4 hb
      have htl : ∀ it ∈ tail, it.value ≤ front.next.1.value := by
        intro x hx
        have h1 : x.value ≤ front.value := hle x (List.mem_cons_of_mem _ hx)
        omega
      have hmem : front.next.1.value ∈ front.next.1.docs := by rw [n1]; exact m2
      have hlt := length_filter_gt_lt front.docs front.value front.next.1.value m1 m2
      have hrem : conjunction.remaining { itrs_ := front :: tail } =
          (front.docs.filter (fun d => decide (front.value < d))).length := rfl
      have hmeas : (front.next.1.docs.filter
          (fun d => decide (front.next.1.value < d))).length < fuel := by
        rw [n1]
        rw [hrem] at hfuel
        omega
      obtain ⟨c', r, g1, g2, g3, g4, g5, g6, g7⟩ :=
        converge_spec fuel front.next.1 tail front.next.1.value n3 hwt rfl hmem htl hmeas
      have e : conjunction.next fuel { itrs_ := front :: tail } =
          some (c', decide (r ≠ doc_limits.eof)) := by
        simp only [conjunction.next]
        rw [if_neg (by rw [hb]; simp), g1]
      refine ⟨c', _, e, g3, by rw [g2]; exact hdocs, ?_, ?_⟩
      · intro hr
        have hr' : r ≠ doc_limits.eof := by simpa using hr
        have hcr : common (front :: tail) r := (common_congr _ _ hdocs r).mp (g7 hr')
        refine ⟨?_, ?_, by rw [g4]; exact hr', ?_, ?_, ?_⟩
        · obtain ⟨itrs'⟩ := c'
          cases itrs' with
          | nil => exact absurd rfl g3.1
          | cons front' tail' =>
            have hd : front'.docs = front.docs := by
              have := g2
              simp only [List.map_cons, n1] at this
              exact (List.cons.inj this).1
            have hv : front'.value = r := g4
            show (front'.docs.filter (fun d => decide (front'.value < d))).length <
              (front.docs.filter (fun d => decide (front.value < d))).length
            rw [hd, hv]
            exact length_filter_gt_lt front.docs front.value r (by omega)
              (hcr front (List.mem_cons_self _ _))
        · show front.value < c'.value
          omega
        · rw [g4]; exact (common_congr _ _ hdocs r).mp (g7 hr')
        · rcases g3.2.2.2 with h | h
          · rw [g4] at h; exact absurd h hr'
          · exact h
        · intro d hd hvd
          rw [g4]
          exact g6 d ((common_congr _ _ hdocs d).mpr hd)
            (m3 d (hd front (List.mem_cons_self _ _)) hvd)
      · intro hr
        have hr' : r = doc_limits.eof := by simpa using hr
        refine ⟨by rw [g4]; exact hr', ?_⟩
        intro d hd hvd
        have h1 := g6 d ((common_congr _ _ hdocs d).mpr hd)
          (m3 d (hd front (List.mem_cons_self _ _)) hvd)
        have h2 := (well_behaved_range front hwf d (hd front (List.mem_cons_self _ _))).2
        omega

theorem filter_gt_eq_cons (l : List Nat) (hs : l.Pairwise (fun a b => a < b)) (v x : Nat)
    (hx : x ∈ l) (hv : v < x) (hmin : ∀ d ∈ l, v < d → x ≤ d) :
    l.filter (fun d => decide (v < d)) = x :: l.filter (fun d => decide (x < d)) := by
  induction l with
  | nil => simp at hx
  | cons a l ih =>
    rw [List.pairwise_cons] at hs
    simp only [List.filter_cons]
    by_cases hva : v < a
    · have hxa : x ≤ a := hmin a (List.mem_cons_self _ _) hva
      have hax : a = x := by
        rcases List.mem_cons.mp hx with h | h
        · exact h.symm
        · have := hs.1 x h; omega
      subst hax
      have h1 : ¬ a < a := by omega
      simp only [hva, h1, decide_True, decide_False, if_true, Bool.false_eq_true, if_false]
      congr 1
      apply List.filter_congr
      intro d hd
      have := hs.1 d hd
      simp only [decide_eq_decide]
      omega
    · have hxl : x ∈ l := by
        rcases List.mem_cons.mp hx with h | h
        · omega
        · exact h
      have hxa : ¬ x < a := by
        have := hs.1 x hxl; omega
      simp only [hva, hxa, decide_False, Bool.false_eq_true, if_false]
      exact ih hs.2 hxl (fun d hd => hmin d (List.mem_cons_of_mem _ hd))

theorem filter_gt_eq_nil (l : List Nat) (v : Nat) (h : ∀ d ∈ l, ¬ v < d) :
    l.filter (fun d => decide (v < d)) = [] := by
  rw [List.filter_eq_nil_iff]
  intro d hd
  simpa using h d hd

theorem common_docs_congr (l l' : List doc_iterator)
    (h : l'.map (fun it => it.docs) = l.map (fun it => it.docs)) :
    common_docs l' = common_docs l := by
  cases l with
  | nil =>
    cases l' with
    | nil => rfl
    | cons a l' => simp at h
  | cons b l =>
    cases l' with
    | nil => simp at h
    | cons a l' =>
      have hd : a.docs = b.docs := by
        simp only [List.map_cons] at h
        exact (List.cons.inj h).1
      unfold common_docs
      simp only [hd]
      apply List.filter_congr
      intro d _
      simp only [decide_eq_decide]
      exact common_congr (b :: l) (a :: l') h d

theorem mem_common_docs (itrs : List doc_iterator) (hne : itrs ≠ []) (d : Nat) :
    d ∈ common_docs itrs ↔ common itrs d := by
  cases itrs with
  | nil => exact absurd rfl hne
  | cons front tail =>
    unfold common_docs
    simp only [List.mem_filter, decide_eq_true_eq]
    constructor
    · intro h; exact h.2
    · intro h; exact ⟨h front (List.mem_cons_self _ _), h⟩

theorem common_docs_pairwise (itrs : List doc_iterator) (hw : ∀ it ∈ itrs, it.well_behaved) :
    (common_docs itrs).Pairwise (fun a b => a < b) := by
  cases itrs with
  | nil => simp [common_docs]
  | cons front tail =>
    unfold common_docs
    exact List.Pairwise.filter _ (hw front (List.mem_cons_self _ _)).1

/-- The loop of the caller over `next` visits the common doc ids after the position of the
conjunction, in ascending order, every child standing on the visited doc id. -/
theorem conjunction_collect_spec : ∀ (fuel : Nat) (c : conjunction), c.consistent →
    c.remaining < fuel →
    ∃ L, c.collect fuel = some L ∧
      L.map (fun e => e.1) = (common_docs c.itrs_).filter (fun d => decide (c.value < d)) ∧
      ∀ e ∈ L, e.2.length = c.itrs_.length ∧ ∀ x ∈ e.2, x = e.1 := by
  intro fuel
  induction fuel with
  | zero => intro c _ h; simp at h
  | succ fuel ih =>
    intro c hc hfuel
    obtain ⟨c', b, n1, n2, n3, n4, n5⟩ := conjunction_next_spec c hc (fuel + 1) (by omega)
    have hcd : common_docs c'.itrs_ = common_docs c.itrs_ := common_docs_congr _ _ n3
    have hlen : c'.itrs_.length = c.itrs_.length := by
      have := congrArg List.length n3
      simpa using this
    cases b with
    | false =>
      obtain ⟨_, m2⟩ := n5 rfl
      refine ⟨[], by simp only [conjunction.collect, n1], ?_, by simp⟩
      rw [filter_gt_eq_nil]
      · rfl
      · intro d hd
        exact m2 d ((mem_common_docs c.itrs_ hc.1 d).mp hd)
    | true =>
      obtain ⟨m0, m1, m2, m3, m4, m5⟩ := n4 rfl
      obtain ⟨L, l1, l2, l3⟩ := ih c' n2 (by omega)
      refine ⟨(c'.value, c'.itrs_.map (fun it => it.value)) :: L, ?_, ?_, ?_⟩
      · simp only [conjunction.collect, n1, l1]
      · simp only [List.map_cons]
        rw [l2, hcd]
        exact (filter_gt_eq_cons (common_docs c.itrs_) (common_docs_pairwise c.itrs_ hc.2.1)
          c.value c'.value ((mem_common_docs c.itrs_ hc.1 _).mpr m3) m1
          (fun d hd hvd => m5 d ((mem_common_docs c.itrs_ hc.1 d).mp hd) hvd)).symm
      · intro e he
        rcases List.mem_cons.mp he with h | h
        · subst h
          refine ⟨by simp [hlen], ?_⟩
          intro x hx
          obtain ⟨it, hit, hxe⟩ := List.mem_map.mp hx
          rw [← hxe]
          exact m4 it hit
        · obtain ⟨h1, h2⟩ := l3 e h
          exact ⟨by rw [h1, hlen], h2⟩

theorem conjunction_make_consistent (children : List doc_iterator) (hne : children ≠ [])
    (hw : ∀ it ∈ children, it.well_behaved)
    (hfresh : ∀ it ∈ children, it.value = doc_limits.invalid) :
    (conjunction.make children).consistent ∧ (conjunction.make children).value = 0 := by
  have hp := conjunction_make_perm children
  obtain ⟨front, tail, hc, hmem, _⟩ := conjunction_make_front children hne
  have hval : (conjunction.make children).value = 0 := by
    simp only [conjunction.value, hc]
    exact hfresh front hmem
  refine ⟨⟨?_, ?_, ?_, Or.inr ?_⟩, hval⟩
  · rw [hc]; simp
  · intro it hit; exact hw it (hp.subset hit)
  · intro it hit
    rw [hval, hfresh it (hp.subset hit)]
    exact Nat.le_refl _
  · intro it hit
    rw [hval, hfresh it (hp.subset hit)]
    rfl

/-- C3: for at least two well-behaved fresh children and every bound on the iterations
that exceeds the number of doc ids of each child, the doc ids produced by calling `next`
on the conjunction until it returns false are exactly the sorted intersection of the doc
id sets of the children, and each time `next` returns true the value of every child is
the value of the conjunction. -/
theorem conjunction_next_intersection (children : List doc_iterator) (fuel : Nat)
    (hn : 2 ≤ children.length) (hw : ∀ it ∈ children, it.well_behaved)
    (hfresh : ∀ it ∈ children, it.value = doc_limits.invalid)
    (hfuel : ∀ it ∈ children, it.docs.length < fuel) :
    ∃ L, (conjunction.make children).collect fuel = some L ∧
      (L.map (fun e => e.1)).Pairwise (fun a b => a < b) ∧
      (∀ d, d ∈ L.map (fun e => e.1) ↔ ∀ it ∈ children, d ∈ it.docs) ∧
      ∀ e ∈ L, e.2.length = children.length ∧ ∀ x ∈ e.2, x = e.1 := by
  have hne : children ≠ [] := by
    intro h; rw [h] at hn; simp at hn
  have hp := conjunction_make_perm children
  obtain ⟨hc, hval⟩ := conjunction_make_consistent children hne hw hfresh
  obtain ⟨front, tail, hci, hmem, _⟩ := conjunction_make_front children hne
  have hrem : (conjunction.make children).remaining < fuel := by
    simp only [conjunction.remaining, hci]
    have h1 := hfuel front hmem
    have h2 := length_filter_le_length front.docs (fun d => decide (front.value < d))
    omega
  obtain ⟨L, l1, l2, l3⟩ := conjunction_collect_spec fuel _ hc hrem
  refine ⟨L, l1, ?_, ?_, ?_⟩
  · rw [l2]
    exact List.Pairwise.filter _ (common_docs_pairwise _ hc.2.1)
  · intro d
    rw [l2, List.mem_filter, mem_common_docs _ hc.1, hval]
    simp only [decide_eq_true_eq]
    constructor
    · intro h it hit
      exact h.1 it (hp.symm.subset hit)
    · intro h
      refine ⟨fun it hit => h it (hp.subset hit), ?_⟩
      have h1 := (well_behaved_range front (hw front hmem) d (h front hmem)).1
      simp only [doc_limits.min] at h1
      omega
  · intro e he
    obtain ⟨h1, h2⟩ := l3 e he
    exact ⟨by rw [h1]; exact hp.length_eq, h2⟩

theorem conjunction_next_intersection_witness :
    (2 ≤ [scenario_A, scenario_B].length ∧
      (∀ it ∈ [scenario_A, scenario_B], it.well_behaved) ∧
      (∀ it ∈ [scenario_A, scenario_B], it.value = doc_limits.invalid) ∧
      (∀ it ∈ [scenario_A, scenario_B], it.docs.length < 6)) ∧
    (conjunction.make [scenario_A, scenario_B]).collect 6 = some [(4, [4, 4]), (6, [6, 6])] ∧
    ∃ L, (conjunction.make [scenario_A, scenario_B]).collect 6 = some L ∧
      (L.map (fun e => e.1)).Pairwise (fun a b => a < b) ∧
      (∀ d, d ∈ L.map (fun e => e.1) ↔ ∀ it ∈ [scenario_A, scenario_B], d ∈ it.docs) ∧
      ∀ e ∈ L, e.2.length = [scenario_A, scenario_B].length ∧ ∀ x ∈ e.2, x = e.1 :=
  ⟨⟨by decide, by decide, by decide, by decide⟩, by decide,
    conjunction_next_intersection [scenario_A, scenario_B] 6 (by decide) (by decide)
      (by decide) (by decide)⟩

/-- C4: for a conjunction over well-behaved children in a state between two calls and a
target that is a doc id or `eof`, `seek(target)` returns the smallest doc id that is not
before the target, not before the current position and belongs to every child, or `eof`
when there is none; a second `seek(target)` right afterwards returns the same value and
leaves the state as it is. -/
theorem conjunction_seek_smallest (c : conjunction) (fuel t : Nat) (hc : c.consistent)
    (ht1 : doc_limits.min ≤ t) (ht2 : t ≤ doc_limits.eof)
    (hfuel : ∀ it ∈ c.itrs_, it.docs.length < fuel) :
    ∃ c' r, c.seek fuel t = some (c', r) ∧ c'.value = r ∧ c'.consistent ∧
      t ≤ r ∧ c.value ≤ r ∧
      (r ≠ doc_limits.eof → common c.itrs_ r) ∧
      (∀ d, common c.itrs_ d → t ≤ d → c.value ≤ d → r ≤ d) ∧
      (r = doc_limits.eof → ∀ d, common c.itrs_ d → ¬ (t ≤ d ∧ c.value ≤ d)) ∧
      c'.seek fuel t = some (c', r) := by
  obtain ⟨c', r, s1, s2, s3, s4, s5, s6, s7, s8⟩ :=
    conjunction_seek_spec c hc fuel t ht1 ht2 hfuel
  refine ⟨c', r, s1, s3, s2, s5, s6, s7, s8, ?_, ?_⟩
  · intro hr d hd hcon
    have h1 := s8 d hd hcon.1 hcon.2
    obtain ⟨itrs⟩ := c
    cases itrs with
    | nil => exact absurd rfl hc.1
    | cons front tail =>
      have h2 := (well_behaved_range front (hc.2.1 front (List.mem_cons_self _ _)) d
        (hd front (List.mem_cons_self _ _))).2
      omega
  · have hpos : 0 < fuel := by
      obtain ⟨itrs⟩ := c
      cases itrs with
      | nil => exact absurd rfl hc.1
      | cons front tail =>
        have := hfuel front (List.mem_cons_self _ _)
        omega
    have := conjunction_seek_fixed c' s2 fuel t (by omega) hpos
    rw [s3] at this
    exact this

theorem conjunction_seek_smallest_witness :
    ((conjunction.make [scenario_A, scenario_B]).consistent ∧
      doc_limits.min ≤ 5 ∧ 5 ≤ doc_limits.eof ∧
      (∀ it ∈ (conjunction.make [scenario_A, scenario_B]).itrs_, it.docs.length < 6)) ∧
    ((conjunction.make [scenario_A, scenario_B]).seek 6 5).map (fun r => r.2) = some 6 ∧
    ∃ c' r, (conjunction.make [scenario_A, scenario_B]).seek 6 5 = some (c', r) ∧
      c'.value = r ∧ c'.consistent ∧
      5 ≤ r ∧ (conjunction.make [scenario_A, scenario_B]).value ≤ r ∧
      (r ≠ doc_limits.eof → common (conjunction.make [scenario_A, scenario_B]).itrs_ r) ∧
      (∀ d, common (conjunction.make [scenario_A, scenario_B]).itrs_ d → 5 ≤ d →
        (conjunction.make [scenario_A, scenario_B]).value ≤ d → r ≤ d) ∧
      (r = doc_limits.eof → ∀ d, common (conjunction.make [scenario_A, scenario_B]).itrs_ d →
        ¬ (5 ≤ d ∧ (conjunction.make [scenario_A, scenario_B]).value ≤ d)) ∧
      c'.seek 6 5 = some (c', r) :=
  ⟨⟨by decide, by decide, by decide, by decide⟩, by decide,
    conjunction_seek_smallest (conjunction.make [scenario_A, scenario_B]) 6 5 (by decide)
      (by decide) (by decide) (by decide)⟩

end irs

namespace irs

/-! ## C6, C7: the column round trip and `seek` -/

theorem bitmap_find_replicate (m : Nat) (rest : List Bool) (p r t : Nat) :
    bitmap_find (List.replicate m false ++ rest) p r t = bitmap_find rest (p + m) r t := by
  induction m generalizing p with
  | zero => simp
  | succ m ih =>
    rw [List.replicate_succ, List.cons_append]
    simp only [bitmap_find, Bool.false_eq_true, if_false]
    rw [ih]
    congr 1
    omega

theorem bitmap_find_bitmap_of (ks : List Nat) :
    ∀ (p r t : Nat), ks.Pairwise (fun a b => a < b) → (∀ k ∈ ks, p ≤ k) →
      bitmap_find (bitmap_of p ks) p r t = first_key_from ks r t := by
  induction ks with
  | nil => intro p r t _ _; rfl
  | cons k ks ih =>
    intro p r t hs hp
    rw [List.pairwise_cons] at hs
    have hk : p ≤ k := hp k (List.mem_cons_self _ _)
    simp only [bitmap_of, first_key_from]
    rw [bitmap_find_replicate]
    have e : p + (k - p) = k := by omega
    rw [e]
    simp only [bitmap_find, if_true]
    by_cases h : t ≤ k
    · rw [if_pos h, if_pos h]
    · rw [if_neg h, if_neg h]
      exact ih (k + 1) (r + 1) t hs.2 (fun k' hk' => hs.1 k' hk')

theorem first_key_from_range' (n : Nat) :
    ∀ (b r t : Nat), first_key_from (List.range' b n) r t =
      if t ≤ b then (if 0 < n then some (b, r) else none)
      else if t - b < n then some (t, r + (t - b)) else none := by
  induction n with
  | zero => intro b r t; simp [first_key_from]
  | succ n ih =>
    intro b r t
    rw [List.range'_succ]
    simp only [first_key_from]
    by_cases h : t ≤ b
    · simp [h]
    · rw [if_neg h, if_neg h, ih (b + 1) (r + 1) t]
      have h1 : ¬ t ≤ b + 1 ∨ t = b + 1 := by omega
      rcases h1 with h1 | h1
      · rw [if_neg h1]
        by_cases h2 : t - (b + 1) < n
        · rw [if_pos h2, if_pos (by omega)]
          congr 2
          omega
        · rw [if_neg h2, if_neg (by omega)]
      · subst h1
        rw [if_pos (Nat.le_refl _)]
        by_cases h2 : 0 < n
        · rw [if_pos h2, if_pos (by omega)]
          congr 2
          omega
        · rw [if_neg h2, if_neg (by omega)]

theorem getLastD_ge (ks : List Nat) : ∀ (k : Nat), (k :: ks).Pairwise (fun a b => a < b) →
    k + ks.length ≤ (k :: ks).getLastD 0 := by
  induction ks with
  | nil => intro k _; simp
  | cons k' ks ih =>
    intro k hs
    rw [List.pairwise_cons] at hs
    have h1 := ih k' hs.2
    have h2 : k < k' := hs.1 k' (List.mem_cons_self _ _)
    have e : (k :: k' :: ks).getLastD 0 = (k' :: ks).getLastD 0 := by simp [List.getLastD]
    rw [e]
    simp only [List.length_cons]
    omega

theorem consecutive_keys (ks : List Nat) : ∀ (k : Nat),
    (k :: ks).Pairwise (fun a b => a < b) →
    (k :: ks).getLastD 0 - k + 1 = (k :: ks).length →
    k :: ks = List.range' k (k :: ks).length := by
  induction ks with
  | nil => intro k _ _; rfl
  | cons k' ks ih =>
    intro k hs hd
    have hs' := hs
    rw [List.pairwise_cons] at hs
    have h2 : k < k' := hs.1 k' (List.mem_cons_self _ _)
    have h3 := getLastD_ge ks k' hs.2
    have e : (k :: k' :: ks).getLastD 0 = (k' :: ks).getLastD 0 := by simp [List.getLastD]
    rw [e] at hd
    simp only [List.length_cons] at hd h3 ⊢
    have hk : k' = k + 1 := by omega
    subst hk
    have := ih (k + 1) hs.2 (by simp only [List.length_cons]; omega)
    rw [List.range'_succ]
    simp only [List.length_cons] at this
    rw [← this]

theorem fixed_value_at (vs : List (List Nat)) (sz : Nat) :
    ∀ (r : Nat) (_ : ∀ v ∈ vs, v.length = sz) (hr : r < vs.length),
      (vs.flatten.drop (r * sz)).take sz = vs.get ⟨r, hr⟩ := by
  induction vs with
  | nil => intro r _ hr; simp at hr
  | cons v vs ih =>
    intro r hall hr
    have hv : v.length = sz := hall v (List.mem_cons_self _ _)
    cases r with
    | zero =>
      simp only [Nat.zero_mul, List.drop_zero, List.flatten_cons, List.get_eq_getElem,
        List.getElem_cons_zero]
      rw [← hv, List.take_left']
      rfl
    | succ r =>
      simp only [List.flatten_cons, List.get_eq_getElem, List.getElem_cons_succ]
      have e : (r + 1) * sz = v.length + r * sz := by rw [hv]; ring
      rw [e, List.drop_append]
      have := ih r (fun v' hv' => hall v' (List.mem_cons_of_mem _ hv'))
        (by simpa using hr)
      simpa using this

theorem offsets_of_head (vs : List (List Nat)) (s : Nat) :
    (offsets_of s vs).getD 0 0 = s := by
  cases vs <;> simp [offsets_of]

theorem offsets_of_ge (vs : List (List Nat)) :
    ∀ (s r : Nat), r ≤ vs.length → s ≤ (offsets_of s vs).getD r 0 := by
  induction vs with
  | nil => intro s r hr; simp at hr; subst hr; simp [offsets_of]
  | cons v vs ih =>
    intro s r hr
    cases r with
    | zero => simp [offsets_of]
    | succ r =>
      simp only [offsets_of, List.getD_cons_succ]
      have := ih (s + v.length) r (by simpa using hr)
      omega

theorem variable_value_at (vs : List (List Nat)) :
    ∀ (s r : Nat) (hr : r < vs.length),
      (vs.flatten.drop ((offsets_of s vs).getD r 0 - s)).take
        ((offsets_of s vs).getD (r + 1) 0 - (offsets_of s vs).getD r 0) = vs.get ⟨r, hr⟩ := by
  induction vs with
  | nil => intro s r hr; simp at hr
  | cons v vs ih =>
    intro s r hr
    cases r with
    | zero =>
      simp only [offsets_of, List.getD_cons_zero, List.getD_cons_succ, Nat.sub_self,
        List.drop_zero, List.flatten_cons, List.get_eq_getElem, List.getElem_cons_zero]
      rw [offsets_of_head]
      have e : s + v.length - s = v.length := by omega
      rw [e, List.take_left']
      rfl
    | succ r =>
      have hr' : r < vs.length := by simpa using hr
      simp only [offsets_of, List.getD_cons_succ, List.flatten_cons, List.get_eq_getElem,
        List.getElem_cons_succ]
      have h1 := offsets_of_ge vs (s + v.length) r (Nat.le_of_lt hr')
      have e : (offsets_of (s + v.length) vs).getD r 0 - s =
          v.length + ((offsets_of (s + v.length) vs).getD r 0 - (s + v.length)) := by omega
      rw [e, List.drop_append]
      have := ih (s + v.length) r hr'
      simpa using this

theorem first_key_from_spec (E : List (Nat × List Nat)) :
    ∀ (r0 t : Nat),
      (match first_key_from (E.map (fun e => e.1)) r0 t with
        | none => E.find? (fun e => decide (t ≤ e.1)) = none
        | some (k, r) => ∃ (h : r - r0 < E.length), r0 ≤ r ∧
            (E.get ⟨r - r0, h⟩).1 = k ∧
            E.find? (fun e => decide (t ≤ e.1)) = some (E.get ⟨r - r0, h⟩)) := by
  induction E with
  | nil => intro r0 t; simp [first_key_from]
  | cons e E ih =>
    intro r0 t
    simp only [List.map_cons, first_key_from]
    by_cases h : t ≤ e.1
    · rw [if_pos h]
      refine ⟨by simp, Nat.le_refl _, ?_, ?_⟩
      · simp
      · simp [h]
    · rw [if_neg h]
      have := ih (r0 + 1) t
      cases hf : first_key_from (E.map (fun e => e.1)) (r0 + 1) t with
      | none =>
        rw [hf] at this
        simp only [] at this ⊢
        rw [List.find?_cons]
        simp [h, this]
      | some kr =>
        obtain ⟨k, r⟩ := kr
        rw [hf] at this
        simp only [] at this ⊢
        obtain ⟨h1, h2, h3, h4⟩ := this
        have h5 : r - r0 < (e :: E).length := by simp only [List.length_cons]; omega
        refine ⟨h5, by omega, ?_, ?_⟩
        · have e1 : r - r0 = (r - (r0 + 1)) + 1 := by omega
          simp only [List.get_eq_getElem] at h3 ⊢
          simp only [e1, List.getElem_cons_succ]
          exact h3
        · rw [List.find?_cons]
          simp only [h, decide_False]
          rw [h4]
          have e1 : r - r0 = (r - (r0 + 1)) + 1 := by omega
          simp only [List.get_eq_getElem]
          simp only [e1, List.getElem_cons_succ]

theorem select_variant_dense (n d l : Nat) (f : Bool)
    (h : (select_variant n d l f).dense = true) : d = n := by
  unfold select_variant at h
  split at h
  · rename_i h1; exact h1.2
  · split at h
    · simp [variant.dense] at h
    · split at h
      · rename_i h1; exact h1.1
      · split at h
        · rename_i h1; exact h1.1
        · split at h <;> simp [variant.dense] at h

theorem select_variant_mask (n d l : Nat) (f : Bool)
    (h : select_variant n d l f = variant.dense_mask ∨
      select_variant n d l f = variant.sparse_mask) : l = 0 := by
  unfold select_variant at h
  split at h
  · rename_i h1; exact h1.1
  · split at h
    · rename_i h1; exact h1.1
    · split at h
      · simp at h
      · split at h
        · simp at h
        · split at h <;> simp at h

theorem select_variant_fixed (n d l : Nat) (f : Bool)
    (h : select_variant n d l f = variant.dense_fixed ∨
      select_variant n d l f = variant.sparse_fixed) : f = true := by
  unfold select_variant at h
  split at h
  · simp at h
  · split at h
    · simp at h
    · split at h
      · rename_i h1; exact h1.2
      · split at h
        · simp at h
        · split at h
          · rename_i h1; exact h1.2
          · simp at h

/-- The keys of a flushed block are found as in the list of its keys. -/
theorem make_block_find (E : List (Nat × List Nat)) (hne : E ≠ [])
    (hs : (E.map (fun e => e.1)).Pairwise (fun a b => a < b)) (t : Nat) :
    (make_block E).find t = first_key_from (E.map (fun e => e.1)) 0 t := by
  cases E with
  | nil => exact absurd rfl hne
  | cons e E =>
    unfold column_block.find
    by_cases hd : (make_block (e :: E)).tag.dense = true
    · rw [if_pos hd]
      have hdn := select_variant_dense _ _ _ _ hd
      simp only [List.map_cons, List.headD_cons, List.length_cons] at hdn
      have hs' : (e.1 :: E.map (fun e => e.1)).Pairwise (fun a b => a < b) := by
        simpa using hs
      have hcons := consecutive_keys (E.map (fun e => e.1)) e.1 hs'
        (by simp only [List.length_cons, List.length_map]; exact hdn)
      simp only [List.map_cons]
      rw [hcons, first_key_from_range']
      simp [make_block]
    · rw [if_neg hd]
      have hb : (make_block (e :: E)).bitmap =
          bitmap_of e.1 ((e :: E).map (fun e => e.1)) := by
        have : (make_block (e :: E)).bitmap =
            if (make_block (e :: E)).tag.dense then []
            else bitmap_of e.1 ((e :: E).map (fun e => e.1)) := rfl
        rw [this, if_neg hd]
      have hf : (make_block (e :: E)).first_key = e.1 := rfl
      rw [hb, hf]
      apply bitmap_find_bitmap_of _ _ _ _ hs
      intro k hk
      simp only [List.map_cons] at hk hs
      rw [List.pairwise_cons] at hs
      rcases List.mem_cons.mp hk with h | h
      · omega
      · exact Nat.le_of_lt (hs.1 k h)

theorem flatten_length_zero (vs : List (List Nat)) (h : vs.flatten.length = 0) :
    ∀ v ∈ vs, v = [] := by
  intro v hv
  have h1 : vs.flatten = [] := List.length_eq_zero.mp h
  rw [List.flatten_eq_nil_iff] at h1
  exact h1 v hv

/-- The values of a flushed block are read back by rank. -/
theorem make_block_value_at (E : List (Nat × List Nat)) (r : Nat) (hr : r < E.length) :
    (make_block E).value_at r = (E.get ⟨r, hr⟩).2 := by
  have hrv : r < (E.map (fun e => e.2)).length := by simpa using hr
  have hget : (E.map (fun e => e.2)).get ⟨r, hrv⟩ = (E.get ⟨r, hr⟩).2 := by simp
  have htag : (make_block E).tag = select_variant E.length
      ((E.map (fun e => e.1)).getLastD 0 - (E.map (fun e => e.1)).headD 0 + 1)
      (E.map (fun e => e.2)).flatten.length
      ((E.map (fun e => e.2)).all
        (fun v => decide (v.length = ((E.map (fun e => e.2)).headD []).length))) := rfl
  have hmask : (make_block E).tag = variant.dense_mask ∨ (make_block E).tag = variant.sparse_mask →
      (make_block E).value_at r = (E.get ⟨r, hr⟩).2 := by
    intro h
    have hl := select_variant_mask _ _ _ _ (by rw [← htag]; exact h)
    have hv := flatten_length_zero _ hl _ (List.get_mem (E.map (fun e => e.2)) r hrv)
    rw [hget] at hv
    rw [hv]
    unfold column_block.value_at
    rcases h with h | h <;> rw [h]
  have hfixed : (make_block E).tag = variant.dense_fixed ∨
      (make_block E).tag = variant.sparse_fixed →
      (make_block E).value_at r = (E.get ⟨r, hr⟩).2 := by
    intro h
    have hf := select_variant_fixed _ _ _ _ (by rw [← htag]; exact h)
    rw [List.all_eq_true] at hf
    have hall : ∀ v ∈ E.map (fun e => e.2),
        v.length = ((E.map (fun e => e.2)).headD []).length := by
      intro v hv; simpa using hf v hv
    have hsz : (make_block E).value_size = ((E.map (fun e => e.2)).headD []).length := by
      have : (make_block E).value_size =
          if (make_block E).tag = variant.dense_fixed ∨ (make_block E).tag = variant.sparse_fixed
          then ((E.map (fun e => e.2)).headD []).length else 0 := rfl
      rw [this, if_pos h]
    have hp : (make_block E).payload = (E.map (fun e => e.2)).flatten := by
      have : (make_block E).payload =
          if (make_block E).tag = variant.dense_mask ∨ (make_block E).tag = variant.sparse_mask
          then [] else (E.map (fun e => e.2)).flatten := rfl
      rw [this, if_neg (by rcases h with h | h <;> rw [h] <;> simp)]
    have key := fixed_value_at (E.map (fun e => e.2)) _ r hall hrv
    rw [hget] at key
    unfold column_block.value_at
    rcases h with h | h <;> rw [h] <;> simp only [] <;> rw [hsz, hp] <;> exact key
  have hvar : (make_block E).tag = variant.dense_variable ∨
      (make_block E).tag = variant.sparse_variable →
      (make_block E).value_at r = (E.get ⟨r, hr⟩).2 := by
    intro h
    have ho : (make_block E).offsets = offsets_of 0 (E.map (fun e => e.2)) := by
      have : (make_block E).offsets =
          if (make_block E).tag = variant.dense_variable ∨
            (make_block E).tag = variant.sparse_variable
          then offsets_of 0 (E.map (fun e => e.2)) else [] := rfl
      rw [this, if_pos h]
    have hp : (make_block E).payload = (E.map (fun e => e.2)).flatten := by
      have : (make_block E).payload =
          if (make_block E).tag = variant.dense_mask ∨ (make_block E).tag = variant.sparse_mask
          then [] else (E.map (fun e => e.2)).flatten := rfl
      rw [this, if_neg (by rcases h with h | h <;> rw [h] <;> simp)]
    have key := variable_value_at (E.map (fun e => e.2)) 0 r hrv
    rw [hget, Nat.sub_zero] at key
    unfold column_block.value_at
    rcases h with h | h <;> rw [h] <;> simp only [] <;> rw [ho, hp] <;> exact key
  cases ht : (make_block E).tag with
  | dense_fixed => exact hfixed (Or.inl ht)
  | dense_variable => exact hvar (Or.inl ht)
  | sparse_fixed => exact hfixed (Or.inr ht)
  | sparse_variable => exact hvar (Or.inr ht)
  | dense_mask => exact hmask (Or.inl ht)
  | sparse_mask => exact hmask (Or.inr ht)

/-- A flushed block gives back, for every target, the first of its pairs whose key is not
before the target. -/
theorem make_block_lookup (E : List (Nat × List Nat)) (hne : E ≠ [])
    (hs : (E.map (fun e => e.1)).Pairwise (fun a b => a < b)) (t : Nat) :
    (match (make_block E).find t with
      | none => none
      | some (k, r) => some (k, (make_block E).value_at r)) =
    E.find? (fun e => decide (t ≤ e.1)) := by
  rw [make_block_find E hne hs t]
  have := first_key_from_spec E 0 t
  cases hf : first_key_from (E.map (fun e => e.1)) 0 t with
  | none =>
    rw [hf] at this
    simp only [] at this ⊢
    exact this.symm
  | some kr =>
    obtain ⟨k, r⟩ := kr
    rw [hf] at this
    simp only [] at this ⊢
    obtain ⟨h1, _, h3, h4⟩ := this
    rw [h4]
    have h1' : r < E.length := by simpa using h1
    rw [make_block_value_at E r h1']
    simp only [Nat.sub_zero] at h3 ⊢
    congr 1
    exact Prod.ext h3.symm rfl

theorem split_blocks_flatten : ∀ (fuel : Nat) (S : List (Nat × List Nat)),
    S.length ≤ fuel → (split_blocks fuel S).flatten = S := by
  intro fuel
  induction fuel with
  | zero =>
    intro S h
    have : S = [] := List.length_eq_zero.mp (by omega)
    subst this; rfl
  | succ fuel ih =>
    intro S h
    cases S with
    | nil => rfl
    | cons e es =>
      simp only [split_blocks, List.flatten_cons]
      rw [ih _ (by simp only [List.length_drop, List.length_cons, BLOCK_SIZE] at h ⊢; omega)]
      exact List.take_append_drop _ _

theorem split_blocks_nonempty : ∀ (fuel : Nat) (S : List (Nat × List Nat)),
    ∀ ch ∈ split_blocks fuel S, ch ≠ [] := by
  intro fuel
  induction fuel with
  | zero => intro S ch h; simp [split_blocks] at h
  | succ fuel ih =>
    intro S ch h
    cases S with
    | nil => simp [split_blocks] at h
    | cons e es =>
      simp only [split_blocks, List.mem_cons] at h
      rcases h with h | h
      · rw [h]; simp [BLOCK_SIZE]
      · exact ih _ ch h

/-- The key of the first pair of a chunk. -/
theorem make_block_first_key (ch : List (Nat × List Nat)) :
    (make_block ch).first_key = (ch.map (fun e => e.1)).headD 0 := rfl

theorem sorted_find_eq_some (S : List (Nat × List Nat))
    (hs : S.Pairwise (fun a b => a.1 < b.1)) (t : Nat) (e : Nat × List Nat)
    (he : e ∈ S) (hp : t ≤ e.1) (hmin : ∀ e' ∈ S, t ≤ e'.1 → e.1 ≤ e'.1) :
    S.find? (fun e => decide (t ≤ e.1)) = some e := by
  induction S with
  | nil => simp at he
  | cons a S ih =>
    rw [List.pairwise_cons] at hs
    rw [List.find?_cons]
    by_cases ha : t ≤ a.1
    · simp only [ha, decide_True]
      rcases List.mem_cons.mp he with h | h
      · rw [h]
      · have h1 := hs.1 e h
        have h2 := hmin a (List.mem_cons_self _ _) ha
        omega
    · simp only [ha, decide_False]
      rcases List.mem_cons.mp he with h | h
      · rw [h] at hp; exact absurd hp ha
      · exact ih hs.2 h (fun e' he' => hmin e' (List.mem_cons_of_mem _ he'))

theorem sorted_find_spec (S : List (Nat × List Nat))
    (hs : S.Pairwise (fun a b => a.1 < b.1)) (t : Nat) (e : Nat × List Nat)
    (h : S.find? (fun e => decide (t ≤ e.1)) = some e) :
    e ∈ S ∧ t ≤ e.1 ∧ ∀ e' ∈ S, t ≤ e'.1 → e.1 ≤ e'.1 := by
  induction S with
  | nil => simp at h
  | cons a S ih =>
    rw [List.pairwise_cons] at hs
    rw [List.find?_cons] at h
    by_cases ha : t ≤ a.1
    · simp only [ha, decide_True] at h
      have hae : a = e := by simpa using h
      subst hae
      refine ⟨List.mem_cons_self _ _, ha, ?_⟩
      intro e' he' _
      rcases List.mem_cons.mp he' with h1 | h1
      · rw [h1]
      · exact Nat.le_of_lt (hs.1 e' h1)
    · simp only [ha, decide_False] at h
      obtain ⟨h1, h2, h3⟩ := ih hs.2 h
      refine ⟨List.mem_cons_of_mem _ h1, h2, ?_⟩
      intro e' he' hte
      rcases List.mem_cons.mp he' with h4 | h4
      · rw [h4] at hte; exact absurd hte ha
      · exact h3 e' h4 hte

theorem sorted_find_none (S : List (Nat × List Nat)) (t : Nat)
    (h : S.find? (fun e => decide (t ≤ e.1)) = none) : ∀ e ∈ S, ¬ t ≤ e.1 := by
  intro e he
  have := List.find?_eq_none.mp h e he
  simpa using this

/-- The binary search of the block index returns the number of blocks whose first key is
not after the target. -/
theorem locate_block_spec (blocks : List column_block) (t : Nat)
    (hs : (blocks.map (fun b => b.first_key)).Pairwise (fun a b => a < b)) :
    ∀ (fuel lo hi : Nat), lo ≤ hi → hi ≤ blocks.length → hi - lo ≤ fuel →
      (∀ i (h : i < blocks.length), i < lo → (blocks.get ⟨i, h⟩).first_key ≤ t) →
      (∀ i (h : i < blocks.length), hi ≤ i → t < (blocks.get ⟨i, h⟩).first_key) →
      locate_block blocks t fuel lo hi ≤ blocks.length ∧
      (∀ i (h : i < blocks.length), i < locate_block blocks t fuel lo hi →
        (blocks.get ⟨i, h⟩).first_key ≤ t) ∧
      (∀ i (h : i < blocks.length), locate_block blocks t fuel lo hi ≤ i →
        t < (blocks.get ⟨i, h⟩).first_key) := by
  have hmono : ∀ i j (hi : i < blocks.length) (hj : j < blocks.length), i < j →
      (blocks.get ⟨i, hi⟩).first_key < (blocks.get ⟨j, hj⟩).first_key := by
    intro i j hi hj hij
    have := (List.pairwise_iff_getElem.mp hs) i j (by simpa using hi) (by simpa using hj) hij
    simpa using this
  intro fuel
  induction fuel with
  | zero =>
    intro lo hi h1 h2 h3 h4 h5
    have : lo = hi := by omega
    subst this
    simp only [locate_block]
    exact ⟨h2, h4, h5⟩
  | succ fuel ih =>
    intro lo hi h1 h2 h3 h4 h5
    simp only [locate_block]
    by_cases hlt : lo < hi
    · rw [if_pos hlt]
      have hmid : (lo + hi) / 2 < blocks.length := by omega
      have hget : blocks.get? ((lo + hi) / 2) = some (blocks.get ⟨(lo + hi) / 2, hmid⟩) :=
        List.get?_eq_get hmid
      rw [hget]
      simp only []
      by_cases hk : (blocks.get ⟨(lo + hi) / 2, hmid⟩).first_key ≤ t
      · rw [if_pos hk]
        apply ih _ _ (by omega) h2 (by omega) _ h5
        intro i hi' hil
        by_cases hie : i = (lo + hi) / 2
        · subst hie; exact hk
        · have := hmono i ((lo + hi) / 2) hi' hmid (by omega)
          omega
      · rw [if_neg hk]
        apply ih _ _ (by omega) (by omega) (by omega) h4
        intro i hi' hil
        by_cases hie : i = (lo + hi) / 2
        · subst hie; omega
        · have := hmono ((lo + hi) / 2) i hmid hi' (by omega)
          omega
    · rw [if_neg hlt]
      have : lo = hi := by omega
      subst this
      exact ⟨h2, h4, h5⟩

theorem chunk_head (ch : List (Nat × List Nat)) (hne : ch ≠ [])
    (hs : ch.Pairwise (fun a b => a.1 < b.1)) :
    ∃ e ∈ ch, (make_block ch).first_key = e.1 ∧ ∀ x ∈ ch, e.1 ≤ x.1 := by
  cases ch with
  | nil => exact absurd rfl hne
  | cons e es =>
    rw [List.pairwise_cons] at hs
    refine ⟨e, List.mem_cons_self _ _, rfl, ?_⟩
    intro x hx
    rcases List.mem_cons.mp hx with h | h
    · rw [h]
    · exact Nat.le_of_lt (hs.1 x h)

/-- The lookup in the blocks flushed from the chunks of a sorted list of pairs finds the
first pair whose key is not before the target. -/
theorem chunks_lookup (chunks : List (List (Nat × List Nat))) (n : Nat)
    (hne : ∀ ch ∈ chunks, ch ≠ [])
    (hs : chunks.flatten.Pairwise (fun a b => a.1 < b.1)) (t : Nat) :
    ({ size := n, blocks := chunks.map make_block } : column).lookup t =
      chunks.flatten.find? (fun e => decide (t ≤ e.1)) := by
  obtain ⟨hs1, hs2⟩ := List.pairwise_flatten.mp hs
  have hcross : ∀ i j (hi : i < chunks.length) (hj : j < chunks.length), i < j →
      ∀ x ∈ chunks.get ⟨i, hi⟩, ∀ y ∈ chunks.get ⟨j, hj⟩, x.1 < y.1 := by
    intro i j hi hj hij
    exact (List.pairwise_iff_getElem.mp hs2) i j hi hj hij
  have hlen : (chunks.map make_block).length = chunks.length := List.length_map _ _
  have hblock : ∀ i (h : i < (chunks.map make_block).length),
      (chunks.map make_block).get ⟨i, h⟩ = make_block (chunks.get ⟨i, by rw [← hlen]; exact h⟩) := by
    intro i h; simp
  have hhead : ∀ i (h : i < chunks.length), ∃ e ∈ chunks.get ⟨i, h⟩,
      (make_block (chunks.get ⟨i, h⟩)).first_key = e.1 ∧ ∀ x ∈ chunks.get ⟨i, h⟩, e.1 ≤ x.1 :=
    fun i h => chunk_head _ (hne _ (List.get_mem _ _ _)) (hs1 _ (List.get_mem _ _ _))
  have hsorted : ((chunks.map make_block).map (fun b => b.first_key)).Pairwise
      (fun a b => a < b) := by
    rw [List.pairwise_iff_getElem]
    intro i j hi hj hij
    have hi' : i < chunks.length := by simpa using hi
    have hj' : j < chunks.length := by simpa using hj
    obtain ⟨e1, he1, hk1, _⟩ := hhead i hi'
    obtain ⟨e2, he2, hk2, _⟩ := hhead j hj'
    have := hcross i j hi' hj' hij e1 he1 e2 he2
    simp only [List.getElem_map]
    simp only [List.get_eq_getElem] at hk1 hk2
    rw [hk1, hk2]
    exact this
  obtain ⟨k1, k2, k3⟩ := locate_block_spec (chunks.map make_block) t hsorted
    (chunks.map make_block).length 0 (chunks.map make_block).length (Nat.zero_le _)
    (Nat.le_refl _) (by omega) (fun i _ h => absurd h (Nat.not_lt_zero _))
    (fun i h h' => absurd h (by omega))
  -- the search in the block of index `i`
  have hin : ∀ i (h : i < chunks.length),
      (match (chunks.map make_block).get? i with
        | none => none
        | some b =>
          match b.find t with
          | none => none
          | some (key, rank) => some (key, b.value_at rank)) =
      (chunks.get ⟨i, h⟩).find? (fun e => decide (t ≤ e.1)) := by
    intro i h
    have hget : (chunks.map make_block).get? i = some (make_block (chunks.get ⟨i, h⟩)) := by
      rw [List.get?_eq_get (by rw [hlen]; exact h)]
      simp
    rw [hget]
    simp only []
    have hsm : ((chunks.get ⟨i, h⟩).map (fun e => e.1)).Pairwise (fun a b => a < b) := by
      rw [List.pairwise_map]
      exact hs1 _ (List.get_mem _ _ _)
    exact make_block_lookup _ (hne _ (List.get_mem _ _ _)) hsm t
  have hout : ∀ i, chunks.length ≤ i →
      (match (chunks.map make_block).get? i with
        | none => none
        | some b =>
          match b.find t with
          | none => none
          | some (key, rank) => some (key, b.value_at rank)) = (none : Option (Nat × List Nat)) := by
    intro i h
    have hget : (chunks.map make_block).get? i = none := by
      rw [List.get?_eq_none]; rw [hlen]; exact h
    rw [hget]
  -- pairs of chunks before the located one have keys before the target
  have hbefore : ∀ j (hj : j < chunks.length) i (hi : i < chunks.length), j < i →
      i < locate_block (chunks.map make_block) t (chunks.map make_block).length 0
        (chunks.map make_block).length →
      ∀ x ∈ chunks.get ⟨j, hj⟩, ¬ t ≤ x.1 := by
    intro j hj i hi hji hik x hx
    obtain ⟨e, he, hk, _⟩ := hhead i hi
    have h1 := hcross j i hj hi hji x hx e he
    have h2 := k2 i (by rw [hlen]; exact hi) hik
    rw [hblock] at h2
    simp only [List.get_eq_getElem] at h2 hk
    omega
  have hafter : ∀ i (hi : i < chunks.length),
      locate_block (chunks.map make_block) t (chunks.map make_block).length 0
        (chunks.map make_block).length ≤ i →
      ∀ x ∈ chunks.get ⟨i, hi⟩, t < x.1 := by
    intro i hi hki x hx
    obtain ⟨e, he, hk, hmin⟩ := hhead i hi
    have h2 := k3 i (by rw [hlen]; exact hi) hki
    rw [hblock] at h2
    have := hmin x hx
    simp only [List.get_eq_getElem] at h2 hk
    omega
  -- a pair found in a chunk, no earlier chunk holding a key not before the target
  have hfound : ∀ i (hi : i < chunks.length) (r : Nat × List Nat),
      (chunks.get ⟨i, hi⟩).find? (fun e => decide (t ≤ e.1)) = some r →
      (∀ j (hj : j < chunks.length), j < i → ∀ x ∈ chunks.get ⟨j, hj⟩, ¬ t ≤ x.1) →
      chunks.flatten.find? (fun e => decide (t ≤ e.1)) = some r := by
    intro i hi r hr hprev
    obtain ⟨r1, r2, r3⟩ := sorted_find_spec _ (hs1 _ (List.get_mem _ _ _)) t r hr
    apply sorted_find_eq_some _ hs t r
      (List.mem_flatten.mpr ⟨_, List.get_mem _ _ _, r1⟩) r2
    intro e' he' hte
    obtain ⟨ch, hch, hech⟩ := List.mem_flatten.mp he'
    obtain ⟨j, hj, hje⟩ := List.getElem_of_mem hch
    subst hje
    rcases Nat.lt_trichotomy j i with h | h | h
    · exact absurd hte (hprev j hj h e' hech)
    · subst h; exact r3 e' hech hte
    · exact Nat.le_of_lt (hcross i j hi hj h r r1 e' hech)
  have hnone : ∀ (m : Nat),
      (∀ j (hj : j < chunks.length), j < m → ∀ x ∈ chunks.get ⟨j, hj⟩, ¬ t ≤ x.1) →
      chunks.length ≤ m →
      chunks.flatten.find? (fun e => decide (t ≤ e.1)) = none := by
    intro m hprev hm
    rw [List.find?_eq_none]
    intro e' he'
    obtain ⟨ch, hch, hech⟩ := List.mem_flatten.mp he'
    obtain ⟨j, hj, hje⟩ := List.getElem_of_mem hch
    subst hje
    simpa using hprev j hj (by omega) e' hech
  unfold column.lookup
  simp only []
  generalize hk : locate_block (chunks.map make_block) t (chunks.map make_block).length 0
    (chunks.map make_block).length = k at k1 k2 k3 hbefore hafter
  by_cases hempty : chunks.length = 0
  · have hk0 : k = 0 := by omega
    subst hk0
    rw [hout 0 (by omega)]
    simp only [Nat.zero_sub, Nat.lt_irrefl, if_false]
    exact (hnone 0 (fun j _ h => absurd h (Nat.not_lt_zero _)) (by omega)).symm
  · have hidx : k - 1 < chunks.length := by omega
    rw [hin (k - 1) hidx]
    cases hf : (chunks.get ⟨k - 1, hidx⟩).find? (fun e => decide (t ≤ e.1)) with
    | some r =>
      simp only []
      refine (hfound (k - 1) hidx r hf ?_).symm
      intro j hj hjk
      exact hbefore j hj (k - 1) hidx hjk (by omega)
    | none =>
      simp only []
      have hn := sorted_find_none _ t hf
      by_cases hk0 : 0 < k
      · rw [if_pos hk0]
        have hprev : ∀ j (hj : j < chunks.length), j < k → ∀ x ∈ chunks.get ⟨j, hj⟩, ¬ t ≤ x.1 := by
          intro j hj hjk x hx
          by_cases hjj : j = k - 1
          · subst hjj; exact hn x hx
          · exact hbefore j hj (k - 1) hidx (by omega) (by omega) x hx
        by_cases hkl : k < chunks.length
        · rw [hin k hkl]
          cases hf2 : (chunks.get ⟨k, hkl⟩).find? (fun e => decide (t ≤ e.1)) with
          | some r => exact (hfound k hkl r hf2 hprev).symm
          | none =>
            exfalso
            obtain ⟨e, he, _, _⟩ := hhead k hkl
            have h1 := hafter k hkl (Nat.le_refl _) e he
            exact sorted_find_none _ t hf2 e he (by omega)
        · rw [hout k (by omega)]
          exact (hnone k hprev (by omega)).symm
      · exfalso
        have hk0' : k = 0 := by omega
        subst hk0'
        obtain ⟨e, he, _, _⟩ := hhead 0 (by omega)
        have h1 := hafter 0 (by omega) (Nat.le_refl _) e he
        exact hn e he (by omega)

/-- The lookup in a written column finds the first pair whose key is not before the
target. -/
theorem write_column_lookup (S : List (Nat × List Nat))
    (hs : (S.map (fun e => e.1)).Pairwise (fun a b => a < b))
    (hr : ∀ e ∈ S, e.1 < 2 ^ 31) :
    ∃ c, write_column S = some c ∧ c.size = S.length ∧
      ∀ t, c.lookup t = S.find? (fun e => decide (t ≤ e.1)) := by
  have hall : S.all (fun e => decide (e.1 < 2 ^ 31)) = true := by
    rw [List.all_eq_true]
    intro e he
    simpa using hr e he
  refine ⟨{ size := S.length, blocks := make_blocks S.length S }, ?_, rfl, ?_⟩
  · unfold write_column; rw [if_pos hall]
  · intro t
    have hfl := split_blocks_flatten S.length S (Nat.le_refl _)
    have hs' : (split_blocks S.length S).flatten.Pairwise (fun a b => a.1 < b.1) := by
      rw [hfl]
      exact List.pairwise_map.mp hs
    have := chunks_lookup (split_blocks S.length S) S.length
      (split_blocks_nonempty S.length S) hs' t
    rw [hfl] at this
    exact this

theorem filter_after_find (S : List (Nat × List Nat))
    (hs : S.Pairwise (fun a b => a.1 < b.1)) (v : Nat) (e0 : Nat × List Nat)
    (h : S.find? (fun e => decide (v + 1 ≤ e.1)) = some e0) :
    S.filter (fun e => decide (v < e.1)) = e0 :: S.filter (fun e => decide (e0.1 < e.1)) := by
  induction S with
  | nil => simp at h
  | cons a S ih =>
    rw [List.pairwise_cons] at hs
    rw [List.find?_cons] at h
    simp only [List.filter_cons]
    by_cases ha : v + 1 ≤ a.1
    · simp only [ha, decide_True] at h
      have hae : a = e0 := by simpa using h
      subst hae
      have h1 : v < a.1 := by omega
      have h2 : ¬ a.1 < a.1 := by omega
      simp only [h1, h2, decide_True, decide_False, if_true, Bool.false_eq_true, if_false]
      congr 1
      apply List.filter_congr
      intro d hd
      have := hs.1 d hd
      simp only [decide_eq_decide]
      omega
    · simp only [ha, decide_False] at h
      have h1 : ¬ v < a.1 := by omega
      obtain ⟨m1, m2, _⟩ := sorted_find_spec S hs.2 (v + 1) e0 h
      have h2 : ¬ e0.1 < a.1 := by
        have := hs.1 e0 m1; omega
      simp only [h1, h2, decide_False, Bool.false_eq_true, if_false]
      exact ih hs.2 h

theorem filter_after_none (S : List (Nat × List Nat)) (v : Nat)
    (h : S.find? (fun e => decide (v + 1 ≤ e.1)) = none) :
    S.filter (fun e => decide (v < e.1)) = [] := by
  rw [List.filter_eq_nil_iff]
  intro e he
  have := sorted_find_none S (v + 1) h e he
  simp only [decide_eq_true_eq]
  omega

/-- The loop over `next` visits the pairs after the position of the iterator. -/
theorem column_visit_spec (S : List (Nat × List Nat)) (c : column)
    (hs : S.Pairwise (fun a b => a.1 < b.1)) (hr : ∀ e ∈ S, e.1 < 2 ^ 31)
    (hl : ∀ t, c.lookup t = S.find? (fun e => decide (t ≤ e.1))) :
    ∀ (fuel : Nat) (it : column_iterator), it.col = c → it.value ≠ doc_limits.eof →
      (S.filter (fun e => decide (it.value < e.1))).length < fuel →
      ∃ last, it.visit fuel = some (S.filter (fun e => decide (it.value < e.1)), last) ∧
        last.value = doc_limits.eof ∧ last.payload = [] := by
  intro fuel
  induction fuel with
  | zero => intro it _ _ h; simp at h
  | succ fuel ih =>
    intro it hc hv hfuel
    cases hf : S.find? (fun e => decide (it.value + 1 ≤ e.1)) with
    | none =>
      have hn : it.next = ({ it with value := doc_limits.eof, payload := [] }, false) := by
        unfold column_iterator.next
        rw [if_neg hv, hc, hl, hf]
      refine ⟨{ it with value := doc_limits.eof, payload := [] }, ?_, rfl, rfl⟩
      simp only [column_iterator.visit, hn]
      rw [filter_after_none S it.value hf]
    | some e0 =>
      have hn : it.next = ({ it with value := e0.1, payload := e0.2 }, true) := by
        unfold column_iterator.next
        rw [if_neg hv, hc, hl, hf]
      obtain ⟨m1, _, _⟩ := sorted_find_spec S hs _ e0 hf
      have hlt := hr e0 m1
      have hne : e0.1 ≠ doc_limits.eof := by
        rw [doc_limits_eof_eq]
        have : (2 : Nat) ^ 31 = 2147483648 := by norm_num
        omega
      have hfil := filter_after_find S hs it.value e0 hf
      rw [hfil] at hfuel ⊢
      obtain ⟨last, l1, l2, l3⟩ := ih { it with value := e0.1, payload := e0.2 } hc hne
        (by simpa using hfuel)
      refine ⟨last, ?_, l2, l3⟩
      simp only [column_iterator.visit, hn]
      simp only [] at l1
      rw [l1]

/-- C6: for every strictly increasing sequence of pairs with assignable doc ids, written to
a column, iterating the column from a fresh iterator with `next` until it returns false
yields exactly those pairs in the same order, the number of visited documents is the size
of the column, and afterwards the value of the iterator is `eof`. -/
theorem column_round_trip (S : List (Nat × List Nat)) (fuel : Nat)
    (hs : (S.map (fun e => e.1)).Pairwise (fun a b => a < b))
    (hr : ∀ e ∈ S, doc_limits.min ≤ e.1 ∧ e.1 < 2 ^ 31) (hfuel : S.length < fuel) :
    ∃ c visited last, write_column S = some c ∧
      c.iterator.visit fuel = some (visited, last) ∧ visited = S ∧
      visited.length = c.size ∧ last.value = doc_limits.eof := by
  obtain ⟨c, hw, hsize, hl⟩ := write_column_lookup S hs (fun e he => (hr e he).2)
  have hs' : S.Pairwise (fun a b => a.1 < b.1) := List.pairwise_map.mp hs
  have hall : S.filter (fun e => decide (c.iterator.value < e.1)) = S := by
    rw [List.filter_eq_self]
    intro e he
    have := (hr e he).1
    simp only [column.iterator, doc_limits.invalid, doc_limits.min, decide_eq_true_eq] at this ⊢
    omega
  obtain ⟨last, l1, l2, _⟩ := column_visit_spec S c hs' (fun e he => (hr e he).2) hl fuel
    c.iterator rfl (by simp [column.iterator, doc_limits.invalid, doc_limits.eof])
    (by rw [hall]; exact hfuel)
  rw [hall] at l1
  exact ⟨c, S, last, hw, l1, rfl, hsize.symm, l2⟩

theorem column_round_trip_witness :
    (([(2, [1, 2]), (3, [3]), (5, []), (9, [7, 7, 7])] : List (Nat × List Nat)).map
        (fun e => e.1)).Pairwise (fun a b => a < b) ∧
    (∀ e ∈ ([(2, [1, 2]), (3, [3]), (5, []), (9, [7, 7, 7])] : List (Nat × List Nat)),
      doc_limits.min ≤ e.1 ∧ e.1 < 2 ^ 31) ∧
    ∃ c visited last, write_column [(2, [1, 2]), (3, [3]), (5, []), (9, [7, 7, 7])] = some c ∧
      c.iterator.visit 5 = some (visited, last) ∧
      visited = [(2, [1, 2]), (3, [3]), (5, []), (9, [7, 7, 7])] ∧
      visited.length = c.size ∧ last.value = doc_limits.eof :=
  ⟨by decide, by decide,
    column_round_trip [(2, [1, 2]), (3, [3]), (5, []), (9, [7, 7, 7])] 5 (by decide) (by decide)
      (by decide)⟩

/-- C7, as stated, fails: after a seek behind the last key the iterator is at `eof` and a
seek to 1 returns `eof` although the key 1 is stored; and an iterator standing on the key 3
returns 3 for a seek to 1, not the smallest stored key not before 1. -/
theorem column_seek_backwards :
    ∃ c, write_column [(1, []), (2, []), (3, [])] = some c ∧
      ((c.iterator.seek 5).1.seek 1).2 = doc_limits.eof ∧
      ((c.iterator.seek 3).1.seek 1).2 = 3 ∧
      ([(1, []), (2, []), (3, [])] : List (Nat × List Nat)).find?
        (fun e => decide (1 ≤ e.1)) = some (1, []) :=
  ⟨{ size := 3, blocks := make_blocks 3 [(1, []), (2, []), (3, [])] }, by decide, by decide,
    by decide, by decide⟩

/-- C7, amended: for a column iterator that is not at `eof` and a target after its
position (any target that is a doc id, for a fresh iterator), `seek(target)` returns the
smallest stored key not before the target, with its value as payload, or `eof` when no
such key exists; once `eof` is returned the iterator stays at `eof`: every later `seek`
returns `eof` and `next` returns false. -/
theorem column_seek_forward (S : List (Nat × List Nat)) (t : Nat)
    (hs : (S.map (fun e => e.1)).Pairwise (fun a b => a < b))
    (hr : ∀ e ∈ S, doc_limits.min ≤ e.1 ∧ e.1 < 2 ^ 31) :
    ∃ c, write_column S = some c ∧
      ∀ (it : column_iterator), it.col = c → it.value ≠ doc_limits.eof → it.value < t →
        (it.seek t).1.value = (it.seek t).2 ∧
        ((it.seek t).2 ≠ doc_limits.eof →
          t ≤ (it.seek t).2 ∧ ((it.seek t).2, (it.seek t).1.payload) ∈ S ∧
          ∀ e ∈ S, t ≤ e.1 → (it.seek t).2 ≤ e.1) ∧
        ((it.seek t).2 = doc_limits.eof ↔ ∀ e ∈ S, e.1 < t) ∧
        ((it.seek t).2 = doc_limits.eof →
          (it.seek t).1.payload = [] ∧ (∀ t', ((it.seek t).1.seek t').2 = doc_limits.eof) ∧
          (it.seek t).1.next.2 = false ∧ (it.seek t).1.next.1.value = doc_limits.eof) := by
  obtain ⟨c, hw, _, hl⟩ := write_column_lookup S hs (fun e he => (hr e he).2)
  have hs' : S.Pairwise (fun a b => a.1 < b.1) := List.pairwise_map.mp hs
  refine ⟨c, hw, ?_⟩
  intro it hc hv ht
  have hkey : ∀ e ∈ S, e.1 ≠ doc_limits.eof := by
    intro e he
    have := (hr e he).2
    rw [doc_limits_eof_eq]
    have h31 : (2 : Nat) ^ 31 = 2147483648 := by norm_num
    omega
  cases hf : S.find? (fun e => decide (t ≤ e.1)) with
  | none =>
    have e : it.seek t = ({ it with value := doc_limits.eof, payload := [] }, doc_limits.eof) := by
      unfold column_iterator.seek
      rw [if_neg hv, if_neg (by omega), hc, hl, hf]
    have hn := sorted_find_none S t hf
    rw [e]
    refine ⟨rfl, fun h => absurd rfl h, ⟨fun _ e he => by have := hn e he; omega, fun _ => rfl⟩,
      fun _ => ⟨rfl, ?_, ?_, ?_⟩⟩
    · intro t'
      simp [column_iterator.seek]
    · simp [column_iterator.next]
    · simp [column_iterator.next]
  | some e0 =>
    have e : it.seek t = ({ it with value := e0.1, payload := e0.2 }, e0.1) := by
      unfold column_iterator.seek
      rw [if_neg hv, if_neg (by omega), hc, hl, hf]
    obtain ⟨m1, m2, m3⟩ := sorted_find_spec S hs' t e0 hf
    rw [e]
    refine ⟨rfl, fun _ => ⟨m2, m1, m3⟩, ⟨fun h => absurd h (hkey e0 m1), fun h => ?_⟩,
      fun h => absurd h (hkey e0 m1)⟩
    have := h e0 m1
    omega

set_option maxRecDepth 1000000 in
theorem column_seek_forward_witness :
    ((([(1, []), (2, []), (4, [])] : List (Nat × List Nat)).map (fun e => e.1)).Pairwise
        (fun a b => a < b) ∧
      ∀ e ∈ ([(1, []), (2, []), (4, [])] : List (Nat × List Nat)),
        doc_limits.min ≤ e.1 ∧ e.1 < 2 ^ 31) ∧
    (write_column (mask_entries 1 1025 ++ mask_entries 1026 1030)).map
        (fun c => ((c.iterator.seek 1025).2, (c.iterator.seek 1030).2,
          ((c.iterator.seek 1030).1.seek 1029).2)) =
      some (1026, doc_limits.eof, doc_limits.eof) ∧
    ∃ c, write_column [(1, []), (2, []), (4, [])] = some c ∧
      ∀ (it : column_iterator), it.col = c → it.value ≠ doc_limits.eof → it.value < 3 →
        (it.seek 3).1.value = (it.seek 3).2 ∧
        ((it.seek 3).2 ≠ doc_limits.eof →
          3 ≤ (it.seek 3).2 ∧ ((it.seek 3).2, (it.seek 3).1.payload) ∈
            ([(1, []), (2, []), (4, [])] : List (Nat × List Nat)) ∧
          ∀ e ∈ ([(1, []), (2, []), (4, [])] : List (Nat × List Nat)),
            3 ≤ e.1 → (it.seek 3).2 ≤ e.1) ∧
        ((it.seek 3).2 = doc_limits.eof ↔
          ∀ e ∈ ([(1, []), (2, []), (4, [])] : List (Nat × List Nat)), e.1 < 3) ∧
        ((it.seek 3).2 = doc_limits.eof →
          (it.seek 3).1.payload = [] ∧ (∀ t', ((it.seek 3).1.seek t').2 = doc_limits.eof) ∧
          (it.seek 3).1.next.2 = false ∧ (it.seek 3).1.next.1.value = doc_limits.eof) :=
  ⟨⟨by decide, by decide⟩, by decide!,
    column_seek_forward [(1, []), (2, []), (4, [])] 3 (by decide) (by decide)⟩

end irs

namespace irs

/-! ## The characteristic vectors: the bitset window and the window of code points -/

theorem testBit_ite_one (p : Prop) [Decidable p] (k : Nat) :
    (if p then 1 else 0 : Nat).testBit k = (decide p && decide (k = 0)) := by
  by_cases h : p
  · simp only [h, if_true, decide_True, Bool.true_and]
    cases k with
    | zero => simp
    | succ k =>
      simp only [Nat.add_one_ne_zero, decide_False]
      exact Nat.testBit_lt_two_pow (by
        have : 1 < 2 ^ (k + 1) := Nat.one_lt_two_pow (by omega)
        exact this)
  · simp [h]

theorem chi_testBit (l : List Nat) : ∀ (c i acc j : Nat),
    (chi l c i acc).testBit j =
      (acc.testBit j || (decide (i ≤ j) && decide (l[j - i]? = some c))) := by
  induction l with
  | nil => intro c i acc j; simp [chi]
  | cons x l ih =>
    intro c i acc j
    simp only [chi]
    rw [ih, Nat.testBit_or, Nat.testBit_shiftLeft, testBit_ite_one]
    rcases Nat.lt_trichotomy j i with h | h | h
    · have h1 : ¬ i ≤ j := by omega
      have h2 : ¬ i + 1 ≤ j := by omega
      have h3 : ¬ j ≥ i := by omega
      simp [h1, h2, h3]
    · subst h
      have h2 : ¬ j + 1 ≤ j := by omega
      simp only [ge_iff_le, Nat.le_refl, decide_True, Nat.sub_self, Bool.true_and, h2,
        decide_False, Bool.false_and, Bool.or_false, List.getElem?_cons_zero, Option.some.injEq]
      by_cases hc : c = x
      · simp [hc]
      · have hc' : ¬ x = c := fun h => hc h.symm
        simp [hc, hc']
    · have h1 : i ≤ j := by omega
      have h2 : i + 1 ≤ j := by omega
      have h3 : ¬ (j - i = 0) := by omega
      have e : j - i = (j - (i + 1)) + 1 := by omega
      simp only [ge_iff_le, h1, decide_True, h3, decide_False, Bool.and_false, Bool.or_false,
        h2, Bool.true_and]
      rw [e, List.getElem?_cons_succ]

/-- Bit `j` of the characteristic vector computed by `edit_distance` at `offset`. -/
theorem chi_window_testBit (X : List Nat) (offset cs c j : Nat) :
    (chi ((X.take (min (offset + cs) X.length)).drop offset) c 0 0).testBit j =
      (decide (j < cs) && decide (X[offset + j]? = some c)) := by
  rw [chi_testBit]
  simp only [Nat.zero_testBit, Bool.false_or, Nat.zero_le, decide_True, Bool.true_and,
    Nat.sub_zero]
  have e0 : ((X.take (min (offset + cs) X.length)).drop offset)[j]? =
      (X.take (min (offset + cs) X.length))[offset + j]? := List.getElem?_drop _ _ _
  by_cases h : j < cs
  · by_cases h2 : offset + j < X.length
    · have e1 : (X.take (min (offset + cs) X.length))[offset + j]? = X[offset + j]? :=
        List.getElem?_take_of_lt (by omega)
      simp [e0, e1, h]
    · have e1 : (X.take (min (offset + cs) X.length))[offset + j]? = none :=
        List.getElem?_eq_none (by simp only [List.length_take]; omega)
      have e2 : X[offset + j]? = none := List.getElem?_eq_none (by omega)
      simp [e0, e1, e2]
  · have e1 : (X.take (min (offset + cs) X.length))[offset + j]? = none :=
      List.getElem?_eq_none (by simp only [List.length_take]; omega)
    simp [e0, e1, h]

/-- Bit `j` of word `k` of the characteristic bitset built by `make_alphabet`. -/
theorem make_bitset_testBit (X : List Nat) (c words k j : Nat) (hw : X.length ≤ 64 * words) :
    ((make_bitset X c words).getD k 0).testBit j =
      (decide (j < 64) && decide (X[64 * k + j]? = some c)) := by
  unfold make_bitset
  by_cases hk : k < words
  · have e : ((List.range words).map
        (fun k => chi ((X.drop (64 * k)).take 64) c 0 0)).getD k 0 =
        chi ((X.drop (64 * k)).take 64) c 0 0 := by
      rw [List.getD_eq_getElem?_getD, List.getElem?_map, List.getElem?_range hk]
      rfl
    rw [e, chi_testBit]
    simp only [Nat.zero_testBit, Bool.false_or, Nat.zero_le, decide_True, Bool.true_and,
      Nat.sub_zero]
    by_cases h : j < 64
    · have e1 : ((X.drop (64 * k)).take 64)[j]? = X[64 * k + j]? := by
        rw [List.getElem?_take_of_lt h, List.getElem?_drop]
      simp [e1, h]
    · have e1 : ((X.drop (64 * k)).take 64)[j]? = none :=
        List.getElem?_eq_none (by simp only [List.length_take]; omega)
      simp [e1, h]
  · have e : ((List.range words).map
        (fun k => chi ((X.drop (64 * k)).take 64) c 0 0)).getD k 0 = 0 := by
      rw [List.getD_eq_getElem?_getD, List.getElem?_eq_none (by simp; omega)]
      rfl
    have e2 : X[64 * k + j]? = none := List.getElem?_eq_none (by omega)
    rw [e]
    simp [e2]

/-- The characteristic vector that the automaton builder extracts from the bitset of a code
point is the one that `edit_distance` computes over the window of code points. -/
theorem chi_bitset_eq_chi (X : List Nat) (c words offset cs : Nat)
    (hw : X.length ≤ 64 * words) (hcs : cs ≤ 64) :
    chi_bitset (make_bitset X c words) offset ((1 <<< cs) - 1) =
      chi ((X.take (min (offset + cs) X.length)).drop offset) c 0 0 := by
  apply Nat.eq_of_testBit_eq
  intro j
  rw [chi_window_testBit, Nat.one_shiftLeft]
  unfold chi_bitset
  simp only []
  have hoff : 64 * (offset / 64) + (offset - 64 * (offset / 64)) = offset := by omega
  by_cases ha : offset - 64 * (offset / 64) = 0
  · rw [if_pos ha, Nat.testBit_and, Nat.testBit_two_pow_sub_one,
      make_bitset_testBit X c words _ _ hw]
    have e : 64 * (offset / 64) = offset := by omega
    rw [e]
    by_cases h : j < cs
    · have : j < 64 := by omega
      simp [h, this]
    · simp [h]
  · rw [if_neg ha, Nat.testBit_and, Nat.testBit_two_pow_sub_one, Nat.testBit_or,
      Nat.testBit_shiftRight, Nat.testBit_mod_two_pow, Nat.testBit_shiftLeft,
      make_bitset_testBit X c words _ _ hw, make_bitset_testBit X c words _ _ hw]
    by_cases h : j < cs
    · have hj : j < 64 := by omega
      simp only [h, hj, decide_True, Bool.and_true, Bool.true_and, ge_iff_le]
      by_cases h1 : offset - 64 * (offset / 64) + j < 64
      · have h2 : ¬ 64 - (offset - 64 * (offset / 64)) ≤ j := by omega
        have e : 64 * (offset / 64) + (offset - 64 * (offset / 64) + j) = offset + j := by omega
        simp [h1, h2, e]
      · have h2 : 64 - (offset - 64 * (offset / 64)) ≤ j := by omega
        have h3 : j - (64 - (offset - 64 * (offset / 64))) < 64 := by omega
        have e : 64 * (offset / 64 + 1) + (j - (64 - (offset - 64 * (offset / 64)))) =
            offset + j := by omega
        simp [h1, h2, h3, e]
    · simp [h]

/-- The characteristic vector of the rho entry is zero. -/
theorem chi_bitset_rho (words offset mask : Nat) :
    chi_bitset (List.replicate words 0) offset mask = 0 := by
  have h : ∀ k, (List.replicate words (0 : Nat)).getD k 0 = 0 := by
    intro k
    rw [List.getD_eq_getElem?_getD]
    by_cases hk : k < words
    · rw [List.getElem?_replicate_of_lt hk]; rfl
    · rw [List.getElem?_eq_none (by simp; omega)]; rfl
  unfold chi_bitset
  simp only [h]
  split <;> simp

/-- A code point that does not occur in the window has the characteristic vector zero. -/
theorem chi_eq_zero_of_not_mem (l : List Nat) (c : Nat) (h : c ∉ l) : chi l c 0 0 = 0 := by
  apply Nat.eq_of_testBit_eq
  intro j
  rw [chi_testBit]
  simp only [Nat.zero_testBit, Bool.false_or, Nat.zero_le, decide_True, Bool.true_and,
    Nat.sub_zero, decide_eq_false_iff_not]
  intro hj
  obtain ⟨hlt, he⟩ := List.getElem?_eq_some.mp hj
  exact h (he ▸ List.getElem_mem hlt)

end irs

namespace irs

/-! ## The automaton builder follows the parametric automaton -/

/-! The parts of the invariant of the builder. -/

theorem builder_inv.len_eq {d : parametric_description} {X : List Nat} {R : Nat → Nat → Prop}
    {a : automaton} {table : List (Option Nat)} {stack : List builder_state}
    {tags : List (Nat × Nat)} (h : builder_inv d X R a table stack tags) :
    a.states.length = tags.length := h.1.len_eq

theorem builder_inv.start {d : parametric_description} {X : List Nat} {R : Nat → Nat → Prop}
    {a : automaton} {table : List (Option Nat)} {stack : List builder_state}
    {tags : List (Nat × Nat)} (h : builder_inv d X R a table stack tags) :
    a.start = some 1 := h.1.start

theorem builder_inv.tag1 {d : parametric_description} {X : List Nat} {R : Nat → Nat → Prop}
    {a : automaton} {table : List (Option Nat)} {stack : List builder_state}
    {tags : List (Nat × Nat)} (h : builder_inv d X R a table stack tags) :
    tags[1]? = some (1, 0) := h.1.tag1

theorem builder_inv.state0 {d : parametric_description} {X : List Nat} {R : Nat → Nat → Prop}
    {a : automaton} {table : List (Option Nat)} {stack : List builder_state}
    {tags : List (Nat × Nat)} (h : builder_inv d X R a table stack tags) :
    a.states[0]? = some ⟨none, []⟩ := h.1.state0

theorem builder_inv.tags_fit {d : parametric_description} {X : List Nat}
    {R : Nat → Nat → Prop} {a : automaton} {table : List (Option Nat)}
    {stack : List builder_state} {tags : List (Nat × Nat)}
    (h : builder_inv d X R a table stack tags) :
    ∀ s ps off, 1 ≤ s → tags[s]? = some (ps, off) → R ps off := h.2.1.tags_fit

theorem builder_inv.finals {d : parametric_description} {X : List Nat} {R : Nat → Nat → Prop}
    {a : automaton} {table : List (Option Nat)} {stack : List builder_state}
    {tags : List (Nat × Nat)} (h : builder_inv d X R a table stack tags) :
    ∀ s st ps off, 1 ≤ s → a.states[s]? = some st → tags[s]? = some (ps, off) →
      st.final = final_weight d X ps off := h.2.1.finals

theorem builder_inv.table_len {d : parametric_description} {X : List Nat}
    {R : Nat → Nat → Prop} {a : automaton} {table : List (Option Nat)}
    {stack : List builder_state} {tags : List (Nat × Nat)}
    (h : builder_inv d X R a table stack tags) :
    table.length = d.num_states * (1 + X.length) := h.2.1.table_len

theorem builder_inv.table_ok {d : parametric_description} {X : List Nat}
    {R : Nat → Nat → Prop} {a : automaton} {table : List (Option Nat)}
    {stack : List builder_state} {tags : List (Nat × Nat)}
    (h : builder_inv d X R a table stack tags) :
    ∀ (i s : Nat), table[i]? = some (some s) →
      (s = 0 ∧ i = 0) ∨
      (2 ≤ s ∧ ∃ ps off, tags[s]? = some (ps, off) ∧ i = ps * (1 + X.length) + off) :=
  h.2.1.table_ok

theorem builder_inv.stack_ok {d : parametric_description} {X : List Nat}
    {R : Nat → Nat → Prop} {a : automaton} {table : List (Option Nat)}
    {stack : List builder_state} {tags : List (Nat × Nat)}
    (h : builder_inv d X R a table stack tags) :
    ∀ item ∈ stack, 1 ≤ item.src ∧
      tags[item.src]? = some (item.state_id, item.offset) ∧
      ∃ st, a.states[item.src]? = some st ∧ st.arcs = [] := h.2.2.stack_ok

theorem builder_inv.stack_nodup {d : parametric_description} {X : List Nat}
    {R : Nat → Nat → Prop} {a : automaton} {table : List (Option Nat)}
    {stack : List builder_state} {tags : List (Nat × Nat)}
    (h : builder_inv d X R a table stack tags) :
    (stack.map (fun item => item.src)).Nodup := h.2.2.stack_nodup

theorem builder_inv.processed {d : parametric_description} {X : List Nat}
    {R : Nat → Nat → Prop} {a : automaton} {table : List (Option Nat)}
    {stack : List builder_state} {tags : List (Nat × Nat)}
    (h : builder_inv d X R a table stack tags) :
    ∀ s st ps off, 1 ≤ s → a.states[s]? = some st → tags[s]? = some (ps, off) →
      (∀ item ∈ stack, item.src ≠ s) → arcs_simulate d X tags st.arcs ps off :=
  h.2.2.processed

theorem count_none_set_some_le (table : List (Option Nat)) (i s : Nat) :
    count_none (table.set i (some s)) ≤ count_none table := by
  unfold count_none
  by_cases h : i < table.length
  · rw [List.countP_set _ _ _ _ h]
    simp only [Option.isNone_some, Bool.false_eq_true, if_false, Nat.add_zero]
    exact Nat.sub_le _ _
  · rw [List.set_eq_of_length_le (by omega)]

theorem count_none_set_none (table : List (Option Nat)) (i s : Nat)
    (h : table[i]? = some none) :
    count_none (table.set i (some s)) + 1 = count_none table := by
  obtain ⟨hlt, he⟩ := List.getElem?_eq_some.mp h
  unfold count_none
  rw [List.countP_set _ _ _ _ hlt]
  have hpos : 0 < List.countP (fun x => x.isNone) table :=
    List.countP_pos_iff.mpr ⟨none, by rw [← he]; exact List.getElem_mem _, rfl⟩
  simp only [he, Option.isNone_none, if_true, Option.isNone_some, Bool.false_eq_true, if_false,
    Nat.add_zero]
  omega

theorem SetFinal_getElem? (a : automaton) (s w i : Nat) :
    (a.SetFinal s w).states[i]? =
      (a.states[i]?).map (fun st => if s = i then { st with final := some w } else st) := by
  simp [automaton.SetFinal, List.getElem?_modify]

theorem EmplaceArc_getElem? (a : automaton) (s : Nat) (l : label) (t i : Nat) :
    (a.EmplaceArc s l t).states[i]? =
      (a.states[i]?).map (fun st =>
        if s = i then { st with arcs := st.arcs ++ [⟨l, t⟩] } else st) := by
  simp [automaton.EmplaceArc, List.getElem?_modify]

/-- The two components of an index of the table. -/
theorem table_index_inj (W a b a' b' : Nat) (hb : b < W) (hb' : b' < W)
    (h : a * W + b = a' * W + b') : a = a' ∧ b = b' := by
  have h1 : (a * W + b) / W = a := by
    rw [Nat.add_comm, Nat.mul_comm, Nat.add_mul_div_left _ _ (by omega), Nat.div_eq_of_lt hb]
    omega
  have h2 : (a' * W + b') / W = a' := by
    rw [Nat.add_comm, Nat.mul_comm, Nat.add_mul_div_left _ _ (by omega), Nat.div_eq_of_lt hb']
    omega
  have e : a = a' := by rw [← h1, ← h2, h]
  subst e
  exact ⟨rfl, by omega⟩

theorem target_of_unique (d : parametric_description) (X : List Nat)
    (table : List (Option Nat)) (tags : List (Nat × Nat)) (ps off chi s1 s2 : Nat)
    (h1 : target_of d X table tags ps off chi s1) (h2 : target_of d X table tags ps off chi s2) :
    s1 = s2 := by
  unfold target_of at h1 h2
  by_cases h : (d.transition ps chi).1 = 0
  · rw [if_pos h] at h1 h2
    rw [h1, h2]
  · rw [if_neg h] at h1 h2
    have := h1.1.symm.trans h2.1
    simpa using this

theorem arcs_simulate_mono (d : parametric_description) (X : List Nat)
    (tags tags' : List (Nat × Nat)) (arcs : List arc) (ps off : Nat)
    (hle : ∀ (i : Nat) (v : Nat × Nat), tags[i]? = some v → tags'[i]? = some v)
    (h : arcs_simulate d X tags arcs ps off) : arcs_simulate d X tags' arcs ps off := by
  intro c
  have hc := h c
  unfold step_ok at hc ⊢
  cases hp : parametric_step d X ps off c with
  | none => rw [hp] at hc; exact hc
  | some tag =>
    rw [hp] at hc
    obtain ⟨s', h1, h2, h3⟩ := hc
    exact ⟨s', h1, h2, hle _ _ h3⟩

/-- The state that the builder adds for a live transition. -/
theorem new_state_spec (a : automaton) (dist maxd : Nat) :
    (if dist ≤ maxd then a.AddState.1.SetFinal a.AddState.2 dist else a.AddState.1).start =
        a.start ∧
    (if dist ≤ maxd then a.AddState.1.SetFinal a.AddState.2 dist else a.AddState.1).states =
        a.states ++ [⟨if dist ≤ maxd then some dist else none, []⟩] := by
  by_cases h : dist ≤ maxd
  · rw [if_pos h, if_pos h]
    refine ⟨rfl, ?_⟩
    apply List.ext_getElem?
    intro i
    rw [SetFinal_getElem?]
    simp only [automaton.AddState]
    by_cases hi : i < a.states.length
    · have hne : ¬ a.states.length = i := by omega
      rw [List.getElem?_append_left hi, List.getElem?_append_left hi]
      cases hs : a.states[i]? with
      | none => rfl
      | some st => simp [hne]
    · by_cases hi2 : i = a.states.length
      · subst hi2
        simp
      · rw [List.getElem?_eq_none (by simp; omega), List.getElem?_eq_none (by simp; omega)]
        rfl
  · rw [if_neg h, if_neg h]
    exact ⟨rfl, rfl⟩

end irs

namespace irs

theorem getD_none_eq_some (table : List (Option Nat)) (i s : Nat)
    (h : table.getD i none = some s) : table[i]? = some (some s) := by
  rw [List.getD_eq_getElem?_getD] at h
  cases ht : table[i]? with
  | none => rw [ht] at h; simp at h
  | some v => rw [ht] at h; simp at h; rw [h]

theorem getD_none_eq_none (table : List (Option Nat)) (i : Nat) (hi : i < table.length)
    (h : table.getD i none = none) : table[i]? = some none := by
  rw [List.getD_eq_getElem?_getD] at h
  cases ht : table[i]? with
  | none =>
    have := (List.getElem?_eq_none_iff.mp ht)
    omega
  | some v => rw [ht] at h; simp at h; rw [h]

/-- The first half of an iteration of the loop over the alphabet keeps the invariant of the
builder and finds the automaton state of the transition. -/
theorem entry_target_spec (d : parametric_description) (X : List Nat) (R : Nat → Nat → Prop)
    (hfit : description_fits d X R) (st : builder_state) (a : automaton)
    (table : List (Option Nat)) (stack : List builder_state) (tags : List (Nat × Nat))
    (hinv : builder_inv d X R a table (st :: stack) tags) (chi : Nat)
    (hR : (d.transition st.state_id chi).1 ≠ 0 →
      R (d.transition st.state_id chi).1 (st.offset + (d.transition st.state_id chi).2)) :
    ∃ tags' : List (Nat × Nat),
      (∀ (i : Nat) (v : Nat × Nat), tags[i]? = some v → tags'[i]? = some v) ∧
      builder_inv d X R (entry_target d X.length st a table stack chi).1
        (entry_target d X.length st a table stack chi).2.1
        (st :: (entry_target d X.length st a table stack chi).2.2.1) tags' ∧
      target_of d X (entry_target d X.length st a table stack chi).2.1 tags' st.state_id
        st.offset chi (entry_target d X.length st a table stack chi).2.2.2 ∧
      (∀ chi' s', target_of d X table tags st.state_id st.offset chi' s' →
        target_of d X (entry_target d X.length st a table stack chi).2.1 tags' st.state_id
          st.offset chi' s') ∧
      count_none (entry_target d X.length st a table stack chi).2.1 +
          (entry_target d X.length st a table stack chi).2.2.1.length ≤
        count_none table + stack.length := by
  by_cases h0 : (d.transition st.state_id chi).1 = 0
  · -- the dead transition
    have e : entry_target d X.length st a table stack chi =
        (a, table.set 0 (some 0), stack, 0) := by
      unfold entry_target
      simp [h0, INVALID_STATE]
    rw [e]
    refine ⟨tags, fun _ _ h => h, ?_, ?_, ?_, ?_⟩
    · exact ⟨
        { len_eq := hinv.len_eq
          start := hinv.start
          tag1 := hinv.tag1
          state0 := hinv.state0 },
        { tags_fit := hinv.tags_fit
          finals := hinv.finals
          table_len := by simpa using hinv.table_len
          table_ok := by
            intro i s hs
            by_cases hi : i = 0
            · subst hi
              rw [List.getElem?_set] at hs
              simp only [if_true] at hs
              by_cases hl : 0 < table.length
              · rw [if_pos hl] at hs
                left
                simp at hs
                exact ⟨hs.symm, rfl⟩
              · rw [if_neg hl] at hs
                simp at hs
            · rw [List.getElem?_set_ne (fun h => hi h.symm)] at hs
              exact hinv.table_ok i s hs },
        { stack_ok := hinv.stack_ok
          stack_nodup := hinv.stack_nodup
          processed := hinv.processed }⟩
    · unfold target_of
      rw [if_pos h0]
    · intro chi' s' h
      unfold target_of at h ⊢
      by_cases h1 : (d.transition st.state_id chi').1 = 0
      · rw [if_pos h1] at h ⊢
        exact h
      · rw [if_neg h1] at h ⊢
        refine ⟨?_, h.2⟩
        rw [List.getElem?_set_ne]
        · exact h.1
        · have : 1 ≤ (d.transition st.state_id chi').1 := by omega
          have : 1 * (1 + X.length) ≤ (d.transition st.state_id chi').1 * (1 + X.length) :=
            Nat.mul_le_mul_right _ this
          omega
    · have := count_none_set_some_le table 0 0
      simp only [List.length]
      omega
  · -- a live transition
    have hR' := hR h0
    have hlt := hfit.state_lt _ _ hR'
    have hoff := hfit.offset_le _ _ hR'
    have hidx : (d.transition st.state_id chi).1 * (1 + X.length) +
        (st.offset + (d.transition st.state_id chi).2) < table.length := by
      rw [hinv.table_len]
      have : ((d.transition st.state_id chi).1 + 1) * (1 + X.length) ≤
          d.num_states * (1 + X.length) := Nat.mul_le_mul_right _ hlt
      rw [Nat.add_mul] at this
      omega
    have hidx0 : (d.transition st.state_id chi).1 * (1 + X.length) +
        (st.offset + (d.transition st.state_id chi).2) ≠ 0 := by
      have : 1 ≤ (d.transition st.state_id chi).1 := by omega
      have : 1 * (1 + X.length) ≤ (d.transition st.state_id chi).1 * (1 + X.length) :=
        Nat.mul_le_mul_right _ this
      omega
    cases hget : table.getD ((d.transition st.state_id chi).1 * (1 + X.length) +
        (st.offset + (d.transition st.state_id chi).2)) none with
    | some to_ =>
      have e : entry_target d X.length st a table stack chi = (a, table, stack, to_) := by
        unfold entry_target
        simp only [INVALID_STATE, h0, if_false, ne_eq, not_false_eq_true, if_true,
          Nat.add_comm (d.transition st.state_id chi).2 st.offset, hget]
      rw [e]
      refine ⟨tags, fun _ _ h => h, hinv, ?_, fun _ _ h => h, Nat.le_refl _⟩
      have hs := getD_none_eq_some _ _ _ hget
      unfold target_of
      rw [if_neg h0]
      rcases hinv.table_ok _ _ hs with ⟨_, h2⟩ | ⟨h1, ps, off, h2, h3⟩
      · exact absurd h2 hidx0
      · have hfit' := hinv.tags_fit to_ ps off (by omega) h2
        have := table_index_inj (1 + X.length) _ _ _ _
          (by omega : st.offset + (d.transition st.state_id chi).2 < 1 + X.length)
          (by have := hfit.offset_le _ _ hfit'; omega : off < 1 + X.length) h3
        refine ⟨hs, h1, ?_⟩
        rw [h2, this.1, this.2]
    | none =>
      have hs := getD_none_eq_none _ _ hidx hget
      have hnew := new_state_spec a
        (d.distance (d.transition st.state_id chi).1
          (sub_size_t X.length (st.offset + (d.transition st.state_id chi).2))) d.max_distance
      have e : entry_target d X.length st a table stack chi =
          ((if d.distance (d.transition st.state_id chi).1
              (sub_size_t X.length (st.offset + (d.transition st.state_id chi).2)) ≤
                d.max_distance then
              a.AddState.1.SetFinal a.AddState.2
                (d.distance (d.transition st.state_id chi).1
                  (sub_size_t X.length (st.offset + (d.transition st.state_id chi).2)))
            else a.AddState.1),
           table.set ((d.transition st.state_id chi).1 * (1 + X.length) +
             (st.offset + (d.transition st.state_id chi).2)) (some a.states.length),
           ⟨st.offset + (d.transition st.state_id chi).2, (d.transition st.state_id chi).1,
             a.states.length⟩ :: stack, a.states.length) := by
        unfold entry_target
        simp only [INVALID_STATE, h0, if_false, ne_eq, not_false_eq_true, if_true,
          Nat.add_comm (d.transition st.state_id chi).2 st.offset, hget]
        rfl
      rw [e]
      have hlen2 : 2 ≤ tags.length := by
        have := (List.getElem?_eq_some.mp hinv.tag1).1
        omega
      have hle : ∀ (i : Nat) (v : Nat × Nat), tags[i]? = some v →
          (tags ++ [((d.transition st.state_id chi).1,
            st.offset + (d.transition st.state_id chi).2)])[i]? = some v := by
        intro i v h
        rw [List.getElem?_append_left (List.getElem?_eq_some.mp h).1]
        exact h
      have hnewtag : (tags ++ [((d.transition st.state_id chi).1,
            st.offset + (d.transition st.state_id chi).2)])[a.states.length]? =
          some ((d.transition st.state_id chi).1,
            st.offset + (d.transition st.state_id chi).2) := by
        rw [hinv.len_eq]
        exact List.getElem?_concat_length _ _
      have hold : ∀ i, i < a.states.length →
          (a.states ++ [(⟨if d.distance (d.transition st.state_id chi).1
              (sub_size_t X.length (st.offset + (d.transition st.state_id chi).2)) ≤
                d.max_distance then
              some (d.distance (d.transition st.state_id chi).1
                (sub_size_t X.length (st.offset + (d.transition st.state_id chi).2)))
            else none, []⟩ : fst_state)])[i]? = a.states[i]? :=
        fun i hi => List.getElem?_append_left hi
      refine ⟨tags ++ [((d.transition st.state_id chi).1,
        st.offset + (d.transition st.state_id chi).2)], hle, ?_, ?_, ?_, ?_⟩
      · exact ⟨
          { len_eq := by
              simp only [hnew.2, List.length_append, List.length_singleton]
              rw [hinv.len_eq]
            start := by simp only [hnew.1]; exact hinv.start
            tag1 := hle _ _ hinv.tag1
            state0 := by
              simp only [hnew.2]
              rw [hold 0 (by rw [hinv.len_eq]; omega)]
              exact hinv.state0 },
          { tags_fit := by
              intro s ps off h1 h2
              by_cases hs' : s < tags.length
              · rw [List.getElem?_append_left hs'] at h2
                exact hinv.tags_fit s ps off h1 h2
              · have hs2 : s = a.states.length := by
                  have := (List.getElem?_eq_some.mp h2).1
                  simp only [List.length_append, List.length_singleton] at this
                  rw [hinv.len_eq]
                  omega
                rw [hs2, hnewtag] at h2
                simp only [Option.some.injEq, Prod.mk.injEq] at h2
                rw [← h2.1, ← h2.2]
                exact hR'
            finals := by
              intro s fs ps off h1 h2 h3
              simp only [hnew.2] at h2
              by_cases hs' : s < a.states.length
              · rw [hold s hs'] at h2
                rw [List.getElem?_append_left (by rw [← hinv.len_eq]; exact hs')] at h3
                exact hinv.finals s fs ps off h1 h2 h3
              · have hs2 : s = a.states.length := by
                  have := (List.getElem?_eq_some.mp h3).1
                  simp only [List.length_append, List.length_singleton] at this
                  have hl := hinv.len_eq
                  omega
                subst hs2
                rw [hnewtag] at h3
                rw [List.getElem?_concat_length] at h2
                simp only [Option.some.injEq, Prod.mk.injEq] at h2 h3
                rw [← h2, ← h3.1, ← h3.2]
                rfl
            table_len := by simpa using hinv.table_len
            table_ok := by
              intro i s hs1
              by_cases hi : (d.transition st.state_id chi).1 * (1 + X.length) +
                  (st.offset + (d.transition st.state_id chi).2) = i
              · rw [← hi, List.getElem?_set_self hidx] at hs1
                simp only [Option.some.injEq] at hs1
                right
                rw [← hs1]
                exact ⟨by rw [hinv.len_eq]; exact hlen2, _, _, hnewtag, hi.symm⟩
              · rw [List.getElem?_set_ne hi] at hs1
                rcases hinv.table_ok i s hs1 with h | ⟨h1, ps, off, h2, h3⟩
                · exact Or.inl h
                · exact Or.inr ⟨h1, ps, off, hle _ _ h2, h3⟩ },
          { stack_ok := by
              intro item hitem
              simp only [hnew.2]
              rcases List.mem_cons.mp hitem with h | h
              · obtain ⟨h1, h2, fs, h3, h4⟩ := hinv.stack_ok item (by rw [h]; exact List.mem_cons_self _ _)
                refine ⟨h1, hle _ _ h2, fs, ?_, h4⟩
                rw [hold _ (List.getElem?_eq_some.mp h3).1]
                exact h3
              · rcases List.mem_cons.mp h with h | h
                · subst h
                  refine ⟨by show 1 ≤ a.states.length; rw [hinv.len_eq]; omega, hnewtag, _,
                    List.getElem?_concat_length _ _, rfl⟩
                · obtain ⟨h1, h2, fs, h3, h4⟩ :=
                    hinv.stack_ok item (List.mem_cons_of_mem _ h)
                  refine ⟨h1, hle _ _ h2, fs, ?_, h4⟩
                  rw [hold _ (List.getElem?_eq_some.mp h3).1]
                  exact h3
            stack_nodup := by
              have hnd := hinv.stack_nodup
              simp only [List.map_cons, List.nodup_cons, List.mem_cons, List.mem_map,
                not_or, not_exists, not_and] at hnd ⊢
              have hsrc : ∀ item ∈ st :: stack, item.src < a.states.length := by
                intro item hitem
                obtain ⟨_, _, fs, h3, _⟩ := hinv.stack_ok item hitem
                exact (List.getElem?_eq_some.mp h3).1
              refine ⟨⟨?_, hnd.1⟩, ⟨?_, hnd.2⟩⟩
              · have := hsrc st (List.mem_cons_self _ _)
                omega
              · intro item hitem
                have := hsrc item (List.mem_cons_of_mem _ hitem)
                omega
            processed := by
              intro s fs ps off h1 h2 h3 h4
              simp only [hnew.2] at h2
              have hs' : s < a.states.length := by
                have := (List.getElem?_eq_some.mp h2).1
                simp only [List.length_append, List.length_singleton] at this
                have hne := h4 ⟨st.offset + (d.transition st.state_id chi).2,
                  (d.transition st.state_id chi).1, a.states.length⟩
                  (List.mem_cons_of_mem _ (List.mem_cons_self _ _))
                simp only [ne_eq] at hne
                omega
              rw [hold s hs'] at h2
              rw [List.getElem?_append_left (by rw [← hinv.len_eq]; exact hs')] at h3
              refine arcs_simulate_mono d X tags _ _ _ _ hle
                (hinv.processed s fs ps off h1 h2 h3 ?_)
              intro item hitem
              rcases List.mem_cons.mp hitem with h | h
              · exact h4 item (by rw [h]; exact List.mem_cons_self _ _)
              · exact h4 item (List.mem_cons_of_mem _ (List.mem_cons_of_mem _ h)) }⟩
      · unfold target_of
        rw [if_neg h0]
        exact ⟨List.getElem?_set_self hidx, by rw [hinv.len_eq]; exact hlen2, hnewtag⟩
      · intro chi' s' h
        unfold target_of at h ⊢
        by_cases h1 : (d.transition st.state_id chi').1 = 0
        · rw [if_pos h1] at h ⊢
          exact h
        · rw [if_neg h1] at h ⊢
          refine ⟨?_, h.2.1, hle _ _ h.2.2⟩
          rw [List.getElem?_set_ne]
          · exact h.1
          · intro heq
            rw [← heq, hs] at h
            simp at h
      · have := count_none_set_none table _ a.states.length hs
        simp only [List.length_cons]
        omega

end irs

namespace irs

theorem window_chi_eq_zero (d : parametric_description) (X : List Nat) (off c : Nat)
    (h : c ∉ X) : window_chi d X off c = 0 := by
  unfold window_chi
  apply chi_eq_zero_of_not_mem
  intro hm
  exact h (List.mem_of_mem_take (List.mem_of_mem_drop hm))

theorem exists_not_mem_word (X : List Nat) : ∃ c, c ∉ X := by
  obtain ⟨c, hc⟩ := Infinite.exists_not_mem_finset X.toFinset
  exact ⟨c, fun h => hc (List.mem_toFinset.mpr h)⟩

/-- The transitions of a state that fits lead to states that fit. -/
theorem fits_transition (d : parametric_description) (X : List Nat) (R : Nat → Nat → Prop)
    (hfit : description_fits d X R) (ps off c : Nat) (hR : R ps off)
    (h : (d.transition ps (window_chi d X off c)).1 ≠ 0) :
    R (d.transition ps (window_chi d X off c)).1
      (off + (d.transition ps (window_chi d X off c)).2) := by
  apply hfit.step ps off c _ _ hR
  unfold parametric_step
  rw [if_neg (by simpa [INVALID_STATE] using h)]

theorem fits_transition_zero (d : parametric_description) (X : List Nat)
    (R : Nat → Nat → Prop) (hfit : description_fits d X R) (ps off : Nat) (hR : R ps off)
    (h : (d.transition ps 0).1 ≠ 0) :
    R (d.transition ps 0).1 (off + (d.transition ps 0).2) := by
  obtain ⟨c, hc⟩ := exists_not_mem_word X
  have := fits_transition d X R hfit ps off c hR
  rw [window_chi_eq_zero d X off c hc] at this
  exact this h

theorem stack_head_fits (d : parametric_description) (X : List Nat) (R : Nat → Nat → Prop)
    (st : builder_state) (a : automaton) (table : List (Option Nat))
    (stack : List builder_state) (tags : List (Nat × Nat))
    (hinv : builder_inv d X R a table (st :: stack) tags) : R st.state_id st.offset := by
  obtain ⟨h1, h2, _⟩ := hinv.stack_ok st (List.mem_cons_self _ _)
  exact hinv.tags_fit _ _ _ h1 h2

/-- The entry of rho, the first of the alphabet, sets the default state. -/
theorem process_rho (d : parametric_description) (X : List Nat) (R : Nat → Nat → Prop)
    (hfit : description_fits d X R) (st : builder_state) (a : automaton)
    (table : List (Option Nat)) (stack : List builder_state) (tags : List (Nat × Nat))
    (hinv : builder_inv d X R a table (st :: stack) tags) (words mask size cp : Nat) :
    ∃ tags', entry_inv d X R st []
      (process_entry d X.length mask st
        { a := a, transitions := table, stack := stack, default_state := none, arcs := [],
          ascii := true }
        { chi := List.replicate words 0, size := size, cp := cp }) tags'
      (count_none table + stack.length) := by
  have hR := stack_head_fits d X R st a table stack tags hinv
  obtain ⟨tags', _, h2, h3, _, h5⟩ := entry_target_spec d X R hfit st a table stack tags hinv 0
    (fits_transition_zero d X R hfit _ _ hR)
  have e : process_entry d X.length mask st
        { a := a, transitions := table, stack := stack, default_state := none, arcs := [],
          ascii := true }
        { chi := List.replicate words 0, size := size, cp := cp } =
      { a := (entry_target d X.length st a table stack 0).1
        transitions := (entry_target d X.length st a table stack 0).2.1
        stack := (entry_target d X.length st a table stack 0).2.2.1
        default_state := some (entry_target d X.length st a table stack 0).2.2.2
        arcs := []
        ascii := true } := by
    unfold process_entry
    simp only [chi_bitset_rho, ne_eq, not_true_eq_false, false_and, if_false]
  rw [e]
  exact ⟨tags',
    { base := h2
      measure := h5
      default_ok := ⟨_, rfl, h3⟩
      arcs_ok := fun e he => absurd he (List.not_mem_nil _)
      ascii_ok := fun _ e he => absurd he (List.not_mem_nil _)
      resolved := fun c hc => absurd hc (List.not_mem_nil _) }⟩

theorem utf8_size_eq_one (c : Nat) (h : utf8_size c = 1) : c < 128 := by
  unfold utf8_size at h
  by_cases h1 : c < 0x80
  · exact h1
  · rw [if_neg h1] at h
    split at h <;> [skip; split at h] <;> simp at h

/-- The entry of a code point of the target adds an arc or keeps the default state. -/
theorem process_char (d : parametric_description) (X : List Nat) (R : Nat → Nat → Prop)
    (hfit : description_fits d X R) (st : builder_state) (pre : List Nat) (s : entry_state)
    (tags : List (Nat × Nat)) (bound : Nat) (hinv : entry_inv d X R st pre s tags bound)
    (c : Nat) :
    ∃ tags', entry_inv d X R st (pre ++ [c])
      (process_entry d X.length ((1 <<< d.chi_size) - 1) st s
        { chi := make_bitset X c ((X.length + 64 + 63) / 64), size := utf8_size c, cp := c })
      tags' bound := by
  have hR := stack_head_fits d X R st s.a s.transitions s.stack tags hinv.base
  have hchi : chi_bitset (make_bitset X c ((X.length + 64 + 63) / 64)) st.offset
      ((1 <<< d.chi_size) - 1) = window_chi d X st.offset c :=
    chi_bitset_eq_chi X c _ st.offset d.chi_size (by omega) hfit.chi_size_le
  obtain ⟨tags', _, h2, h3, h4, h5⟩ := entry_target_spec d X R hfit st s.a s.transitions
    s.stack tags hinv.base (window_chi d X st.offset c) (fits_transition d X R hfit _ _ c hR)
  obtain ⟨s0, hd1, hd2⟩ := hinv.default_ok
  by_cases hcase : window_chi d X st.offset c ≠ 0 ∧
      some (entry_target d X.length st s.a s.transitions s.stack
        (window_chi d X st.offset c)).2.2.2 ≠ s.default_state
  · have e : process_entry d X.length ((1 <<< d.chi_size) - 1) st s
          { chi := make_bitset X c ((X.length + 64 + 63) / 64), size := utf8_size c,
            cp := c } =
        { a := (entry_target d X.length st s.a s.transitions s.stack
            (window_chi d X st.offset c)).1
          transitions := (entry_target d X.length st s.a s.transitions s.stack
            (window_chi d X st.offset c)).2.1
          stack := (entry_target d X.length st s.a s.transitions s.stack
            (window_chi d X st.offset c)).2.2.1
          default_state := s.default_state
          arcs := s.arcs ++ [(c, (entry_target d X.length st s.a s.transitions s.stack
            (window_chi d X st.offset c)).2.2.2)]
          ascii := s.ascii && decide (utf8_size c = 1) } := by
      unfold process_entry
      simp only [hchi]
      rw [if_pos hcase]
    rw [e]
    refine ⟨tags',
      { base := h2
        measure := Nat.le_trans h5 hinv.measure
        default_ok := ⟨s0, hd1, h4 _ _ hd2⟩
        arcs_ok := ?_
        ascii_ok := ?_
        resolved := ?_ }⟩
    · intro e he
      rcases List.mem_append.mp he with h | h
      · exact h4 _ _ (hinv.arcs_ok e h)
      · rw [List.mem_singleton.mp h]
        exact h3
    · intro ha e he
      simp only [Bool.and_eq_true, decide_eq_true_eq] at ha
      rcases List.mem_append.mp he with h | h
      · exact hinv.ascii_ok ha.1 e h
      · rw [List.mem_singleton.mp h]
        exact utf8_size_eq_one c ha.2
    · intro c' hc'
      rcases List.mem_append.mp hc' with h | h
      · rcases hinv.resolved c' h with ⟨e, he1, he2⟩ | ⟨s1, hs1, hs2⟩
        · exact Or.inl ⟨e, List.mem_append_left _ he1, he2⟩
        · exact Or.inr ⟨s1, hs1, h4 _ _ hs2⟩
      · rw [List.mem_singleton.mp h]
        exact Or.inl ⟨_, List.mem_append_right _ (List.mem_singleton.mpr rfl), rfl⟩
  · have hsame : some (entry_target d X.length st s.a s.transitions s.stack
        (window_chi d X st.offset c)).2.2.2 = s.default_state := by
      by_cases hz : window_chi d X st.offset c = 0
      · rw [hd1]
        congr 1
        apply target_of_unique d X _ tags' st.state_id st.offset 0
        · have := h3
          rw [hz] at this
          rw [hz]
          exact this
        · have := h4 _ _ hd2
          rw [hz] at this
          exact this
      · by_contra hne
        exact hcase ⟨hz, hne⟩
    have e : process_entry d X.length ((1 <<< d.chi_size) - 1) st s
          { chi := make_bitset X c ((X.length + 64 + 63) / 64), size := utf8_size c,
            cp := c } =
        { a := (entry_target d X.length st s.a s.transitions s.stack
            (window_chi d X st.offset c)).1
          transitions := (entry_target d X.length st s.a s.transitions s.stack
            (window_chi d X st.offset c)).2.1
          stack := (entry_target d X.length st s.a s.transitions s.stack
            (window_chi d X st.offset c)).2.2.1
          default_state := some (entry_target d X.length st s.a s.transitions s.stack
            (window_chi d X st.offset c)).2.2.2
          arcs := s.arcs
          ascii := s.ascii } := by
      unfold process_entry
      simp only [hchi]
      rw [if_neg hcase]
    rw [e]
    refine ⟨tags',
      { base := h2
        measure := Nat.le_trans h5 hinv.measure
        default_ok := ⟨_, rfl, ?_⟩
        arcs_ok := fun e he => h4 _ _ (hinv.arcs_ok e he)
        ascii_ok := hinv.ascii_ok
        resolved := ?_ }⟩
    · have hto : (entry_target d X.length st s.a s.transitions s.stack
          (window_chi d X st.offset c)).2.2.2 = s0 := by
        have := hsame
        rw [hd1] at this
        exact Option.some.inj this
      rw [hto]
      exact h4 _ _ hd2
    · intro c' hc'
      rcases List.mem_append.mp hc' with h | h
      · rcases hinv.resolved c' h with ⟨e, he1, he2⟩ | ⟨s1, hs1, hs2⟩
        · exact Or.inl ⟨e, he1, he2⟩
        · refine Or.inr ⟨s1, ?_, h4 _ _ hs2⟩
          show some _ = some s1
          rw [hsame, hs1]
      · rw [List.mem_singleton.mp h]
        exact Or.inr ⟨_, rfl, h3⟩

end irs

namespace irs

theorem process_chars (d : parametric_description) (X : List Nat) (R : Nat → Nat → Prop)
    (hfit : description_fits d X R) (st : builder_state) (bound : Nat) :
    ∀ (cs pre : List Nat) (s : entry_state) (tags : List (Nat × Nat)),
      entry_inv d X R st pre s tags bound →
      ∃ tags', entry_inv d X R st (pre ++ cs)
        (cs.foldl (fun s c => process_entry d X.length ((1 <<< d.chi_size) - 1) st s
          { chi := make_bitset X c ((X.length + 64 + 63) / 64), size := utf8_size c,
            cp := c }) s) tags' bound := by
  intro cs
  induction cs with
  | nil =>
    intro pre s tags h
    exact ⟨tags, by simpa using h⟩
  | cons c cs ih =>
    intro pre s tags h
    obtain ⟨tags1, h1⟩ := process_char d X R hfit st pre s tags bound h c
    obtain ⟨tags2, h2⟩ := ih (pre ++ [c]) _ tags1 h1
    refine ⟨tags2, ?_⟩
    rw [List.foldl_cons]
    simpa using h2

theorem mem_insert_unique (c x : Nat) (l : List Nat) :
    x ∈ insert_unique c l ↔ x = c ∨ x ∈ l := by
  induction l with
  | nil => simp [insert_unique]
  | cons y ys ih =>
    unfold insert_unique
    by_cases h1 : c < y
    · rw [if_pos h1]
      simp
    · rw [if_neg h1]
      by_cases h2 : c = y
      · rw [if_pos h2]
        subst h2
        simp
      · rw [if_neg h2]
        simp only [List.mem_cons, ih]
        tauto

theorem mem_sort_unique (x : Nat) (l : List Nat) : x ∈ sort_unique l ↔ x ∈ l := by
  induction l with
  | nil => simp [sort_unique]
  | cons y ys ih =>
    have e : sort_unique (y :: ys) = insert_unique y (sort_unique ys) := rfl
    rw [e, mem_insert_unique, ih]
    simp

/-- The loop over the alphabet of the target for a popped state. -/
theorem process_alphabet (d : parametric_description) (X : List Nat) (R : Nat → Nat → Prop)
    (hfit : description_fits d X R) (st : builder_state) (a : automaton)
    (table : List (Option Nat)) (stack : List builder_state) (tags : List (Nat × Nat))
    (hinv : builder_inv d X R a table (st :: stack) tags) :
    ∃ tags', entry_inv d X R st (sort_unique X)
      ((make_alphabet X).foldl (process_entry d X.length ((1 <<< d.chi_size) - 1) st)
        { a := a, transitions := table, stack := stack, default_state := none, arcs := [],
          ascii := true }) tags' (count_none table + stack.length) := by
  obtain ⟨tags1, h1⟩ := process_rho d X R hfit st a table stack tags hinv
    ((X.length + 64 + 63) / 64) ((1 <<< d.chi_size) - 1) 0 (2 ^ 32 - 1)
  obtain ⟨tags2, h2⟩ := process_chars d X R hfit st _ (sort_unique X) [] _ tags1 h1
  refine ⟨tags2, ?_⟩
  unfold make_alphabet
  simp only [List.foldl_cons, List.foldl_map]
  simpa using h2

theorem step_of_target (d : parametric_description) (X : List Nat)
    (table : List (Option Nat)) (tags : List (Nat × Nat)) (ps off c s' : Nat)
    (h : target_of d X table tags ps off (window_chi d X off c) s') :
    step_ok d X tags (some s') ps off c := by
  unfold target_of at h
  unfold step_ok parametric_step
  by_cases h0 : (d.transition ps (window_chi d X off c)).1 = 0
  · rw [if_pos h0] at h
    rw [if_pos (by simpa [INVALID_STATE] using h0)]
    right
    rw [h]
  · rw [if_neg h0] at h
    rw [if_neg (by simpa [INVALID_STATE] using h0)]
    exact ⟨s', rfl, by omega, h.2.2⟩

theorem step_of_dead (d : parametric_description) (X : List Nat)
    (table : List (Option Nat)) (tags : List (Nat × Nat)) (ps off c : Nat)
    (h : target_of d X table tags ps off (window_chi d X off c) 0) :
    step_ok d X tags none ps off c := by
  unfold target_of at h
  unfold step_ok parametric_step
  by_cases h0 : (d.transition ps (window_chi d X off c)).1 = 0
  · rw [if_pos (by simpa [INVALID_STATE] using h0)]
    left
    rfl
  · rw [if_neg h0] at h
    omega

theorem first_byte_ge (c : Nat) (h : 128 ≤ c) : 192 ≤ first_byte c := by
  unfold first_byte
  have h1 : ¬ c < 0x80 := by omega
  rw [if_neg h1]
  split
  · omega
  · split <;> omega

theorem range_matches (x c : Nat) (h : x < 128) :
    (label.range x x).matches c = decide (c = x) := by
  unfold label.matches
  simp only []
  by_cases hc : c < 128
  · have : first_byte c = c := by unfold first_byte; rw [if_pos hc]
    rw [this]
    by_cases he : c = x
    · subst he; simp
    · have : ¬ (x ≤ c ∧ c ≤ x) := fun h => he (by omega)
      simp only [he, decide_False]
      by_cases h1 : x ≤ c
      · have h2 : ¬ c ≤ x := by omega
        simp [h1, h2]
      · simp [h1]
  · have h1 := first_byte_ge c (by omega)
    have h2 : ¬ first_byte c ≤ x := by omega
    have he : ¬ c = x := by omega
    simp [h2, he]

theorem next_state_range (arcs : List (Nat × Nat)) (c : Nat)
    (h : ∀ e ∈ arcs, e.1 < 128) :
    next_state (arcs.map (fun e => ⟨label.range e.1 e.1, e.2⟩)) c =
      (arcs.find? (fun e => decide (c = e.1))).map (fun e => e.2) := by
  have hrho : ∀ (l : List (Nat × Nat)),
      (l.map (fun e => (⟨label.range e.1 e.1, e.2⟩ : arc))).find?
        (fun a => a.ilabel = label.rho) = none := by
    intro l
    apply List.find?_eq_none.mpr
    intro x hx
    obtain ⟨e, _, he⟩ := List.mem_map.mp hx
    rw [← he]
    simp
  unfold next_state
  induction arcs with
  | nil => simp
  | cons e es ih =>
    have h1 := h e (List.mem_cons_self _ _)
    have ih' := ih (fun e' he' => h e' (List.mem_cons_of_mem _ he'))
    rw [hrho] at ih' ⊢
    simp only [List.map_cons, List.find?_cons, range_matches e.1 c h1]
    by_cases hc : c = e.1
    · simp [hc]
    · simp only [hc, decide_False]
      exact ih'

theorem next_state_cp (arcs : List (Nat × Nat)) (s0 c : Nat) :
    next_state (arcs.map (fun e => ⟨label.cp e.1, e.2⟩) ++ [⟨label.rho, s0⟩]) c =
      some (((arcs.find? (fun e => decide (c = e.1))).map (fun e => e.2)).getD s0) := by
  unfold next_state
  induction arcs with
  | nil => simp [label.matches]
  | cons e es ih =>
    simp only [List.map_cons, List.cons_append, List.find?_cons, label.matches]
    by_cases hc : c = e.1
    · simp [hc]
    · simp only [hc, decide_False]
      have : (label.cp e.1 = label.rho) = False := by simp
      simp only [this, decide_False]
      exact ih

end irs

namespace irs

theorem foldl_EmplaceArc (src : Nat) (L : Nat → label) :
    ∀ (arcs : List (Nat × Nat)) (a : automaton),
      (arcs.foldl (fun acc e => acc.EmplaceArc src (L e.1) e.2) a).start = a.start ∧
      (arcs.foldl (fun acc e => acc.EmplaceArc src (L e.1) e.2) a).states.length =
        a.states.length ∧
      ∀ i : Nat, (arcs.foldl (fun acc e => acc.EmplaceArc src (L e.1) e.2) a).states[i]? =
        (a.states[i]?).map (fun x =>
          if src = i then { x with arcs := x.arcs ++ arcs.map (fun e => ⟨L e.1, e.2⟩) }
          else x) := by
  intro arcs
  induction arcs with
  | nil =>
    intro a
    refine ⟨rfl, rfl, ?_⟩
    intro i
    simp only [List.foldl_nil, List.map_nil, List.append_nil]
    cases a.states[i]? with
    | none => rfl
    | some x => simp
  | cons e es ih =>
    intro a
    obtain ⟨h1, h2, h3⟩ := ih (a.EmplaceArc src (L e.1) e.2)
    rw [List.foldl_cons]
    refine ⟨h1, ?_, ?_⟩
    · rw [h2]
      simp [automaton.EmplaceArc, List.length_modify]
    · intro i
      rw [h3 i, EmplaceArc_getElem?]
      cases a.states[i]? with
      | none => rfl
      | some x =>
        by_cases hi : src = i
        · simp [hi]
        · simp [hi]

/-- Every code point is resolved after the loop over the alphabet: by an arc or by the
default state. -/
theorem resolved_all (d : parametric_description) (X : List Nat) (R : Nat → Nat → Prop)
    (st : builder_state) (s : entry_state) (tags : List (Nat × Nat)) (bound : Nat)
    (hinv : entry_inv d X R st (sort_unique X) s tags bound) (c : Nat) :
    (∃ e ∈ s.arcs, e.1 = c) ∨
    ∃ s0, s.default_state = some s0 ∧
      target_of d X s.transitions tags st.state_id st.offset (window_chi d X st.offset c) s0 := by
  by_cases hc : c ∈ X
  · exact hinv.resolved c ((mem_sort_unique c X).mpr hc)
  · obtain ⟨s0, h1, h2⟩ := hinv.default_ok
    right
    refine ⟨s0, h1, ?_⟩
    rw [window_chi_eq_zero d X st.offset c hc]
    exact h2

theorem find_arc_some (d : parametric_description) (X : List Nat) (R : Nat → Nat → Prop)
    (st : builder_state) (s : entry_state) (tags : List (Nat × Nat)) (bound : Nat)
    (hinv : entry_inv d X R st (sort_unique X) s tags bound) (c : Nat) (e : Nat × Nat)
    (h : s.arcs.find? (fun e => decide (c = e.1)) = some e) :
    target_of d X s.transitions tags st.state_id st.offset (window_chi d X st.offset c) e.2 := by
  have h1 := List.mem_of_find?_eq_some h
  have h2 := List.find?_some h
  simp only [decide_eq_true_eq] at h2
  rw [h2]
  exact hinv.arcs_ok e h1

theorem find_arc_none (d : parametric_description) (X : List Nat) (R : Nat → Nat → Prop)
    (st : builder_state) (s : entry_state) (tags : List (Nat × Nat)) (bound : Nat)
    (hinv : entry_inv d X R st (sort_unique X) s tags bound) (c : Nat)
    (h : s.arcs.find? (fun e => decide (c = e.1)) = none) :
    ∃ s0, s.default_state = some s0 ∧
      target_of d X s.transitions tags st.state_id st.offset (window_chi d X st.offset c) s0 := by
  rcases resolved_all d X R st s tags bound hinv c with ⟨e, he1, he2⟩ | h'
  · have := List.find?_eq_none.mp h e he1
    simp only [decide_eq_true_eq] at this
    exact absurd he2.symm this
  · exact h'

/-- The arcs emitted for the popped state follow the parametric automaton. -/
theorem emit_arcs_spec (d : parametric_description) (X : List Nat) (R : Nat → Nat → Prop)
    (st : builder_state) (s : entry_state) (tags : List (Nat × Nat)) (bound : Nat)
    (hinv : entry_inv d X R st (sort_unique X) s tags bound) :
    ∃ newarcs : List arc,
      (emit_arcs st.src s).start = s.a.start ∧
      (emit_arcs st.src s).states.length = s.a.states.length ∧
      (∀ i : Nat, (emit_arcs st.src s).states[i]? =
        (s.a.states[i]?).map (fun x =>
          if st.src = i then { x with arcs := x.arcs ++ newarcs } else x)) ∧
      ∀ c, step_ok d X tags (next_state newarcs c) st.state_id st.offset c := by
  obtain ⟨s0, hd1, hd2⟩ := hinv.default_ok
  unfold emit_arcs
  by_cases hb1 : s.default_state = some INVALID_STATE ∧ s.arcs = []
  · rw [if_pos hb1]
    refine ⟨[⟨label.range 0 255, INVALID_STATE⟩], rfl, ?_, ?_, ?_⟩
    · simp [automaton.EmplaceArc, List.length_modify]
    · intro i
      exact EmplaceArc_getElem? _ _ _ _ _
    · intro c
      have hnone : s.arcs.find? (fun e => decide (c = e.1)) = none := by rw [hb1.2]; rfl
      obtain ⟨s1, h1, h2⟩ := find_arc_none d X R st s tags bound hinv c hnone
      have hs1 : s1 = 0 := by
        have := hb1.1.symm.trans h1
        simpa [INVALID_STATE] using this.symm
      rw [hs1] at h2
      unfold next_state
      simp only [List.find?_cons, List.find?_nil]
      cases (label.range 0 255).matches c with
      | true => exact step_of_target d X _ tags _ _ c 0 h2
      | false =>
        have : decide ((⟨label.range 0 255, INVALID_STATE⟩ : arc).ilabel = label.rho) = false := by
          simp
        simp only [this]
        exact step_of_dead d X _ tags _ _ c h2
  · rw [if_neg hb1]
    by_cases hb2 : s.default_state = some INVALID_STATE ∧ s.ascii = true ∧
        s.a.Final st.src = false
    · rw [if_pos hb2]
      obtain ⟨h1, h2, h3⟩ := foldl_EmplaceArc st.src (fun c => label.range c c) s.arcs s.a
      refine ⟨s.arcs.map (fun e => ⟨label.range e.1 e.1, e.2⟩), h1, h2, h3, ?_⟩
      intro c
      rw [next_state_range s.arcs c (hinv.ascii_ok hb2.2.1)]
      cases hfind : s.arcs.find? (fun e => decide (c = e.1)) with
      | some e =>
        show step_ok d X tags (some e.2) st.state_id st.offset c
        exact step_of_target d X _ tags _ _ c e.2
          (find_arc_some d X R st s tags bound hinv c e hfind)
      | none =>
        obtain ⟨s1, h1, h2⟩ := find_arc_none d X R st s tags bound hinv c hfind
        have hs1 : s1 = 0 := by
          have := hb2.1.symm.trans h1
          simpa [INVALID_STATE] using this.symm
        rw [hs1] at h2
        show step_ok d X tags none st.state_id st.offset c
        exact step_of_dead d X _ tags _ _ c h2
    · rw [if_neg hb2]
      obtain ⟨h1, h2, h3⟩ := foldl_EmplaceArc st.src (fun c => label.cp c) s.arcs s.a
      refine ⟨s.arcs.map (fun e => ⟨label.cp e.1, e.2⟩) ++ [⟨label.rho, s0⟩], ?_, ?_, ?_, ?_⟩
      · unfold Utf8TransitionsBuilder.Insert
        simp only [hd1]
        exact h1
      · unfold Utf8TransitionsBuilder.Insert
        simp only [hd1]
        rw [← h2]
        simp [automaton.EmplaceArc, List.length_modify]
      · intro i
        unfold Utf8TransitionsBuilder.Insert
        simp only [hd1]
        rw [EmplaceArc_getElem?, h3 i]
        cases s.a.states[i]? with
        | none => rfl
        | some x =>
          by_cases hi : st.src = i
          · simp [hi]
          · simp [hi]
      · intro c
        rw [next_state_cp]
        cases hfind : s.arcs.find? (fun e => decide (c = e.1)) with
        | some e =>
          show step_ok d X tags (some e.2) st.state_id st.offset c
          exact step_of_target d X _ tags _ _ c e.2
            (find_arc_some d X R st s tags bound hinv c e hfind)
        | none =>
          obtain ⟨s1, h1, h2⟩ := find_arc_none d X R st s tags bound hinv c hfind
          have hs1 : s1 = s0 := Option.some.inj (h1.symm.trans hd1)
          rw [hs1] at h2
          show step_ok d X tags (some s0) st.state_id st.offset c
          exact step_of_target d X _ tags _ _ c s0 h2

end irs

namespace irs

/-- The invariant of the builder after the arcs of the popped state are emitted. -/
theorem emit_inv (d : parametric_description) (X : List Nat) (R : Nat → Nat → Prop)
    (st : builder_state) (s : entry_state) (tags : List (Nat × Nat)) (bound : Nat)
    (hinv : entry_inv d X R st (sort_unique X) s tags bound) :
    builder_inv d X R (emit_arcs st.src s) s.transitions s.stack tags := by
  obtain ⟨newarcs, h1, h2, h3, h4⟩ := emit_arcs_spec d X R st s tags bound hinv
  have hb := hinv.base
  obtain ⟨hst1, hst2, fs0, hst3, hst4⟩ := hb.stack_ok st (List.mem_cons_self _ _)
  have hnd := hb.stack_nodup
  simp only [List.map_cons, List.nodup_cons, List.mem_map, not_exists, not_and] at hnd
  have hold : ∀ i : Nat, st.src ≠ i → (emit_arcs st.src s).states[i]? = s.a.states[i]? := by
    intro i hi
    rw [h3 i]
    cases s.a.states[i]? with
    | none => rfl
    | some x => simp [hi]
  exact ⟨
    { len_eq := by rw [h2]; exact hb.len_eq
      start := by rw [h1]; exact hb.start
      tag1 := hb.tag1
      state0 := by
        rw [hold 0 (by omega)]
        exact hb.state0 },
    { tags_fit := hb.tags_fit
      finals := by
        intro i fs ps off hi hfs htag
        rw [h3 i] at hfs
        cases hx : s.a.states[i]? with
        | none => rw [hx] at hfs; simp at hfs
        | some x =>
          rw [hx] at hfs
          simp only [Option.map_some', Option.some.injEq] at hfs
          rw [← hb.finals i x ps off hi hx htag, ← hfs]
          split <;> rfl
      table_len := hb.table_len
      table_ok := hb.table_ok },
    { stack_ok := by
        intro item hitem
        obtain ⟨g1, g2, fs, g3, g4⟩ := hb.stack_ok item (List.mem_cons_of_mem _ hitem)
        refine ⟨g1, g2, fs, ?_, g4⟩
        rw [hold _ (fun h => hnd.1 item hitem h.symm)]
        exact g3
      stack_nodup := hnd.2
      processed := by
        intro i fs ps off hi hfs htag hnot
        by_cases hsrc : st.src = i
        · subst hsrc
          rw [h3 st.src, hst3] at hfs
          simp only [Option.map_some', if_true, Option.some.injEq] at hfs
          rw [hst2] at htag
          simp only [Option.some.injEq, Prod.mk.injEq] at htag
          rw [← hfs, ← htag.1, ← htag.2]
          simp only [hst4, List.nil_append]
          exact h4
        · rw [hold i hsrc] at hfs
          apply hb.processed i fs ps off hi hfs htag
          intro item hitem
          rcases List.mem_cons.mp hitem with h | h
          · rw [h]
            exact hsrc
          · exact hnot item h }⟩

/-- The loop over the state stack ends, given enough iterations, with every state of the
automaton following the parametric automaton. -/
theorem build_automaton_spec (d : parametric_description) (X : List Nat)
    (R : Nat → Nat → Prop) (hfit : description_fits d X R) :
    ∀ (fuel : Nat) (a : automaton) (table : List (Option Nat)) (stack : List builder_state)
      (tags : List (Nat × Nat)),
      builder_inv d X R a table stack tags → count_none table + stack.length ≤ fuel →
      ∃ a' table' tags',
        build_automaton d (make_alphabet X) X.length ((1 <<< d.chi_size) - 1) fuel a table
          stack = some a' ∧
        builder_inv d X R a' table' [] tags' := by
  intro fuel
  induction fuel with
  | zero =>
    intro a table stack tags hinv hm
    cases stack with
    | nil => exact ⟨a, table, tags, by simp [build_automaton], hinv⟩
    | cons st stack => simp at hm
  | succ fuel ih =>
    intro a table stack tags hinv hm
    cases stack with
    | nil => exact ⟨a, table, tags, by simp [build_automaton], hinv⟩
    | cons st stack =>
      obtain ⟨tags1, h1⟩ := process_alphabet d X R hfit st a table stack tags hinv
      have h2 := emit_inv d X R st _ tags1 _ h1
      have hm' := h1.measure
      simp only [List.length_cons] at hm
      obtain ⟨a', table', tags', h3, h4⟩ := ih _ _ _ tags1 h2 (by omega)
      refine ⟨a', table', tags', ?_, h4⟩
      rw [← h3]
      simp only [build_automaton]

theorem sub_size_t_zero (n : Nat) : sub_size_t n 0 = n := by
  unfold sub_size_t
  simp

/-- The automaton builder ends, and every state of the automaton it returns follows the
parametric automaton. -/
theorem make_levenshtein_automaton_inv (d : parametric_description) (X : List Nat)
    (R : Nat → Nat → Prop) (hfit : description_fits d X R) (fuel : Nat)
    (hfuel : d.num_states * (1 + X.length) + 1 ≤ fuel) :
    ∃ a table tags,
      make_levenshtein_automaton fuel d [] X = some a ∧ builder_inv d X R a table [] tags := by
  unfold make_levenshtein_automaton
  simp only [ add_prefix]
  have hnew := new_state_spec automaton.empty.AddState.1 (d.distance 1 X.length)
    d.max_distance
  apply build_automaton_spec d X R hfit fuel _ _ _ [(0, 0), (1, 0)]
  · have e : (if d.distance 1 X.length ≤ d.max_distance then
          (automaton.empty.AddState.1.AddState.1.SetStart
            automaton.empty.AddState.1.AddState.2).SetFinal
              automaton.empty.AddState.1.AddState.2 (d.distance 1 X.length)
        else automaton.empty.AddState.1.AddState.1.SetStart
            automaton.empty.AddState.1.AddState.2) =
        { states := [⟨none, []⟩, ⟨final_weight d X 1 0, []⟩], start := some 1 } := by
      unfold final_weight
      rw [sub_size_t_zero]
      by_cases h : d.distance 1 X.length ≤ d.max_distance
      · rw [if_pos h, if_pos h]
        rfl
      · rw [if_neg h, if_neg h]
        rfl
    rw [e]
    exact ⟨
      { len_eq := rfl
        start := rfl
        tag1 := rfl
        state0 := rfl },
      { tags_fit := by
          intro s ps off h1 h2
          have hs : s = 1 := by
            have := (List.getElem?_eq_some.mp h2).1
            simp only [List.length_cons, List.length_nil] at this
            omega
          subst hs
          simp only [List.getElem?_cons_succ, List.getElem?_cons_zero, Option.some.injEq,
            Prod.mk.injEq] at h2
          rw [← h2.1, ← h2.2]
          exact hfit.start
        finals := by
          intro s fs ps off h1 h2 h3
          have hs : s = 1 := by
            have := (List.getElem?_eq_some.mp h3).1
            simp only [List.length_cons, List.length_nil] at this
            omega
          subst hs
          simp only [List.getElem?_cons_succ, List.getElem?_cons_zero, Option.some.injEq,
            Prod.mk.injEq] at h2 h3
          rw [← h2, ← h3.1, ← h3.2]
        table_len := by simp
        table_ok := by
          intro i s h
          obtain ⟨hlt, he⟩ := List.getElem?_eq_some.mp h
          simp at he },
      { stack_ok := by
          intro item hitem
          rw [List.mem_singleton.mp hitem]
          exact ⟨Nat.le_refl _, rfl, _, rfl, rfl⟩
        stack_nodup := by simp
        processed := by
          intro s fs ps off h1 h2 h3 h4
          have hs : s = 1 := by
            have := (List.getElem?_eq_some.mp h3).1
            simp only [List.length_cons, List.length_nil] at this
            omega
          exact absurd hs.symm (h4 ⟨0, 1, 1⟩ (List.mem_singleton.mpr rfl)) }⟩
  · have : count_none (List.replicate (d.num_states * (1 + X.length)) none) =
        d.num_states * (1 + X.length) := by
      unfold count_none
      simp [List.countP_replicate]
    rw [this]
    simpa using hfuel

theorem run_sink (a : automaton) (h : a.states[0]? = some ⟨none, []⟩) (w : List Nat) :
    a.run 0 w = none ∨ a.run 0 w = some 0 := by
  cases w with
  | nil => right; rfl
  | cons c w =>
    left
    simp [automaton.run, h, next_state]

/-- The run of the automaton follows the run of the parametric automaton. -/
theorem run_simulates (d : parametric_description) (X : List Nat) (R : Nat → Nat → Prop)
    (a : automaton) (table : List (Option Nat)) (tags : List (Nat × Nat))
    (hinv : builder_inv d X R a table [] tags) :
    ∀ (w : List Nat) (s ps off : Nat), 1 ≤ s → tags[s]? = some (ps, off) →
      match parametric_run d X w ps off with
      | none => a.run s w = none ∨ a.run s w = some 0
      | some tag => ∃ s', a.run s w = some s' ∧ 1 ≤ s' ∧ tags[s']? = some tag := by
  intro w
  induction w with
  | nil =>
    intro s ps off h1 h2
    exact ⟨s, rfl, h1, h2⟩
  | cons c w ih =>
    intro s ps off h1 h2
    have hlt : s < a.states.length := by
      rw [hinv.len_eq]
      exact (List.getElem?_eq_some.mp h2).1
    obtain ⟨fs, hfs⟩ : ∃ fs, a.states[s]? = some fs :=
      ⟨a.states[s], List.getElem?_eq_getElem hlt⟩
    have hsim := hinv.processed s fs ps off h1 hfs h2 (fun _ h => absurd h (List.not_mem_nil _)) c
    unfold step_ok at hsim
    simp only [parametric_run, automaton.run, List.get?_eq_getElem?, hfs]
    cases hp : parametric_step d X ps off c with
    | none =>
      rw [hp] at hsim
      simp only []
      rcases hsim with h | h
      · rw [h]
        left
        rfl
      · rw [h]
        exact run_sink a hinv.state0 w
    | some tag =>
      rw [hp] at hsim
      obtain ⟨s', g1, g2, g3⟩ := hsim
      rw [g1]
      exact ih s' tag.1 tag.2 g2 g3

/-- The weight with which the automaton accepts a word is the one the parametric automaton
gives. -/
theorem accept_eq_parametric_run (d : parametric_description) (X : List Nat)
    (R : Nat → Nat → Prop) (a : automaton) (table : List (Option Nat))
    (tags : List (Nat × Nat)) (hinv : builder_inv d X R a table [] tags) (w : List Nat) :
    a.accept w =
      match parametric_run d X w 1 0 with
      | none => none
      | some tag => final_weight d X tag.1 tag.2 := by
  have h := run_simulates d X R a table tags hinv w 1 1 0 (Nat.le_refl _) hinv.tag1
  unfold automaton.accept
  rw [hinv.start]
  simp only []
  cases hp : parametric_run d X w 1 0 with
  | none =>
    rw [hp] at h
    rcases h with h | h
    · rw [h]
    · rw [h]
      simp only [List.get?_eq_getElem?, hinv.state0]
  | some tag =>
    rw [hp] at h
    obtain ⟨s', g1, g2, g3⟩ := h
    rw [g1]
    have hlt : s' < a.states.length := by
      rw [hinv.len_eq]
      exact (List.getElem?_eq_some.mp g3).1
    have hfs : a.states[s']? = some a.states[s'] := List.getElem?_eq_getElem hlt
    simp only [List.get?_eq_getElem?, hfs]
    exact hinv.finals s' _ tag.1 tag.2 g2 hfs g3

/-- The on-line computation `edit_distance` in terms of the run of the parametric
automaton. -/
theorem edit_distance_loop_eq (d : parametric_description) (X : List Nat) :
    ∀ (w : List Nat) (ps off : Nat),
      edit_distance_loop d X w ps off =
        match parametric_run d X w ps off with
        | none => d.max_distance + 1
        | some tag => d.distance tag.1 (sub_size_t X.length tag.2) := by
  intro w
  induction w with
  | nil => intro ps off; rfl
  | cons c w ih =>
    intro ps off
    simp only [edit_distance_loop, parametric_run, parametric_step, window_chi]
    by_cases h : (d.transition ps
        (chi ((X.take (min (off + d.chi_size) X.length)).drop off) c 0 0)).1 = INVALID_STATE
    · rw [if_pos h, if_pos h]
    · rw [if_neg h, if_neg h]
      exact ih _ _

end irs

namespace irs

/-! ## The automaton and `edit_distance` agree; the description for distance 0 -/

/-- The automaton built from a description that fits the target accepts a word with the
value that `edit_distance` computes, when that value is at most `max_distance`, and rejects
it otherwise. -/
theorem automaton_accept_eq_edit_distance (d : parametric_description) (X : List Nat)
    (R : Nat → Nat → Prop) (hfit : description_fits d X R) (fuel : Nat)
    (hfuel : d.num_states * (1 + X.length) + 1 ≤ fuel) :
    ∃ a, make_levenshtein_automaton fuel d [] X = some a ∧
      ∀ w, a.accept w =
        if edit_distance d X w ≤ d.max_distance then some (edit_distance d X w) else none := by
  obtain ⟨a, table, tags, h1, h2⟩ := make_levenshtein_automaton_inv d X R hfit fuel hfuel
  refine ⟨a, h1, ?_⟩
  intro w
  rw [accept_eq_parametric_run d X R a table tags h2 w]
  unfold edit_distance
  rw [edit_distance_loop_eq]
  cases parametric_run d X w 1 0 with
  | none => simp
  | some tag => rfl

theorem window_chi_one (d : parametric_description) (hcs : d.chi_size = 1) (X : List Nat)
    (off c : Nat) : window_chi d X off c = if X[off]? = some c then 1 else 0 := by
  apply Nat.eq_of_testBit_eq
  intro j
  unfold window_chi
  rw [chi_window_testBit, hcs, testBit_ite_one]
  cases j with
  | zero => simp
  | succ j => simp

theorem parametric_step_zero (X : List Nat) (off c : Nat) :
    parametric_step description_0_false X 1 off c =
      if X[off]? = some c then some (1, off + 1) else none := by
  unfold parametric_step
  rw [window_chi_one description_0_false rfl]
  by_cases h : X[off]? = some c
  · rw [if_pos h, if_pos h]
    rfl
  · rw [if_neg h, if_neg h]
    rfl

theorem description_zero_fits (X : List Nat) :
    description_fits description_0_false X (fun ps off => ps = 1 ∧ off ≤ X.length) where
  start := ⟨rfl, Nat.zero_le _⟩
  step := by
    intro ps off c ps' off' h hs
    rw [h.1, parametric_step_zero] at hs
    by_cases hx : X[off]? = some c
    · rw [if_pos hx] at hs
      simp only [Option.some.injEq, Prod.mk.injEq] at hs
      have := (List.getElem?_eq_some.mp hx).1
      exact ⟨hs.1.symm, by omega⟩
    · rw [if_neg hx] at hs
      simp at hs
  state_lt := by
    intro ps off h
    rw [h.1]
    decide
  state_ne := by
    intro ps off h
    rw [h.1]
    decide
  offset_le := fun ps off h => h.2
  chi_size_le := by decide

theorem parametric_run_zero (X : List Nat) :
    ∀ (w : List Nat) (off : Nat),
      parametric_run description_0_false X w 1 off =
        if w <+: X.drop off then some (1, off + w.length) else none := by
  intro w
  induction w with
  | nil => intro off; simp [parametric_run]
  | cons c w ih =>
    intro off
    simp only [parametric_run, parametric_step_zero]
    by_cases hx : X[off]? = some c
    · obtain ⟨hlt, he⟩ := List.getElem?_eq_some.mp hx
      have hd : X.drop off = c :: X.drop (off + 1) := by
        rw [← he]
        exact List.drop_eq_getElem_cons hlt
      rw [if_pos hx]
      simp only []
      rw [ih (off + 1), hd]
      have e : off + 1 + w.length = off + (c :: w).length := by
        simp only [List.length_cons]; omega
      rw [e]
      by_cases hp : w <+: X.drop (off + 1)
      · rw [if_pos hp, if_pos ((List.prefix_cons_inj c).mpr hp)]
      · rw [if_neg hp, if_neg (fun h => hp ((List.prefix_cons_inj c).mp h))]
    · rw [if_neg hx]
      simp only []
      rw [if_neg]
      intro hp
      apply hx
      obtain ⟨r, hr⟩ := hp
      have h0 : (X.drop off)[0]? = some c := by rw [← hr]; simp
      rw [List.getElem?_drop] at h0
      simpa using h0

theorem final_weight_zero (X : List Nat) (off : Nat) (h : off ≤ X.length) :
    final_weight description_0_false X 1 off = if off = X.length then some 0 else none := by
  unfold final_weight sub_size_t
  rw [if_pos h]
  unfold parametric_description.distance
  by_cases he : off = X.length
  · subst he
    simp [description_0_false]
  · have h1 : X.length - off ≥ description_0_false.chi_size := by
      show X.length - off ≥ 1
      omega
    rw [if_neg he, if_pos h1]
    simp [description_0_false]

/-- The automaton built from the description for distance 0 accepts the target only. -/
theorem automaton_zero_accept (X : List Nat) (fuel : Nat) (hfuel : 2 * (1 + X.length) + 1 ≤ fuel) :
    ∃ a, make_levenshtein_automaton fuel description_0_false [] X = some a ∧
      ∀ w, a.accept w = if w = X then some 0 else none := by
  obtain ⟨a, table, tags, h1, h2⟩ := make_levenshtein_automaton_inv description_0_false X _
    (description_zero_fits X) fuel hfuel
  refine ⟨a, h1, ?_⟩
  intro w
  rw [accept_eq_parametric_run _ X _ a table tags h2 w, parametric_run_zero]
  simp only [List.drop_zero, Nat.zero_add]
  by_cases hp : w <+: X
  · rw [if_pos hp]
    simp only []
    rw [final_weight_zero X w.length hp.length_le]
    by_cases hl : w.length = X.length
    · rw [if_pos hl, if_pos (hp.eq_of_length hl)]
    · rw [if_neg hl, if_neg (fun h => hl (by rw [h]))]
  · rw [if_neg hp, if_neg (fun h => hp (by rw [h]))]

/-- Claim C8: for `max_distance = 0`, with or without transpositions, the description that
`make_parametric_description` returns (given two iterations of its state loop) has exactly
2 states, and for every target `X` the builder returns (given enough iterations of its loop
over the state stack) an automaton that accepts a word `Y` exactly when `Y = X`, with the
weight 0. -/
theorem description_zero_accepts_target (t : Bool) (fuel : Nat) (hfuel : 2 ≤ fuel) :
    ∃ d, make_parametric_description fuel 0 t = some d ∧ d.num_states = 2 ∧
      ∀ (X : List Nat) (afuel : Nat), d.num_states * (1 + X.length) + 1 ≤ afuel →
        ∃ a, make_levenshtein_automaton afuel d [] X = some a ∧
          ∀ Y, a.accept Y = if Y = X then some 0 else none := by
  have hd : make_parametric_description fuel 0 t = some description_0_false := by
    have e : fuel = 2 + (fuel - 2) := by omega
    rw [e]
    cases t with
    | false =>
      exact make_parametric_description_fuel_mono 2 0 false _
        make_parametric_description_0_false _
    | true =>
      exact make_parametric_description_fuel_mono 2 0 true _
        make_parametric_description_0_true _
  exact ⟨description_0_false, hd, rfl, fun X afuel h => automaton_zero_accept X afuel h⟩

theorem description_zero_accepts_target_witness :
    2 ≤ 2 ∧
    ∃ d, make_parametric_description 2 0 true = some d ∧ d.num_states = 2 ∧
      ∀ (X : List Nat) (afuel : Nat), d.num_states * (1 + X.length) + 1 ≤ afuel →
        ∃ a, make_levenshtein_automaton afuel d [] X = some a ∧
          ∀ Y, a.accept Y = if Y = X then some 0 else none :=
  ⟨Nat.le_refl 2, description_zero_accepts_target true 2 (Nat.le_refl 2)⟩

end irs

namespace irs

/-! ## C19, C20: the subsumption rule and `parametric_state::emplace` -/

/-- The helper `abs_diff` returns the absolute difference over the integers. -/
theorem abs_diff_eq_abs (a b : Nat) : (abs_diff a b : Int) = |(a : Int) - (b : Int)| := by
  unfold abs_diff
  split_ifs with h
  · rw [abs_of_nonpos (by omega)]
    omega
  · rw [abs_of_nonneg (by omega)]
    omega

theorem abs_diff_lt_iff (a b c : Nat) :
    abs_diff a b + c < 2 ^ 32 ↔ |(a : Int) - (b : Int)| + (c : Int) < 2 ^ 32 := by
  rw [← abs_diff_eq_abs]
  omega

theorem subsumes_iff_rule (p q : position) : subsumes p q = true ↔ subsumes_rule p q := by
  unfold subsumes subsumes_rule
  rw [← abs_diff_eq_abs]
  cases hp : p.transpose <;> cases hq : q.transpose <;> simp <;> omega

theorem subsumes_u32_eq (p q : position)
    (h : abs_diff p.offset q.offset + p.distance < 2 ^ 32) :
    subsumes_u32 p q = subsumes p q := by
  unfold subsumes_u32 subsumes
  rw [Nat.mod_eq_of_lt h]

/-- C19, as stated, fails on the machine integers: for two positions whose offsets are
`2^32 - 1` apart the sum wraps around to 0 and `subsumes` returns true, although the rule
over the integers does not hold. -/
theorem subsumes_wraps :
    subsumes_u32 ⟨0, 1, false⟩ ⟨4294967295, 0, false⟩ = true ∧
    ¬ subsumes_rule ⟨0, 1, false⟩ ⟨4294967295, 0, false⟩ := by
  constructor
  · decide
  · unfold subsumes_rule
    rw [abs_of_nonpos (by norm_num)]
    norm_num

/-- C19, amended: for all positions `p` and `q` for which `|p.offset - q.offset| +
p.distance`, over the integers, is below 2^32 (as it is for all positions of the
descriptions), `subsumes(p, q)` is true if and only if `|p.offset - q.offset| +
p.distance <= q.distance - c` over the integers, where `c = 1` when `q.transpose` is set
and `p.transpose` is not, and `c = 0` otherwise. -/
theorem subsumes_u32_iff_rule (p q : position)
    (h : |(p.offset : Int) - (q.offset : Int)| + (p.distance : Int) < 2 ^ 32) :
    subsumes_u32 p q = true ↔ subsumes_rule p q := by
  rw [subsumes_u32_eq p q ((abs_diff_lt_iff _ _ _).mpr h)]
  exact subsumes_iff_rule p q

theorem subsumes_u32_iff_rule_witness :
    |((position.mk 5 1 false).offset : Int) - ((position.mk 2 4 true).offset : Int)| +
        ((position.mk 5 1 false).distance : Int) < 2 ^ 32 ∧
    subsumes_u32 ⟨5, 1, false⟩ ⟨2, 4, true⟩ = false ∧
    subsumes_u32 ⟨5, 1, false⟩ ⟨2, 5, true⟩ = true ∧
    (subsumes_u32 ⟨5, 1, false⟩ ⟨2, 4, true⟩ = true ↔
      subsumes_rule ⟨5, 1, false⟩ ⟨2, 4, true⟩) :=
  ⟨by decide, by decide, by decide,
    subsumes_u32_iff_rule ⟨5, 1, false⟩ ⟨2, 4, true⟩ (by decide)⟩

theorem swap_remove_facts (v : List position) (i : Nat) (hi : i < v.length) :
    (swap_remove v i).take i = v.take i ∧
    ((swap_remove v i).drop i).Perm (v.drop (i + 1)) ∧
    (swap_remove v i).length + 1 = v.length := by
  unfold swap_remove
  cases hl : v.getLast? with
  | none =>
    have := List.getLast?_eq_none_iff.mp hl
    subst this
    simp at hi
  | some last =>
    obtain ⟨ys, hys⟩ := List.getLast?_eq_some_iff.mp hl
    subst hys
    simp only []
    by_cases h : i < ys.length
    · rw [List.set_append_left i last h, List.dropLast_concat]
      have hset : ys.set i last = ys.take i ++ last :: ys.drop (i + 1) := by
        rw [List.set_eq_take_append_cons_drop, if_pos h]
      have hlen : (ys.take i).length = i := by
        rw [List.length_take]
        omega
      refine ⟨?_, ?_, ?_⟩
      · rw [hset, List.take_left' hlen, List.take_append_of_le_length (by omega)]
      · rw [hset, List.drop_left' hlen, List.drop_append_of_le_length (by omega)]
        exact (List.perm_append_singleton _ _).symm
      · simp
    · have hi' : i = ys.length := by
        simp only [List.length_append, List.length_singleton] at hi
        omega
      subst hi'
      have e : (ys ++ [last]).set ys.length last = ys ++ [last] := by
        rw [List.set_append_right _ _ (Nat.le_refl _)]
        simp
      rw [e, List.dropLast_concat]
      refine ⟨?_, ?_, ?_⟩
      · rw [List.take_left, List.take_length]
      · rw [List.drop_length, List.drop_of_length_le (by simp)]
      · simp

/-- The removal loop of `emplace` removes exactly the positions that the new one
subsumes. -/
theorem remove_subsumed_perm (new_pos : position) :
    ∀ (fuel : Nat) (v : List position) (i : Nat), v.length ≤ fuel + i →
      (remove_subsumed new_pos fuel v i).Perm
        (v.take i ++ (v.drop i).filter (fun x => !subsumes new_pos x)) := by
  intro fuel
  induction fuel with
  | zero =>
    intro v i h
    have h1 : v.take i = v := List.take_of_length_le (by omega)
    have h2 : v.drop i = [] := List.drop_of_length_le (by omega)
    rw [h1, h2]
    simp [remove_subsumed]
  | succ fuel ih =>
    intro v i h
    unfold remove_subsumed
    by_cases hi : i < v.length
    · rw [dif_pos hi]
      have hdrop : v.drop i = v[i] :: v.drop (i + 1) := List.drop_eq_getElem_cons hi
      by_cases hs : subsumes new_pos (v.get ⟨i, hi⟩) = true
      · rw [if_pos hs]
        obtain ⟨h1, h2, h3⟩ := swap_remove_facts v i hi
        have h4 := ih (swap_remove v i) i (by omega)
        rw [h1] at h4
        refine h4.trans (List.Perm.append_left _ ?_)
        have hs' : subsumes new_pos v[i] = true := hs
        rw [hdrop, List.filter_cons_of_neg (by simp [hs'])]
        exact h2.filter _
      · rw [if_neg hs]
        have h4 := ih v (i + 1) (by omega)
        have hs' : ¬ subsumes new_pos v[i] = true := hs
        rw [hdrop, List.filter_cons_of_pos (by simpa using hs')]
        have e : v.take (i + 1) = v.take i ++ [v[i]] := by
          rw [List.take_succ, List.getElem?_eq_getElem hi]
          rfl
        rw [e, List.append_assoc] at h4
        exact h4
    · rw [dif_neg hi]
      have h1 : v.take i = v := List.take_of_length_le (by omega)
      have h2 : v.drop i = [] := List.drop_of_length_le (by omega)
      rw [h1, h2]
      simp

theorem antichain_perm (s s' : parametric_state) (hp : s.Perm s') (h : antichain s) :
    antichain s' := by
  unfold antichain at h ⊢
  exact (hp.pairwise_iff (fun {a b} hab => ⟨hab.2, hab.1⟩)).mp h

/-- What `emplace` returns: false and the same state exactly when some position of the
state subsumes the new one; otherwise true and the positions that the new one does not
subsume followed by the new one. -/
theorem emplace_result (s : parametric_state) (p : position) :
    ((s.emplace p).2 = false ↔ ∃ x ∈ s, subsumes x p = true) ∧
    ((∃ x ∈ s, subsumes x p = true) → (s.emplace p).1 = s) ∧
    ((¬ ∃ x ∈ s, subsumes x p = true) →
      (s.emplace p).2 = true ∧
      ∃ kept, (s.emplace p).1 = kept ++ [p] ∧
        kept.Perm (s.filter (fun x => !subsumes p x))) := by
  have hperm := remove_subsumed_perm p s.length s 0 (by omega)
  simp only [List.take_zero, List.drop_zero, List.nil_append] at hperm
  unfold parametric_state.emplace
  by_cases hany : s.any (fun pos => subsumes pos p) = true
  · have hex : ∃ x ∈ s, subsumes x p = true := List.any_eq_true.mp hany
    rw [if_pos hany]
    exact ⟨⟨fun _ => hex, fun _ => rfl⟩, fun _ => rfl, fun hn => absurd hex hn⟩
  · have hex : ¬ ∃ x ∈ s, subsumes x p = true := fun he => hany (List.any_eq_true.mpr he)
    rw [if_neg hany]
    exact ⟨⟨fun hf => by simp at hf, fun he => absurd he hex⟩, fun he => absurd he hex,
      fun _ => ⟨rfl, _, rfl, hperm⟩⟩

/-- An antichain stays one under `emplace`. -/
theorem emplace_spec (s : parametric_state) (p : position) (h : antichain s) :
    antichain (s.emplace p).1 := by
  obtain ⟨_, h2, h3⟩ := emplace_result s p
  by_cases hex : ∃ x ∈ s, subsumes x p = true
  · rw [h2 hex]
    exact h
  · obtain ⟨_, kept, hk, hperm⟩ := h3 hex
    rw [hk]
    have hkept : antichain (s.filter (fun x => !subsumes p x)) := by
      unfold antichain at h ⊢
      exact h.sublist (List.filter_sublist _)
    have hk' := antichain_perm _ _ hperm.symm hkept
    unfold antichain at hk' ⊢
    rw [List.pairwise_append]
    refine ⟨hk', List.pairwise_singleton _ _, ?_⟩
    intro a ha b hb
    rw [List.mem_singleton.mp hb]
    have ha' := hperm.subset ha
    rw [List.mem_filter] at ha'
    constructor
    · cases hsub : subsumes a p with
      | false => rfl
      | true => exact absurd ⟨a, ha'.1, hsub⟩ hex
    · simpa using ha'.2

/-- C20: `emplace` keeps a state an antichain under subsumption; for every state it
returns false, leaving the state unchanged, exactly when some position of the state
subsumes the new one, and otherwise it removes every position that the new one subsumes
(and no other), appends the new position and returns true. -/
theorem emplace_antichain (s : parametric_state) (p : position) :
    (antichain s → antichain (s.emplace p).1) ∧
    ((s.emplace p).2 = false ↔ ∃ x ∈ s, subsumes x p = true) ∧
    ((∃ x ∈ s, subsumes x p = true) → (s.emplace p).1 = s) ∧
    ((¬ ∃ x ∈ s, subsumes x p = true) →
      (s.emplace p).2 = true ∧
      ∃ kept, (s.emplace p).1 = kept ++ [p] ∧
        kept.Perm (s.filter (fun x => !subsumes p x))) :=
  ⟨emplace_spec s p, emplace_result s p⟩

theorem emplace_antichain_witness :
    antichain [⟨0, 2, false⟩, ⟨1, 2, false⟩, ⟨3, 2, false⟩] ∧
    parametric_state.emplace [⟨0, 2, false⟩, ⟨1, 2, false⟩, ⟨3, 2, false⟩] ⟨1, 1, false⟩ =
      ([⟨3, 2, false⟩, ⟨1, 1, false⟩], true) ∧
    antichain
      (parametric_state.emplace [⟨0, 2, false⟩, ⟨1, 2, false⟩, ⟨3, 2, false⟩]
        ⟨1, 1, false⟩).1 ∧
    (¬ ∃ x ∈ [(⟨0, 2, false⟩ : position), ⟨1, 2, false⟩, ⟨3, 2, false⟩],
      subsumes x ⟨1, 1, false⟩ = true) ∧
    ((parametric_state.emplace [⟨0, 2, false⟩, ⟨1, 2, false⟩, ⟨3, 2, false⟩]
        ⟨1, 1, false⟩).2 = true ∧
      ∃ kept, (parametric_state.emplace [⟨0, 2, false⟩, ⟨1, 2, false⟩, ⟨3, 2, false⟩]
          ⟨1, 1, false⟩).1 = kept ++ [⟨1, 1, false⟩] ∧
        kept.Perm (List.filter (fun x => !subsumes ⟨1, 1, false⟩ x)
          [⟨0, 2, false⟩, ⟨1, 2, false⟩, ⟨3, 2, false⟩])) :=
  ⟨by unfold antichain; decide, by decide,
    (emplace_antichain [⟨0, 2, false⟩, ⟨1, 2, false⟩, ⟨3, 2, false⟩] ⟨1, 1, false⟩).1
      (by unfold antichain; decide),
    by decide,
    (emplace_antichain [⟨0, 2, false⟩, ⟨1, 2, false⟩, ⟨3, 2, false⟩] ⟨1, 1, false⟩).2.2.2
      (by decide)⟩

end irs

namespace irs

/-! ## C11: a conjunction with an empty iterator -/

/-- C11: the conjunction of a fresh well-behaved iterator over a set of doc ids (non-empty
or not) and a fresh empty iterator, in either order and whatever their costs (so
whichever of the two becomes the lead), produces no documents: the first `next()` returns
false, the caller's loop visits nothing, and `seek(doc_limits::min())` returns `eof`. -/
theorem conjunction_with_empty (children : List doc_iterator) (A E : doc_iterator)
    (fuel : Nat) (hp : children.Perm [A, E])
    (hA : A.well_behaved) (hAf : A.value = doc_limits.invalid)
    (hE : E.docs = []) (hEf : E.value = doc_limits.invalid)
    (hfuel : A.docs.length < fuel) :
    (∃ c', (conjunction.make children).next fuel = some (c', false)) ∧
    conjunction.collect fuel (conjunction.make children) = some [] ∧
    (∃ c', (conjunction.make children).seek fuel doc_limits.min =
      some (c', doc_limits.eof)) := by
  have hEw : E.well_behaved := by
    refine ⟨?_, ?_, Or.inl hEf⟩
    · rw [hE]; exact List.Pairwise.nil
    · intro d hd; rw [hE] at hd; exact absurd hd (List.not_mem_nil d)
  have hmem : ∀ it ∈ children, it = A ∨ it = E := by
    intro it hit
    have := hp.subset hit
    simpa using this
  have hne : children ≠ [] := by
    intro h
    rw [h] at hp
    exact absurd hp.length_eq (by simp)
  have hw : ∀ it ∈ children, it.well_behaved := by
    intro it hit
    rcases hmem it hit with h | h <;> rw [h]
    · exact hA
    · exact hEw
  have hfresh : ∀ it ∈ children, it.value = doc_limits.invalid := by
    intro it hit
    rcases hmem it hit with h | h <;> rw [h]
    · exact hAf
    · exact hEf
  have hlen : ∀ it ∈ children, it.docs.length < fuel := by
    intro it hit
    rcases hmem it hit with h | h <;> rw [h]
    · exact hfuel
    · rw [hE]; exact Nat.lt_of_le_of_lt (Nat.zero_le _) hfuel
  obtain ⟨hc, _⟩ := conjunction_make_consistent children hne hw hfresh
  have hperm := conjunction_make_perm children
  have hEin : E ∈ (conjunction.make children).itrs_ :=
    hperm.symm.subset (hp.symm.subset (by simp))
  have hno : ∀ d, ¬ common (conjunction.make children).itrs_ d := by
    intro d hd
    have := hd E hEin
    rw [hE] at this
    exact absurd this (List.not_mem_nil d)
  obtain ⟨front, tail, hfr, hfmem, _⟩ := conjunction_make_front children hne
  have hrem : (conjunction.make children).remaining ≤ fuel := by
    simp only [conjunction.remaining, hfr]
    exact Nat.le_trans (length_filter_le_length _ _) (Nat.le_of_lt (hlen front hfmem))
  have hnext : ∃ c', (conjunction.make children).next fuel = some (c', false) := by
    obtain ⟨c', b, h1, _, _, h4, _⟩ := conjunction_next_spec _ hc fuel hrem
    cases b with
    | false => exact ⟨c', h1⟩
    | true => exact absurd (h4 rfl).2.2.2.1 (hno _)
  refine ⟨hnext, ?_, ?_⟩
  · obtain ⟨c', h1⟩ := hnext
    cases fuel with
    | zero => exact absurd hfuel (Nat.not_lt_zero _)
    | succ f =>
      unfold conjunction.collect
      rw [h1]
  · obtain ⟨c', r, h1, _, _, _, _, _, h7, _⟩ :=
      conjunction_seek_spec _ hc fuel doc_limits.min (Nat.le_refl _) (by decide)
        (fun it hit => hlen it (hperm.subset hit))
    by_cases hr : r = doc_limits.eof
    · rw [hr] at h1; exact ⟨c', h1⟩
    · exact absurd (h7 hr) (hno _)

theorem conjunction_with_empty_witness :
    List.Perm [{ docs := [], value := 0, cost := none }, scenario_A]
      [scenario_A, { docs := [], value := 0, cost := none }] ∧
    ((∃ c', (conjunction.make [{ docs := [], value := 0, cost := none }, scenario_A]).next 6 =
        some (c', false)) ∧
      conjunction.collect 6
        (conjunction.make [{ docs := [], value := 0, cost := none }, scenario_A]) = some [] ∧
      (∃ c', (conjunction.make [{ docs := [], value := 0, cost := none }, scenario_A]).seek 6
        doc_limits.min = some (c', doc_limits.eof))) :=
  ⟨List.Perm.swap _ _ _,
    conjunction_with_empty [{ docs := [], value := 0, cost := none }, scenario_A]
      scenario_A { docs := [], value := 0, cost := none } 6 (List.Perm.swap _ _ _)
      (by decide) rfl rfl rfl (by decide)⟩

end irs

namespace irs

/-! ## C12, C13, C14, C18: the column existence filter -/

/-- C12: `column_existence_query::execute` returns the empty iterator, which yields no
document, whenever the segment reader has no column reader for `field`; no error is
raised. -/
theorem column_existence_absent (field_ : List Nat) (rdr : sub_reader)
    (h : rdr.column_reader field_ = none) :
    column_existence_query.execute field_ rdr = query_iterator.empty ∧
    ∀ doc, (column_existence_query.execute field_ rdr).yields doc = false := by
  have e : column_existence_query.execute field_ rdr = query_iterator.empty := by
    unfold column_existence_query.execute
    rw [h]
  refine ⟨e, fun doc => ?_⟩
  rw [e]
  rfl

theorem column_existence_absent_witness :
    sample_reader.column_reader [99] = none ∧
    (column_existence_query.execute [99] sample_reader = query_iterator.empty ∧
      ∀ doc, (column_existence_query.execute [99] sample_reader).yields doc = false) :=
  ⟨by decide, column_existence_absent [99] sample_reader (by decide)⟩

/-- C18: for a column that is present, `column_existence_query::execute` returns a
`column_existence_iterator` that wraps the fresh iterator of the column with the cost
`column.size()`, and every such wrapper is transparent: `next()` returns what `next()` of
the column iterator returns, `seek(t)` and `value()` return the current document of the
column iterator after the same call, the wrapped iterator is the column iterator after
the same call, and the cost does not change. -/
theorem column_existence_wrapper (field_ : List Nat) (rdr : sub_reader) (column : column)
    (h : rdr.column_reader field_ = some column) :
    (∃ it, column_existence_query.execute field_ rdr = query_iterator.existence it ∧
      it.it_ = column.iterator ∧ it.cost = column.size) ∧
    ∀ w : column_existence_iterator,
      w.value = w.it_.value ∧
      w.next.2 = w.it_.next.2 ∧ w.next.1.it_ = w.it_.next.1 ∧
      w.next.1.value = w.it_.next.1.value ∧ w.next.1.cost = w.cost ∧
      ∀ t, (w.seek t).2 = (w.it_.seek t).1.value ∧ (w.seek t).1.it_ = (w.it_.seek t).1 ∧
        (w.seek t).1.value = (w.it_.seek t).1.value ∧ (w.seek t).1.cost = w.cost := by
  constructor
  · refine ⟨{ it_ := column.iterator, cost_ := column.size }, ?_, rfl, rfl⟩
    unfold column_existence_query.execute
    rw [h]
  · intro w
    exact ⟨rfl, rfl, rfl, rfl, rfl, fun t => ⟨rfl, rfl, rfl, rfl⟩⟩

theorem column_existence_wrapper_witness :
    sample_reader.column_reader [98] = some sample_column ∧
    ((∃ it, column_existence_query.execute [98] sample_reader = query_iterator.existence it ∧
        it.it_ = sample_column.iterator ∧ it.cost = sample_column.size) ∧
      ∀ w : column_existence_iterator,
        w.value = w.it_.value ∧
        w.next.2 = w.it_.next.2 ∧ w.next.1.it_ = w.it_.next.1 ∧
        w.next.1.value = w.it_.next.1.value ∧ w.next.1.cost = w.cost ∧
        ∀ t, (w.seek t).2 = (w.it_.seek t).1.value ∧ (w.seek t).1.it_ = (w.it_.seek t).1 ∧
          (w.seek t).1.value = (w.it_.seek t).1.value ∧ (w.seek t).1.cost = w.cost) :=
  ⟨by decide, column_existence_wrapper [98] sample_reader sample_column (by decide)⟩

theorem bytes_lt_nil (x : List Nat) : bytes_lt x [] = false := by
  cases x <;> rfl

theorem starts_with_nil (x : List Nat) : starts_with x [] = true := by
  cases x <;> rfl

theorem starts_with_not_lt : ∀ (p x : List Nat), starts_with x p = true → bytes_lt x p = false
  | [], x, _ => bytes_lt_nil x
  | _ :: _, [], h => by simp [starts_with] at h
  | c :: p, a :: x, h => by
    simp only [starts_with, Bool.and_eq_true, beq_iff_eq] at h
    obtain ⟨h1, h2⟩ := h
    subst h1
    simp only [bytes_lt, Nat.lt_irrefl, if_false]
    exact starts_with_not_lt p x h2

/-- The order of the names is transitive. -/
theorem bytes_le_trans : ∀ (p x y : List Nat), bytes_lt x p = false → bytes_lt y x = false →
    bytes_lt y p = false
  | [], _, y, _, _ => bytes_lt_nil y
  | _ :: _, [], _, h, _ => by simp [bytes_lt] at h
  | _ :: _, _ :: _, [], _, h => by simp [bytes_lt] at h
  | c :: p, a :: x, b :: y, h1, h2 => by
    have ih := bytes_le_trans p x y
    simp only [bytes_lt] at h1 h2 ⊢
    split_ifs at h1 h2 ⊢ <;> first | omega | rfl | exact ih h1 h2

/-- The names that start with a prefix form an interval of the order of the names. -/
theorem starts_with_interval : ∀ (p x y : List Nat), bytes_lt x p = false →
    bytes_lt y x = false → starts_with y p = true → starts_with x p = true
  | [], x, _, _, _, _ => starts_with_nil x
  | _ :: _, [], _, h, _, _ => by simp [bytes_lt] at h
  | _ :: _, _ :: _, [], _, h, _ => by simp [bytes_lt] at h
  | c :: p, a :: x, b :: y, h1, h2, h3 => by
    have ih := starts_with_interval p x y
    simp only [starts_with, Bool.and_eq_true, beq_iff_eq] at h3 ⊢
    obtain ⟨h3, h4⟩ := h3
    subst h3
    simp only [bytes_lt] at h1 h2
    split_ifs at h1 h2
    exact ⟨by omega, ih h1 h2 h4⟩

theorem filter_eq_takeWhile_of_ge (p : List Nat) : ∀ (l : List column_meta),
    l.Pairwise (fun a b => bytes_lt b.name a.name = false) →
    (∀ m ∈ l, bytes_lt m.name p = false) →
    l.filter (fun m => starts_with m.name p) = l.takeWhile (fun m => starts_with m.name p)
  | [], _, _ => rfl
  | x :: t, hs, hge => by
    rw [List.pairwise_cons] at hs
    by_cases hx : starts_with x.name p = true
    · have ih := filter_eq_takeWhile_of_ge p t hs.2
        (fun m hm => hge m (List.mem_cons_of_mem _ hm))
      simp only [List.filter_cons, List.takeWhile_cons, hx, if_true, ih]
    · have hnil : t.filter (fun m => starts_with m.name p) = [] := by
        rw [List.filter_eq_nil_iff]
        intro y hy hsw
        exact hx (starts_with_interval p x.name y.name (hge x (List.mem_cons_self _ _))
          (hs.1 y hy) hsw)
      simp only [List.filter_cons, List.takeWhile_cons, hx, if_false, hnil]
      rfl

/-- In a directory sorted by name the columns whose name starts with the prefix are the
maximal run of such columns from the first column whose name is not less than the
prefix. -/
theorem filter_eq_takeWhile_dropWhile (p : List Nat) : ∀ (l : List column_meta),
    l.Pairwise (fun a b => bytes_lt b.name a.name = false) →
    l.filter (fun m => starts_with m.name p) =
      (l.dropWhile (fun m => bytes_lt m.name p)).takeWhile (fun m => starts_with m.name p)
  | [], _ => rfl
  | x :: t, hs => by
    by_cases hx : bytes_lt x.name p = true
    · have hsw : ¬ starts_with x.name p = true := by
        intro h
        rw [starts_with_not_lt p x.name h] at hx
        exact absurd hx (by simp)
      have ih := filter_eq_takeWhile_dropWhile p t (List.pairwise_cons.mp hs).2
      simp only [List.filter_cons, List.dropWhile_cons, hsw, hx, if_true, if_false, ih]
      rfl
    · have hx' : bytes_lt x.name p = false := by simpa using hx
      have hd : (x :: t).dropWhile (fun m => bytes_lt m.name p) = x :: t := by
        simp only [List.dropWhile_cons, hx', Bool.false_eq_true, if_false]
      rw [hd]
      refine filter_eq_takeWhile_of_ge p (x :: t) hs ?_
      intro m hm
      rcases List.mem_cons.mp hm with h | h
      · rw [h]; exact hx'
      · exact bytes_le_trans p x.name m.name hx' ((List.pairwise_cons.mp hs).1 m h)

theorem prefix_loop_spec (rdr : sub_reader) (p : List Nat) :
    ∀ (rest : List column_meta) (cur : column_meta) (itrs : List column_existence_iterator)
      (fuel : Nat),
      (∀ m ∈ cur :: rest, (rdr.column_reader_by_id m.id).isSome = true) →
      rest.length < fuel →
      prefix_loop rdr p fuel cur rest itrs =
        some (itrs ++ ((cur :: rest).takeWhile (fun m => starts_with m.name p)).filterMap
          (existence_of rdr)) := by
  intro rest
  induction rest with
  | nil =>
    intro cur itrs fuel hr hf
    cases fuel with
    | zero => exact absurd hf (Nat.lt_irrefl _)
    | succ f =>
      unfold prefix_loop
      by_cases hsw : starts_with cur.name p = true
      · rw [if_pos hsw]
        obtain ⟨c, hc⟩ := Option.isSome_iff_exists.mp (hr cur (List.mem_cons_self _ _))
        simp [hc, hsw, existence_of]
      · rw [if_neg hsw]
        simp [hsw]
  | cons m rest ih =>
    intro cur itrs fuel hr hf
    cases fuel with
    | zero => exact absurd hf (Nat.not_lt_zero _)
    | succ f =>
      unfold prefix_loop
      by_cases hsw : starts_with cur.name p = true
      · rw [if_pos hsw]
        obtain ⟨c, hc⟩ := Option.isSome_iff_exists.mp (hr cur (List.mem_cons_self _ _))
        simp only [hc]
        rw [ih m _ f (fun x hx => hr x (List.mem_cons_of_mem _ hx))
          (by simp only [List.length_cons] at hf; omega)]
        have ht : (cur :: m :: rest).takeWhile (fun m => starts_with m.name p) =
            cur :: (m :: rest).takeWhile (fun m => starts_with m.name p) := by
          simp only [List.takeWhile_cons, hsw, if_true]
        rw [ht, List.filterMap_cons]
        simp [existence_of, hc]
      · rw [if_neg hsw]
        simp [hsw]

/-- A column of the run without a column reader makes the loop `continue` for ever: it
does not return, whatever the bound on its iterations. -/
theorem prefix_loop_stuck (rdr : sub_reader) (p : List Nat) (cur : column_meta)
    (rest : List column_meta) (hsw : starts_with cur.name p = true)
    (hr : rdr.column_reader_by_id cur.id = none) :
    ∀ (fuel : Nat) (itrs : List column_existence_iterator),
      prefix_loop rdr p fuel cur rest itrs = none
  | 0, _ => rfl
  | fuel + 1, itrs => by
    unfold prefix_loop
    rw [if_pos hsw]
    simp only [hr]
    exact prefix_loop_stuck rdr p cur rest hsw hr fuel itrs

theorem existence_of_forall₂ (rdr : sub_reader) : ∀ (l : List column_meta),
    (∀ m ∈ l, (rdr.column_reader_by_id m.id).isSome = true) →
    List.Forall₂
      (fun m it => ∃ c, rdr.column_reader_by_id m.id = some c ∧
        it = { it_ := c.iterator, cost_ := c.size })
      l (l.filterMap (existence_of rdr))
  | [], _ => List.Forall₂.nil
  | x :: t, h => by
    obtain ⟨c, hc⟩ := Option.isSome_iff_exists.mp (h x (List.mem_cons_self _ _))
    have e : existence_of rdr x = some { it_ := c.iterator, cost_ := c.size } := by
      simp [existence_of, hc]
    rw [List.filterMap_cons, e]
    exact List.Forall₂.cons ⟨c, hc, rfl⟩
      (existence_of_forall₂ rdr t (fun m hm => h m (List.mem_cons_of_mem _ hm)))

/-- What the prefix query returns when each listed column has a reader. -/
theorem prefix_execute_spec (rdr : sub_reader) (p : List Nat) (fuel : Nat)
    (hr : ∀ m ∈ rdr.columns, (rdr.column_reader_by_id m.id).isSome = true)
    (hfuel : rdr.columns.length ≤ fuel) :
    column_prefix_existence_query.execute fuel p rdr =
      some (if rdr.columns.all (fun m => bytes_lt m.name p) = true then query_iterator.empty
        else query_iterator.disjunction
          (((rdr.columns.dropWhile (fun m => bytes_lt m.name p)).takeWhile
            (fun m => starts_with m.name p)).filterMap (existence_of rdr))) := by
  unfold column_prefix_existence_query.execute
  cases hd : rdr.columns.dropWhile (fun m => bytes_lt m.name p) with
  | nil =>
    have hall : rdr.columns.all (fun m => bytes_lt m.name p) = true := by
      rw [List.all_eq_true]
      exact List.dropWhile_eq_nil_iff.mp hd
    simp only [hall, if_true]
  | cons cur rest =>
    have hall : ¬ rdr.columns.all (fun m => bytes_lt m.name p) = true := by
      intro h
      rw [List.all_eq_true] at h
      have := List.dropWhile_eq_nil_iff.mpr h
      rw [hd] at this
      exact absurd this (by simp)
    have hsuf : (cur :: rest) <:+ rdr.columns := by
      rw [← hd]
      exact List.dropWhile_suffix _
    have hlen : (cur :: rest).length ≤ rdr.columns.length := hsuf.length_le
    have hloop := prefix_loop_spec rdr p rest cur [] fuel (fun m hm => hr m (hsuf.subset hm))
      (by simp only [List.length_cons] at hlen; omega)
    simp only [hloop, hall, List.nil_append]
    simp

/-- C13: for every segment reader whose columns directory is sorted by name and in which
each listed column has a column reader, and every bound on the iterations that is at
least the number of columns, `column_prefix_existence_query::execute` returns the empty
iterator when no column name is `>= prefix`, and otherwise the disjunction of the
existence iterators, one per column and in the order of the directory, over exactly the
columns whose name starts with the prefix, which are the maximal run of such columns
that begins at the first column whose name is `>= prefix`. -/
theorem column_prefix_existence_execute (rdr : sub_reader) (prefix_ : List Nat) (fuel : Nat)
    (hsorted : rdr.columns.Pairwise (fun a b => bytes_lt b.name a.name = false))
    (hr : ∀ m ∈ rdr.columns, (rdr.column_reader_by_id m.id).isSome = true)
    (hfuel : rdr.columns.length ≤ fuel) :
    column_prefix_existence_query.execute fuel prefix_ rdr =
      some (if rdr.columns.all (fun m => bytes_lt m.name prefix_) = true then
          query_iterator.empty
        else query_iterator.disjunction
          ((rdr.columns.filter (fun m => starts_with m.name prefix_)).filterMap
            (existence_of rdr))) ∧
    rdr.columns.filter (fun m => starts_with m.name prefix_) =
      (rdr.columns.dropWhile (fun m => bytes_lt m.name prefix_)).takeWhile
        (fun m => starts_with m.name prefix_) ∧
    List.Forall₂
      (fun m it => ∃ c, rdr.column_reader_by_id m.id = some c ∧
        it = { it_ := c.iterator, cost_ := c.size })
      (rdr.columns.filter (fun m => starts_with m.name prefix_))
      ((rdr.columns.filter (fun m => starts_with m.name prefix_)).filterMap
        (existence_of rdr)) := by
  have hrun := filter_eq_takeWhile_dropWhile prefix_ rdr.columns hsorted
  refine ⟨?_, hrun, existence_of_forall₂ rdr _ (fun m hm => hr m (List.mem_filter.mp hm).1)⟩
  rw [hrun]
  exact prefix_execute_spec rdr prefix_ fuel hr hfuel

theorem column_prefix_existence_execute_witness :
    sample_reader.columns.Pairwise (fun a b => bytes_lt b.name a.name = false) ∧
    column_prefix_existence_query.execute 3 [97] sample_reader =
      some (query_iterator.disjunction
        [{ it_ := sample_column.iterator, cost_ := 2 },
          { it_ := column.iterator { size := 0, blocks := [] }, cost_ := 0 }]) ∧
    (column_prefix_existence_query.execute 3 [97] sample_reader =
      some (if sample_reader.columns.all (fun m => bytes_lt m.name [97]) = true then
          query_iterator.empty
        else query_iterator.disjunction
          ((sample_reader.columns.filter (fun m => starts_with m.name [97])).filterMap
            (existence_of sample_reader))) ∧
    sample_reader.columns.filter (fun m => starts_with m.name [97]) =
      (sample_reader.columns.dropWhile (fun m => bytes_lt m.name [97])).takeWhile
        (fun m => starts_with m.name [97]) ∧
    List.Forall₂
      (fun m it => ∃ c, sample_reader.column_reader_by_id m.id = some c ∧
        it = { it_ := c.iterator, cost_ := c.size })
      (sample_reader.columns.filter (fun m => starts_with m.name [97]))
      ((sample_reader.columns.filter (fun m => starts_with m.name [97])).filterMap
        (existence_of sample_reader))) :=
  ⟨by decide, by decide,
    column_prefix_existence_execute sample_reader [97] 3 (by decide) (by decide)
      (by decide)⟩

/-- C14, as stated, fails: `prepare` with `prefix_match` set and an empty field builds a
prefix query, no argument is rejected, and its execution on a segment with three
columns returns the disjunction of the existence iterators of all three, which yields
the document 1 of the first column. -/
theorem empty_prefix_matches_columns :
    by_column_existence.prepare { field := [], prefix_match := true } =
      prepared_query.column_prefix_existence_query [] ∧
    (by_column_existence.prepare { field := [], prefix_match := true }).execute 3
        sample_reader =
      some (query_iterator.disjunction
        [{ it_ := sample_column.iterator, cost_ := 2 },
          { it_ := column.iterator { size := 0, blocks := [] }, cost_ := 0 },
          { it_ := sample_column.iterator, cost_ := 2 }]) ∧
    (query_iterator.disjunction
        [{ it_ := sample_column.iterator, cost_ := 2 },
          { it_ := column.iterator { size := 0, blocks := [] }, cost_ := 0 },
          { it_ := sample_column.iterator, cost_ := 2 }]).yields 1 = true := by
  decide

/-- C14, amended: a column-prefix existence query whose prefix is empty is not rejected:
`prepare` with `prefix_match` set and an empty field builds a prefix query, and its
execution on a segment in which each listed column has a column reader returns the
disjunction of the existence iterators of all columns of the segment (the empty
iterator when the segment has no column). -/
theorem empty_prefix_all_columns (rdr : sub_reader) (fuel : Nat)
    (hr : ∀ m ∈ rdr.columns, (rdr.column_reader_by_id m.id).isSome = true)
    (hfuel : rdr.columns.length ≤ fuel) :
    by_column_existence.prepare { field := [], prefix_match := true } =
      prepared_query.column_prefix_existence_query [] ∧
    (by_column_existence.prepare { field := [], prefix_match := true }).execute fuel rdr =
      some (if rdr.columns = [] then query_iterator.empty
        else query_iterator.disjunction (rdr.columns.filterMap (existence_of rdr))) := by
  refine ⟨rfl, ?_⟩
  show column_prefix_existence_query.execute fuel [] rdr = _
  rw [prefix_execute_spec rdr [] fuel hr hfuel]
  have h1 : rdr.columns.dropWhile (fun m => bytes_lt m.name []) = rdr.columns := by
    cases hc : rdr.columns with
    | nil => rfl
    | cons x t => simp [List.dropWhile_cons, bytes_lt_nil]
  have h2 : rdr.columns.takeWhile (fun m => starts_with m.name []) = rdr.columns := by
    rw [List.takeWhile_eq_self_iff]
    intro m _
    exact starts_with_nil m.name
  rw [h1, h2]
  cases hc : rdr.columns with
  | nil => simp
  | cons x t => simp [bytes_lt_nil]

theorem empty_prefix_all_columns_witness :
    (∀ m ∈ sample_reader.columns, (sample_reader.column_reader_by_id m.id).isSome = true) ∧
    (by_column_existence.prepare { field := [], prefix_match := true } =
        prepared_query.column_prefix_existence_query [] ∧
      (by_column_existence.prepare { field := [], prefix_match := true }).execute 3
          sample_reader =
        some (if sample_reader.columns = [] then query_iterator.empty
          else query_iterator.disjunction
            (sample_reader.columns.filterMap (existence_of sample_reader)))) :=
  ⟨by decide, empty_prefix_all_columns sample_reader 3 (by decide) (by decide)⟩

end irs

namespace irs

/-! ## C15: the checked `edit_distance` and invalid UTF-8 -/

theorem edit_distance_checked_loop_eq (d : parametric_description) (lhs_chars : List Nat) :
    ∀ (fuel : Nat) (rhs chars : List Nat) (state offset : Nat),
      ToUTF32_loop fuel rhs = some chars →
      edit_distance_checked_loop d lhs_chars fuel rhs state offset =
        some (edit_distance_loop d lhs_chars chars state offset) := by
  intro fuel
  induction fuel with
  | zero =>
    intro rhs chars state offset h
    cases rhs with
    | nil =>
      simp only [ToUTF32_loop, Option.some.injEq] at h
      subst h
      simp [edit_distance_checked_loop, edit_distance_loop]
    | cons b rhs => simp [ToUTF32_loop] at h
  | succ fuel ih =>
    intro rhs chars state offset h
    cases rhs with
    | nil =>
      simp only [ToUTF32_loop, Option.some.injEq] at h
      subst h
      simp [edit_distance_checked_loop, edit_distance_loop]
    | cons b rhs =>
      simp only [ToUTF32_loop] at h
      unfold edit_distance_checked_loop
      cases hc : ToChar32 (b :: rhs) with
      | none => simp [hc] at h
      | some r =>
        obtain ⟨c, rest⟩ := r
        simp only [hc] at h
        cases hl : ToUTF32_loop fuel rest with
        | none => simp [hl] at h
        | some cs =>
          simp only [hl, Option.some.injEq] at h
          subst h
          simp only [edit_distance_loop]
          split_ifs with hdead
          · rfl
          · exact ih rest cs _ _ hl

/-- The checked `edit_distance` returns false when `lhs` is not valid UTF-8. -/
theorem edit_distance_checked_lhs_invalid (d : parametric_description) (lhs rhs : List Nat)
    (h : ToUTF32 lhs = none) : edit_distance_checked d lhs rhs = none := by
  unfold edit_distance_checked
  rw [h]

/-- The checked `edit_distance` returns true, with the distance of the unchecked
overload, when both words are valid UTF-8. -/
theorem edit_distance_checked_valid (d : parametric_description) (lhs rhs l r : List Nat)
    (hl : ToUTF32 lhs = some l) (hr : ToUTF32 rhs = some r) :
    edit_distance_checked d lhs rhs = some (edit_distance d l r) := by
  unfold edit_distance_checked edit_distance
  rw [hl]
  exact edit_distance_checked_loop_eq d l rhs.length rhs r 1 0 hr

/-- C15 fails on the code for an invalid `rhs`: with the description for the distance 0,
`lhs = "a"` and `rhs = "b\xFF"`, which is not valid UTF-8, the checked `edit_distance`
returns true and stores the distance 1, because the transition on `b` is dead and the
function returns before it reads the invalid byte. -/
theorem edit_distance_checked_early_return :
    make_parametric_description 2 0 false = some description_0_false ∧
    ToUTF32 [0x61] = some [0x61] ∧
    ToUTF32 [0x62, 0xFF] = none ∧
    edit_distance_checked description_0_false [0x61] [0x62, 0xFF] = some 1 :=
  ⟨make_parametric_description_0_false, by decide, by decide, by decide⟩

end irs

namespace irs

/-! ## C16: `make_parametric_description` returns, and what it returns -/

theorem subsumes_self (p : position) : subsumes p p = true := by
  unfold subsumes abs_diff
  cases p.transpose <;> simp

theorem antichain_nodup (s : parametric_state) (h : antichain s) : s.Nodup := by
  unfold antichain at h
  refine h.imp ?_
  intro a b hab e
  rw [e, subsumes_self] at hab
  exact absurd hab.1 (by simp)

/-- A property of the positions of an antichain is kept by `emplace`. -/
theorem emplace_keeps (Q : position → Prop) (s : parametric_state) (p : position)
    (h : antichain s ∧ ∀ q ∈ s, Q q) (hp : Q p) :
    antichain (s.emplace p).1 ∧ ∀ q ∈ (s.emplace p).1, Q q := by
  obtain ⟨_, h3, h4⟩ := emplace_result s p
  refine ⟨emplace_spec s p h.1, ?_⟩
  by_cases hex : ∃ x ∈ s, subsumes x p = true
  · rw [h3 hex]
    exact h.2
  · obtain ⟨_, kept, hk, hperm⟩ := h4 hex
    rw [hk]
    intro q hq
    rcases List.mem_append.mp hq with hq | hq
    · exact h.2 q (List.mem_filter.mp (hperm.subset hq)).1
    · rw [List.mem_singleton.mp hq]
      exact hp

theorem add_deletions_keeps (Q : position → Prop) (pos : position) (chi : Nat) :
    ∀ (js : List Nat) (s : parametric_state), (antichain s ∧ ∀ q ∈ s, Q q) →
      (∀ j ∈ js, Q ⟨pos.offset + 1 + j, pos.distance + j, false⟩) →
      antichain (add_deletions pos chi js s) ∧ ∀ q ∈ add_deletions pos chi js s, Q q
  | [], s, h, _ => h
  | j :: js, s, h, hj => by
    unfold add_deletions
    refine add_deletions_keeps Q pos chi js _ ?_ (fun i hi => hj i (List.mem_cons_of_mem _ hi))
    split_ifs
    · exact emplace_keeps Q s _ h (hj j (List.mem_cons_self _ _))
    · exact h

theorem add_elementary_keeps (n base : Nat) (t : Bool) (state : parametric_state)
    (pos : position) (chi : Nat)
    (h : antichain state ∧ ∀ q ∈ state, in_triangle n (base + 1) q)
    (hp : in_triangle n base pos) :
    antichain (add_elementary_transitions state pos chi n t) ∧
      ∀ q ∈ add_elementary_transitions state pos chi n t, in_triangle n (base + 1) q := by
  obtain ⟨hp1, hp2, hp3, hp4⟩ := hp
  have step := emplace_keeps (in_triangle n (base + 1))
  have del := add_deletions_keeps (in_triangle n (base + 1)) pos chi
  unfold add_elementary_transitions
  simp only []
  have h1 : ∀ s1 : parametric_state, (antichain s1 ∧ ∀ q ∈ s1, in_triangle n (base + 1) q) →
      pos.distance < n →
      (antichain (add_deletions pos chi (List.range' 1 (n - pos.distance))
          (((s1.emplace ⟨pos.offset, pos.distance + 1, false⟩).1.emplace
            ⟨pos.offset + 1, pos.distance + 1, false⟩).1)) ∧
        ∀ q ∈ add_deletions pos chi (List.range' 1 (n - pos.distance))
          (((s1.emplace ⟨pos.offset, pos.distance + 1, false⟩).1.emplace
            ⟨pos.offset + 1, pos.distance + 1, false⟩).1), in_triangle n (base + 1) q) := by
    intro s1 hs1 hd
    refine del _ _ (step _ _ (step _ _ hs1 ?_) ?_) ?_
    · simp only [in_triangle]
      refine ⟨by omega, by omega, by omega, by simp⟩
    · simp only [in_triangle]
      refine ⟨by omega, by omega, by omega, by simp⟩
    · intro j hj
      rw [List.mem_range'_1] at hj
      simp only [in_triangle]
      refine ⟨by omega, by omega, by omega, by simp⟩
  have tail : ∀ s1 : parametric_state,
      (antichain s1 ∧ ∀ q ∈ s1, in_triangle n (base + 1) q) →
      (antichain (if pos.distance < n then
          (if (t && chi.testBit 1) = true then
            ((add_deletions pos chi (List.range' 1 (n - pos.distance))
              (((s1.emplace ⟨pos.offset, pos.distance + 1, false⟩).1.emplace
                ⟨pos.offset + 1, pos.distance + 1, false⟩).1)).emplace
              ⟨pos.offset, pos.distance + 1, true⟩).1
          else add_deletions pos chi (List.range' 1 (n - pos.distance))
            (((s1.emplace ⟨pos.offset, pos.distance + 1, false⟩).1.emplace
              ⟨pos.offset + 1, pos.distance + 1, false⟩).1))
        else s1) ∧
      ∀ q ∈ (if pos.distance < n then
          (if (t && chi.testBit 1) = true then
            ((add_deletions pos chi (List.range' 1 (n - pos.distance))
              (((s1.emplace ⟨pos.offset, pos.distance + 1, false⟩).1.emplace
                ⟨pos.offset + 1, pos.distance + 1, false⟩).1)).emplace
              ⟨pos.offset, pos.distance + 1, true⟩).1
          else add_deletions pos chi (List.range' 1 (n - pos.distance))
            (((s1.emplace ⟨pos.offset, pos.distance + 1, false⟩).1.emplace
              ⟨pos.offset + 1, pos.distance + 1, false⟩).1))
        else s1), in_triangle n (base + 1) q) := by
    intro s1 hs1
    split_ifs with hd ht
    · refine step _ _ (h1 _ hs1 hd) ?_
      simp only [in_triangle]
      refine ⟨by omega, by omega, by omega, fun _ => by omega⟩
    · exact h1 _ hs1 hd
    · exact hs1
  have ha : in_triangle n (base + 1) ⟨pos.offset + 1, pos.distance, false⟩ := by
    simp only [in_triangle]
    refine ⟨by omega, by omega, by omega, by simp⟩
  by_cases hb : chi.testBit 0 = true
  · by_cases htr : pos.transpose = true
    · simp only [hb, htr, if_true]
      refine tail _ (step _ _ (step _ _ h ha) ?_)
      have := hp4 htr
      simp only [in_triangle]
      refine ⟨by omega, by omega, by omega, by simp⟩
    · simp only [hb, htr, if_true, if_false]
      exact tail _ (step _ _ h ha)
  · simp only [hb, if_false]
    exact tail _ h

theorem fold_elementary_keeps (n base : Nat) (t : Bool) (cv : Nat) :
    ∀ (src dst : parametric_state),
      (antichain dst ∧ ∀ q ∈ dst, in_triangle n (base + 1) q) →
      (∀ pos ∈ src, in_triangle n base pos) →
      antichain (src.foldl (fun dst pos =>
          add_elementary_transitions dst pos (cv >>> pos.offset) n t) dst) ∧
        ∀ q ∈ src.foldl (fun dst pos =>
          add_elementary_transitions dst pos (cv >>> pos.offset) n t) dst,
          in_triangle n (base + 1) q
  | [], _, h, _ => h
  | pos :: src, dst, h, hs => by
    rw [List.foldl_cons]
    exact fold_elementary_keeps n base t cv src _
      (add_elementary_keeps n base t dst pos _ h (hs pos (List.mem_cons_self _ _)))
      (fun q hq => hs q (List.mem_cons_of_mem _ hq))

theorem sort_insert_perm (p : position) : ∀ (l : List position), (sort_insert p l).Perm (p :: l)
  | [] => List.Perm.refl _
  | q :: qs => by
    unfold sort_insert
    split_ifs
    · exact List.Perm.refl _
    · exact ((sort_insert_perm p qs).cons q).trans (List.Perm.swap p q qs)

theorem sort_positions_perm : ∀ (l : List position), (sort_positions l).Perm l
  | [] => List.Perm.refl _
  | p :: l => by
    unfold sort_positions
    rw [List.foldr_cons]
    exact (sort_insert_perm p _).trans ((sort_positions_perm l).cons p)

theorem add_transition_keeps (n base : Nat) (t : Bool) (cv : Nat) (src : parametric_state)
    (hs : ∀ pos ∈ src, in_triangle n base pos) :
    (add_transition src cv n t).Nodup ∧
      ∀ q ∈ add_transition src cv n t, in_triangle n (base + 1) q := by
  have h := fold_elementary_keeps n base t cv src []
    ⟨List.Pairwise.nil, fun q hq => absurd hq (List.not_mem_nil q)⟩ hs
  have hp := sort_positions_perm (src.foldl (fun dst pos =>
    add_elementary_transitions dst pos (cv >>> pos.offset) n t) [])
  unfold add_transition
  exact ⟨hp.nodup_iff.mpr (antichain_nodup _ h.1), fun q hq => h.2 q (hp.subset hq)⟩

theorem foldl_min_spec : ∀ (ps : List position) (m0 : Nat),
    ps.foldl (fun m q => if q.offset < m then q.offset else m) m0 ≤ m0 ∧
    (∀ q ∈ ps, ps.foldl (fun m q => if q.offset < m then q.offset else m) m0 ≤ q.offset) ∧
    (ps.foldl (fun m q => if q.offset < m then q.offset else m) m0 = m0 ∨
      ∃ q ∈ ps, q.offset = ps.foldl (fun m q => if q.offset < m then q.offset else m) m0)
  | [], m0 => ⟨Nat.le_refl _, fun q hq => absurd hq (List.not_mem_nil q), Or.inl rfl⟩
  | p :: ps, m0 => by
    rw [List.foldl_cons]
    have hm : (if p.offset < m0 then p.offset else m0) ≤ m0 ∧
        (if p.offset < m0 then p.offset else m0) ≤ p.offset ∧
        ((if p.offset < m0 then p.offset else m0) = m0 ∨
          (if p.offset < m0 then p.offset else m0) = p.offset) := by
      split_ifs <;> omega
    obtain ⟨h1, h2, h3⟩ := foldl_min_spec ps (if p.offset < m0 then p.offset else m0)
    generalize (if p.offset < m0 then p.offset else m0) = m1 at hm h1 h2 h3 ⊢
    refine ⟨by omega, ?_, ?_⟩
    · intro q hq
      rcases List.mem_cons.mp hq with e | hq
      · rw [e]
        omega
      · exact h2 q hq
    · rcases h3 with h3 | ⟨q, hq, e⟩
      · rcases hm.2.2 with e | e
        · exact Or.inl (by omega)
        · exact Or.inr ⟨p, List.mem_cons_self _ _, by omega⟩
      · exact Or.inr ⟨q, List.mem_cons_of_mem _ hq, e⟩

theorem min_offset_spec (s : parametric_state) :
    (∀ q ∈ s, min_offset s ≤ q.offset) ∧ (s ≠ [] → ∃ q ∈ s, q.offset = min_offset s) := by
  cases s with
  | nil => exact ⟨fun q hq => absurd hq (List.not_mem_nil q), fun h => absurd rfl h⟩
  | cons p ps =>
    unfold min_offset
    obtain ⟨h1, h2, h3⟩ := foldl_min_spec ps p.offset
    refine ⟨?_, fun _ => ?_⟩
    · intro q hq
      rcases List.mem_cons.mp hq with e | hq
      · rw [e]; exact h1
      · exact h2 q hq
    · rcases h3 with h3 | ⟨q, hq, e⟩
      · exact ⟨p, List.mem_cons_self _ _, h3.symm⟩
      · exact ⟨q, List.mem_cons_of_mem _ hq, e⟩

/-- The state that `normalize` returns for a state in a triangle satisfies the
invariant of the kept states. -/
theorem normalize_inv (n base : Nat) (s : parametric_state) (hn : s.Nodup)
    (ht : ∀ q ∈ s, in_triangle n base q) : state_inv n (normalize s).2 := by
  obtain ⟨hmin, hex⟩ := min_offset_spec s
  have hperm := sort_positions_perm
    (s.map (fun pos => { pos with offset := pos.offset - min_offset s }))
  unfold normalize
  simp only []
  refine ⟨?_, ⟨base - min_offset s, ?_⟩, ?_⟩
  · rw [hperm.nodup_iff]
    refine List.Nodup.map_on ?_ hn
    intro x hx y hy e
    have h1 := hmin x hx
    have h2 := hmin y hy
    cases x
    cases y
    simp only [position.mk.injEq] at e ⊢
    simp only at h1 h2
    exact ⟨by omega, e.2.1, e.2.2⟩
  · intro q hq
    obtain ⟨x, hx, e⟩ := List.mem_map.mp (hperm.subset hq)
    have hne : s ≠ [] := List.ne_nil_of_mem hx
    obtain ⟨p0, hp0, e0⟩ := hex hne
    obtain ⟨a1, a2, a3, a4⟩ := ht p0 hp0
    obtain ⟨b1, b2, b3, b4⟩ := ht x hx
    have hm := hmin x hx
    rw [← e]
    simp only [in_triangle]
    refine ⟨b1, by omega, by omega, fun h => ?_⟩
    have := b4 h
    omega
  · intro hne
    have hne' : s ≠ [] := by
      intro h
      apply hne
      rw [h]
      rfl
    obtain ⟨p0, hp0, e0⟩ := hex hne'
    refine ⟨{ p0 with offset := p0.offset - min_offset s },
      hperm.symm.subset (List.mem_map.mpr ⟨p0, hp0, rfl⟩), ?_⟩
    simp only
    omega

theorem bounded_of_state_inv (n : Nat) (s : parametric_state) (h : state_inv n s) :
    bounded n s := by
  obtain ⟨hn, ⟨base, ht⟩, hz⟩ := h
  refine ⟨hn, fun p hp => ?_⟩
  obtain ⟨p0, hp0, e0⟩ := hz (List.ne_nil_of_mem hp)
  obtain ⟨a1, a2, a3, _⟩ := ht p0 hp0
  obtain ⟨b1, b2, b3, _⟩ := ht p hp
  exact ⟨by omega, b1⟩

theorem position_eq_self (p : position) : position.eq p p = true := by
  simp [position.eq]

theorem parametric_state_eq_self : ∀ (s : parametric_state), parametric_state.eq s s = true
  | [] => rfl
  | p :: s => by
    unfold parametric_state.eq
    rw [position_eq_self, parametric_state_eq_self s]
    rfl

theorem find_none_not_mem (state : parametric_state) : ∀ (ss : List parametric_state) (i : Nat),
    parametric_states.find state ss i = none → state ∉ ss
  | [], _, _ => List.not_mem_nil _
  | s :: ss, i, h => by
    unfold parametric_states.find at h
    split_ifs at h with he
    intro hmem
    rcases List.mem_cons.mp hmem with e | hm
    · rw [e, parametric_state_eq_self] at he
      exact he rfl
    · exact find_none_not_mem state ss (i + 1) h hm

theorem states_emplace_inv (n : Nat) (states : parametric_states) (dst : parametric_state)
    (h : states_inv n states) (hd : state_inv n dst) :
    states_inv n (states.emplace dst).1 ∧ states.length ≤ (states.emplace dst).1.length := by
  unfold parametric_states.emplace
  cases hf : parametric_states.find dst states 0 with
  | some id => exact ⟨h, Nat.le_refl _⟩
  | none =>
    obtain ⟨h1, h2, h3⟩ := h
    have hnot := find_none_not_mem dst states 0 hf
    refine ⟨⟨?_, ?_, ?_⟩, ?_⟩
    · rw [List.nodup_append]
      refine ⟨h1, List.nodup_singleton _, ?_⟩
      intro a ha hb
      rw [List.mem_singleton.mp hb] at ha
      exact hnot ha
    · intro s hs
      rcases List.mem_append.mp hs with hs | hs
      · exact h2 s hs
      · rw [List.mem_singleton.mp hs]
        exact hd
    · simp only [List.length_append, List.length_singleton]
      omega
    · simp only [List.length_append, List.length_singleton]
      omega

theorem build_row_inv (n : Nat) (t : Bool) (src : parametric_state) (base : Nat)
    (hsrc : ∀ pos ∈ src, in_triangle n base pos) :
    ∀ (chis : List Nat) (states : parametric_states) (row : List (Nat × Nat)),
      states_inv n states →
      states_inv n (build_row src n t chis states row).1 ∧
        states.length ≤ (build_row src n t chis states row).1.length
  | [], states, row, h => ⟨h, Nat.le_refl _⟩
  | chi :: chis, states, row, h => by
    unfold build_row
    simp only []
    obtain ⟨k1, k2⟩ := add_transition_keeps n base t chi src hsrc
    have hd := normalize_inv n (base + 1) _ k1 k2
    obtain ⟨e1, e2⟩ := states_emplace_inv n states _ h hd
    obtain ⟨r1, r2⟩ := build_row_inv n t src base hsrc chis _
      (((states.emplace (normalize (add_transition src chi n t)).2).2,
        (normalize (add_transition src chi n t)).1) :: row) e1
    exact ⟨r1, Nat.le_trans e2 r2⟩

theorem build_row_length (n : Nat) (t : Bool) (src : parametric_state) :
    ∀ (chis : List Nat) (states : parametric_states) (row : List (Nat × Nat)),
      (build_row src n t chis states row).2.length = row.length + chis.length ∧
        states.length ≤ (build_row src n t chis states row).1.length
  | [], states, row => by
    unfold build_row
    simp
  | chi :: chis, states, row => by
    unfold build_row
    simp only []
    obtain ⟨r1, r2⟩ := build_row_length n t src chis
      (states.emplace (normalize (add_transition src chi n t)).2).1
      (((states.emplace (normalize (add_transition src chi n t)).2).2,
        (normalize (add_transition src chi n t)).1) :: row)
    refine ⟨?_, ?_⟩
    · rw [r1]
      simp only [List.length_cons]
      omega
    · refine Nat.le_trans ?_ r2
      unfold parametric_states.emplace
      cases parametric_states.find (normalize (add_transition src chi n t)).2 states 0 with
      | some id => exact Nat.le_refl _
      | none =>
        simp only [List.length_append, List.length_singleton]
        omega

theorem position_code_inj (n : Nat) (p q : position)
    (hp : p.offset ≤ 2 * n ∧ p.distance ≤ n) (hq : q.offset ≤ 2 * n ∧ q.distance ≤ n)
    (e : position.code n p = position.code n q) : p = q := by
  cases p
  cases q
  simp only [position.code, Prod.mk.injEq, Fin.mk.injEq] at e
  simp only at hp hq
  obtain ⟨e1, e2, e3⟩ := e
  rw [Nat.mod_eq_of_lt (by omega), Nat.mod_eq_of_lt (by omega)] at e1 e2
  simp only [position.mk.injEq]
  exact ⟨e1, e2, e3⟩

theorem map_code_inj (n : Nat) : ∀ (s s' : parametric_state),
    (∀ p ∈ s, p.offset ≤ 2 * n ∧ p.distance ≤ n) →
    (∀ p ∈ s', p.offset ≤ 2 * n ∧ p.distance ≤ n) →
    s.map (position.code n) = s'.map (position.code n) → s = s'
  | [], [], _, _, _ => rfl
  | [], _ :: _, _, _, e => by simp at e
  | _ :: _, [], _, _, e => by simp at e
  | p :: s, q :: s', h, h', e => by
    simp only [List.map_cons, List.cons.injEq] at e
    rw [position_code_inj n p q (h p (List.mem_cons_self _ _)) (h' q (List.mem_cons_self _ _))
      e.1, map_code_inj n s s' (fun x hx => h x (List.mem_cons_of_mem _ hx))
      (fun x hx => h' x (List.mem_cons_of_mem _ hx)) e.2]

/-- There are finitely many bounded states: a list of pairwise distinct ones is no longer
than the number of duplicate-free lists of codes. -/
theorem states_length_le (n : Nat) (states : parametric_states) (hn : states.Nodup)
    (hb : ∀ s ∈ states, bounded n s) :
    states.length ≤
      Fintype.card { l : List (Fin (2 * n + 1) × Fin (n + 1) × Bool) // l.Nodup } := by
  have hcode : ∀ s, bounded n s → (s.map (position.code n)).Nodup := by
    intro s hs
    refine List.Nodup.map_on ?_ hs.1
    intro x hx y hy e
    exact position_code_inj n x y (hs.2 x hx) (hs.2 y hy) e
  have hnd : (List.pmap
      (fun s (hs : bounded n s) =>
        (⟨s.map (position.code n), hcode s hs⟩ :
          { l : List (Fin (2 * n + 1) × Fin (n + 1) × Bool) // l.Nodup }))
      states hb).Nodup := by
    refine List.Nodup.pmap ?_ hn
    intro a ha b hb' e
    simp only [Subtype.mk.injEq] at e
    exact map_code_inj n a b ha.2 hb'.2 e
  have := List.Nodup.length_le_card hnd
  rw [List.length_pmap] at this
  exact this

theorem predict_num_states_cases (n : Nat) (t : Bool) :
    predict_num_states n t = 0 ∨ 2 ≤ predict_num_states n t := by
  unfold predict_num_states
  generalize 2 * n + (if t = true then 1 else 0) = i
  by_cases hi : i < 12
  · interval_cases i <;> decide
  · left
    exact List.getD_eq_default _ _ (by simp only [NUM_STATES, List.length_cons, List.length_nil]; omega)

/-- The state loop of `make_parametric_description` returns when the bound on its
iterations exceeds the number of bounded states, and it returns at least two rows. -/
theorem build_states_returns (n : Nat) (t : Bool) (cap : Nat)
    (hcap : cap = 0 ∨ 2 * chi_max (chi_size n) ≤ cap) :
    ∀ (fuel : Nat) (states : parametric_states) (transitions : List (Nat × Nat))
      (from_id : Nat),
      states_inv n states →
      transitions.length = from_id * chi_max (chi_size n) →
      from_id ≤ states.length →
      Fintype.card { l : List (Fin (2 * n + 1) × Fin (n + 1) × Bool) // l.Nodup } + 1 ≤
        fuel + from_id →
      ∃ S T, build_states n t cap fuel states transitions from_id = some (S, T) ∧
        2 * chi_max (chi_size n) ≤ T.length := by
  intro fuel
  induction fuel with
  | zero =>
    intro states transitions from_id hinv _ hle hfuel
    have := states_length_le n states hinv.1
      (fun s hs => bounded_of_state_inv n s (hinv.2.1 s hs))
    omega
  | succ fuel ih =>
    intro states transitions from_id hinv hlen hle hfuel
    unfold build_states
    by_cases hend : from_id = states.length
    · rw [if_pos hend]
      refine ⟨states, transitions, rfl, ?_⟩
      rw [hlen, hend]
      exact Nat.mul_le_mul_right _ hinv.2.2
    · rw [if_neg hend]
      have hlt : from_id < states.length := by omega
      have hmem : states.getD from_id [] ∈ states := by
        rw [List.getD_eq_getElem _ _ hlt]
        exact List.getElem_mem hlt
      obtain ⟨_, ⟨base, hbase⟩, _⟩ := hinv.2.1 _ hmem
      obtain ⟨r1, r2⟩ := build_row_inv n t (states.getD from_id []) base hbase
        (List.range (chi_max (chi_size n))) states [] hinv
      obtain ⟨l1, _⟩ := build_row_length n t (states.getD from_id [])
        (List.range (chi_max (chi_size n))) states []
      simp only [List.length_nil, List.length_range, Nat.zero_add] at l1
      have hlen' : (transitions ++ (build_row (states.getD from_id []) n t
          (List.range (chi_max (chi_size n))) states []).2).length =
          (from_id + 1) * chi_max (chi_size n) := by
        rw [List.length_append, l1, hlen, Nat.add_mul, Nat.one_mul]
      simp only []
      split_ifs with hexit
      · refine ⟨_, _, rfl, ?_⟩
        rcases hcap with h0 | h2
        · exact absurd h0 hexit.1
        · rw [hexit.2]
          exact h2
      · exact ih _ _ (from_id + 1) r1 hlen' (by omega) (by omega)

/-- Whenever the state loop returns, it returns at least two rows. -/
theorem build_states_length (n : Nat) (t : Bool) (cap : Nat)
    (hcap : cap = 0 ∨ 2 * chi_max (chi_size n) ≤ cap) :
    ∀ (fuel : Nat) (states : parametric_states) (transitions : List (Nat × Nat))
      (from_id : Nat) (S : parametric_states) (T : List (Nat × Nat)),
      2 ≤ states.length →
      transitions.length = from_id * chi_max (chi_size n) →
      build_states n t cap fuel states transitions from_id = some (S, T) →
      2 * chi_max (chi_size n) ≤ T.length := by
  intro fuel
  induction fuel with
  | zero =>
    intro states transitions from_id S T _ _ h
    simp [build_states] at h
  | succ fuel ih =>
    intro states transitions from_id S T h2 hlen h
    unfold build_states at h
    by_cases hend : from_id = states.length
    · rw [if_pos hend] at h
      simp only [Option.some.injEq, Prod.mk.injEq] at h
      rw [← h.2, hlen, hend]
      exact Nat.mul_le_mul_right _ h2
    · rw [if_neg hend] at h
      obtain ⟨l1, l2⟩ := build_row_length n t (states.getD from_id [])
        (List.range (chi_max (chi_size n))) states []
      simp only [List.length_nil, List.length_range, Nat.zero_add] at l1
      have hlen' : (transitions ++ (build_row (states.getD from_id []) n t
          (List.range (chi_max (chi_size n))) states []).2).length =
          (from_id + 1) * chi_max (chi_size n) := by
        rw [List.length_append, l1, hlen, Nat.add_mul, Nat.one_mul]
      simp only [] at h
      split_ifs at h with hexit
      · simp only [Option.some.injEq, Prod.mk.injEq] at h
        rcases hcap with h0 | hc
        · exact absurd h0 hexit.1
        · rw [← h.2, hexit.2]
          exact hc
      · exact ih _ _ (from_id + 1) S T (Nat.le_trans h2 l2) hlen' h

theorem initial_states_inv (n : Nat) : states_inv n [[], [⟨0, 0, false⟩]] := by
  refine ⟨by decide, ?_, by decide⟩
  intro s hs
  simp only [List.mem_cons, List.mem_singleton, List.not_mem_nil, or_false] at hs
  rcases hs with e | e
  · rw [e]
    exact ⟨List.nodup_nil, ⟨0, fun p hp => absurd hp (List.not_mem_nil p)⟩,
      fun h => absurd rfl h⟩
  · rw [e]
    refine ⟨List.nodup_singleton _, ⟨n, ?_⟩, fun _ => ⟨⟨0, 0, false⟩, by simp, rfl⟩⟩
    intro p hp
    rw [List.mem_singleton.mp hp]
    simp [in_triangle]

theorem capacity_cases (n : Nat) (t : Bool) :
    predict_num_states n t * chi_max (chi_size n) = 0 ∨
      2 * chi_max (chi_size n) ≤ predict_num_states n t * chi_max (chi_size n) := by
  rcases predict_num_states_cases n t with h | h
  · left
    rw [h, Nat.zero_mul]
  · right
    exact Nat.mul_le_mul_right _ h

theorem chi_max_positive (n : Nat) : 0 < chi_max (chi_size n) := by
  unfold chi_max
  rw [Nat.shiftLeft_eq, Nat.one_mul]
  exact Nat.pos_pow_of_pos _ (by decide)

/-- C16: `make_parametric_description(max_distance, t)` returns for every `max_distance`
(with a bound on the iterations of its state loop that is large enough), and whenever it
returns, it returns the invalid description, which has no states, exactly when
`max_distance > MAX_DISTANCE`, and otherwise a description with at least two states, the
empty state 0 and the initial state 1. -/
theorem make_parametric_description_invalid_iff (max_distance : Nat)
    (with_transpositions : Bool) :
    (∃ fuel d, make_parametric_description fuel max_distance with_transpositions = some d) ∧
    parametric_description.invalid.num_states = 0 ∧
    ∀ fuel d, make_parametric_description fuel max_distance with_transpositions = some d →
      (d = parametric_description.invalid ↔ max_distance > MAX_DISTANCE) ∧
      (¬ max_distance > MAX_DISTANCE → 2 ≤ d.num_states) := by
  have hsome : ∀ fuel d,
      make_parametric_description fuel max_distance with_transpositions = some d →
      ¬ max_distance > MAX_DISTANCE → 2 ≤ d.num_states := by
    intro fuel d h hn
    unfold make_parametric_description at h
    rw [if_neg hn] at h
    simp only [] at h
    cases hb : build_states max_distance with_transpositions
        (predict_num_states max_distance with_transpositions *
          chi_max (chi_size max_distance)) fuel [[], [⟨0, 0, false⟩]] [] 0 with
    | none => simp [hb] at h
    | some r =>
      obtain ⟨S, T⟩ := r
      simp only [hb, Option.some.injEq] at h
      have hT := build_states_length max_distance with_transpositions _
        (capacity_cases max_distance with_transpositions) fuel _ _ 0 S T (by decide)
        (by simp) hb
      rw [← h]
      simp only [parametric_description.mk']
      exact (Nat.le_div_iff_mul_le (chi_max_positive max_distance)).mpr hT
  refine ⟨?_, rfl, ?_⟩
  · by_cases hn : max_distance > MAX_DISTANCE
    · exact ⟨0, parametric_description.invalid, by
        unfold make_parametric_description
        rw [if_pos hn]⟩
    · obtain ⟨S, T, hb, _⟩ := build_states_returns max_distance with_transpositions _
        (capacity_cases max_distance with_transpositions)
        (Fintype.card
          { l : List (Fin (2 * max_distance + 1) × Fin (max_distance + 1) × Bool) //
            l.Nodup } + 1)
        [[], [⟨0, 0, false⟩]] [] 0 (initial_states_inv max_distance) (by simp)
        (Nat.zero_le _) (Nat.le_refl _)
      refine ⟨Fintype.card
          { l : List (Fin (2 * max_distance + 1) × Fin (max_distance + 1) × Bool) //
            l.Nodup } + 1,
        parametric_description.mk' T (distance_table S max_distance) max_distance, ?_⟩
      unfold make_parametric_description
      rw [if_neg hn]
      simp only [hb]
  · intro fuel d h
    refine ⟨⟨?_, ?_⟩, hsome fuel d h⟩
    · intro e
      by_contra hn
      have := hsome fuel d h hn
      rw [e] at this
      exact absurd this (by decide)
    · intro hn
      unfold make_parametric_description at h
      rw [if_pos hn] at h
      exact (Option.some.inj h).symm

theorem make_parametric_description_invalid_iff_witness :
    make_parametric_description 2 0 false = some description_0_false ∧
    make_parametric_description 0 32 false = some parametric_description.invalid ∧
    ((description_0_false = parametric_description.invalid ↔ 0 > MAX_DISTANCE) ∧
      (¬ 0 > MAX_DISTANCE → 2 ≤ description_0_false.num_states)) ∧
    ((parametric_description.invalid = parametric_description.invalid ↔ 32 > MAX_DISTANCE) ∧
      (¬ 32 > MAX_DISTANCE → 2 ≤ parametric_description.invalid.num_states)) :=
  ⟨make_parametric_description_0_false, by decide,
    (make_parametric_description_invalid_iff 0 false).2.2 2 description_0_false
      make_parametric_description_0_false,
    (make_parametric_description_invalid_iff 32 false).2.2 0 parametric_description.invalid
      (by decide)⟩

end irs

namespace irs

/-! ## C17: the automaton is deterministic and label-sorted -/

theorem before_disjoint (l l' : label) (c : Nat) (h : label.before l l' = true) :
    ¬ (l.matches c = true ∧ l'.matches c = true) := by
  cases l <;> cases l' <;>
    simp only [label.before, label.matches, decide_eq_true_eq, Bool.and_eq_true,
      Bool.false_eq_true, and_false, not_false_eq_true] at h ⊢ <;> omega

theorem pairwise_unique {α : Type} (R : α → α → Prop) (P : α → Prop)
    (hR : ∀ x y, R x y → ¬ (P x ∧ P y)) :
    ∀ (l : List α), l.Pairwise R → ∀ x ∈ l, ∀ y ∈ l, P x → P y → x = y
  | [], _, x, hx, _, _, _, _ => absurd hx (List.not_mem_nil x)
  | a :: l, h, x, hx, y, hy, px, py => by
    rw [List.pairwise_cons] at h
    rcases List.mem_cons.mp hx with ex | hx' <;> rcases List.mem_cons.mp hy with ey | hy'
    · rw [ex, ey]
    · rw [ex] at px
      exact absurd ⟨px, py⟩ (hR a y (h.1 y hy'))
    · rw [ey] at py
      exact absurd ⟨py, px⟩ (hR a x (h.1 x hx'))
    · exact pairwise_unique R P hR l h.2 x hx' y hy' px py

/-- Arcs in strictly increasing label order are deterministic: at most one of them is
taken on a code point, and at most one of them is the default arc. -/
theorem label_sorted_deterministic (arcs : List arc) (h : label_sorted arcs) :
    (∀ c, ∀ x ∈ arcs, ∀ y ∈ arcs, x.ilabel.matches c = true → y.ilabel.matches c = true →
      x = y) ∧
    (∀ x ∈ arcs, ∀ y ∈ arcs, x.ilabel = label.rho → y.ilabel = label.rho → x = y) := by
  constructor
  · intro c
    exact pairwise_unique _ (fun x => x.ilabel.matches c = true)
      (fun x y hxy => before_disjoint x.ilabel y.ilabel c hxy) arcs h
  · refine pairwise_unique _ (fun x => x.ilabel = label.rho) ?_ arcs h
    intro x y hxy hh
    rw [hh.1, hh.2] at hxy
    simp [label.before] at hxy

theorem builder_sorted_perm (m : Nat) (a : automaton) (l l' : List Nat)
    (h : builder_sorted m a l) (hp : l.Perm l') : builder_sorted m a l' :=
  ⟨h.1, h.2.1, fun s hs => h.2.2.1 s (hp.symm.subset hs), hp.nodup_iff.mp h.2.2.2⟩

/-- A new state without arcs joins the pending states. -/
theorem builder_sorted_add (m : Nat) (a a' : automaton) (pending : List Nat) (f : Option Nat)
    (h : builder_sorted m a pending) (hf : ∀ w, f = some w → w ≤ m)
    (hs : a'.states = a.states ++ [⟨f, []⟩]) :
    builder_sorted m a' (a.states.length :: pending) := by
  obtain ⟨h1, h2, h3, h4⟩ := h
  have hget : ∀ (i : Nat) (st : fst_state), a'.states[i]? = some st →
      a.states[i]? = some st ∨ (i = a.states.length ∧ st = ⟨f, []⟩) := by
    intro i st hi
    rw [hs] at hi
    by_cases hlt : i < a.states.length
    · rw [List.getElem?_append_left hlt] at hi
      exact Or.inl hi
    · rw [List.getElem?_append_right (by omega)] at hi
      have hz : i - a.states.length = 0 := by
        by_contra hne
        rw [List.getElem?_eq_none (by simp; omega)] at hi
        exact absurd hi (by simp)
      rw [hz] at hi
      simp only [List.getElem?_cons_zero, Option.some.injEq] at hi
      exact Or.inr ⟨by omega, hi.symm⟩
  refine ⟨?_, ?_, ?_, ?_⟩
  · intro i st hi
    rcases hget i st hi with h | ⟨_, e⟩
    · exact h1 i st h
    · rw [e]
      exact List.Pairwise.nil
  · intro i st w hi hw
    rcases hget i st hi with h | ⟨_, e⟩
    · exact h2 i st w h hw
    · rw [e] at hw
      exact hf w hw
  · intro s hs'
    rcases List.mem_cons.mp hs' with e | hmem
    · refine ⟨⟨f, []⟩, ?_, rfl⟩
      rw [e, hs, List.getElem?_append_right (Nat.le_refl _)]
      simp
    · obtain ⟨st, hst, harcs⟩ := h3 s hmem
      refine ⟨st, ?_, harcs⟩
      have hlt : s < a.states.length := by
        by_contra hge
        rw [List.getElem?_eq_none (by omega)] at hst
        exact absurd hst (by simp)
      rw [hs, List.getElem?_append_left hlt]
      exact hst
  · rw [List.nodup_cons]
    refine ⟨?_, h4⟩
    intro hmem
    obtain ⟨st, hst, _⟩ := h3 _ hmem
    rw [List.getElem?_eq_none (Nat.le_refl _)] at hst
    exact absurd hst (by simp)

theorem AddState_SetFinal_states (a : automaton) (w : Nat) :
    (a.AddState.1.SetFinal a.AddState.2 w).states = a.states ++ [⟨some w, []⟩] := by
  apply List.ext_getElem?
  intro i
  rw [SetFinal_getElem?]
  simp only [automaton.AddState]
  by_cases hlt : i < a.states.length
  · rw [List.getElem?_append_left hlt, List.getElem?_append_left hlt]
    cases a.states[i]? with
    | none => rfl
    | some x =>
      have : ¬ a.states.length = i := by omega
      simp [this]
  · rw [List.getElem?_append_right (by omega), List.getElem?_append_right (by omega)]
    by_cases hz : i - a.states.length = 0
    · have : a.states.length = i := by omega
      simp [hz, this]
    · have hnone : ∀ x : fst_state, [x][i - a.states.length]? = none :=
        fun x => List.getElem?_eq_none (by simp only [List.length_singleton]; omega)
      rw [hnone, hnone]
      rfl

theorem entry_target_sorted (d : parametric_description) (u : Nat) (state : builder_state)
    (a : automaton) (tr : List (Option Nat)) (stack : List builder_state) (chi p : Nat)
    (h : builder_sorted d.max_distance a (p :: stack.map (fun b => b.src))) :
    builder_sorted d.max_distance (entry_target d u state a tr stack chi).1
      (p :: (entry_target d u state a tr stack chi).2.2.1.map (fun b => b.src)) := by
  unfold entry_target
  simp only []
  by_cases hdead : (d.transition state.state_id chi).1 = INVALID_STATE
  · rw [if_pos hdead]
    exact h
  · rw [if_neg hdead]
    generalize (if (d.transition state.state_id chi).1 ≠ 0 then
      (d.transition state.state_id chi).2 + state.offset else 0) = off
    split
    · exact h
    · simp only [List.map_cons]
      refine builder_sorted_perm _ _ (a.AddState.2 :: p :: stack.map (fun b => b.src)) _ ?_
        (List.Perm.swap p a.AddState.2 _)
      split_ifs with hfin
      · exact builder_sorted_add _ a _ _ (some _) h
          (fun w hw => by rw [← Option.some.inj hw]; exact hfin)
          (AddState_SetFinal_states a _)
      · exact builder_sorted_add _ a _ _ none h (fun w hw => absurd hw (by simp)) rfl

/-- The loop over the alphabet keeps the invariant and collects the arcs in strictly
increasing order of their code points. -/
theorem process_fold_sorted (d : parametric_description) (u mask : Nat) (state : builder_state)
    (p : Nat) :
    ∀ (l : List character) (s : entry_state),
      (l.map (fun e => e.cp)).Pairwise (fun x y => x < y) →
      builder_sorted d.max_distance s.a (p :: s.stack.map (fun b => b.src)) →
      (s.arcs.map (fun e => e.1)).Pairwise (fun x y => x < y) →
      (∀ x ∈ s.arcs.map (fun e => e.1), ∀ e ∈ l, x < e.cp) →
      builder_sorted d.max_distance (l.foldl (process_entry d u mask state) s).a
        (p :: (l.foldl (process_entry d u mask state) s).stack.map (fun b => b.src)) ∧
      ((l.foldl (process_entry d u mask state) s).arcs.map (fun e => e.1)).Pairwise
        (fun x y => x < y)
  | [], _, _, h, ha, _ => ⟨h, ha⟩
  | e :: l, s, hl, h, ha, hb => by
    rw [List.foldl_cons]
    rw [List.map_cons, List.pairwise_cons] at hl
    have ht := entry_target_sorted d u state s.a s.transitions s.stack
      (chi_bitset e.chi state.offset mask) p h
    refine process_fold_sorted d u mask state p l _ hl.2 ?_ ?_ ?_
    · unfold process_entry
      simp only []
      split_ifs <;> exact ht
    · unfold process_entry
      simp only []
      split_ifs
      · simp only [List.map_append, List.map_cons, List.map_nil]
        rw [List.pairwise_append]
        refine ⟨ha, List.pairwise_singleton _ _, ?_⟩
        intro x hx y hy
        rw [List.mem_singleton.mp hy]
        exact hb x hx e (List.mem_cons_self _ _)
      · exact ha
    · unfold process_entry
      simp only []
      split_ifs
      · simp only [List.map_append, List.map_cons, List.map_nil]
        intro x hx e' he'
        rcases List.mem_append.mp hx with hx | hx
        · exact hb x hx e' (List.mem_cons_of_mem _ he')
        · rw [List.mem_singleton.mp hx]
          exact hl.1 e'.cp (List.mem_map.mpr ⟨e', he', rfl⟩)
      · intro x hx e' he'
        exact hb x hx e' (List.mem_cons_of_mem _ he')

theorem insert_unique_sorted (c : Nat) : ∀ (l : List Nat), l.Pairwise (fun x y => x < y) →
    (insert_unique c l).Pairwise (fun x y => x < y)
  | [], _ => List.pairwise_singleton _ _
  | x :: xs, h => by
    unfold insert_unique
    rw [List.pairwise_cons] at h
    split_ifs with h1 h2
    · rw [List.pairwise_cons]
      refine ⟨?_, List.pairwise_cons.mpr h⟩
      intro y hy
      rcases List.mem_cons.mp hy with e | hy
      · rw [e]; exact h1
      · exact Nat.lt_trans h1 (h.1 y hy)
    · exact List.pairwise_cons.mpr h
    · rw [List.pairwise_cons]
      refine ⟨?_, insert_unique_sorted c xs h.2⟩
      intro y hy
      rcases (mem_insert_unique c y xs).mp hy with e | hy
      · rw [e]; omega
      · exact h.1 y hy

theorem sort_unique_sorted : ∀ (l : List Nat), (sort_unique l).Pairwise (fun x y => x < y)
  | [] => List.Pairwise.nil
  | c :: l => insert_unique_sorted c _ (sort_unique_sorted l)

/-- The arcs emitted for a pending state, in strictly increasing label order, keep the
invariant. -/
theorem builder_sorted_emit (m : Nat) (a a' : automaton) (p : Nat) (pending : List Nat)
    (new_arcs : List arc) (h : builder_sorted m a (p :: pending))
    (hnew : label_sorted new_arcs)
    (hs : ∀ i : Nat, a'.states[i]? = (a.states[i]?).map (fun x =>
      if p = i then { x with arcs := x.arcs ++ new_arcs } else x)) :
    builder_sorted m a' pending := by
  obtain ⟨h1, h2, h3, h4⟩ := h
  rw [List.nodup_cons] at h4
  refine ⟨?_, ?_, ?_, h4.2⟩
  · intro i st hi
    rw [hs i] at hi
    cases hx : a.states[i]? with
    | none => simp [hx] at hi
    | some x =>
      simp only [hx, Option.map_some', Option.some.injEq] at hi
      by_cases hp : p = i
      · rw [if_pos hp] at hi
        obtain ⟨y, hy, harcs⟩ := h3 p (List.mem_cons_self _ _)
        rw [hp, hx] at hy
        rw [← Option.some.inj hy] at harcs
        rw [← hi]
        simp only [harcs, List.nil_append]
        exact hnew
      · rw [if_neg hp] at hi
        rw [← hi]
        exact h1 i x hx
  · intro i st w hi hw
    rw [hs i] at hi
    cases hx : a.states[i]? with
    | none => simp [hx] at hi
    | some x =>
      simp only [hx, Option.map_some', Option.some.injEq] at hi
      refine h2 i x w hx ?_
      rw [← hi] at hw
      split_ifs at hw <;> exact hw
  · intro s hmem
    obtain ⟨st, hst, harcs⟩ := h3 s (List.mem_cons_of_mem _ hmem)
    refine ⟨st, ?_, harcs⟩
    have hne : ¬ p = s := by
      intro e
      rw [e] at h4
      exact h4.1 hmem
    rw [hs s, hst]
    simp [hne]

theorem label_sorted_map (L : Nat → label) (arcs : List (Nat × Nat))
    (hL : ∀ x y, x < y → label.before (L x) (L y) = true)
    (h : (arcs.map (fun e => e.1)).Pairwise (fun x y => x < y)) :
    label_sorted (arcs.map (fun e => (⟨L e.1, e.2⟩ : arc))) := by
  unfold label_sorted
  rw [List.pairwise_map] at h ⊢
  exact h.imp (fun {x y} hxy => hL x.1 y.1 hxy)

theorem emit_arcs_sorted (m : Nat) (p : Nat) (pending : List Nat) (s : entry_state)
    (h : builder_sorted m s.a (p :: pending))
    (ha : (s.arcs.map (fun e => e.1)).Pairwise (fun x y => x < y)) :
    builder_sorted m (emit_arcs p s) pending := by
  unfold emit_arcs
  split_ifs with h1 h2
  · refine builder_sorted_emit m s.a _ p pending [⟨label.range 0 255, INVALID_STATE⟩] h
      (List.pairwise_singleton _ _) (fun i => EmplaceArc_getElem? s.a p _ _ i)
  · refine builder_sorted_emit m s.a _ p pending
      (s.arcs.map (fun e => ⟨label.range e.1 e.1, e.2⟩)) h
      (label_sorted_map (fun c => label.range c c) s.arcs
        (fun x y hxy => by simp [label.before, hxy]) ha)
      (foldl_EmplaceArc p (fun c => label.range c c) s.arcs s.a).2.2
  · unfold Utf8TransitionsBuilder.Insert
    have hcp := label_sorted_map label.cp s.arcs
      (fun x y hxy => by simp [label.before, hxy]) ha
    have hfold := (foldl_EmplaceArc p label.cp s.arcs s.a).2.2
    cases hd : s.default_state with
    | none =>
      simp only []
      exact builder_sorted_emit m s.a _ p pending _ h hcp hfold
    | some ds =>
      simp only []
      refine builder_sorted_emit m s.a _ p pending
        (s.arcs.map (fun e => ⟨label.cp e.1, e.2⟩) ++ [⟨label.rho, ds⟩]) h ?_ ?_
      · unfold label_sorted
        rw [List.pairwise_append]
        refine ⟨hcp, List.pairwise_singleton _ _, ?_⟩
        intro x hx y hy
        rw [List.mem_singleton.mp hy]
        obtain ⟨e, _, he⟩ := List.mem_map.mp hx
        rw [← he]
        rfl
      · intro i
        rw [EmplaceArc_getElem?, hfold i]
        cases s.a.states[i]? with
        | none => rfl
        | some x =>
          by_cases hp : p = i
          · simp [hp]
          · simp [hp]

theorem build_automaton_sorted (d : parametric_description) (chars : List Nat)
    (u mask : Nat) :
    ∀ (fuel : Nat) (a : automaton) (tr : List (Option Nat)) (stack : List builder_state)
      (a' : automaton),
      builder_sorted d.max_distance a (stack.map (fun b => b.src)) →
      build_automaton d (make_alphabet chars) u mask fuel a tr stack = some a' →
      builder_sorted d.max_distance a' [] := by
  intro fuel
  induction fuel with
  | zero =>
    intro a tr stack a' h hb
    cases stack with
    | nil =>
      simp only [build_automaton, Option.some.injEq] at hb
      rw [← hb]
      exact h
    | cons state stack => simp [build_automaton] at hb
  | succ fuel ih =>
    intro a tr stack a' h hb
    cases stack with
    | nil =>
      simp only [build_automaton, Option.some.injEq] at hb
      rw [← hb]
      exact h
    | cons state stack =>
      unfold build_automaton at hb
      simp only [] at hb
      refine ih _ _ _ a' ?_ hb
      have hstep : ∀ s0 : entry_state,
          builder_sorted d.max_distance s0.a (state.src :: s0.stack.map (fun b => b.src)) →
          s0.arcs = [] →
          builder_sorted d.max_distance
            (emit_arcs state.src
              ((make_alphabet chars).foldl (process_entry d u mask state) s0))
            (((make_alphabet chars).foldl (process_entry d u mask state) s0).stack.map
              (fun b => b.src)) := by
        intro s0 hs0 harcs
        unfold make_alphabet
        simp only []
        rw [List.foldl_cons]
        have hrho : chi_bitset (List.replicate ((chars.length + 64 + 63) / 64) 0)
            state.offset mask = 0 := chi_bitset_rho _ _ _
        have h1 : (process_entry d u mask state s0
            { chi := List.replicate ((chars.length + 64 + 63) / 64) 0, size := 0,
              cp := 2 ^ 32 - 1 }).arcs = [] := by
          unfold process_entry
          simp only [hrho]
          simp [harcs]
        have h2 : builder_sorted d.max_distance
            (process_entry d u mask state s0
              { chi := List.replicate ((chars.length + 64 + 63) / 64) 0, size := 0,
                cp := 2 ^ 32 - 1 }).a
            (state.src :: (process_entry d u mask state s0
              { chi := List.replicate ((chars.length + 64 + 63) / 64) 0, size := 0,
                cp := 2 ^ 32 - 1 }).stack.map (fun b => b.src)) := by
          have ht := entry_target_sorted d u state s0.a s0.transitions s0.stack
            (chi_bitset (List.replicate ((chars.length + 64 + 63) / 64) 0) state.offset mask)
            state.src hs0
          unfold process_entry
          simp only []
          split_ifs <;> exact ht
        have hcps : List.map (fun e : character => e.cp)
            (List.map
              (fun c => character.mk (make_bitset chars c ((chars.length + 64 + 63) / 64))
                (utf8_size c) c)
              (sort_unique chars)) = sort_unique chars := by
          rw [List.map_map]
          exact List.map_id _
        obtain ⟨k1, k2⟩ := process_fold_sorted d u mask state state.src
          (List.map
            (fun c => character.mk (make_bitset chars c ((chars.length + 64 + 63) / 64))
              (utf8_size c) c)
            (sort_unique chars))
          _ (by rw [hcps]; exact sort_unique_sorted chars)
          h2 (by rw [h1]; exact List.Pairwise.nil)
          (by rw [h1]; intro x hx; exact absurd hx (List.not_mem_nil x))
        exact emit_arcs_sorted _ _ _ _ k1 k2
      exact hstep _ h rfl

theorem add_prefix_sorted (m : Nat) : ∀ (pfx : List Nat) (a : automaton) (start : Nat),
    builder_sorted m a [start] →
    builder_sorted m ( add_prefix pfx a start).1 [( add_prefix pfx a start).2]
  | [], _, _, h => h
  | c :: cs, a, start, h => by
    unfold add_prefix
    simp only []
    refine add_prefix_sorted m cs _ _ ?_
    have hadd := builder_sorted_add m a a.AddState.1 [start] none h
      (fun w hw => absurd hw (by simp)) rfl
    have hperm := builder_sorted_perm m _ _ _ hadd (List.Perm.swap start a.states.length [])
    exact builder_sorted_emit m a.AddState.1 _ start [a.states.length]
      [⟨label.cp c, a.states.length⟩] hperm (List.pairwise_singleton _ _)
      (fun i => EmplaceArc_getElem? a.AddState.1 start _ _ i)

theorem SetFinal_sorted (m : Nat) (a : automaton) (s w : Nat) (pending : List Nat)
    (hw : w ≤ m) (h : builder_sorted m a pending) :
    builder_sorted m (a.SetFinal s w) pending := by
  obtain ⟨h1, h2, h3, h4⟩ := h
  refine ⟨?_, ?_, ?_, h4⟩
  · intro i st hi
    rw [SetFinal_getElem?] at hi
    cases hx : a.states[i]? with
    | none => simp [hx] at hi
    | some x =>
      simp only [hx, Option.map_some', Option.some.injEq] at hi
      rw [← hi]
      split_ifs <;> exact h1 i x hx
  · intro i st v hi hv
    rw [SetFinal_getElem?] at hi
    cases hx : a.states[i]? with
    | none => simp [hx] at hi
    | some x =>
      simp only [hx, Option.map_some', Option.some.injEq] at hi
      rw [← hi] at hv
      split_ifs at hv
      · simp only [Option.some.injEq] at hv
        omega
      · exact h2 i x v hx hv
  · intro p hp
    obtain ⟨st, hst, harcs⟩ := h3 p hp
    rw [SetFinal_getElem?, hst]
    by_cases e : s = p
    · exact ⟨{ st with final := some w }, by simp [e], harcs⟩
    · exact ⟨st, by simp [e], harcs⟩

/-- C17: every automaton that `make_levenshtein_automaton` returns, for any description,
prefix and target, is label-sorted and deterministic: the arcs of every state are in
strictly increasing label order, so that their labels are pairwise disjoint, at most one
arc of a state is taken on a code point and a state has at most one default arc; and
the only weights are those of the final states, which are distances of the description
of at most `max_distance`. -/
theorem automaton_label_sorted (fuel : Nat) (description : parametric_description)
    (pfx target : List Nat) (a : automaton)
    (h : make_levenshtein_automaton fuel description pfx target = some a) :
    ∀ st ∈ a.states,
      label_sorted st.arcs ∧
      (∀ c, ∀ x ∈ st.arcs, ∀ y ∈ st.arcs, x.ilabel.matches c = true →
        y.ilabel.matches c = true → x = y) ∧
      (∀ x ∈ st.arcs, ∀ y ∈ st.arcs, x.ilabel = label.rho → y.ilabel = label.rho → x = y) ∧
      ∀ w, st.final = some w → w ≤ description.max_distance := by
  unfold make_levenshtein_automaton at h
  simp only [] at h
  have h0 : builder_sorted description.max_distance
      (automaton.empty.AddState.1.AddState.1.SetStart automaton.empty.AddState.1.AddState.2)
      [automaton.empty.AddState.1.AddState.2] := by
    refine ⟨?_, ?_, ?_, List.nodup_singleton _⟩
    · intro i st hi
      have : st.arcs = [] := by
        simp only [automaton.SetStart, automaton.AddState, automaton.empty,
          List.nil_append] at hi
        rcases i with _ | _ | i <;> simp at hi <;> rw [← hi]
      rw [this]
      exact List.Pairwise.nil
    · intro i st w hi hw
      have : st.final = none := by
        simp only [automaton.SetStart, automaton.AddState, automaton.empty,
          List.nil_append] at hi
        rcases i with _ | _ | i <;> simp at hi <;> rw [← hi]
      rw [this] at hw
      exact absurd hw (by simp)
    · intro s hs
      rw [List.mem_singleton.mp hs]
      exact ⟨⟨none, []⟩, rfl, rfl⟩
  have h1 := add_prefix_sorted description.max_distance pfx _ _ h0
  have h2 : builder_sorted description.max_distance
      (if description.distance 1 target.length ≤ description.max_distance then
        ( add_prefix pfx
          (automaton.empty.AddState.1.AddState.1.SetStart
            automaton.empty.AddState.1.AddState.2)
          automaton.empty.AddState.1.AddState.2).1.SetFinal
          ( add_prefix pfx
            (automaton.empty.AddState.1.AddState.1.SetStart
              automaton.empty.AddState.1.AddState.2)
            automaton.empty.AddState.1.AddState.2).2
          (description.distance 1 target.length)
      else
        ( add_prefix pfx
          (automaton.empty.AddState.1.AddState.1.SetStart
            automaton.empty.AddState.1.AddState.2)
          automaton.empty.AddState.1.AddState.2).1)
      [( add_prefix pfx
          (automaton.empty.AddState.1.AddState.1.SetStart
            automaton.empty.AddState.1.AddState.2)
          automaton.empty.AddState.1.AddState.2).2] := by
    split_ifs with hfin
    · exact SetFinal_sorted _ _ _ _ _ hfin h1
    · exact h1
  obtain ⟨k1, k2, _, _⟩ := build_automaton_sorted description target target.length _ fuel _ _
    [⟨0, 1, _⟩] a h2 h
  intro st hst
  obtain ⟨i, hi⟩ := List.mem_iff_getElem?.mp hst
  have hsorted := k1 i st hi
  obtain ⟨d1, d2⟩ := label_sorted_deterministic st.arcs hsorted
  exact ⟨hsorted, d1, d2, fun w hw => k2 i st w hi hw⟩

theorem automaton_label_sorted_witness :
    make_levenshtein_automaton 10 description_1_false [98] [97] = some sample_automaton ∧
    ∀ st ∈ sample_automaton.states,
      label_sorted st.arcs ∧
      (∀ c, ∀ x ∈ st.arcs, ∀ y ∈ st.arcs, x.ilabel.matches c = true →
        y.ilabel.matches c = true → x = y) ∧
      (∀ x ∈ st.arcs, ∀ y ∈ st.arcs, x.ilabel = label.rho → y.ilabel = label.rho → x = y) ∧
      ∀ w, st.final = some w → w ≤ description_1_false.max_distance :=
  ⟨by decide,
    automaton_label_sorted 10 description_1_false [98] [97] sample_automaton (by decide)⟩

end irs

namespace irs

/-! ## Subsumption and the construction of parametric states -/

theorem subsumes_le (r q : position) (h : subsumes r q = true) :
    abs_diff r.offset q.offset + r.distance ≤ q.distance := by
  unfold subsumes at h
  split at h
  · simpa using h
  · have : abs_diff r.offset q.offset + r.distance < q.distance := by simpa using h
    omega

theorem subsumes_refl (p : position) : subsumes p p = true := by
  unfold subsumes abs_diff
  cases p.transpose <;> simp

theorem abs_diff_triangle (a b c : Nat) : abs_diff a c ≤ abs_diff a b + abs_diff b c := by
  unfold abs_diff
  split <;> split <;> split <;> omega

theorem subsumes_trans (p q r : position) (h1 : subsumes p q = true)
    (h2 : subsumes q r = true) : subsumes p r = true := by
  have ht := abs_diff_triangle p.offset q.offset r.offset
  unfold subsumes at h1 h2 ⊢
  cases hp : p.transpose <;> cases hq : q.transpose <;> cases hr : r.transpose <;>
    simp only [hp, hq, hr, Bool.or_false, Bool.or_true, Bool.not_true, Bool.not_false,
      Bool.false_eq_true, if_false, if_true, decide_eq_true_eq] at h1 h2 ⊢ <;> omega

theorem swap_remove_spec (v : List position) (i : Nat) (hi : i < v.length) :
    (∀ x ∈ swap_remove v i, x ∈ v) ∧
    (∀ y ∈ v, y ∈ swap_remove v i ∨ y = v[i]) := by
  unfold swap_remove
  cases hl : v.getLast? with
  | none =>
    have := List.getLast?_eq_none_iff.mp hl
    subst this
    simp at hi
  | some last =>
    obtain ⟨ys, hys⟩ := List.getLast?_eq_some_iff.mp hl
    subst hys
    simp only []
    by_cases h : i < ys.length
    · rw [List.set_append_left i last h, List.dropLast_concat]
      constructor
      · intro x hx
        rcases List.mem_or_eq_of_mem_set hx with h1 | h1
        · exact List.mem_append_left _ h1
        · rw [h1]; simp
      · intro y hy
        rcases List.mem_append.mp hy with h1 | h1
        · obtain ⟨n, hn, he⟩ := List.mem_iff_getElem.mp h1
          by_cases hni : n = i
          · right
            subst hni
            rw [List.getElem_append_left h]
            exact he.symm
          · left
            have hn' : n < (ys.set i last).length := by simpa using hn
            have := List.getElem_set_ne (l := ys) (a := last) (fun h => hni h.symm) hn'
            rw [← he, ← this]
            exact List.getElem_mem _
        · left
          rw [List.mem_singleton.mp h1]
          exact List.mem_set _ _ h _
    · have hi' : i = ys.length := by
        simp only [List.length_append, List.length_singleton] at hi
        omega
      subst hi'
      have e : (ys ++ [last]).set ys.length last = ys ++ [last] := by
        rw [List.set_append_right _ _ (Nat.le_refl _)]
        simp
      rw [e, List.dropLast_concat]
      constructor
      · intro x hx
        exact List.mem_append_left _ hx
      · intro y hy
        rcases List.mem_append.mp hy with h1 | h1
        · exact Or.inl h1
        · right
          rw [List.mem_singleton.mp h1]
          simp

theorem remove_subsumed_spec (new_pos : position) :
    ∀ (fuel : Nat) (v : List position) (i : Nat),
      (∀ x ∈ remove_subsumed new_pos fuel v i, x ∈ v) ∧
      (∀ y ∈ v, y ∈ remove_subsumed new_pos fuel v i ∨ subsumes new_pos y = true) := by
  intro fuel
  induction fuel with
  | zero =>
    intro v i
    exact ⟨fun x hx => hx, fun y hy => Or.inl hy⟩
  | succ fuel ih =>
    intro v i
    unfold remove_subsumed
    by_cases hi : i < v.length
    · rw [dif_pos hi]
      by_cases hs : subsumes new_pos (v.get ⟨i, hi⟩) = true
      · rw [if_pos hs]
        obtain ⟨h1, h2⟩ := swap_remove_spec v i hi
        obtain ⟨h3, h4⟩ := ih (swap_remove v i) i
        constructor
        · intro x hx
          exact h1 x (h3 x hx)
        · intro y hy
          rcases h2 y hy with h | h
          · exact h4 y h
          · right
            rw [h]
            exact hs
      · rw [if_neg hs]
        exact ih v (i + 1)
    · rw [dif_neg hi]
      exact ⟨fun x hx => hx, fun y hy => Or.inl hy⟩

/-- The method `emplace` keeps a state that represents the emplaced positions. -/
theorem emplace_represents (s s0 : parametric_state) (E : position → Prop)
    (h : represents s s0 E) (new_pos : position) :
    represents (s.emplace new_pos).1 s0 (fun q => E q ∨ q = new_pos) := by
  obtain ⟨h1, h2⟩ := h
  unfold parametric_state.emplace
  by_cases hany : s.any (fun pos => subsumes pos new_pos) = true
  · rw [if_pos hany]
    obtain ⟨p0, hp0, hs0⟩ := List.any_eq_true.mp hany
    constructor
    · intro x hx
      rcases h1 x hx with h | h
      · exact Or.inl h
      · exact Or.inr (Or.inl h)
    · intro q hq
      rcases hq with hq | hq | hq
      · exact h2 q (Or.inl hq)
      · exact h2 q (Or.inr hq)
      · rw [hq]
        exact ⟨p0, hp0, hs0⟩
  · rw [if_neg hany]
    obtain ⟨h3, h4⟩ := remove_subsumed_spec new_pos s.length s 0
    constructor
    · intro x hx
      rcases List.mem_append.mp hx with h | h
      · rcases h1 x (h3 x h) with h' | h'
        · exact Or.inl h'
        · exact Or.inr (Or.inl h')
      · exact Or.inr (Or.inr (List.mem_singleton.mp h))
    · intro q hq
      have hnew : new_pos ∈ remove_subsumed new_pos s.length s 0 ++ [new_pos] :=
        List.mem_append_right _ (List.mem_singleton.mpr rfl)
      have hold : (∃ p ∈ s, subsumes p q = true) →
          ∃ p ∈ remove_subsumed new_pos s.length s 0 ++ [new_pos], subsumes p q = true := by
        rintro ⟨p, hp, hs⟩
        rcases h4 p hp with h | h
        · exact ⟨p, List.mem_append_left _ h, hs⟩
        · exact ⟨new_pos, hnew, subsumes_trans _ _ _ h hs⟩
      rcases hq with hq | hq | hq
      · exact hold (h2 q (Or.inl hq))
      · exact hold (h2 q (Or.inr hq))
      · rw [hq]
        exact ⟨new_pos, hnew, subsumes_refl _⟩

theorem represents_congr (s s0 : parametric_state) (E E' : position → Prop)
    (h : represents s s0 E) (he : ∀ q, E q ↔ E' q) : represents s s0 E' := by
  obtain ⟨h1, h2⟩ := h
  constructor
  · intro x hx
    rcases h1 x hx with h | h
    · exact Or.inl h
    · exact Or.inr ((he x).mp h)
  · intro q hq
    rcases hq with hq | hq
    · exact h2 q (Or.inl hq)
    · exact h2 q (Or.inr ((he q).mpr hq))

end irs

namespace irs

theorem emplace_if_represents (s s0 : parametric_state) (E : position → Prop)
    (h : represents s s0 E) (c : Prop) [Decidable c] (p : position) :
    represents (if c then (s.emplace p).1 else s) s0 (fun q => E q ∨ (c ∧ q = p)) := by
  by_cases hc : c
  · rw [if_pos hc]
    exact represents_congr _ _ _ _ (emplace_represents s s0 E h p) (fun q => by simp [hc])
  · rw [if_neg hc]
    exact represents_congr _ _ _ _ h (fun q => by simp [hc])

theorem add_deletions_represents (pos : position) (chi : Nat) (s0 : parametric_state) :
    ∀ (js : List Nat) (s : parametric_state) (E : position → Prop), represents s s0 E →
      represents (add_deletions pos chi js s) s0
        (fun q => E q ∨ ∃ j ∈ js, chi.testBit j = true ∧
          q = ⟨pos.offset + 1 + j, pos.distance + j, false⟩) := by
  intro js
  induction js with
  | nil =>
    intro s E h
    exact represents_congr _ _ _ _ h (fun q => by simp)
  | cons j js ih =>
    intro s E h
    have h1 := emplace_if_represents s s0 E h (chi.testBit j = true)
      ⟨pos.offset + 1 + j, pos.distance + j, false⟩
    have h2 := ih _ _ h1
    refine represents_congr _ _ _ _ h2 ?_
    intro q
    simp only [List.mem_cons, exists_eq_or_imp]
    tauto

/-- The first block of `add_elementary_transitions` (lines 235-242). -/
theorem situation1_represents (state s0 : parametric_state) (E : position → Prop)
    (pos : position) (chi : Nat) (h : represents state s0 E) :
    represents
      (if chi.testBit 0 = true then
        (if pos.transpose = true then
          ((state.emplace ⟨pos.offset + 1, pos.distance, false⟩).1.emplace
            ⟨pos.offset + 2, pos.distance, false⟩).1
        else (state.emplace ⟨pos.offset + 1, pos.distance, false⟩).1)
      else state) s0
      (fun q => E q ∨ (chi.testBit 0 = true ∧ q = ⟨pos.offset + 1, pos.distance, false⟩) ∨
        (chi.testBit 0 = true ∧ pos.transpose = true ∧
          q = ⟨pos.offset + 2, pos.distance, false⟩)) := by
  by_cases h0 : chi.testBit 0 = true
  · rw [if_pos h0]
    have h1 := emplace_represents state s0 E h ⟨pos.offset + 1, pos.distance, false⟩
    have h2 := emplace_if_represents _ s0 _ h1 (pos.transpose = true)
      ⟨pos.offset + 2, pos.distance, false⟩
    refine represents_congr _ _ _ _ h2 ?_
    intro q
    simp only [h0, true_and]
    tauto
  · rw [if_neg h0]
    refine represents_congr _ _ _ _ h ?_
    intro q
    simp [h0]

/-- The second block of `add_elementary_transitions` (lines 244-261). -/
theorem situation2_represents (s1 s0 : parametric_state) (E : position → Prop)
    (pos : position) (chi n : Nat) (t : Bool) (h : represents s1 s0 E) :
    represents
      (if pos.distance < n then
        (if (t && chi.testBit 1) = true then
          ((add_deletions pos chi (List.range' 1 (n - pos.distance))
            ((s1.emplace ⟨pos.offset, pos.distance + 1, false⟩).1.emplace
              ⟨pos.offset + 1, pos.distance + 1, false⟩).1).emplace
            ⟨pos.offset, pos.distance + 1, true⟩).1
        else
          add_deletions pos chi (List.range' 1 (n - pos.distance))
            ((s1.emplace ⟨pos.offset, pos.distance + 1, false⟩).1.emplace
              ⟨pos.offset + 1, pos.distance + 1, false⟩).1)
      else s1) s0
      (fun q => E q ∨
        (pos.distance < n ∧ q = ⟨pos.offset, pos.distance + 1, false⟩) ∨
        (pos.distance < n ∧ q = ⟨pos.offset + 1, pos.distance + 1, false⟩) ∨
        (pos.distance < n ∧ ∃ j, 1 ≤ j ∧ j ≤ n - pos.distance ∧ chi.testBit j = true ∧
          q = ⟨pos.offset + 1 + j, pos.distance + j, false⟩) ∨
        (pos.distance < n ∧ t = true ∧ chi.testBit 1 = true ∧
          q = ⟨pos.offset, pos.distance + 1, true⟩)) := by
  by_cases hlt : pos.distance < n
  · rw [if_pos hlt]
    have h1 := emplace_represents s1 s0 E h ⟨pos.offset, pos.distance + 1, false⟩
    have h2 := emplace_represents _ s0 _ h1 ⟨pos.offset + 1, pos.distance + 1, false⟩
    have h3 := add_deletions_represents pos chi s0 (List.range' 1 (n - pos.distance)) _ _ h2
    have h4 := emplace_if_represents _ s0 _ h3 ((t && chi.testBit 1) = true)
      ⟨pos.offset, pos.distance + 1, true⟩
    refine represents_congr _ _ _ _ h4 ?_
    intro q
    have hj : (∃ j ∈ List.range' 1 (n - pos.distance), chi.testBit j = true ∧
          q = ⟨pos.offset + 1 + j, pos.distance + j, false⟩) ↔
        (∃ j, 1 ≤ j ∧ j ≤ n - pos.distance ∧ chi.testBit j = true ∧
          q = ⟨pos.offset + 1 + j, pos.distance + j, false⟩) := by
      constructor
      · rintro ⟨j, hj, h5, h6⟩
        have := List.mem_range'_1.mp hj
        exact ⟨j, this.1, by omega, h5, h6⟩
      · rintro ⟨j, h5, h6, h7, h8⟩
        exact ⟨j, List.mem_range'_1.mpr ⟨h5, by omega⟩, h7, h8⟩
    simp only [hlt, true_and, Bool.and_eq_true]
    constructor
    · rintro ((((hE | hins) | hsub) | hdel) | ⟨⟨h5, h6⟩, h7⟩)
      · exact Or.inl hE
      · exact Or.inr (Or.inl hins)
      · exact Or.inr (Or.inr (Or.inl hsub))
      · exact Or.inr (Or.inr (Or.inr (Or.inl (hj.mp hdel))))
      · exact Or.inr (Or.inr (Or.inr (Or.inr ⟨h5, h6, h7⟩)))
    · rintro (hE | hins | hsub | hdel | ⟨h5, h6, h7⟩)
      · exact Or.inl (Or.inl (Or.inl (Or.inl hE)))
      · exact Or.inl (Or.inl (Or.inl (Or.inr hins)))
      · exact Or.inl (Or.inl (Or.inr hsub))
      · exact Or.inl (Or.inr (hj.mpr hdel))
      · exact Or.inr ⟨⟨h5, h6⟩, h7⟩
  · rw [if_neg hlt]
    refine represents_congr _ _ _ _ h ?_
    intro q
    simp only [hlt, false_and, or_false]

theorem add_elementary_represents (state s0 : parametric_state) (E : position → Prop)
    (pos : position) (chi n : Nat) (t : Bool) (h : represents state s0 E) :
    represents (add_elementary_transitions state pos chi n t) s0
      (fun q => E q ∨ emits pos chi n t q) := by
  have h1 := situation1_represents state s0 E pos chi h
  have h2 := situation2_represents _ s0 _ pos chi n t h1
  refine represents_congr _ _ _ _ h2 ?_
  intro q
  unfold emits
  constructor
  · rintro ((hE | hmatch | hcompl) | hins | hsub | hdel | htrans)
    · exact Or.inl hE
    · exact Or.inr (Or.inl hmatch)
    · exact Or.inr (Or.inr (Or.inl hcompl))
    · exact Or.inr (Or.inr (Or.inr (Or.inl hins)))
    · exact Or.inr (Or.inr (Or.inr (Or.inr (Or.inl hsub))))
    · exact Or.inr (Or.inr (Or.inr (Or.inr (Or.inr (Or.inl hdel)))))
    · exact Or.inr (Or.inr (Or.inr (Or.inr (Or.inr (Or.inr htrans)))))
  · rintro (hE | hmatch | hcompl | hins | hsub | hdel | htrans)
    · exact Or.inl (Or.inl hE)
    · exact Or.inl (Or.inr (Or.inl hmatch))
    · exact Or.inl (Or.inr (Or.inr hcompl))
    · exact Or.inr (Or.inl hins)
    · exact Or.inr (Or.inr (Or.inl hsub))
    · exact Or.inr (Or.inr (Or.inr (Or.inl hdel)))
    · exact Or.inr (Or.inr (Or.inr (Or.inr htrans)))

theorem fold_elementary_represents (cv n : Nat) (t : Bool) :
    ∀ (src s : parametric_state) (E : position → Prop), represents s [] E →
      represents
        (src.foldl (fun dst pos =>
          add_elementary_transitions dst pos (cv >>> pos.offset) n t) s) []
        (fun q => E q ∨ ∃ pos ∈ src, emits pos (cv >>> pos.offset) n t q) := by
  intro src
  induction src with
  | nil =>
    intro s E h
    exact represents_congr _ _ _ _ h (fun q => by simp)
  | cons pos src ih =>
    intro s E h
    have h1 := add_elementary_represents s [] E pos (cv >>> pos.offset) n t h
    have h2 := ih _ _ h1
    refine represents_congr _ _ _ _ h2 ?_
    intro q
    simp only [List.mem_cons, exists_eq_or_imp]
    tauto

theorem mem_sort_insert (p x : position) (l : List position) :
    x ∈ sort_insert p l ↔ x = p ∨ x ∈ l := by
  induction l with
  | nil => simp [sort_insert]
  | cons q qs ih =>
    unfold sort_insert
    split
    · simp
    · simp only [List.mem_cons, ih]
      tauto

theorem mem_sort_positions (x : position) (l : List position) :
    x ∈ sort_positions l ↔ x ∈ l := by
  induction l with
  | nil => simp [sort_positions]
  | cons p ps ih =>
    have e : sort_positions (p :: ps) = sort_insert p (sort_positions ps) := rfl
    rw [e, mem_sort_insert, ih]
    simp

/-- The positions of `add_transition`: each is emplaced for a position of the source
state, and every position emplaced for one is subsumed by one of them. -/
theorem add_transition_spec (src : parametric_state) (cv n : Nat) (t : Bool) :
    (∀ x ∈ add_transition src cv n t,
      ∃ pos ∈ src, emits pos (cv >>> pos.offset) n t x) ∧
    (∀ pos ∈ src, ∀ q, emits pos (cv >>> pos.offset) n t q →
      ∃ p ∈ add_transition src cv n t, subsumes p q = true) := by
  have h0 : represents [] [] (fun _ => False) := by
    constructor
    · intro x hx
      exact absurd hx (List.not_mem_nil _)
    · intro q hq
      rcases hq with ⟨p, hp, _⟩ | hq
      · exact absurd hp (List.not_mem_nil _)
      · exact absurd hq id
  obtain ⟨h1, h2⟩ := fold_elementary_represents cv n t src [] _ h0
  unfold add_transition
  constructor
  · intro x hx
    rcases h1 x ((mem_sort_positions _ _).mp hx) with h | h | h
    · exact absurd h (List.not_mem_nil _)
    · exact absurd h id
    · exact h
  · intro pos hpos q hq
    obtain ⟨p, hp, hs⟩ := h2 q (Or.inr (Or.inr ⟨pos, hpos, hq⟩))
    exact ⟨p, (mem_sort_positions _ _).mpr hp, hs⟩

end irs

namespace irs

/-! ## C22: `normalize` -/

theorem key_le_of_not_lt (a b : position) (h : position.lt a b = false) :
    position.key_le b a := by
  unfold position.lt at h
  unfold position.key_le
  cases ha : a.transpose <;> cases hb : b.transpose <;>
    simp only [ha, hb] at h ⊢ <;> split_ifs at h <;> simp at h ⊢ <;> omega

theorem key_le_of_lt (a b : position) (h : position.lt a b = true) : position.key_le a b := by
  unfold position.lt at h
  unfold position.key_le
  cases ha : a.transpose <;> cases hb : b.transpose <;>
    simp only [ha, hb] at h ⊢ <;> split_ifs at h <;> simp at h ⊢ <;> omega

theorem key_le_trans (a b c : position) (h1 : position.key_le a b)
    (h2 : position.key_le b c) : position.key_le a c := by
  unfold position.key_le at h1 h2 ⊢
  cases ha : a.transpose <;> cases hb : b.transpose <;> cases hc : c.transpose <;>
    simp only [ha, hb, hc] at h1 h2 ⊢ <;> simp at h1 h2 ⊢ <;> omega

theorem sort_insert_sorted (p : position) : ∀ (l : List position),
    l.Pairwise position.key_le → (sort_insert p l).Pairwise position.key_le
  | [], _ => List.pairwise_singleton _ _
  | q :: qs, h => by
    unfold sort_insert
    rw [List.pairwise_cons] at h
    by_cases hlt : position.lt p q = true
    · rw [if_pos hlt, List.pairwise_cons]
      refine ⟨?_, List.pairwise_cons.mpr h⟩
      intro x hx
      rcases List.mem_cons.mp hx with e | hx
      · rw [e]
        exact key_le_of_lt p q hlt
      · exact key_le_trans p q x (key_le_of_lt p q hlt) (h.1 x hx)
    · rw [if_neg hlt, List.pairwise_cons]
      refine ⟨?_, sort_insert_sorted p qs h.2⟩
      intro x hx
      rcases List.mem_cons.mp ((sort_insert_perm p qs).subset hx) with e | hx
      · rw [e]
        exact key_le_of_not_lt p q (by simpa using hlt)
      · exact h.1 x hx

theorem sort_positions_sorted : ∀ (l : List position),
    (sort_positions l).Pairwise position.key_le
  | [] => List.Pairwise.nil
  | p :: l => sort_insert_sorted p _ (sort_positions_sorted l)

/-- C22: `normalize(state)` returns the minimum `m` of the offsets of the positions of the
state, 0 for the empty state; the new positions are exactly the old ones with `m`
subtracted from the offset, in ascending order by offset, distance and transposition
flag, and a non-empty state has a position of offset 0. -/
theorem normalize_spec (state : parametric_state) :
    (state = [] → (normalize state).1 = 0) ∧
    (∀ p ∈ state, (normalize state).1 ≤ p.offset) ∧
    (state ≠ [] → ∃ p ∈ state, p.offset = (normalize state).1) ∧
    (normalize state).2.Perm
      (state.map (fun p => { p with offset := p.offset - (normalize state).1 })) ∧
    (normalize state).2.Pairwise position.key_le ∧
    (state ≠ [] → ∃ p ∈ (normalize state).2, p.offset = 0) := by
  obtain ⟨hmin, hex⟩ := min_offset_spec state
  have hperm := sort_positions_perm
    (state.map (fun pos => { pos with offset := pos.offset - min_offset state }))
  refine ⟨?_, hmin, hex, hperm, sort_positions_sorted _, ?_⟩
  · intro h
    rw [h]
    rfl
  · intro hne
    obtain ⟨p0, hp0, e0⟩ := hex hne
    refine ⟨{ p0 with offset := p0.offset - min_offset state },
      hperm.symm.subset (List.mem_map.mpr ⟨p0, hp0, rfl⟩), ?_⟩
    simp only
    omega

theorem normalize_spec_witness :
    normalize [⟨3, 1, false⟩, ⟨2, 2, true⟩, ⟨2, 2, false⟩] =
      (2, [⟨0, 2, false⟩, ⟨0, 2, true⟩, ⟨1, 1, false⟩]) ∧
    ∃ p ∈ (normalize [⟨3, 1, false⟩, ⟨2, 2, true⟩, ⟨2, 2, false⟩]).2, p.offset = 0 :=
  ⟨by decide,
    (normalize_spec [⟨3, 1, false⟩, ⟨2, 2, true⟩, ⟨2, 2, false⟩]).2.2.2.2.2 (by simp)⟩

end irs

namespace irs

/-! ## The states and the rows that `make_parametric_description` builds -/

theorem find_some_spec (state : parametric_state) :
    ∀ (ss : List parametric_state) (i id : Nat),
      parametric_states.find state ss i = some id →
      ∃ j, id = i + j ∧ ss[j]? = some state
  | [], _, _, h => by simp [parametric_states.find] at h
  | s :: ss, i, id, h => by
    unfold parametric_states.find at h
    by_cases he : parametric_state.eq s state = true
    · rw [if_pos he] at h
      refine ⟨0, by simp at h; omega, ?_⟩
      rw [parametric_state_eq_sound s state he]
      simp
    · rw [if_neg he] at h
      obtain ⟨j, hj, hs⟩ := find_some_spec state ss (i + 1) id h
      exact ⟨j + 1, by omega, by simpa using hs⟩

/-- The container keeps the states it has and holds the emplaced state at the returned
id. -/
theorem states_emplace_spec (states : parametric_states) (dst : parametric_state) :
    (∃ extra, (states.emplace dst).1 = states ++ extra) ∧
    (states.emplace dst).1[(states.emplace dst).2]? = some dst := by
  unfold parametric_states.emplace
  cases hf : parametric_states.find dst states 0 with
  | some id =>
    obtain ⟨j, hj, hs⟩ := find_some_spec dst states 0 id hf
    refine ⟨⟨[], by simp⟩, ?_⟩
    simp only
    rw [hj, Nat.zero_add]
    exact hs
  | none =>
    refine ⟨⟨[dst], rfl⟩, ?_⟩
    simp

theorem getElem?_append_some {α : Type} (l extra : List α) (i : Nat) (x : α)
    (h : l[i]? = some x) : (l ++ extra)[i]? = some x := by
  have hlt : i < l.length := by
    by_contra hge
    rw [List.getElem?_eq_none (by omega)] at h
    exact absurd h (by simp)
  rw [List.getElem?_append_left hlt]
  exact h

theorem getD_append_of_lt {α : Type} (l extra : List α) (i : Nat) (d : α)
    (h : i < l.length) : (l ++ extra).getD i d = l.getD i d := by
  rw [List.getD_eq_getElem?_getD, List.getD_eq_getElem?_getD, List.getElem?_append_left h]

/-- The row that `build_row` writes for the state `src`. -/
theorem build_row_spec (n : Nat) (t : Bool) (src : parametric_state) :
    ∀ (chis : List Nat) (states : parametric_states) (row : List (Nat × Nat)),
      (∃ extra, (build_row src n t chis states row).1 = states ++ extra) ∧
      ∃ E, (build_row src n t chis states row).2 = row.reverse ++ E ∧
        E.length = chis.length ∧
        ∀ i, i < chis.length → ∃ id,
          E[i]? = some (id, (normalize (add_transition src (chis.getD i 0) n t)).1) ∧
          (build_row src n t chis states row).1[id]? =
            some (normalize (add_transition src (chis.getD i 0) n t)).2
  | [], states, row => by
    unfold build_row
    exact ⟨⟨[], by simp⟩, [], by simp, rfl, fun i hi => absurd hi (Nat.not_lt_zero _)⟩
  | chi :: chis, states, row => by
    unfold build_row
    simp only []
    obtain ⟨⟨extra0, he0⟩, hid0⟩ := states_emplace_spec states
      (normalize (add_transition src chi n t)).2
    obtain ⟨⟨extra, he⟩, E, hE, hlen, hent⟩ := build_row_spec n t src chis
      (states.emplace (normalize (add_transition src chi n t)).2).1
      (((states.emplace (normalize (add_transition src chi n t)).2).2,
        (normalize (add_transition src chi n t)).1) :: row)
    refine ⟨⟨extra0 ++ extra, by rw [he, he0, List.append_assoc]⟩,
      ((states.emplace (normalize (add_transition src chi n t)).2).2,
        (normalize (add_transition src chi n t)).1) :: E, ?_, ?_, ?_⟩
    · rw [hE]
      simp
    · simp [hlen]
    · intro i hi
      cases i with
      | zero =>
        refine ⟨(states.emplace (normalize (add_transition src chi n t)).2).2, by simp, ?_⟩
        rw [he]
        simp only [List.getD_cons_zero]
        exact getElem?_append_some _ _ _ _ hid0
      | succ i =>
        obtain ⟨id, h1, h2⟩ := hent i (by simp only [List.length_cons] at hi; omega)
        exact ⟨id, by simpa using h1, by simpa using h2⟩

theorem rows_ok_extend (n : Nat) (t : Bool) (states extra : parametric_states)
    (transitions E : List (Nat × Nat)) (rows : Nat)
    (h : rows_ok n t states transitions rows) :
    ∀ k chi, k < rows → chi < chi_max (chi_size n) →
      ∃ id, (transitions ++ E)[k * chi_max (chi_size n) + chi]? =
          some (id, (normalize (add_transition ((states ++ extra).getD k []) chi n t)).1) ∧
        (states ++ extra)[id]? =
          some (normalize (add_transition ((states ++ extra).getD k []) chi n t)).2 := by
  obtain ⟨h1, h2, h3⟩ := h
  intro k chi hk hchi
  obtain ⟨id, e1, e2⟩ := h3 k chi hk hchi
  rw [getD_append_of_lt states extra k [] (by omega)]
  exact ⟨id, getElem?_append_some _ _ _ _ e1, getElem?_append_some _ _ _ _ e2⟩

/-- The state loop of `make_parametric_description` keeps the invariant of the states and
writes their rows. -/
theorem build_states_spec (n : Nat) (t : Bool) (cap : Nat) :
    ∀ (fuel : Nat) (states : parametric_states) (transitions : List (Nat × Nat))
      (from_id : Nat) (S : parametric_states) (T : List (Nat × Nat)),
      rows_ok n t states transitions from_id → states_inv n states →
      (∃ extra, states = [[], [⟨0, 0, false⟩]] ++ extra) →
      build_states n t cap fuel states transitions from_id = some (S, T) →
      (∃ R, rows_ok n t S T R) ∧ states_inv n S ∧
        ∃ extra, S = [[], [⟨0, 0, false⟩]] ++ extra := by
  intro fuel
  induction fuel with
  | zero =>
    intro states transitions from_id S T _ _ _ h
    simp [build_states] at h
  | succ fuel ih =>
    intro states transitions from_id S T hrows hinv hpre h
    unfold build_states at h
    by_cases hend : from_id = states.length
    · rw [if_pos hend] at h
      simp only [Option.some.injEq, Prod.mk.injEq] at h
      rw [← h.1, ← h.2]
      exact ⟨⟨from_id, hrows⟩, hinv, hpre⟩
    · rw [if_neg hend] at h
      have hlt : from_id < states.length := by
        have := hrows.2.1
        omega
      have hmem : states.getD from_id [] ∈ states := by
        rw [List.getD_eq_getElem _ _ hlt]
        exact List.getElem_mem hlt
      obtain ⟨_, ⟨base, hbase⟩, _⟩ := hinv.2.1 _ hmem
      obtain ⟨r1, _⟩ := build_row_inv n t (states.getD from_id []) base hbase
        (List.range (chi_max (chi_size n))) states [] hinv
      obtain ⟨⟨extra, he⟩, E, hE, hlen, hent⟩ := build_row_spec n t (states.getD from_id [])
        (List.range (chi_max (chi_size n))) states []
      simp only [List.reverse_nil, List.nil_append, List.length_range] at hE hlen
      have hrows' : rows_ok n t
          (build_row (states.getD from_id []) n t (List.range (chi_max (chi_size n)))
            states []).1
          (transitions ++ (build_row (states.getD from_id []) n t
            (List.range (chi_max (chi_size n))) states []).2) (from_id + 1) := by
        refine ⟨?_, ?_, ?_⟩
        · rw [List.length_append, hE, hlen, hrows.1, Nat.add_mul, Nat.one_mul]
        · rw [he, List.length_append]
          omega
        · intro k chi hk hchi
          by_cases hk' : k < from_id
          · rw [he, hE]
            exact rows_ok_extend n t states extra transitions E from_id hrows k chi hk' hchi
          · have hkeq : k = from_id := by omega
            obtain ⟨id, e1, e2⟩ := hent chi (by rw [List.length_range]; exact hchi)
            have hc : (List.range (chi_max (chi_size n))).getD chi 0 = chi := by
              rw [List.getD_eq_getElem _ _ (by rw [List.length_range]; exact hchi)]
              exact List.getElem_range _ _
            rw [hc] at e1 e2
            have hsrc : (build_row (states.getD from_id []) n t
                (List.range (chi_max (chi_size n))) states []).1.getD k [] =
                states.getD from_id [] := by
              rw [he, hkeq]
              exact getD_append_of_lt states extra from_id [] hlt
            rw [hsrc]
            refine ⟨id, ?_, e2⟩
            rw [hE, List.getElem?_append_right (by rw [hrows.1, hkeq]; omega)]
            have hidx : k * chi_max (chi_size n) + chi - transitions.length = chi := by
              rw [hrows.1, hkeq]
              omega
            rw [hidx]
            exact e1
      have hpre' : ∃ extra', (build_row (states.getD from_id []) n t
          (List.range (chi_max (chi_size n))) states []).1 =
          [[], [⟨0, 0, false⟩]] ++ extra' := by
        obtain ⟨extra0, h0⟩ := hpre
        exact ⟨extra0 ++ extra, by rw [he, h0, List.append_assoc]⟩
      simp only [] at h
      split_ifs at h with hexit
      · simp only [Option.some.injEq, Prod.mk.injEq] at h
        rw [← h.1, ← h.2]
        exact ⟨⟨from_id + 1, hrows'⟩, r1, hpre'⟩
      · exact ih _ _ (from_id + 1) S T hrows' r1 hpre' h

/-- What `make_parametric_description` has built when it leaves its state loop: the states
satisfy their invariant, the first two are the empty and the initial state, and the
table holds the rows of the first `num_states` states, at least two. -/
theorem parametric_description_states_spec (fuel n : Nat) (t : Bool) (S : parametric_states)
    (T : List (Nat × Nat)) (h : parametric_description_states fuel n t = some (S, T)) :
    states_inv n S ∧ (∃ extra, S = [[], [⟨0, 0, false⟩]] ++ extra) ∧
    rows_ok n t S T (T.length / chi_max (chi_size n)) ∧
    2 ≤ T.length / chi_max (chi_size n) := by
  unfold parametric_description_states at h
  obtain ⟨⟨R, hR⟩, hinv, hpre⟩ := build_states_spec n t _ fuel _ _ 0 S T
    ⟨by simp, by simp, fun k chi hk _ => absurd hk (Nat.not_lt_zero _)⟩
    (initial_states_inv n) ⟨[], rfl⟩ h
  have hT := build_states_length n t _ (capacity_cases n t) fuel _ _ 0 S T (by decide)
    (by simp) h
  have hdiv : T.length / chi_max (chi_size n) = R := by
    rw [hR.1]
    exact Nat.mul_div_cancel _ (chi_max_positive n)
  rw [hdiv]
  refine ⟨hinv, hpre, hR, ?_⟩
  rw [← hdiv]
  exact (Nat.le_div_iff_mul_le (chi_max_positive n)).mpr hT

theorem make_parametric_description_eq (fuel n : Nat) (t : Bool) (hn : n ≤ MAX_DISTANCE) :
    make_parametric_description fuel n t =
      match parametric_description_states fuel n t with
      | none => none
      | some (S, T) => some (parametric_description.mk' T (distance_table S n) n) := by
  unfold make_parametric_description parametric_description_states
  rw [if_neg (by omega)]

/-- The state loop returns for every `max_distance`. -/
theorem parametric_description_states_returns (n : Nat) (t : Bool) :
    ∃ fuel S T, parametric_description_states fuel n t = some (S, T) := by
  obtain ⟨S, T, hb, _⟩ := build_states_returns n t _ (capacity_cases n t)
    (Fintype.card { l : List (Fin (2 * n + 1) × Fin (n + 1) × Bool) // l.Nodup } + 1)
    [[], [⟨0, 0, false⟩]] [] 0 (initial_states_inv n) (by simp) (Nat.zero_le _)
    (Nat.le_refl _)
  exact ⟨_, S, T, hb⟩

end irs

namespace irs

/-! ## C30, C21, C23, C24: the tables of a built description -/

/-- C30: every parametric state that `make_parametric_description` stores has only
positions with a distance of at most `max_distance` and an offset of at most
`2 * max_distance`; for a supported `max_distance` the offsets are below 64, as
`add_transition` asserts, and the distances that `add_transition` computes from a stored
state stay at most `max_distance`, far below 2^8. -/
theorem stored_states_bounded (fuel n : Nat) (t : Bool) (S : parametric_states)
    (T : List (Nat × Nat)) (h : parametric_description_states fuel n t = some (S, T)) :
    ∀ s ∈ S,
      (∀ p ∈ s, p.distance ≤ n ∧ p.offset ≤ 2 * n ∧
        (n ≤ MAX_DISTANCE → p.offset < 64 ∧ p.distance < 2 ^ 8)) ∧
      ∀ chi, ∀ q ∈ add_transition s chi n t,
        q.distance ≤ n ∧ q.offset ≤ 2 * n + 1 ∧ (n ≤ MAX_DISTANCE → q.distance < 2 ^ 8) := by
  obtain ⟨hinv, _, _, _⟩ := parametric_description_states_spec fuel n t S T h
  intro s hs
  have hst := hinv.2.1 s hs
  obtain ⟨_, hb⟩ := bounded_of_state_inv n s hst
  obtain ⟨_, ⟨base, hbase⟩, hz⟩ := hst
  constructor
  · intro p hp
    obtain ⟨h1, h2⟩ := hb p hp
    refine ⟨h2, h1, fun hn => ?_⟩
    unfold MAX_DISTANCE at hn
    exact ⟨by omega, by omega⟩
  · intro chi q hq
    have hne : s ≠ [] := by
      intro he
      rw [he] at hq
      simp [add_transition, sort_positions] at hq
    obtain ⟨p0, hp0, e0⟩ := hz hne
    obtain ⟨a1, a2, a3, _⟩ := hbase p0 hp0
    obtain ⟨b1, b2, b3, _⟩ := (add_transition_keeps n base t chi s hbase).2 q hq
    refine ⟨b1, by omega, fun hn => ?_⟩
    unfold MAX_DISTANCE at hn
    omega

theorem stored_states_bounded_witness :
    parametric_description_states 2 0 false =
      some ([[], [⟨0, 0, false⟩]], [(0, 0), (0, 0), (0, 0), (1, 1)]) ∧
    ∀ s ∈ [[], [(⟨0, 0, false⟩ : position)]],
      (∀ p ∈ s, p.distance ≤ 0 ∧ p.offset ≤ 2 * 0 ∧
        (0 ≤ MAX_DISTANCE → p.offset < 64 ∧ p.distance < 2 ^ 8)) ∧
      ∀ chi, ∀ q ∈ add_transition s chi 0 false,
        q.distance ≤ 0 ∧ q.offset ≤ 2 * 0 + 1 ∧ (0 ≤ MAX_DISTANCE → q.distance < 2 ^ 8) :=
  ⟨by decide, stored_states_bounded 2 0 false [[], [⟨0, 0, false⟩]] [(0, 0), (0, 0), (0, 0), (1, 1)] (by decide)⟩

theorem foldr_min_min (xs : List Nat) (a b : Nat) :
    xs.foldr min (min a b) = min a (xs.foldr min b) := by
  induction xs with
  | nil => rfl
  | cons x xs ih =>
    simp only [List.foldr_cons, ih]
    omega

theorem foldr_min_le (xs : List Nat) (b : Nat) : xs.foldr min b ≤ b := by
  induction xs with
  | nil => exact Nat.le_refl _
  | cons x xs ih =>
    simp only [List.foldr_cons]
    omega

/-- The helper `abs_diff` returns the absolute value of the difference over the
integers. -/
theorem abs_diff_eq_natAbs (a b : Nat) : abs_diff a b = ((a : Int) - (b : Int)).natAbs := by
  unfold abs_diff
  split_ifs with h <;> omega

/-- The loop of `distance` computes a minimum. -/
theorem distance_eq_rule (n o : Nat) : ∀ (state : parametric_state) (init : Nat),
    state.foldl
      (fun min_dist pos =>
        let dist := pos.distance + abs_diff o pos.offset
        if dist < min_dist then dist else min_dist) init =
    (state.map (fun p => p.distance + abs_diff o p.offset)).foldr min init
  | [], _ => rfl
  | p :: state, init => by
    rw [List.foldl_cons, distance_eq_rule n o state, List.map_cons, List.foldr_cons]
    have e : (if p.distance + abs_diff o p.offset < init then p.distance + abs_diff o p.offset
        else init) = min (p.distance + abs_diff o p.offset) init := by
      split_ifs <;> omega
    simp only [e]
    exact foldr_min_min _ _ _

theorem distance_le (state : parametric_state) (n o : Nat) : distance state n o ≤ n + 1 := by
  unfold distance
  rw [distance_eq_rule n o state]
  exact foldr_min_le _ _

theorem distance_table_getD (n : Nat) : ∀ (S : parametric_states) (s o : Nat),
    s < S.length → o < chi_size n →
    (distance_table S n).getD (s * chi_size n + o) 0 = distance (S.getD s []) n o % 256
  | [], s, _, hs, _ => absurd hs (Nat.not_lt_zero _)
  | st :: S, s, o, hs, ho => by
    unfold distance_table
    rw [List.flatMap_cons]
    have hlen : ((List.range (chi_size n)).map
        (fun offset => distance st n offset % 256)).length = chi_size n := by simp
    cases s with
    | zero =>
      rw [Nat.zero_mul, Nat.zero_add, List.getD_eq_getElem?_getD,
        List.getElem?_append_left (by rw [hlen]; exact ho)]
      simp [List.getElem?_range ho]
    | succ s =>
      rw [List.getD_eq_getElem?_getD, List.getElem?_append_right (by rw [hlen, Nat.succ_mul]; omega)]
      have hidx : (s + 1) * chi_size n + o - ((List.range (chi_size n)).map
          (fun offset => distance st n offset % 256)).length = s * chi_size n + o := by
        rw [hlen, Nat.succ_mul]
        omega
      rw [hidx, ← List.getD_eq_getElem?_getD]
      have ih := distance_table_getD n S s o (by simpa using hs) ho
      unfold distance_table at ih
      rw [ih]
      simp

theorem distance_table_le (n : Nat) (S : parametric_states) :
    ∀ x ∈ distance_table S n, x ≤ n + 1 := by
  intro x hx
  unfold distance_table at hx
  rw [List.mem_flatMap] at hx
  obtain ⟨st, _, hx⟩ := hx
  obtain ⟨o, _, e⟩ := List.mem_map.mp hx
  rw [← e]
  exact Nat.le_trans (Nat.mod_le _ _) (distance_le st n o)

/-- The accessor `distance` of a built description never exceeds `max_distance + 1`. -/
theorem built_distance_le (n : Nat) (S : parametric_states) (T : List (Nat × Nat))
    (s o : Nat) :
    (parametric_description.mk' T (distance_table S n) n).distance s o ≤ n + 1 := by
  unfold parametric_description.distance
  simp only [parametric_description.mk']
  split_ifs
  · exact Nat.le_refl _
  · rw [List.getD_eq_getElem?_getD]
    cases hx : (distance_table S n)[s * chi_size n + o]? with
    | none => simp
    | some x =>
      simp only [Option.getD_some]
      exact distance_table_le n S x (List.getElem?_mem hx)

/-- The entries of the distance table of a built description. -/
theorem built_distance_eq (n : Nat) (S : parametric_states) (T : List (Nat × Nat))
    (hn : n ≤ MAX_DISTANCE) (s o : Nat) (hs : s < S.length) (ho : o < 2 * n + 1) :
    (parametric_description.mk' T (distance_table S n) n).distance s o =
      min_distance_rule (S.getD s []) n o := by
  unfold parametric_description.distance
  simp only [parametric_description.mk']
  have ho' : o < chi_size n := ho
  rw [if_neg (by omega), distance_table_getD n S s o hs ho']
  have hle := distance_le (S.getD s []) n o
  unfold MAX_DISTANCE at hn
  rw [Nat.mod_eq_of_lt (by omega)]
  unfold distance min_distance_rule
  rw [distance_eq_rule n o _ _]
  simp only [abs_diff_eq_natAbs]

/-- C21: for every description that `make_parametric_description` builds from its states
`S`, every state `s` (each state of the description is one of `S`) and every offset
`o < 2 * max_distance + 1`, the entry of the distance table for `(s, o)` is the minimum of
`max_distance + 1` and, over the positions `p` of the state, of
`p.distance + |o - p.offset|`; it is `max_distance + 1` for an empty state, and no entry
exceeds `max_distance + 1`. -/
theorem distance_table_rule (fuel n : Nat) (t : Bool) (S : parametric_states)
    (T : List (Nat × Nat)) (h : parametric_description_states fuel n t = some (S, T))
    (hn : n ≤ MAX_DISTANCE) :
    make_parametric_description fuel n t =
      some (parametric_description.mk' T (distance_table S n) n) ∧
    (parametric_description.mk' T (distance_table S n) n).num_states ≤ S.length ∧
    ∀ s o, s < S.length → o < 2 * n + 1 →
      (parametric_description.mk' T (distance_table S n) n).distance s o =
        min_distance_rule (S.getD s []) n o ∧
      (parametric_description.mk' T (distance_table S n) n).distance s o ≤ n + 1 ∧
      (S.getD s [] = [] →
        (parametric_description.mk' T (distance_table S n) n).distance s o = n + 1) := by
  obtain ⟨_, _, hrows, _⟩ := parametric_description_states_spec fuel n t S T h
  refine ⟨?_, hrows.2.1, ?_⟩
  · rw [make_parametric_description_eq fuel n t hn, h]
  · intro s o hs ho
    have e := built_distance_eq n S T hn s o hs ho
    refine ⟨e, built_distance_le n S T s o, fun hempty => ?_⟩
    rw [e, hempty]
    rfl

set_option maxRecDepth 100000 in
theorem distance_table_rule_witness :
    parametric_description_states 6 1 false =
      some (states_1_false, description_1_false.transitions) ∧
    make_parametric_description 6 1 false =
      some (parametric_description.mk' description_1_false.transitions
        (distance_table states_1_false 1) 1) ∧
    ((parametric_description.mk' description_1_false.transitions
        (distance_table states_1_false 1) 1).distance 5 1 =
      min_distance_rule (states_1_false.getD 5 []) 1 1 ∧
    (parametric_description.mk' description_1_false.transitions
        (distance_table states_1_false 1) 1).distance 5 1 ≤ 1 + 1 ∧
    (states_1_false.getD 5 [] = [] →
      (parametric_description.mk' description_1_false.transitions
        (distance_table states_1_false 1) 1).distance 5 1 = 1 + 1)) ∧
    min_distance_rule [⟨0, 1, false⟩, ⟨2, 1, false⟩] 1 0 = 1 ∧
    min_distance_rule [⟨0, 1, false⟩, ⟨2, 1, false⟩] 1 1 = 2 ∧
    min_distance_rule [⟨0, 1, false⟩, ⟨2, 1, false⟩] 1 2 = 1 :=
  ⟨by decide,
    (distance_table_rule 6 1 false states_1_false description_1_false.transitions
      (by decide) (by decide)).1,
    (distance_table_rule 6 1 false states_1_false description_1_false.transitions
      (by decide) (by decide)).2.2 5 1 (by decide) (by decide),
    by decide, by decide, by decide⟩

theorem normalize_nil (chi n : Nat) (t : Bool) :
    normalize (add_transition [] chi n t) = (0, []) := rfl

theorem nodup_getElem?_inj {α : Type} (l : List α) (h : l.Nodup) (i j : Nat) (x : α)
    (hi : l[i]? = some x) (hj : l[j]? = some x) : i = j := by
  obtain ⟨hi1, hi2⟩ := List.getElem?_eq_some_iff.mp hi
  obtain ⟨hj1, hj2⟩ := List.getElem?_eq_some_iff.mp hj
  exact (List.Nodup.getElem_inj_iff h).mp (hi2.trans hj2.symm)

/-- C23: in every description that `make_parametric_description` builds, the parametric
state 0 is the empty state, the state 1 is the state with the single position
`(0, 0, false)`, and every transition out of the state 0, for every characteristic
vector, is `(0, 0)`: the dead state is absorbing. -/
theorem dead_state_absorbing (fuel n : Nat) (t : Bool) (S : parametric_states)
    (T : List (Nat × Nat)) (h : parametric_description_states fuel n t = some (S, T))
    (hn : n ≤ MAX_DISTANCE) :
    make_parametric_description fuel n t =
      some (parametric_description.mk' T (distance_table S n) n) ∧
    S[0]? = some [] ∧ S[1]? = some [⟨0, 0, false⟩] ∧
    ∀ chi, chi < chi_max (chi_size n) →
      (parametric_description.mk' T (distance_table S n) n).transition 0 chi = (0, 0) := by
  obtain ⟨hinv, ⟨extra, hpre⟩, hrows, h2⟩ := parametric_description_states_spec fuel n t S T h
  have h0 : S[0]? = some [] := by rw [hpre]; rfl
  refine ⟨?_, h0, by rw [hpre]; simp, ?_⟩
  · rw [make_parametric_description_eq fuel n t hn, h]
  · intro chi hchi
    obtain ⟨id, e1, e2⟩ := hrows.2.2 0 chi (by omega) hchi
    have hS0 : S.getD 0 [] = [] := by rw [hpre]; rfl
    rw [hS0, normalize_nil] at e1 e2
    have hid : id = 0 := nodup_getElem?_inj S hinv.1 id 0 [] e2 h0
    unfold parametric_description.transition
    simp only [parametric_description.mk']
    rw [List.getD_eq_getElem?_getD, e1, hid]
    rfl

theorem dead_state_absorbing_witness :
    parametric_description_states 2 0 true =
      some ([[], [⟨0, 0, false⟩]], [(0, 0), (0, 0), (0, 0), (1, 1)]) ∧
    (make_parametric_description 2 0 true =
        some (parametric_description.mk' [(0, 0), (0, 0), (0, 0), (1, 1)]
          (distance_table [[], [⟨0, 0, false⟩]] 0) 0) ∧
      [[], [(⟨0, 0, false⟩ : position)]][0]? = some [] ∧
      [[], [(⟨0, 0, false⟩ : position)]][1]? = some [⟨0, 0, false⟩] ∧
      ∀ chi, chi < chi_max (chi_size 0) →
        (parametric_description.mk' [(0, 0), (0, 0), (0, 0), (1, 1)]
          (distance_table [[], [⟨0, 0, false⟩]] 0) 0).transition 0 chi = (0, 0)) :=
  ⟨by decide, dead_state_absorbing 2 0 true [[], [⟨0, 0, false⟩]] [(0, 0), (0, 0), (0, 0), (1, 1)] (by decide) (by decide)⟩

end irs

namespace irs

/-! ## C28, C27: the loop of `converge` and the score of a conjunction -/

theorem seek_rest_le_eof (target : Nat) (hmin : doc_limits.min ≤ target)
    (heof : target < doc_limits.eof) :
    ∀ (l : List doc_iterator), (∀ it ∈ l, it.well_behaved) →
      (seek_rest l target).2 ≤ doc_limits.eof
  | [], _ => Nat.le_of_lt heof
  | a :: l, ha => by
    have hwa := ha a (List.mem_cons_self _ _)
    obtain ⟨_, _, _, _, _, _, _, q8, _⟩ :=
      doc_iterator.seek_spec a hwa target (Nat.le_of_lt heof)
    by_cases hq : target < (a.seek target).2
    · have e : seek_rest (a :: l) target = ((a.seek target).1 :: l, (a.seek target).2) := by
        simp only [seek_rest]; rw [if_pos hq]
      rw [e]
      rcases q8 hmin with h3 | h3
      · exact Nat.le_of_lt (well_behaved_range a hwa _ h3).2
      · exact Nat.le_of_eq h3
    · have e : seek_rest (a :: l) target =
          ((a.seek target).1 :: (seek_rest l target).1, (seek_rest l target).2) := by
        simp only [seek_rest]; rw [if_neg hq]
      rw [e]
      exact seek_rest_le_eof target hmin heof l
        (fun x hx => ha x (List.mem_cons_of_mem _ hx))

/-- The targets of the loop of `converge` increase strictly, start with its argument and
end with the value it returns. -/
theorem converge_targets_spec : ∀ (fuel : Nat) (front : doc_iterator)
    (tail : List doc_iterator) (target : Nat), front.well_behaved →
    (∀ it ∈ tail, it.well_behaved) → front.value = target → target ∈ front.docs →
    (∀ it ∈ tail, it.value ≤ target) →
    (front.docs.filter (fun d => decide (target < d))).length < fuel →
    (converge_targets fuel front tail target).Pairwise (fun a b => a < b) ∧
    (converge_targets fuel front tail target).head? = some target ∧
    (∀ x ∈ converge_targets fuel front tail target, target ≤ x) ∧
    ∃ c', converge fuel front tail target =
      some (c', (converge_targets fuel front tail target).getLastD 0) := by
  intro fuel
  induction fuel with
  | zero => intro front tail target _ _ _ _ _ h; simp at h
  | succ fuel ih =>
    intro front tail target hwf hwt hval hmem hle hfuel
    obtain ⟨hmin, heof⟩ := well_behaved_range front hwf target hmem
    obtain ⟨r1, r2, r3, r4, r5, r6⟩ := seek_rest_spec tail target hwt hle hmin heof
    by_cases heq : target = (seek_rest tail target).2
    · have e : converge (fuel + 1) front tail target =
          some ({ itrs_ := front :: (seek_rest tail target).1 }, target) := by
        simp only [converge]; rw [if_pos heq]
      have et : converge_targets (fuel + 1) front tail target = [target] := by
        simp only [converge_targets]; rw [if_pos heq]
      rw [et, e]
      exact ⟨List.pairwise_singleton _ _, rfl, by simp, _, rfl⟩
    · have hlt : target < (seek_rest tail target).2 := by omega
      have hrle := seek_rest_le_eof target hmin heof tail hwt
      obtain ⟨f1, _, f3, f4, f5, f6, f7, f8, _⟩ :=
        doc_iterator.seek_spec front hwf (seek_rest tail target).2 hrle
      by_cases hfe : (front.seek (seek_rest tail target).2).2 = doc_limits.eof
      · have e : converge (fuel + 1) front tail target =
            some ({ itrs_ := (front.seek (seek_rest tail target).2).1 ::
              (seek_rest tail target).1 }, (front.seek (seek_rest tail target).2).2) := by
          simp only [converge]; rw [if_neg heq, if_pos hfe]
        have et : converge_targets (fuel + 1) front tail target =
            [target, (front.seek (seek_rest tail target).2).2] := by
          simp only [converge_targets]; rw [if_neg heq, if_pos hfe]
        rw [et, e]
        refine ⟨?_, rfl, ?_, _, rfl⟩
        · rw [List.pairwise_cons]
          refine ⟨?_, List.pairwise_singleton _ _⟩
          intro x hx
          rw [List.mem_singleton.mp hx]
          omega
        · intro x hx
          simp only [List.mem_cons, List.mem_singleton, List.not_mem_nil, or_false] at hx
          rcases hx with h | h <;> omega
      · have e : converge (fuel + 1) front tail target =
            converge fuel (front.seek (seek_rest tail target).2).1 (seek_rest tail target).1
              (front.seek (seek_rest tail target).2).2 := by
          simp only [converge]; rw [if_neg heq, if_neg hfe]
        have et : converge_targets (fuel + 1) front tail target =
            target :: converge_targets fuel (front.seek (seek_rest tail target).2).1
              (seek_rest tail target).1 (front.seek (seek_rest tail target).2).2 := by
          simp only [converge_targets]; rw [if_neg heq, if_neg hfe]
        have hmem' : (front.seek (seek_rest tail target).2).2 ∈
            (front.seek (seek_rest tail target).2).1.docs := by
          rw [f1]
          rcases f8 (by omega) with h3 | h3
          · exact h3
          · exact absurd h3 hfe
        have hmeas : ((front.seek (seek_rest tail target).2).1.docs.filter
            (fun d => decide ((front.seek (seek_rest tail target).2).2 < d))).length < fuel := by
          rw [f1]
          have := length_filter_gt_lt front.docs target
            (front.seek (seek_rest tail target).2).2 (by omega) (by rw [f1] at hmem'; exact hmem')
          omega
        obtain ⟨g1, g2, g3, c', g4⟩ :=
          ih (front.seek (seek_rest tail target).2).1 (seek_rest tail target).1
            (front.seek (seek_rest tail target).2).2 f7 r2 f3 hmem'
            (fun x hx => by have := r4 x hx; omega) hmeas
        rw [et, e]
        refine ⟨?_, rfl, ?_, c', ?_⟩
        · rw [List.pairwise_cons]
          refine ⟨?_, g1⟩
          intro x hx
          have := g3 x hx
          omega
        · intro x hx
          rcases List.mem_cons.mp hx with h | h
          · omega
          · have := g3 x h
            omega
        · rw [g4]
          cases hl : converge_targets fuel (front.seek (seek_rest tail target).2).1
              (seek_rest tail target).1 (front.seek (seek_rest tail target).2).2 with
          | nil => rw [hl] at g2; simp at g2
          | cons y ys => simp [List.getLastD]

/-- C28: for well-behaved children, whose `seek(t)` returns a value `>= t`, with the lead
on one of its doc ids and no other child ahead of it, the target of the loop of
`converge` increases strictly from iteration to iteration; `converge` ends within as
many iterations as the lead has doc ids after the target, and returns either `eof` or
a doc id that is not before its argument and on which the lead and all other children
are positioned. -/
theorem converge_terminates (fuel : Nat) (front : doc_iterator) (tail : List doc_iterator)
    (target : Nat) (hwf : front.well_behaved) (hwt : ∀ it ∈ tail, it.well_behaved)
    (hval : front.value = target) (hmem : target ∈ front.docs)
    (hle : ∀ it ∈ tail, it.value ≤ target)
    (hfuel : (front.docs.filter (fun d => decide (target < d))).length < fuel) :
    (∀ it ∈ front :: tail, ∀ t, t ≤ doc_limits.eof → t ≤ (it.seek t).2) ∧
    (converge_targets fuel front tail target).Pairwise (fun a b => a < b) ∧
    (converge_targets fuel front tail target).head? = some target ∧
    ∃ c' r, converge fuel front tail target = some (c', r) ∧
      (converge_targets fuel front tail target).getLastD 0 = r ∧
      (r = doc_limits.eof ∨ (target ≤ r ∧ ∀ it ∈ c'.itrs_, it.value = r)) := by
  obtain ⟨t1, t2, _, c0, t4⟩ :=
    converge_targets_spec fuel front tail target hwf hwt hval hmem hle hfuel
  obtain ⟨c', r, g1, _, g3, g4, g5, _, _⟩ :=
    converge_spec fuel front tail target hwf hwt hval hmem hle hfuel
  refine ⟨?_, t1, t2, c', r, g1, ?_, ?_⟩
  · intro it hit t ht
    have hw : it.well_behaved := by
      rcases List.mem_cons.mp hit with h | h
      · rw [h]; exact hwf
      · exact hwt it h
    exact (doc_iterator.seek_spec it hw t ht).2.2.2.1
  · rw [g1] at t4
    simp only [Option.some.injEq, Prod.mk.injEq] at t4
    exact t4.2.symm
  · by_cases hr : r = doc_limits.eof
    · exact Or.inl hr
    · right
      refine ⟨g5, ?_⟩
      rcases g3.2.2.2 with h | h
      · rw [g4] at h
        exact absurd h hr
      · intro it hit
        rw [h it hit, g4]

theorem converge_terminates_witness :
    converge_targets 5 { scenario_A with value := 2 } [scenario_B] 2 = [2, 4] ∧
    ((∀ it ∈ [{ scenario_A with value := 2 }, scenario_B], ∀ t, t ≤ doc_limits.eof →
        t ≤ (it.seek t).2) ∧
      (converge_targets 5 { scenario_A with value := 2 } [scenario_B] 2).Pairwise
        (fun a b => a < b) ∧
      (converge_targets 5 { scenario_A with value := 2 } [scenario_B] 2).head? = some 2 ∧
      ∃ c' r, converge 5 { scenario_A with value := 2 } [scenario_B] 2 = some (c', r) ∧
        (converge_targets 5 { scenario_A with value := 2 } [scenario_B] 2).getLastD 0 = r ∧
        (r = doc_limits.eof ∨ (2 ≤ r ∧ ∀ it ∈ c'.itrs_, it.value = r))) :=
  ⟨by decide,
    converge_terminates 5 { scenario_A with value := 2 } [scenario_B] 2 (by decide)
      (by decide) rfl (by decide) (by decide) (by decide)⟩

theorem score_loop_eq_foldl {α : Type} (merge : α → α → α) (dflt : α) :
    ∀ (l : List (score_function α)) (res : α),
      score_loop merge dflt l res = (l.map (score_function.call dflt)).foldl merge res
  | [], _ => rfl
  | s :: l, res => by
    rw [score_loop, List.map_cons, List.foldl_cons]
    exact score_loop_eq_foldl merge dflt l _

theorem collect_scores_func {α : Type} (values : List α) :
    collect_scores (values.map score_function.func) = values.map score_function.func := by
  induction values with
  | nil => rfl
  | cons v vs ih =>
    simp only [List.map_cons, collect_scores, score_function.IsDefault, Bool.not_false,
      if_true, ih]

theorem collect_scores_eq_filter {α : Type} : ∀ (l : List (score_function α)),
    collect_scores l = l.filter (fun s => !s.IsDefault)
  | [] => rfl
  | s :: l => by
    unfold collect_scores
    rw [collect_scores_eq_filter l, List.filter_cons]

/-- C27: the non-default scores of the children are collected in the order of the
children; with none the score of the conjunction is the default score, with exactly one
it is that score itself, and with `k >= 2` scores `s_1 .. s_k` it evaluates to the left
fold `merge (... (merge (merge s_1 s_2) s_3) ...) s_k`, for every merge functor; the
closures for two and three scores compute the same value as the general loop. -/
theorem prepare_score_fold {α : Type} (merge : α → α → α) (dflt : α)
    (sub_scores : List (score_function α)) :
    collect_scores sub_scores = sub_scores.filter (fun s => !s.IsDefault) ∧
    (collect_scores sub_scores = [] →
      prepare_score merge dflt sub_scores = score_function.default) ∧
    (∀ (s1 : α) (rest : List α), collect_scores sub_scores =
        score_function.func s1 :: rest.map score_function.func →
      prepare_score merge dflt sub_scores = score_function.func (rest.foldl merge s1)) ∧
    (∀ scores_ : List (score_function α), scores_.length = 2 →
      score_closure2 merge dflt scores_ = score_closure_general merge dflt scores_) ∧
    (∀ scores_ : List (score_function α), scores_.length = 3 →
      score_closure3 merge dflt scores_ = score_closure_general merge dflt scores_) := by
  refine ⟨collect_scores_eq_filter sub_scores, ?_, ?_, ?_, ?_⟩
  · intro h
    unfold prepare_score
    simp only [h, List.length_nil]
  · intro s1 rest h
    unfold prepare_score
    simp only [h]
    have hgen : score_closure_general merge dflt
        (score_function.func s1 :: rest.map score_function.func) = rest.foldl merge s1 := by
      unfold score_closure_general
      simp only [List.headD_cons, List.tail_cons, score_function.call]
      rw [score_loop_eq_foldl, List.map_map]
      have : (score_function.call dflt ∘ score_function.func : α → α) = id := rfl
      rw [this, List.map_id]
    match rest with
    | [] => rfl
    | [s2] => rfl
    | [s2, s3] => rfl
    | s2 :: s3 :: s4 :: more =>
      simp only [List.map_cons, List.length_cons]
      rw [← hgen]
      rfl
  · intro scores_ hlen
    match scores_, hlen with
    | [a, b], _ => rfl
  · intro scores_ hlen
    match scores_, hlen with
    | [a, b, c], _ => rfl

theorem prepare_score_fold_witness :
    prepare_score (fun a b => a + b) 0
      [score_function.func 1, score_function.default, score_function.func 2,
        score_function.func 3, score_function.func 4] = score_function.func 10 ∧
    prepare_score (fun a b => a + b) 0
      [score_function.func 1, score_function.default, score_function.func 2,
        score_function.func 3, score_function.func 4] =
      score_function.func ([2, 3, 4].foldl (fun a b => a + b) 1) :=
  ⟨by decide,
    (prepare_score_fold (fun a b => a + b) 0
      [score_function.func 1, score_function.default, score_function.func 2,
        score_function.func 3, score_function.func 4]).2.2.1 1 [2, 3, 4] (by decide)⟩

end irs

namespace irs

/-! ## The offsets of the reached states stay inside the target -/

/-- A position emplaced for a covered position: a transposition position lies two before
the end of the target, and a position after the end is one step further than its
source, which lies at the end or after it. -/
theorem emits_covered (L off cv n : Nat) (t : Bool) (pos q : position)
    (hcv : ∀ k, cv.testBit k = true → off + k < L)
    (hT : pos.transpose = true → off + pos.offset + 2 ≤ L)
    (h : emits pos (cv >>> pos.offset) n t q) :
    (q.transpose = true → off + q.offset + 2 ≤ L) ∧
    (L < off + q.offset →
      pos.distance < n ∧ q.distance = pos.distance + 1 ∧ L ≤ off + pos.offset) := by
  have hbit : ∀ j, (cv >>> pos.offset).testBit j = true → off + pos.offset + j < L := by
    intro j hj
    rw [Nat.testBit_shiftRight] at hj
    have := hcv _ hj
    omega
  rcases h with ⟨h0, e⟩ | ⟨h0, ht, e⟩ | ⟨hd, e⟩ | ⟨hd, e⟩ | ⟨hd, j, _, _, hj, e⟩ |
    ⟨hd, _, h1, e⟩
  · have := hbit 0 h0
    rw [e]
    exact ⟨fun h => absurd h (by simp), fun h => by simp only at h; omega⟩
  · have := hT ht
    rw [e]
    exact ⟨fun h => absurd h (by simp), fun h => by simp only at h; omega⟩
  · rw [e]
    exact ⟨fun h => absurd h (by simp), fun h => ⟨hd, rfl, by simp only at h; omega⟩⟩
  · rw [e]
    exact ⟨fun h => absurd h (by simp), fun h => ⟨hd, rfl, by simp only at h; omega⟩⟩
  · have := hbit j hj
    rw [e]
    exact ⟨fun h => absurd h (by simp), fun h => by simp only at h; omega⟩
  · have := hbit 1 h1
    rw [e]
    exact ⟨fun _ => by simp only; omega, fun h => by simp only at h; omega⟩

/-- A position of the next state after the end of the target comes with a position of
the next state that is nearer to the end of the target than its distance. -/
theorem junk_descends (L off cv n : Nat) (t : Bool) (src : parametric_state)
    (hcv : ∀ k, cv.testBit k = true → off + k < L) (hsrc : target_covered L off src)
    (x : position) (hx : x ∈ add_transition src cv n t) (hjunk : L < off + x.offset) :
    ∃ p ∈ add_transition src cv n t,
      p.distance + abs_diff (off + p.offset) L ≤ x.distance := by
  obtain ⟨s1, s2⟩ := add_transition_spec src cv n t
  obtain ⟨pos, hpos, hem⟩ := s1 x hx
  obtain ⟨hd, hxd, hge⟩ := (emits_covered L off cv n t pos x hcv (hsrc.1 pos hpos) hem).2 hjunk
  have hq : ∃ q ∈ src, off + q.offset ≤ L ∧ q.distance + (L - (off + q.offset)) ≤ pos.distance := by
    by_cases hp : L < off + pos.offset
    · exact hsrc.2 pos hpos hp
    · exact ⟨pos, hpos, by omega, by omega⟩
  obtain ⟨q, hqm, hq1, hq2⟩ := hq
  have hemq : emits q (cv >>> q.offset) n t ⟨q.offset, q.distance + 1, false⟩ :=
    Or.inr (Or.inr (Or.inl ⟨by omega, rfl⟩))
  obtain ⟨p, hp, hsub⟩ := s2 q hqm _ hemq
  have hle := subsumes_le p _ hsub
  simp only at hle
  refine ⟨p, hp, ?_⟩
  unfold abs_diff at hle ⊢
  split_ifs at hle ⊢ <;> omega

/-- A position of the next state near the end of the target gives one before or at the
end that is as near. -/
theorem cover_of_near (L off cv n : Nat) (t : Bool) (src : parametric_state)
    (hcv : ∀ k, cv.testBit k = true → off + k < L) (hsrc : target_covered L off src) :
    ∀ (e : Nat) (p : position), p ∈ add_transition src cv n t →
      p.distance + abs_diff (off + p.offset) L ≤ e →
      ∃ y ∈ add_transition src cv n t,
        off + y.offset ≤ L ∧ y.distance + (L - (off + y.offset)) ≤ e := by
  intro e
  induction e using Nat.strong_induction_on with
  | _ e ih =>
    intro p hp hle
    by_cases hjunk : L < off + p.offset
    · obtain ⟨p', hp', hle'⟩ := junk_descends L off cv n t src hcv hsrc p hp hjunk
      have hlt : p.distance < e := by
        unfold abs_diff at hle
        split_ifs at hle <;> omega
      obtain ⟨y, hy, h1, h2⟩ := ih p.distance hlt p' hp' hle'
      exact ⟨y, hy, h1, by omega⟩
    · refine ⟨p, hp, by omega, ?_⟩
      unfold abs_diff at hle
      split_ifs at hle <;> omega

/-- The transition on a characteristic vector of the target keeps the positions
covered. -/
theorem transition_covered (L off cv n : Nat) (t : Bool) (src : parametric_state)
    (hcv : ∀ k, cv.testBit k = true → off + k < L) (hsrc : target_covered L off src) :
    target_covered L off (add_transition src cv n t) := by
  constructor
  · intro x hx
    obtain ⟨pos, hpos, hem⟩ := (add_transition_spec src cv n t).1 x hx
    exact (emits_covered L off cv n t pos x hcv (hsrc.1 pos hpos) hem).1
  · intro x hx hjunk
    obtain ⟨p, hp, hle⟩ := junk_descends L off cv n t src hcv hsrc x hx hjunk
    exact cover_of_near L off cv n t src hcv hsrc x.distance p hp hle

/-- The shift of `normalize` keeps the positions covered, at an offset inside the
target. -/
theorem normalize_covered (L off : Nat) (s : parametric_state) (hs : target_covered L off s)
    (hne : s ≠ []) :
    off + (normalize s).1 ≤ L ∧ target_covered L (off + (normalize s).1) (normalize s).2 := by
  obtain ⟨hmin, hex⟩ := min_offset_spec s
  obtain ⟨p0, hp0, e0⟩ := hex hne
  have hmem : ∀ x, x ∈ (normalize s).2 ↔
      ∃ p ∈ s, x = { p with offset := p.offset - min_offset s } := by
    intro x
    unfold normalize
    simp only [mem_sort_positions, List.mem_map]
    constructor
    · rintro ⟨p, hp, e⟩
      exact ⟨p, hp, e.symm⟩
    · rintro ⟨p, hp, e⟩
      exact ⟨p, hp, e.symm⟩
  have h1 : (normalize s).1 = min_offset s := rfl
  rw [h1]
  have hoff : off + min_offset s ≤ L := by
    by_cases hj : L < off + p0.offset
    · obtain ⟨q, hq, hq1, _⟩ := hs.2 p0 hp0 hj
      have := hmin q hq
      omega
    · omega
  refine ⟨hoff, ?_, ?_⟩
  · intro x hx ht
    obtain ⟨p, hp, e⟩ := (hmem x).mp hx
    rw [e] at ht ⊢
    have := hs.1 p hp ht
    have := hmin p hp
    simp only
    omega
  · intro x hx hjunk
    obtain ⟨p, hp, e⟩ := (hmem x).mp hx
    have hm := hmin p hp
    rw [e] at hjunk ⊢
    simp only at hjunk ⊢
    obtain ⟨q, hq, hq1, hq2⟩ := hs.2 p hp (by omega)
    have hmq := hmin q hq
    refine ⟨{ q with offset := q.offset - min_offset s }, (hmem _).mpr ⟨q, hq, rfl⟩, ?_, ?_⟩
    · simp only
      omega
    · simp only
      have e1 : off + min_offset s + (q.offset - min_offset s) = off + q.offset := by omega
      rw [e1]
      exact hq2

/-- A live transition of a built description on a characteristic vector of the target
leads from a state at an offset inside the target to a state at an offset inside the
target. -/
theorem offset_fits_step (fuel n : Nat) (t : Bool) (S : parametric_states)
    (T : List (Nat × Nat)) (h : parametric_description_states fuel n t = some (S, T))
    (L ps off cv : Nat) (hfit : offset_fits L S ps off)
    (hcv : ∀ k, cv.testBit k = true → off + k < L) (hlt : cv < chi_max (chi_size n))
    (hlive : ((parametric_description.mk' T (distance_table S n) n).transition ps cv).1 ≠ 0) :
    offset_fits L S ((parametric_description.mk' T (distance_table S n) n).transition ps cv).1
      (off + ((parametric_description.mk' T (distance_table S n) n).transition ps cv).2) := by
  obtain ⟨hinv, ⟨extra, hpre⟩, hrows, h2⟩ := parametric_description_states_spec fuel n t S T h
  obtain ⟨_, state, hstate, hcov⟩ := hfit
  have h0 : S[0]? = some [] := by rw [hpre]; rfl
  have htr : (parametric_description.mk' T (distance_table S n) n).transition ps cv =
      T.getD (ps * chi_max (chi_size n) + cv) (0, 0) := rfl
  rw [htr] at hlive ⊢
  by_cases hps : ps < T.length / chi_max (chi_size n)
  · obtain ⟨id, e1, e2⟩ := hrows.2.2 ps cv hps hlt
    have hgetD : S.getD ps [] = state := by
      rw [List.getD_eq_getElem?_getD, hstate]
      rfl
    rw [hgetD] at e1 e2
    rw [List.getD_eq_getElem?_getD, e1] at hlive ⊢
    simp only [Option.getD_some] at hlive ⊢
    have hne : add_transition state cv n t ≠ [] := by
      intro hnil
      rw [hnil] at e2
      have : (normalize ([] : parametric_state)).2 = [] := rfl
      rw [this] at e2
      exact hlive (nodup_getElem?_inj S hinv.1 id 0 [] e2 h0)
    have hcov' := transition_covered L off cv n t state hcv hcov
    obtain ⟨k1, k2⟩ := normalize_covered L off _ hcov' hne
    exact ⟨k1, _, e2, k2⟩
  · exfalso
    apply hlive
    have hlen : T.length ≤ ps * chi_max (chi_size n) + cv := by
      have hT := hrows.1
      have : T.length / chi_max (chi_size n) ≤ ps := by omega
      calc T.length = T.length / chi_max (chi_size n) * chi_max (chi_size n) := hT
        _ ≤ ps * chi_max (chi_size n) := Nat.mul_le_mul_right _ this
        _ ≤ ps * chi_max (chi_size n) + cv := Nat.le_add_right _ _
    rw [List.getD_eq_getElem?_getD, List.getElem?_eq_none hlen]
    rfl

/-- The initial state of a built description fits every target. -/
theorem offset_fits_start (fuel n : Nat) (t : Bool) (S : parametric_states)
    (T : List (Nat × Nat)) (h : parametric_description_states fuel n t = some (S, T))
    (L : Nat) : offset_fits L S 1 0 := by
  obtain ⟨_, ⟨extra, hpre⟩, _, _⟩ := parametric_description_states_spec fuel n t S T h
  refine ⟨Nat.zero_le _, [⟨0, 0, false⟩], by rw [hpre]; simp, ?_, ?_⟩
  · intro p hp ht
    rw [List.mem_singleton.mp hp] at ht
    exact absurd ht (by simp)
  · intro p hp hj
    rw [List.mem_singleton.mp hp] at hj
    simp only at hj
    omega

/-- The characteristic vector over a window of the target: its bits lie inside the
window and inside the target. -/
theorem window_chi_bits (X : List Nat) (off cs c : Nat) :
    (∀ k, (chi ((X.take (min (off + cs) X.length)).drop off) c 0 0).testBit k = true →
      off + k < X.length) ∧
    chi ((X.take (min (off + cs) X.length)).drop off) c 0 0 < chi_max cs := by
  constructor
  · intro k hk
    rw [chi_window_testBit] at hk
    simp only [Bool.and_eq_true, decide_eq_true_eq] at hk
    by_contra hge
    rw [List.getElem?_eq_none (by omega)] at hk
    exact absurd hk.2 (by simp)
  · unfold chi_max
    rw [Nat.one_shiftLeft]
    apply Nat.lt_pow_two_of_testBit
    intro i hi
    rw [chi_window_testBit]
    have : ¬ i < cs := by omega
    simp [this]

/-- Every pair of state and offset that a run of a built description over a target
reaches fits the target. -/
theorem parametric_run_fits (fuel n : Nat) (t : Bool) (S : parametric_states)
    (T : List (Nat × Nat)) (h : parametric_description_states fuel n t = some (S, T))
    (X : List Nat) :
    ∀ (word : List Nat) (ps off ps' off' : Nat), offset_fits X.length S ps off →
      parametric_run (parametric_description.mk' T (distance_table S n) n) X word ps off =
        some (ps', off') →
      offset_fits X.length S ps' off'
  | [], ps, off, ps', off', hfit, hrun => by
    simp only [parametric_run, Option.some.injEq, Prod.mk.injEq] at hrun
    rw [← hrun.1, ← hrun.2]
    exact hfit
  | c :: word, ps, off, ps', off', hfit, hrun => by
    unfold parametric_run at hrun
    unfold parametric_step at hrun
    by_cases hdead : ((parametric_description.mk' T (distance_table S n) n).transition ps
        (window_chi (parametric_description.mk' T (distance_table S n) n) X off c)).1 =
          INVALID_STATE
    · rw [if_pos hdead] at hrun
      exact absurd hrun (by simp)
    · rw [if_neg hdead] at hrun
      simp only at hrun
      obtain ⟨b1, b2⟩ := window_chi_bits X off (chi_size n) c
      have hstep := offset_fits_step fuel n t S T h X.length ps off
        (window_chi (parametric_description.mk' T (distance_table S n) n) X off c)
        hfit b1 b2 hdead
      exact parametric_run_fits fuel n t S T h X word _ _ ps' off' hstep hrun

end irs

namespace irs

/-! ## C25, C26: the states that the automaton builder makes -/

theorem finals_kept_refl (a : automaton) : finals_kept a a :=
  fun _ st h => ⟨st, h, rfl⟩

theorem finals_kept_trans (a b c : automaton) (h1 : finals_kept a b) (h2 : finals_kept b c) :
    finals_kept a c := by
  intro i st h
  obtain ⟨st1, k1, e1⟩ := h1 i st h
  obtain ⟨st2, k2, e2⟩ := h2 i st1 k1
  exact ⟨st2, k2, e2.trans e1⟩

theorem builder_tagged_kept (d : parametric_description) (X : List Nat) (P : Nat → Nat → Prop)
    (a b : automaton) (stack : List builder_state) (h : builder_tagged d X P a stack)
    (hk : finals_kept a b) (h0 : b.states[0]? = some ⟨none, []⟩) :
    builder_tagged d X P b stack := by
  refine ⟨h0, ?_⟩
  intro item hitem
  obtain ⟨h1, h2, st, hst, hf⟩ := h.2 item hitem
  obtain ⟨st', hst', e⟩ := hk _ _ hst
  exact ⟨h1, h2, st', hst', e.trans hf⟩

/-- The state that `entry_target` makes for a live transition without a state is pushed
with its parametric state and offset, final with the weight of that pair; a dead
transition and a transition with a state change nothing. -/
theorem entry_target_tagged (d : parametric_description) (X : List Nat) (P : Nat → Nat → Prop)
    (state : builder_state) (a : automaton) (tr : List (Option Nat))
    (stack : List builder_state) (chi : Nat)
    (h : builder_tagged d X P a (state :: stack))
    (hP : (d.transition state.state_id chi).1 ≠ 0 →
      P (d.transition state.state_id chi).1 ((d.transition state.state_id chi).2 + state.offset)) :
    builder_tagged d X P (entry_target d X.length state a tr stack chi).1
      (state :: (entry_target d X.length state a tr stack chi).2.2.1) ∧
    finals_kept a (entry_target d X.length state a tr stack chi).1 := by
  unfold entry_target
  simp only []
  by_cases hdead : (d.transition state.state_id chi).1 = INVALID_STATE
  · rw [if_pos hdead]
    exact ⟨h, finals_kept_refl a⟩
  · rw [if_neg hdead]
    have hlive : (d.transition state.state_id chi).1 ≠ 0 := hdead
    have hoff : (if (d.transition state.state_id chi).1 ≠ 0 then
        (d.transition state.state_id chi).2 + state.offset else 0) =
        (d.transition state.state_id chi).2 + state.offset := if_pos hlive
    rw [hoff]
    split
    · exact ⟨h, finals_kept_refl a⟩
    · simp only []
      obtain ⟨_, hstates⟩ := new_state_spec a
        (d.distance (d.transition state.state_id chi).1
          (sub_size_t X.length ((d.transition state.state_id chi).2 + state.offset)))
        d.max_distance
      have hk : finals_kept a
          (if d.distance (d.transition state.state_id chi).1
              (sub_size_t X.length ((d.transition state.state_id chi).2 + state.offset)) ≤
              d.max_distance then
            a.AddState.1.SetFinal a.AddState.2
              (d.distance (d.transition state.state_id chi).1
                (sub_size_t X.length ((d.transition state.state_id chi).2 + state.offset)))
          else a.AddState.1) := by
        intro i st hi
        refine ⟨st, ?_, rfl⟩
        rw [hstates]
        exact getElem?_append_some _ _ i st hi
      refine ⟨?_, hk⟩
      have h0 := (hk 0 _ h.1)
      obtain ⟨st0, hst0, e0⟩ := h0
      have hst0' : (if d.distance (d.transition state.state_id chi).1
              (sub_size_t X.length ((d.transition state.state_id chi).2 + state.offset)) ≤
              d.max_distance then
            a.AddState.1.SetFinal a.AddState.2
              (d.distance (d.transition state.state_id chi).1
                (sub_size_t X.length ((d.transition state.state_id chi).2 + state.offset)))
          else a.AddState.1).states[0]? = some ⟨none, []⟩ := by
        rw [hstates]
        exact getElem?_append_some _ _ 0 _ h.1
      refine ⟨hst0', ?_⟩
      intro item hitem
      rcases List.mem_cons.mp hitem with e | hitem
      · rw [e]
        obtain ⟨h1, h2, st, hst, hf⟩ := h.2 state (List.mem_cons_self _ _)
        obtain ⟨st', hst', e'⟩ := hk _ _ hst
        exact ⟨h1, h2, st', hst', e'.trans hf⟩
      · rcases List.mem_cons.mp hitem with e | hitem
        · rw [e]
          have hlen : 1 ≤ a.states.length := by
            by_contra hc
            have hnone : a.states[0]? = none := List.getElem?_eq_none (by omega)
            have h0 := h.1
            rw [hnone] at h0
            exact absurd h0 (by simp)
          refine ⟨hlen, hP hlive,
            ⟨if d.distance (d.transition state.state_id chi).1
                (sub_size_t X.length ((d.transition state.state_id chi).2 + state.offset)) ≤
                d.max_distance then
              some (d.distance (d.transition state.state_id chi).1
                (sub_size_t X.length ((d.transition state.state_id chi).2 + state.offset)))
            else none, []⟩, ?_, rfl⟩
          rw [hstates]
          simp only [automaton.AddState]
          rw [List.getElem?_append_right (Nat.le_refl _)]
          simp
        · obtain ⟨h1, h2, st, hst, hf⟩ := h.2 item (List.mem_cons_of_mem _ hitem)
          obtain ⟨st', hst', e'⟩ := hk _ _ hst
          exact ⟨h1, h2, st', hst', e'.trans hf⟩

theorem process_entry_a (d : parametric_description) (u mask : Nat) (state : builder_state)
    (s : entry_state) (e : character) :
    (process_entry d u mask state s e).a =
      (entry_target d u state s.a s.transitions s.stack
        (chi_bitset e.chi state.offset mask)).1 ∧
    (process_entry d u mask state s e).stack =
      (entry_target d u state s.a s.transitions s.stack
        (chi_bitset e.chi state.offset mask)).2.2.1 := by
  unfold process_entry
  simp only []
  split_ifs <;> exact ⟨rfl, rfl⟩

theorem process_fold_tagged (d : parametric_description) (X : List Nat) (P : Nat → Nat → Prop)
    (mask : Nat) (state : builder_state) :
    ∀ (l : List character) (s : entry_state),
      (∀ e ∈ l, (d.transition state.state_id (chi_bitset e.chi state.offset mask)).1 ≠ 0 →
        P (d.transition state.state_id (chi_bitset e.chi state.offset mask)).1
          ((d.transition state.state_id (chi_bitset e.chi state.offset mask)).2 +
            state.offset)) →
      builder_tagged d X P s.a (state :: s.stack) →
      builder_tagged d X P (l.foldl (process_entry d X.length mask state) s).a
        (state :: (l.foldl (process_entry d X.length mask state) s).stack) ∧
      finals_kept s.a (l.foldl (process_entry d X.length mask state) s).a
  | [], _, _, h => ⟨h, finals_kept_refl _⟩
  | e :: l, s, hl, h => by
    rw [List.foldl_cons]
    obtain ⟨t1, t2⟩ := entry_target_tagged d X P state s.a s.transitions s.stack
      (chi_bitset e.chi state.offset mask) h (hl e (List.mem_cons_self _ _))
    obtain ⟨e1, e2⟩ := process_entry_a d X.length mask state s e
    obtain ⟨r1, r2⟩ := process_fold_tagged d X P mask state l
      (process_entry d X.length mask state s e)
      (fun e' he' => hl e' (List.mem_cons_of_mem _ he')) (by rw [e1, e2]; exact t1)
    exact ⟨r1, finals_kept_trans _ _ _ (by rw [e1]; exact t2) r2⟩

/-- The emission of the arcs of a state appends arcs to that state and changes nothing
else. -/
theorem emit_arcs_states (p : Nat) (s : entry_state) :
    ∃ new_arcs : List arc, ∀ i : Nat, (emit_arcs p s).states[i]? =
      (s.a.states[i]?).map (fun x =>
        if p = i then { x with arcs := x.arcs ++ new_arcs } else x) := by
  unfold emit_arcs
  split_ifs with h1 h2
  · exact ⟨[⟨label.range 0 255, INVALID_STATE⟩], fun i => EmplaceArc_getElem? s.a p _ _ i⟩
  · exact ⟨s.arcs.map (fun e => ⟨label.range e.1 e.1, e.2⟩),
      (foldl_EmplaceArc p (fun c => label.range c c) s.arcs s.a).2.2⟩
  · unfold Utf8TransitionsBuilder.Insert
    have hfold := (foldl_EmplaceArc p label.cp s.arcs s.a).2.2
    cases hd : s.default_state with
    | none =>
      simp only []
      exact ⟨_, hfold⟩
    | some ds =>
      simp only []
      refine ⟨s.arcs.map (fun e => ⟨label.cp e.1, e.2⟩) ++ [⟨label.rho, ds⟩], ?_⟩
      intro i
      rw [EmplaceArc_getElem?, hfold i]
      cases s.a.states[i]? with
      | none => rfl
      | some x =>
        by_cases hp : p = i
        · simp [hp]
        · simp [hp]

theorem emit_arcs_kept (p : Nat) (s : entry_state) (hp : 1 ≤ p)
    (h0 : s.a.states[0]? = some ⟨none, []⟩) :
    finals_kept s.a (emit_arcs p s) ∧ (emit_arcs p s).states[0]? = some ⟨none, []⟩ := by
  obtain ⟨new_arcs, hs⟩ := emit_arcs_states p s
  constructor
  · intro i st hi
    rw [hs i, hi]
    by_cases e : p = i
    · exact ⟨{ st with arcs := st.arcs ++ new_arcs },
        by simp only [Option.map_some', if_pos e], rfl⟩
    · exact ⟨st, by simp only [Option.map_some', if_neg e], rfl⟩
  · rw [hs 0, h0]
    have : ¬ p = 0 := by omega
    simp only [Option.map_some', if_neg this]

/-- One iteration of the loop over the state stack keeps the invariant. -/
theorem loop_step_tagged (d : parametric_description) (X : List Nat) (P : Nat → Nat → Prop)
    (mask : Nat) (alphabet : List character)
    (hstep : ∀ ps off, P ps off → ∀ e ∈ alphabet,
      (d.transition ps (chi_bitset e.chi off mask)).1 ≠ 0 →
        P (d.transition ps (chi_bitset e.chi off mask)).1
          ((d.transition ps (chi_bitset e.chi off mask)).2 + off))
    (state : builder_state) (a : automaton) (tr : List (Option Nat))
    (stack : List builder_state) (h : builder_tagged d X P a (state :: stack)) :
    builder_tagged d X P
      (emit_arcs state.src (alphabet.foldl (process_entry d X.length mask state)
        { a := a, transitions := tr, stack := stack, default_state := none, arcs := [],
          ascii := true }))
      (state :: (alphabet.foldl (process_entry d X.length mask state)
        { a := a, transitions := tr, stack := stack, default_state := none, arcs := [],
          ascii := true }).stack) ∧
    finals_kept a
      (emit_arcs state.src (alphabet.foldl (process_entry d X.length mask state)
        { a := a, transitions := tr, stack := stack, default_state := none, arcs := [],
          ascii := true })) := by
  obtain ⟨hsrc, hPs, _⟩ := h.2 state (List.mem_cons_self _ _)
  obtain ⟨r1, r2⟩ := process_fold_tagged d X P mask state alphabet
    { a := a, transitions := tr, stack := stack, default_state := none, arcs := [],
      ascii := true }
    (fun e he => hstep _ _ hPs e he) h
  obtain ⟨k1, k2⟩ := emit_arcs_kept state.src _ hsrc r1.1
  exact ⟨builder_tagged_kept d X P _ _ _ r1 k1 k2, finals_kept_trans _ _ _ r2 k1⟩

/-- Every state that the loop over the state stack pops is an automaton state other than
the state 0, made for a pair that satisfies `P`. -/
theorem build_automaton_states_tagged (d : parametric_description) (X : List Nat)
    (P : Nat → Nat → Prop) (mask : Nat) (alphabet : List character)
    (hstep : ∀ ps off, P ps off → ∀ e ∈ alphabet,
      (d.transition ps (chi_bitset e.chi off mask)).1 ≠ 0 →
        P (d.transition ps (chi_bitset e.chi off mask)).1
          ((d.transition ps (chi_bitset e.chi off mask)).2 + off)) :
    ∀ (fuel : Nat) (a : automaton) (tr : List (Option Nat)) (stack : List builder_state),
      builder_tagged d X P a stack →
      ∀ item ∈ build_automaton_states d alphabet X.length mask fuel a tr stack,
        1 ≤ item.src ∧ P item.state_id item.offset := by
  intro fuel
  induction fuel with
  | zero =>
    intro a tr stack _ item hitem
    cases stack with
    | nil => simp [build_automaton_states] at hitem
    | cons state stack => simp [build_automaton_states] at hitem
  | succ fuel ih =>
    intro a tr stack h item hitem
    cases stack with
    | nil => simp [build_automaton_states] at hitem
    | cons state stack =>
      unfold build_automaton_states at hitem
      simp only [] at hitem
      rcases List.mem_cons.mp hitem with e | hitem
      · rw [e]
        obtain ⟨h1, h2, _⟩ := h.2 state (List.mem_cons_self _ _)
        exact ⟨h1, h2⟩
      · obtain ⟨t1, _⟩ := loop_step_tagged d X P mask alphabet hstep state a tr stack h
        exact ih _ _ _ ⟨t1.1, fun x hx => t1.2 x (List.mem_cons_of_mem _ hx)⟩ item hitem

/-- When the loop over the state stack ends, every state it popped is a state of the
returned automaton with the final weight of its pair, and the state 0 is not final and
has no arcs. -/
theorem build_automaton_tagged (d : parametric_description) (X : List Nat)
    (P : Nat → Nat → Prop) (mask : Nat) (alphabet : List character)
    (hstep : ∀ ps off, P ps off → ∀ e ∈ alphabet,
      (d.transition ps (chi_bitset e.chi off mask)).1 ≠ 0 →
        P (d.transition ps (chi_bitset e.chi off mask)).1
          ((d.transition ps (chi_bitset e.chi off mask)).2 + off)) :
    ∀ (fuel : Nat) (a : automaton) (tr : List (Option Nat)) (stack : List builder_state)
      (a' : automaton),
      builder_tagged d X P a stack →
      build_automaton d alphabet X.length mask fuel a tr stack = some a' →
      finals_kept a a' ∧
      builder_tagged d X P a' (build_automaton_states d alphabet X.length mask fuel a tr stack) := by
  intro fuel
  induction fuel with
  | zero =>
    intro a tr stack a' h hb
    cases stack with
    | nil =>
      simp only [build_automaton, Option.some.injEq] at hb
      rw [← hb]
      exact ⟨finals_kept_refl a, h.1, fun x hx => by simp [build_automaton_states] at hx⟩
    | cons state stack => simp [build_automaton] at hb
  | succ fuel ih =>
    intro a tr stack a' h hb
    cases stack with
    | nil =>
      simp only [build_automaton, Option.some.injEq] at hb
      rw [← hb]
      exact ⟨finals_kept_refl a, h.1, fun x hx => by simp [build_automaton_states] at hx⟩
    | cons state stack =>
      unfold build_automaton at hb
      simp only [] at hb
      unfold build_automaton_states
      simp only []
      obtain ⟨t1, t2⟩ := loop_step_tagged d X P mask alphabet hstep state a tr stack h
      obtain ⟨r1, r2⟩ := ih _ _ _ a' ⟨t1.1, fun x hx => t1.2 x (List.mem_cons_of_mem _ hx)⟩ hb
      refine ⟨finals_kept_trans _ _ _ t2 r1, r2.1, ?_⟩
      intro item hitem
      rcases List.mem_cons.mp hitem with e | hitem
      · rw [e]
        obtain ⟨h1, h2, st, hst, hf⟩ := t1.2 state (List.mem_cons_self _ _)
        obtain ⟨st', hst', e'⟩ := r1 _ _ hst
        exact ⟨h1, h2, st', hst', e'.trans hf⟩
      · exact r2.2 item hitem

/-- The chain of the prefix ends in a state without arcs that is not final, after as
many states as the prefix has code points, and leaves the state 0 as it is. -/
theorem add_prefix_chain : ∀ (pfx : List Nat) (a : automaton) (start : Nat),
    a.states[0]? = some ⟨none, []⟩ → 1 ≤ start → a.states.length = start + 1 →
    a.states[start]? = some ⟨none, []⟩ →
    ( add_prefix pfx a start).1.states[0]? = some ⟨none, []⟩ ∧
    ( add_prefix pfx a start).2 = start + pfx.length ∧
    ( add_prefix pfx a start).1.states[start + pfx.length]? = some ⟨none, []⟩
  | [], a, start, h0, _, _, hs => ⟨h0, rfl, hs⟩
  | c :: cs, a, start, h0, h1, hlen, hs => by
    unfold add_prefix
    simp only []
    have hadd : a.AddState.2 = start + 1 := hlen
    rw [hadd]
    have hget : ∀ i, (a.AddState.1.EmplaceArc start (label.cp c) (start + 1)).states[i]? =
        ((a.states ++ [⟨none, []⟩])[i]?).map (fun st =>
          if start = i then { st with arcs := st.arcs ++ [⟨label.cp c, start + 1⟩] }
          else st) := fun i => EmplaceArc_getElem? a.AddState.1 start _ _ i
    have k0 : (a.AddState.1.EmplaceArc start (label.cp c) (start + 1)).states[0]? =
        some ⟨none, []⟩ := by
      rw [hget 0, getElem?_append_some _ _ 0 _ h0]
      have : ¬ start = 0 := by omega
      simp only [Option.map_some', if_neg this]
    have klen : (a.AddState.1.EmplaceArc start (label.cp c) (start + 1)).states.length =
        start + 1 + 1 := by
      simp [automaton.EmplaceArc, automaton.AddState, List.length_modify, hlen]
    have ks : (a.AddState.1.EmplaceArc start (label.cp c) (start + 1)).states[start + 1]? =
        some ⟨none, []⟩ := by
      rw [hget (start + 1), List.getElem?_append_right (by omega)]
      have e : start + 1 - a.states.length = 0 := by omega
      have : ¬ start = start + 1 := by omega
      rw [e]
      simp only [List.getElem?_cons_zero, Option.map_some', if_neg this]
    obtain ⟨r0, r1, r2⟩ := add_prefix_chain cs _ (start + 1) k0 (by omega)
      (by rw [klen]) ks
    have e : start + (c :: cs).length = start + 1 + cs.length := by
      rw [List.length_cons]
      omega
    rw [e]
    exact ⟨r0, r1, r2⟩

/-- The automaton and the stack with which the loop over the state stack of
`make_levenshtein_automaton` starts satisfy the invariant. -/
theorem initial_tagged (d : parametric_description) (X pfx : List Nat) (P : Nat → Nat → Prop)
    (hP : P 1 0) :
    ( add_prefix pfx
      (automaton.empty.AddState.1.AddState.1.SetStart automaton.empty.AddState.1.AddState.2)
      automaton.empty.AddState.1.AddState.2).2 = 1 + pfx.length ∧
    builder_tagged d X P
      (if d.distance 1 X.length ≤ d.max_distance then
        ( add_prefix pfx
          (automaton.empty.AddState.1.AddState.1.SetStart
            automaton.empty.AddState.1.AddState.2)
          automaton.empty.AddState.1.AddState.2).1.SetFinal
          ( add_prefix pfx
            (automaton.empty.AddState.1.AddState.1.SetStart
              automaton.empty.AddState.1.AddState.2)
            automaton.empty.AddState.1.AddState.2).2
          (d.distance 1 X.length)
      else
        ( add_prefix pfx
          (automaton.empty.AddState.1.AddState.1.SetStart
            automaton.empty.AddState.1.AddState.2)
          automaton.empty.AddState.1.AddState.2).1)
      [⟨0, 1, ( add_prefix pfx
          (automaton.empty.AddState.1.AddState.1.SetStart
            automaton.empty.AddState.1.AddState.2)
          automaton.empty.AddState.1.AddState.2).2⟩] := by
  obtain ⟨r0, r1, r2⟩ := add_prefix_chain pfx
    (automaton.empty.AddState.1.AddState.1.SetStart automaton.empty.AddState.1.AddState.2)
    automaton.empty.AddState.1.AddState.2 rfl (by decide) rfl rfl
  have hid : automaton.empty.AddState.1.AddState.2 = 1 := rfl
  rw [hid] at r0 r1 r2 ⊢
  refine ⟨r1, ?_⟩
  rw [r1]
  have hfw : final_weight d X 1 0 =
      if d.distance 1 X.length ≤ d.max_distance then some (d.distance 1 X.length)
      else none := by
    unfold final_weight
    rw [sub_size_t_zero]
  by_cases hfin : d.distance 1 X.length ≤ d.max_distance
  · rw [if_pos hfin]
    refine ⟨?_, ?_⟩
    · rw [SetFinal_getElem?, r0]
      have : ¬ 1 + pfx.length = 0 := by omega
      simp only [Option.map_some', if_neg this]
    · intro item hitem
      rw [List.mem_singleton.mp hitem]
      refine ⟨by simp only; omega, hP, ⟨some (d.distance 1 X.length), []⟩, ?_, ?_⟩
      · rw [SetFinal_getElem?, r2]
        simp only [Option.map_some', if_true]
      · rw [hfw, if_pos hfin]
  · rw [if_neg hfin]
    refine ⟨r0, ?_⟩
    intro item hitem
    rw [List.mem_singleton.mp hitem]
    refine ⟨by simp only; omega, hP, ⟨none, []⟩, r2, ?_⟩
    rw [hfw, if_neg hfin]

end irs

namespace irs

/-! ## The initial state, the start state and the closed tables -/

/-- The distance of the initial state of a built description: the offset, cut off at
`max_distance + 1`. -/
theorem built_distance_start (fuel n : Nat) (t : Bool) (S : parametric_states)
    (T : List (Nat × Nat)) (h : parametric_description_states fuel n t = some (S, T))
    (hn : n ≤ MAX_DISTANCE) (L : Nat) :
    (parametric_description.mk' T (distance_table S n) n).distance 1 L = min L (n + 1) := by
  obtain ⟨hinv, ⟨extra, hpre⟩, _, _⟩ := parametric_description_states_spec fuel n t S T h
  by_cases hL : L < 2 * n + 1
  · rw [built_distance_eq n S T hn 1 L (by have := hinv.2.2; omega) hL]
    have hS : S.getD 1 [] = [⟨0, 0, false⟩] := by rw [hpre]; rfl
    rw [hS]
    unfold min_distance_rule
    simp
  · unfold parametric_description.distance
    simp only [parametric_description.mk', chi_size]
    rw [if_pos (by omega)]
    omega

theorem entry_target_start (d : parametric_description) (u : Nat) (state : builder_state)
    (a : automaton) (tr : List (Option Nat)) (stack : List builder_state) (chi : Nat) :
    (entry_target d u state a tr stack chi).1.start = a.start := by
  unfold entry_target
  simp only []
  by_cases hdead : (d.transition state.state_id chi).1 = INVALID_STATE
  · rw [if_pos hdead]
  · rw [if_neg hdead]
    generalize (if (d.transition state.state_id chi).1 ≠ 0 then
      (d.transition state.state_id chi).2 + state.offset else 0) = off
    split
    · rfl
    · exact (new_state_spec a _ _).1

theorem process_fold_start (d : parametric_description) (u mask : Nat) (state : builder_state) :
    ∀ (l : List character) (s : entry_state),
      (l.foldl (process_entry d u mask state) s).a.start = s.a.start
  | [], _ => rfl
  | e :: l, s => by
    rw [List.foldl_cons, process_fold_start d u mask state l, (process_entry_a d u mask state s e).1]
    exact entry_target_start d u state _ _ _ _

theorem emit_arcs_start (p : Nat) (s : entry_state) : (emit_arcs p s).start = s.a.start := by
  unfold emit_arcs
  split_ifs with h1 h2
  · rfl
  · exact (foldl_EmplaceArc p (fun c => label.range c c) s.arcs s.a).1
  · unfold Utf8TransitionsBuilder.Insert
    have hfold := (foldl_EmplaceArc p label.cp s.arcs s.a).1
    cases hd : s.default_state with
    | none => exact hfold
    | some ds => exact hfold

theorem build_automaton_start (d : parametric_description) (alphabet : List character)
    (u mask : Nat) :
    ∀ (fuel : Nat) (a : automaton) (tr : List (Option Nat)) (stack : List builder_state)
      (a' : automaton),
      build_automaton d alphabet u mask fuel a tr stack = some a' → a'.start = a.start := by
  intro fuel
  induction fuel with
  | zero =>
    intro a tr stack a' hb
    cases stack with
    | nil =>
      simp only [build_automaton, Option.some.injEq] at hb
      rw [← hb]
    | cons state stack => simp [build_automaton] at hb
  | succ fuel ih =>
    intro a tr stack a' hb
    cases stack with
    | nil =>
      simp only [build_automaton, Option.some.injEq] at hb
      rw [← hb]
    | cons state stack =>
      unfold build_automaton at hb
      simp only [] at hb
      rw [ih _ _ _ a' hb, emit_arcs_start, process_fold_start]

theorem add_prefix_start : ∀ (pfx : List Nat) (a : automaton) (start : Nat),
    ( add_prefix pfx a start).1.start = a.start
  | [], _, _ => rfl
  | c :: cs, a, start => by
    unfold add_prefix
    simp only []
    rw [add_prefix_start cs]
    rfl

/-- The characteristic vectors that the automaton builder extracts for the entries of the
alphabet of a target: their bits lie inside the window and inside the target. -/
theorem alphabet_chi (X : List Nat) (n off : Nat) (hn : n ≤ MAX_DISTANCE) :
    ∀ e ∈ make_alphabet X,
      (∀ k, (chi_bitset e.chi off ((1 <<< chi_size n) - 1)).testBit k = true →
        off + k < X.length) ∧
      chi_bitset e.chi off ((1 <<< chi_size n) - 1) < chi_max (chi_size n) := by
  intro e he
  unfold make_alphabet at he
  simp only [] at he
  rcases List.mem_cons.mp he with e0 | he
  · rw [e0]
    simp only [chi_bitset_rho]
    exact ⟨fun k hk => absurd hk (by simp), chi_max_positive n⟩
  · obtain ⟨c, _, ec⟩ := List.mem_map.mp he
    rw [← ec]
    simp only []
    have hcs : chi_size n ≤ 64 := by
      unfold chi_size MAX_DISTANCE at *
      omega
    rw [chi_bitset_eq_chi X c _ off (chi_size n) (by omega) hcs]
    exact window_chi_bits X off (chi_size n) c

/-- Without a predicted number of states the state loop ends when every state has its
row. -/
theorem build_states_exit (n : Nat) (t : Bool) :
    ∀ (fuel : Nat) (states : parametric_states) (tr : List (Nat × Nat)) (from_id : Nat)
      (S : parametric_states) (T : List (Nat × Nat)),
      build_states n t 0 fuel states tr from_id = some (S, T) →
      tr.length = from_id * chi_max (chi_size n) →
      T.length = S.length * chi_max (chi_size n) := by
  intro fuel
  induction fuel with
  | zero =>
    intro states tr from_id S T h
    simp [build_states] at h
  | succ fuel ih =>
    intro states tr from_id S T h hlen
    unfold build_states at h
    by_cases hend : from_id = states.length
    · rw [if_pos hend] at h
      simp only [Option.some.injEq, Prod.mk.injEq] at h
      rw [← h.1, ← h.2, hlen, hend]
    · rw [if_neg hend] at h
      simp only [] at h
      rw [if_neg (by simp)] at h
      refine ih _ _ (from_id + 1) S T h ?_
      rw [List.length_append,
        (build_row_length n t _ (List.range (chi_max (chi_size n))) states []).1, hlen,
        List.length_range, List.length_nil]
      rw [Nat.add_mul]
      omega

set_option maxRecDepth 1000000 in
/-- Every transition of the tables for `max_distance <= 2` leads to a state of the
table. -/
theorem small_tables_closed (n : Nat) (t : Bool) (hn : n ≤ 2) :
    ∃ p d, make_parametric_description p n t = some d ∧
      ∀ tr ∈ d.transitions, tr.1 < d.num_states := by
  have h0 : n = 0 ∨ n = 1 ∨ n = 2 := by omega
  rcases h0 with h | h | h <;> subst h <;> cases t
  · exact ⟨_, _, make_parametric_description_0_false, by decide⟩
  · exact ⟨_, _, make_parametric_description_0_true, by decide⟩
  · exact ⟨_, _, make_parametric_description_1_false, by decide⟩
  · exact ⟨_, _, make_parametric_description_1_true, by decide⟩
  · exact ⟨_, _, make_parametric_description_2_false, by decide!⟩
  · exact ⟨_, _, make_parametric_description_2_true, by decide!⟩

/-- For `max_distance <= 2`, and when the number of states is not predicted, every
transition of the built description leads to one of its states. -/
theorem built_closed (fuel n : Nat) (t : Bool) (S : parametric_states)
    (T : List (Nat × Nat)) (h : parametric_description_states fuel n t = some (S, T))
    (hn : n ≤ MAX_DISTANCE) (hc : n ≤ 2 ∨ predict_num_states n t = 0) (s chi : Nat) :
    ((parametric_description.mk' T (distance_table S n) n).transition s chi).1 <
      (parametric_description.mk' T (distance_table S n) n).num_states := by
  obtain ⟨hinv, hpre, hrows, h2⟩ := parametric_description_states_spec fuel n t S T h
  have hmem : ∀ tr ∈ T, tr.1 < T.length / chi_max (chi_size n) := by
    rcases hc with hc | hc
    · obtain ⟨p, d, hd, hcl⟩ := small_tables_closed n t hc
      have e1 := make_parametric_description_fuel_mono p n t d hd fuel
      have e2 : make_parametric_description fuel n t =
          some (parametric_description.mk' T (distance_table S n) n) := by
        rw [make_parametric_description_eq fuel n t hn, h]
      have e3 := make_parametric_description_fuel_mono fuel n t _ e2 p
      rw [Nat.add_comm] at e3
      rw [e1] at e3
      have e4 : d = parametric_description.mk' T (distance_table S n) n := Option.some.inj e3
      rw [e4] at hcl
      exact hcl
    · have hexit : T.length = S.length * chi_max (chi_size n) := by
        unfold parametric_description_states at h
        rw [hc, Nat.zero_mul] at h
        exact build_states_exit n t fuel _ _ 0 S T h (by simp)
      intro tr htr
      obtain ⟨i, hi⟩ := List.mem_iff_getElem?.mp htr
      have hilt : i < T.length := (List.getElem?_eq_some_iff.mp hi).1
      have hpos := chi_max_positive n
      have hk : i / chi_max (chi_size n) < T.length / chi_max (chi_size n) := by
        rw [hexit, Nat.mul_div_cancel _ hpos]
        rw [hexit] at hilt
        exact (Nat.div_lt_iff_lt_mul hpos).mpr hilt
      obtain ⟨id, e1, e2⟩ := hrows.2.2 (i / chi_max (chi_size n)) (i % chi_max (chi_size n))
        hk (Nat.mod_lt _ hpos)
      have hidx : i / chi_max (chi_size n) * chi_max (chi_size n) + i % chi_max (chi_size n) = i :=
        Nat.div_add_mod' i _
      rw [hidx, hi] at e1
      have hid : tr.1 = id := by
        have := Option.some.inj e1
        rw [this]
      rw [hid, hexit, Nat.mul_div_cancel _ hpos]
      exact (List.getElem?_eq_some_iff.mp e2).1
  have htr : (parametric_description.mk' T (distance_table S n) n).transition s chi =
      T.getD (s * chi_max (chi_size n) + chi) (0, 0) := rfl
  have hnum : (parametric_description.mk' T (distance_table S n) n).num_states =
      T.length / chi_max (chi_size n) := rfl
  rw [htr, hnum, List.getD_eq_getElem?_getD]
  cases hx : T[s * chi_max (chi_size n) + chi]? with
  | none =>
    simp only [Option.getD_none]
    omega
  | some x =>
    simp only [Option.getD_some]
    exact hmem x (List.getElem?_mem hx)

/-- The loop over the alphabet of a target leads from a pair of state and offset that fits
the target to pairs that fit it. -/
theorem built_alphabet_step (fuel n : Nat) (t : Bool) (S : parametric_states)
    (T : List (Nat × Nat)) (h : parametric_description_states fuel n t = some (S, T))
    (hn : n ≤ MAX_DISTANCE) (X : List Nat) (ps off : Nat)
    (hfit : offset_fits X.length S ps off) :
    ∀ e ∈ make_alphabet X,
      ((parametric_description.mk' T (distance_table S n) n).transition ps
        (chi_bitset e.chi off
          ((1 <<< (parametric_description.mk' T (distance_table S n) n).chi_size) - 1))).1 ≠ 0 →
      offset_fits X.length S
        ((parametric_description.mk' T (distance_table S n) n).transition ps
          (chi_bitset e.chi off
            ((1 <<< (parametric_description.mk' T (distance_table S n) n).chi_size) - 1))).1
        (((parametric_description.mk' T (distance_table S n) n).transition ps
          (chi_bitset e.chi off
            ((1 <<< (parametric_description.mk' T (distance_table S n) n).chi_size) - 1))).2 +
          off) := by
  intro e he hlive
  have hcs : (parametric_description.mk' T (distance_table S n) n).chi_size = chi_size n := rfl
  rw [hcs] at hlive ⊢
  obtain ⟨b1, b2⟩ := alphabet_chi X n off hn e he
  rw [Nat.add_comm]
  exact offset_fits_step fuel n t S T h X.length ps off _ hfit b1 b2 hlive

/-- Every state that the automaton builder pops for a built description stands at an offset
inside the target. -/
theorem levenshtein_automaton_states_fit (fuel n : Nat) (t : Bool) (S : parametric_states)
    (T : List (Nat × Nat)) (h : parametric_description_states fuel n t = some (S, T))
    (hn : n ≤ MAX_DISTANCE) (fuel' : Nat) (pfx X : List Nat) :
    ∀ item ∈ levenshtein_automaton_states fuel'
        (parametric_description.mk' T (distance_table S n) n) pfx X,
      1 ≤ item.src ∧ offset_fits X.length S item.state_id item.offset := by
  unfold levenshtein_automaton_states
  simp only []
  exact build_automaton_states_tagged _ X (offset_fits X.length S) _ (make_alphabet X)
    (fun ps off hfit => built_alphabet_step fuel n t S T h hn X ps off hfit) fuel' _ _ _
    (initial_tagged _ X pfx (offset_fits X.length S) (offset_fits_start fuel n t S T h _)).2

/-- Every state that the automaton builder pops is an automaton state other than the
state 0, and a state of the returned automaton with the final weight of its pair; the
first is the state at the end of the chain of the prefix. -/
theorem levenshtein_automaton_states_spec (fuel : Nat) (d : parametric_description)
    (pfx X : List Nat) (a : automaton)
    (h : make_levenshtein_automaton fuel d pfx X = some a) :
    builder_tagged d X (fun _ _ => True) a (levenshtein_automaton_states fuel d pfx X) ∧
    (levenshtein_automaton_states fuel d pfx X).head? = some ⟨0, 1, 1 + pfx.length⟩ ∧
    a.start = some 1 := by
  unfold make_levenshtein_automaton at h
  unfold levenshtein_automaton_states
  simp only [] at h ⊢
  obtain ⟨hid, hinit⟩ := initial_tagged d X pfx (fun _ _ => True) trivial
  obtain ⟨_, r2⟩ := build_automaton_tagged d X (fun _ _ => True) _ (make_alphabet X)
    (fun _ _ _ _ _ _ => trivial) fuel _ _ _ a hinit h
  refine ⟨r2, ?_, ?_⟩
  · cases fuel with
    | zero => simp [build_automaton] at h
    | succ fuel =>
      unfold build_automaton_states
      simp only [List.head?_cons]
      rw [hid]
  · rw [build_automaton_start d _ _ _ fuel _ _ _ a h]
    have e : ∀ (b : automaton) (s w : Nat) (c : Prop) [Decidable c],
        (if c then b.SetFinal s w else b).start = b.start := by
      intro b s w c _
      split_ifs <;> rfl
    rw [e, add_prefix_start]
    rfl

end irs

namespace irs

/-! ## C25, C26 -/

/-- C25: in `make_levenshtein_automaton`, the automaton state made for the parametric
state `ns` at the offset `off'` (the entry pushed on the state stack) is final if and only
if `description.distance(ns, |W| - off') <= max_distance`, with that value as its weight,
and it is so in the returned automaton; the subtraction is the one on `size_t`, and the
difference of the numbers for a built description, where `off' <= |W|`.  The state
at the end of the chain of the prefix, the start state of the automaton for an empty
prefix, is final if and only if `description.distance(1, |W|) <= max_distance`, with that
weight; for a built description this is so exactly when `|W| <= max_distance`, and the
weight is `|W|`. -/
theorem automaton_final_states (fuel : Nat) (description : parametric_description)
    (pfx target : List Nat) (a : automaton)
    (h : make_levenshtein_automaton fuel description pfx target = some a) :
    (∀ (state : builder_state) (a0 : automaton) (tr : List (Option Nat))
      (stack : List builder_state) (chi : Nat),
      (description.transition state.state_id chi).1 ≠ 0 →
      tr.getD ((description.transition state.state_id chi).1 * (1 + target.length) +
        ((description.transition state.state_id chi).2 + state.offset)) none = none →
      (entry_target description target.length state a0 tr stack chi).2.2.1 =
        ⟨(description.transition state.state_id chi).2 + state.offset,
          (description.transition state.state_id chi).1, a0.states.length⟩ :: stack ∧
      (entry_target description target.length state a0 tr stack chi).1.states =
        a0.states ++
          [⟨if description.distance (description.transition state.state_id chi).1
                (sub_size_t target.length
                  ((description.transition state.state_id chi).2 + state.offset)) ≤
                description.max_distance then
              some (description.distance (description.transition state.state_id chi).1
                (sub_size_t target.length
                  ((description.transition state.state_id chi).2 + state.offset)))
            else none, []⟩]) ∧
    (∀ item ∈ levenshtein_automaton_states fuel description pfx target,
      ∃ st, a.states[item.src]? = some st ∧
        st.final =
          if description.distance item.state_id (sub_size_t target.length item.offset) ≤
              description.max_distance then
            some (description.distance item.state_id (sub_size_t target.length item.offset))
          else none) ∧
    (levenshtein_automaton_states fuel description pfx target).head? =
      some ⟨0, 1, 1 + pfx.length⟩ ∧
    a.start = some 1 ∧
    (∃ st, a.states[1 + pfx.length]? = some st ∧
      st.final =
        if description.distance 1 target.length ≤ description.max_distance then
          some (description.distance 1 target.length)
        else none) ∧
    (∀ (fuel' n : Nat) (t : Bool) (S : parametric_states) (T : List (Nat × Nat)),
      parametric_description_states fuel' n t = some (S, T) → n ≤ MAX_DISTANCE →
      description = parametric_description.mk' T (distance_table S n) n →
      (description.distance 1 target.length ≤ description.max_distance ↔ target.length ≤ n) ∧
      (target.length ≤ n → description.distance 1 target.length = target.length) ∧
      ∀ item ∈ levenshtein_automaton_states fuel description pfx target,
        item.offset ≤ target.length ∧
        sub_size_t target.length item.offset = target.length - item.offset) := by
  obtain ⟨htag, hhead, hstart⟩ := levenshtein_automaton_states_spec fuel description pfx target a h
  have hitems : ∀ item ∈ levenshtein_automaton_states fuel description pfx target,
      ∃ st, a.states[item.src]? = some st ∧
        st.final =
          if description.distance item.state_id (sub_size_t target.length item.offset) ≤
              description.max_distance then
            some (description.distance item.state_id (sub_size_t target.length item.offset))
          else none := by
    intro item hitem
    obtain ⟨_, _, st, hst, hf⟩ := htag.2 item hitem
    exact ⟨st, hst, hf⟩
  refine ⟨?_, hitems, hhead, hstart, ?_, ?_⟩
  · intro state a0 tr stack chi hlive hnone
    unfold entry_target
    simp only []
    have hdead : ¬ (description.transition state.state_id chi).1 = INVALID_STATE := hlive
    rw [if_neg hdead]
    have hoff : (if (description.transition state.state_id chi).1 ≠ 0 then
        (description.transition state.state_id chi).2 + state.offset else 0) =
        (description.transition state.state_id chi).2 + state.offset := if_pos hlive
    rw [hoff]
    simp only [hnone]
    exact ⟨rfl, (new_state_spec a0 _ _).2⟩
  · have hmem : (⟨0, 1, 1 + pfx.length⟩ : builder_state) ∈
        levenshtein_automaton_states fuel description pfx target := by
      cases hl : levenshtein_automaton_states fuel description pfx target with
      | nil => rw [hl] at hhead; simp at hhead
      | cons x xs =>
        rw [hl] at hhead
        simp only [List.head?_cons, Option.some.injEq] at hhead
        rw [hhead]
        exact List.mem_cons_self _ _
    obtain ⟨st, hst, hf⟩ := hitems _ hmem
    simp only [sub_size_t_zero] at hf
    exact ⟨st, hst, hf⟩
  · intro fuel' n t S T hS hn hd
    have hdist := built_distance_start fuel' n t S T hS hn target.length
    have hmax : (parametric_description.mk' T (distance_table S n) n).max_distance = n := rfl
    rw [hd, hdist, hmax]
    refine ⟨by omega, fun _ => by omega, ?_⟩
    intro item hitem
    obtain ⟨_, hle, _⟩ := levenshtein_automaton_states_fit fuel' n t S T hS hn fuel pfx target
      item hitem
    refine ⟨hle, ?_⟩
    unfold sub_size_t
    rw [if_pos hle]

set_option maxRecDepth 1000000 in
theorem automaton_final_states_witness :
    make_levenshtein_automaton 10 description_1_false [98] [97] = some sample_automaton ∧
    sample_automaton.start = some 1 ∧
    ∃ st, sample_automaton.states[1 + [98].length]? = some st ∧
      st.final =
        if description_1_false.distance 1 [97].length ≤ description_1_false.max_distance then
          some (description_1_false.distance 1 [97].length)
        else none :=
  ⟨by decide,
    (automaton_final_states 10 description_1_false [98] [97] sample_automaton
      (by decide)).2.2.2.1,
    (automaton_final_states 10 description_1_false [98] [97] sample_automaton
      (by decide)).2.2.2.2.1⟩

/-- C26: in every automaton that `make_levenshtein_automaton` returns, the state 0 (the
invalid state) is a terminal sink: it has no arcs and is not final, and no state whose
arcs the loop over the state stack emits is the state 0; a transition into the parametric
state 0 has the automaton state 0 as its target, makes no state, and its arc or default
arc leads to the state 0. -/
theorem invalid_state_sink (fuel : Nat) (description : parametric_description)
    (pfx target : List Nat) (a : automaton)
    (h : make_levenshtein_automaton fuel description pfx target = some a) :
    a.states[0]? = some ⟨none, []⟩ ∧
    a.Final INVALID_STATE = false ∧
    (∀ item ∈ levenshtein_automaton_states fuel description pfx target, 1 ≤ item.src) ∧
    (∀ (state : builder_state) (a0 : automaton) (tr : List (Option Nat))
      (stack : List builder_state) (chi : Nat),
      (description.transition state.state_id chi).1 = 0 →
      entry_target description target.length state a0 tr stack chi =
        (a0, tr.set 0 (some INVALID_STATE), stack, INVALID_STATE)) ∧
    (∀ (mask : Nat) (state : builder_state) (s : entry_state) (entry : character),
      (description.transition state.state_id
        (chi_bitset entry.chi state.offset mask)).1 = 0 →
      (process_entry description target.length mask state s entry).a = s.a ∧
      (process_entry description target.length mask state s entry).stack = s.stack ∧
      (((process_entry description target.length mask state s entry).arcs =
          s.arcs ++ [(entry.cp, INVALID_STATE)] ∧
        (process_entry description target.length mask state s entry).default_state =
          s.default_state) ∨
        ((process_entry description target.length mask state s entry).arcs = s.arcs ∧
          (process_entry description target.length mask state s entry).default_state =
            some INVALID_STATE))) := by
  obtain ⟨htag, _, _⟩ := levenshtein_automaton_states_spec fuel description pfx target a h
  have hdead : ∀ (state : builder_state) (a0 : automaton) (tr : List (Option Nat))
      (stack : List builder_state) (chi : Nat),
      (description.transition state.state_id chi).1 = 0 →
      entry_target description target.length state a0 tr stack chi =
        (a0, tr.set 0 (some INVALID_STATE), stack, INVALID_STATE) := by
    intro state a0 tr stack chi hz
    unfold entry_target
    simp only []
    have hz' : (description.transition state.state_id chi).1 = INVALID_STATE := hz
    rw [if_pos hz']
    have hoff : (if (description.transition state.state_id chi).1 ≠ 0 then
        (description.transition state.state_id chi).2 + state.offset else 0) = 0 :=
      if_neg (by rw [hz]; simp)
    rw [hoff, hz]
    simp
  refine ⟨htag.1, ?_, fun item hitem => (htag.2 item hitem).1, hdead, ?_⟩
  · unfold automaton.Final
    have e : a.states.get? INVALID_STATE = some ⟨none, []⟩ := by
      rw [List.get?_eq_getElem?]
      exact htag.1
    rw [e]
    rfl
  · intro mask state s entry hz
    have ht := hdead state s.a s.transitions s.stack (chi_bitset entry.chi state.offset mask) hz
    unfold process_entry
    simp only [ht]
    split_ifs with hc
    · exact ⟨rfl, rfl, Or.inl ⟨rfl, rfl⟩⟩
    · exact ⟨rfl, rfl, Or.inr ⟨rfl, rfl⟩⟩

set_option maxRecDepth 1000000 in
theorem invalid_state_sink_witness :
    make_levenshtein_automaton 10 description_1_false [98] [97] = some sample_automaton ∧
    sample_automaton.states[0]? = some ⟨none, []⟩ ∧
    sample_automaton.Final INVALID_STATE = false :=
  ⟨by decide,
    (invalid_state_sink 10 description_1_false [98] [97] sample_automaton (by decide)).1,
    (invalid_state_sink 10 description_1_false [98] [97] sample_automaton (by decide)).2.1⟩

end irs

namespace irs

/-! ## C31, C32, C34, C40: assertions, the checked overload, the prefix loop, the bitset -/

theorem edit_distance_out_loop_eq (d : parametric_description) (lhs_chars : List Nat) :
    ∀ (fuel : Nat) (rhs : List Nat) (state offset distance : Nat),
      edit_distance_out_loop d lhs_chars fuel rhs state offset distance =
        match edit_distance_checked_loop d lhs_chars fuel rhs state offset with
        | none => (false, distance)
        | some v => (true, v) := by
  intro fuel
  induction fuel with
  | zero =>
    intro rhs state offset distance
    cases rhs with
    | nil => rfl
    | cons b rhs => rfl
  | succ fuel ih =>
    intro rhs state offset distance
    cases rhs with
    | nil => rfl
    | cons b rhs =>
      unfold edit_distance_out_loop edit_distance_checked_loop
      cases hc : ToChar32 (b :: rhs) with
      | none => rfl
      | some p =>
        obtain ⟨c, rest⟩ := p
        simp only []
        split_ifs
        · rfl
        · exact ih _ _ _ _

theorem edit_distance_out_eq (distance : Nat) (d : parametric_description) (lhs rhs : List Nat) :
    edit_distance_out distance d lhs rhs =
      match edit_distance_checked d lhs rhs with
      | none => (false, distance)
      | some v => (true, v) := by
  unfold edit_distance_out edit_distance_checked
  cases ToUTF32 lhs with
  | none => rfl
  | some l => exact edit_distance_out_loop_eq d l _ _ _ _ _

/-- C32: for every description and all valid UTF-8 byte strings `lhs` and `rhs`, the
checked `edit_distance` returns true and stores in `distance` the value that the
unchecked overload returns for the code points of the two words; and whenever it returns
false, for any arguments, `distance` is what it was before the call. -/
theorem edit_distance_checked_refines (d : parametric_description) (distance : Nat)
    (lhs rhs l r : List Nat) (hl : ToUTF32 lhs = some l) (hr : ToUTF32 rhs = some r) :
    edit_distance_out distance d lhs rhs = (true, edit_distance d l r) ∧
    ∀ (distance' : Nat) (lhs' rhs' : List Nat),
      (edit_distance_out distance' d lhs' rhs').1 = false →
        (edit_distance_out distance' d lhs' rhs').2 = distance' := by
  constructor
  · rw [edit_distance_out_eq, edit_distance_checked_valid d lhs rhs l r hl hr]
  · intro distance' lhs' rhs' h
    rw [edit_distance_out_eq] at h ⊢
    cases hc : edit_distance_checked d lhs' rhs' with
    | none => rfl
    | some v =>
      rw [hc] at h
      simp at h

theorem edit_distance_checked_refines_witness :
    ToUTF32 [0x61, 0xC3, 0xA9] = some [0x61, 0xE9] ∧ ToUTF32 [0x61] = some [0x61] ∧
    edit_distance_out 7 description_1_false [0x61, 0xC3, 0xA9] [0x61] =
      (true, edit_distance description_1_false [0x61, 0xE9] [0x61]) ∧
    edit_distance description_1_false [0x61, 0xE9] [0x61] = 1 ∧
    edit_distance_out 7 description_1_false [0x61] [0xFF] = (false, 7) :=
  ⟨by decide, by decide,
    (edit_distance_checked_refines description_1_false 7 [0x61, 0xC3, 0xA9] [0x61]
      [0x61, 0xE9] [0x61] (by decide) (by decide)).1,
    by decide, by decide⟩

theorem prefix_loop_reaches (rdr : sub_reader) (p : List Nat) (cur : column_meta)
    (rest : List column_meta) (hsw : starts_with cur.name p = true)
    (hr : rdr.column_reader_by_id cur.id = none) :
    ∀ (pre : List column_meta) (fuel : Nat) (itrs : List column_existence_iterator),
      (∀ m ∈ pre, starts_with m.name p = true ∧
        (rdr.column_reader_by_id m.id).isSome = true) →
      match pre ++ cur :: rest with
      | [] => True
      | first :: others => prefix_loop rdr p fuel first others itrs = none
  | [], fuel, itrs, _ => prefix_loop_stuck rdr p cur rest hsw hr fuel itrs
  | m :: pre, 0, itrs, _ => rfl
  | m :: pre, fuel + 1, itrs, hpre => by
    obtain ⟨h1, h2⟩ := hpre m (List.mem_cons_self _ _)
    simp only [List.cons_append]
    unfold prefix_loop
    rw [if_pos h1]
    cases hm : rdr.column_reader_by_id m.id with
    | none => rw [hm] at h2; simp at h2
    | some column =>
      simp only []
      have hrec := prefix_loop_reaches rdr p cur rest hsw hr pre fuel
        (itrs ++ [{ it_ := column.iterator, cost_ := column.size }])
        (fun x hx => hpre x (List.mem_cons_of_mem _ hx))
      cases hl : pre ++ cur :: rest with
      | nil => simp at hl
      | cons first others =>
        rw [hl] at hrec
        exact hrec

/-- C34 fails on the code when `column_reader(id)` returns null for a column whose name
starts with the prefix: the loop of `column_prefix_existence_query::execute` then takes
`continue` without advancing the columns iterator, and meets the same column at every
iteration, so that `execute` returns for no bound on its iterations.  This holds for any
such column that the loop reaches, the columns before it having the prefix and a reader.
When every column of the segment has a reader, `execute` returns within as many
iterations as the segment has columns. -/
theorem prefix_execute_diverges (rdr : sub_reader) (prefix_ : List Nat)
    (pre : List column_meta) (cur : column_meta) (rest : List column_meta)
    (hcols : rdr.columns.dropWhile (fun m => bytes_lt m.name prefix_) = pre ++ cur :: rest)
    (hpre : ∀ m ∈ pre, starts_with m.name prefix_ = true ∧
      (rdr.column_reader_by_id m.id).isSome = true)
    (hsw : starts_with cur.name prefix_ = true)
    (hr : rdr.column_reader_by_id cur.id = none) :
    (∀ fuel, column_prefix_existence_query.execute fuel prefix_ rdr = none) ∧
    (∀ (fuel : Nat) (itrs : List column_existence_iterator),
      prefix_loop rdr prefix_ (fuel + 1) cur rest itrs =
        prefix_loop rdr prefix_ fuel cur rest itrs) ∧
    ∀ (rdr' : sub_reader) (fuel : Nat),
      (∀ m ∈ rdr'.columns, (rdr'.column_reader_by_id m.id).isSome = true) →
      rdr'.columns.length ≤ fuel →
      (column_prefix_existence_query.execute fuel prefix_ rdr').isSome = true := by
  refine ⟨?_, ?_, ?_⟩
  · intro fuel
    unfold column_prefix_existence_query.execute
    rw [hcols]
    have h := prefix_loop_reaches rdr prefix_ cur rest hsw hr pre fuel [] hpre
    cases hl : pre ++ cur :: rest with
    | nil => simp at hl
    | cons first others =>
      rw [hl] at h
      simp only [h]
  · intro fuel itrs
    rw [prefix_loop_stuck rdr prefix_ cur rest hsw hr, prefix_loop_stuck rdr prefix_ cur rest hsw hr]
  · intro rdr' fuel hall hfuel
    rw [prefix_execute_spec rdr' prefix_ fuel hall hfuel]
    rfl

theorem prefix_execute_diverges_witness :
    starts_with [97, 98] [97] = true ∧
    sub_reader.column_reader_by_id
      { columns := [⟨[97], 0⟩, ⟨[97, 98], 1⟩], readers := [(0, sample_column)] } 1 = none ∧
    column_prefix_existence_query.execute 1000 [97]
      { columns := [⟨[97], 0⟩, ⟨[97, 98], 1⟩], readers := [(0, sample_column)] } = none :=
  ⟨by decide, by decide,
    (prefix_execute_diverges
      { columns := [⟨[97], 0⟩, ⟨[97, 98], 1⟩], readers := [(0, sample_column)] } [97]
      [⟨[97], 0⟩] ⟨[97, 98], 1⟩ [] (by decide) (by decide) (by decide) (by decide)).1 1000⟩

/-- C40: for every target word `W` (its code points), every code point `c`, every offset
of at most `|W|` and every `chi_size <= 63`, the window that the automaton builder
extracts with `chi(bitset, offset, mask)` from the characteristic bitset that
`make_alphabet` makes for `c` equals the characteristic vector that `edit_distance`
computes with `chi(begin, end, c)` over `W[offset .. min(offset + chi_size, |W|))`; the
words of the bitset it reads are within the words of the bitset, which has room for
`|W| + 64` bits; and a description of that `chi_size` is asked for the same transition on
both paths. -/
theorem chi_bitset_window (W : List Nat) (c offset cs : Nat) (hoff : offset ≤ W.length)
    (hcs : cs ≤ 63) :
    chi_bitset (make_bitset W c ((W.length + 64 + 63) / 64)) offset ((1 <<< cs) - 1) =
      chi ((W.take (min (offset + cs) W.length)).drop offset) c 0 0 ∧
    (∀ word ∈ chi_bitset_words offset,
      word < (make_bitset W c ((W.length + 64 + 63) / 64)).length) ∧
    (c ∈ W →
      (⟨make_bitset W c ((W.length + 64 + 63) / 64), utf8_size c, c⟩ : character) ∈
        make_alphabet W) ∧
    ∀ (d : parametric_description) (state : Nat), d.chi_size = cs →
      d.transition state
          (chi_bitset (make_bitset W c ((W.length + 64 + 63) / 64)) offset
            ((1 <<< d.chi_size) - 1)) =
        d.transition state (window_chi d W offset c) := by
  have h1 := chi_bitset_eq_chi W c ((W.length + 64 + 63) / 64) offset cs (by omega)
    (by omega)
  refine ⟨h1, ?_, ?_, ?_⟩
  · intro word hword
    have hlen : (make_bitset W c ((W.length + 64 + 63) / 64)).length =
        (W.length + 64 + 63) / 64 := by
      unfold make_bitset
      rw [List.length_map, List.length_range]
    rw [hlen]
    unfold chi_bitset_words at hword
    simp only [] at hword
    split_ifs at hword with ha
    · rw [List.mem_singleton.mp hword]
      omega
    · simp only [List.mem_cons, List.mem_singleton, List.not_mem_nil, or_false] at hword
      rcases hword with h | h <;> rw [h] <;> omega
  · intro hc
    unfold make_alphabet
    simp only []
    refine List.mem_cons_of_mem _ (List.mem_map.mpr ⟨c, (mem_sort_unique c W).mpr hc, rfl⟩)
  · intro d state hd
    rw [hd, h1]
    unfold window_chi
    rw [hd]

theorem chi_bitset_window_witness :
    chi_bitset (make_bitset [97, 98, 97] 97 (([97, 98, 97].length + 64 + 63) / 64)) 1
        ((1 <<< 3) - 1) = 2 ∧
    chi_bitset (make_bitset [97, 98, 97] 97 (([97, 98, 97].length + 64 + 63) / 64)) 1
        ((1 <<< 3) - 1) =
      chi (([97, 98, 97].take (min (1 + 3) [97, 98, 97].length)).drop 1) 97 0 0 :=
  ⟨by decide,
    (chi_bitset_window [97, 98, 97] 97 1 3 (by decide) (by decide)).1⟩

end irs

namespace irs

/-! ## C36, C37, C38, C39: the streams and the link meta -/

/-- C36 fails on the code when the model returns no neighbour for a token, as it does for
`top_k = 0`, which `parse_vpack_options` accepts: `next` sets `neighbors_it_` to the
begin of the empty list, which is its end, and reads the element there.  This is so after
`reset` for the first token of the line, and in every state in which the neighbours are
consumed and a token is left.  When the list that the model returns is not empty, the
call emits its first element, and with all neighbours and tokens consumed `next` returns
false. -/
theorem next_reads_end (getNN : Nat → Nat → List (List Nat)) (s : nearest_neighbors_stream)
    (hend : s.neighbors_it_ = s.neighbors_.length)
    (htoken : s.current_token_ind_ ≠ s.n_tokens_)
    (hnone : getNN (s.line_token_ids_.getD s.current_token_ind_ 0) s.top_k_ = []) :
    parse_top_k 0 = some 0 ∧
    s.next getNN = next_outcome.reads_end ∧
    (∀ (s0 : nearest_neighbors_stream) (token : Nat) (tokens : List Nat),
      getNN token s0.top_k_ = [] →
      (s0.reset (token :: tokens)).next getNN = next_outcome.reads_end) ∧
    (∀ (s' : nearest_neighbors_stream) (neighbor : List Nat) (others : List (List Nat)),
      s'.neighbors_it_ = s'.neighbors_.length → s'.current_token_ind_ ≠ s'.n_tokens_ →
      getNN (s'.line_token_ids_.getD s'.current_token_ind_ 0) s'.top_k_ = neighbor :: others →
      s'.next getNN =
        next_outcome.emitted
          { s' with
            neighbors_ := neighbor :: others
            neighbors_it_ := 1
            current_token_ind_ := s'.current_token_ind_ + 1 } neighbor 1) ∧
    (∀ s' : nearest_neighbors_stream,
      s'.neighbors_it_ = s'.neighbors_.length → s'.current_token_ind_ = s'.n_tokens_ →
      s'.next getNN = next_outcome.finished s') := by
  refine ⟨by decide, ?_, ?_, ?_, ?_⟩
  · unfold nearest_neighbors_stream.next
    rw [if_neg (fun h => htoken h.2)]
    simp only [hend, if_true, hnone]
    rfl
  · intro s0 token tokens h0
    unfold nearest_neighbors_stream.next nearest_neighbors_stream.reset
    simp [h0]
  · intro s' neighbor others h1 h2 h3
    unfold nearest_neighbors_stream.next
    rw [if_neg (fun h => h2 h.2)]
    simp only [h1, if_true, h3]
    simp
  · intro s' h1 h2
    unfold nearest_neighbors_stream.next
    rw [if_pos ⟨h1, h2⟩]

theorem next_reads_end_witness :
    parse_top_k 0 = some 0 ∧
    ({ line_token_ids_ := [], n_tokens_ := 0, current_token_ind_ := 0, neighbors_ := [],
        neighbors_it_ := 0, top_k_ := 0 } : nearest_neighbors_stream).reset [5] =
      { line_token_ids_ := [5], n_tokens_ := 1, current_token_ind_ := 0, neighbors_ := [],
        neighbors_it_ := 0, top_k_ := 0 } ∧
    ({ line_token_ids_ := [5], n_tokens_ := 1, current_token_ind_ := 0, neighbors_ := [],
        neighbors_it_ := 0, top_k_ := 0 } : nearest_neighbors_stream).next
      (fun token k => List.replicate k [token]) = next_outcome.reads_end :=
  ⟨by decide, by decide,
    (next_reads_end (fun token k => List.replicate k [token])
      { line_token_ids_ := [5], n_tokens_ := 1, current_token_ind_ := 0, neighbors_ := [],
        neighbors_it_ := 0, top_k_ := 0 } (by decide) (by decide) (by decide)).2.1⟩

theorem recode_loop_spec (recalc : Nat → Nat) (raw : Nat → Nat)
    (hrecalc : ∀ b, 1 ≤ recalc b) :
    ∀ (count i idx : Nat) (accesses : List Nat),
      i + count ≤ MAX_TOKEN_SIZE → idx ≤ MAX_TOKEN_SIZE →
      (∀ x ∈ accesses, x < MAX_TOKEN_SIZE) →
      (∀ x ∈ (recode_loop recalc raw count i idx accesses).accesses, x < MAX_TOKEN_SIZE) ∧
      ∀ size, (recode_loop recalc raw count i idx accesses).term_size = some size →
        size ≤ MAX_TOKEN_SIZE := by
  intro count
  induction count with
  | zero =>
    intro i idx accesses _ hidx hacc
    unfold recode_loop
    exact ⟨hacc, fun size h => by rw [← Option.some.inj h]; exact hidx⟩
  | succ count ih =>
    intro i idx accesses hi hidx hacc
    unfold recode_loop
    simp only []
    have h1 := hrecalc (raw i)
    by_cases hover : idx + recalc (raw i) > MAX_TOKEN_SIZE
    · rw [if_pos hover]
      refine ⟨?_, fun size h => by simp at h⟩
      intro x hx
      rcases List.mem_append.mp hx with h | h
      · exact hacc x h
      · rw [List.mem_singleton.mp h]
        omega
    · rw [if_neg hover]
      by_cases h2 : recalc (raw i) = 2
      · rw [if_pos h2]
        apply ih (i + 1) (idx + 2) _ (by omega) (by omega)
        intro x hx
        rcases List.mem_append.mp hx with h | h
        · exact hacc x h
        · simp only [List.mem_cons, List.mem_singleton, List.not_mem_nil, or_false] at h
          rcases h with h | h | h <;> omega
      · rw [if_neg h2]
        apply ih (i + 1) (idx + 1) _ (by omega) (by omega)
        intro x hx
        rcases List.mem_append.mp hx with h | h
        · exact hacc x h
        · simp only [List.mem_cons, List.mem_singleton, List.not_mem_nil, or_false] at h
          rcases h with h | h <;> omega

/-- C37 fails on the code for a sort key of more than `MAX_TOKEN_SIZE` bytes: the
assertion reads `buf[term_size]` after the decrement and before the size is checked, at
an index that is not smaller than `MAX_TOKEN_SIZE`; for a sort key of
`MAX_TOKEN_SIZE + 1` bytes the check `term_size > sizeof raw_term_buf` then lets the size
pass and `reset` returns true.  For a positive size of at most `MAX_TOKEN_SIZE` every
index that `reset` reads or writes is smaller than `MAX_TOKEN_SIZE`, and a term has at
most `MAX_TOKEN_SIZE` bytes, also with `forceUtf8`, when every byte is recoded to at least
one byte. -/
theorem collation_reset_reads_past (forceUtf8 : Bool) (recalc : Nat → Nat) (raw : Nat → Nat)
    (key_size : Nat) (hsize : MAX_TOKEN_SIZE < key_size) :
    (∃ x ∈ (collation_reset forceUtf8 recalc raw key_size).accesses, MAX_TOKEN_SIZE ≤ x) ∧
    collation_reset false recalc raw (MAX_TOKEN_SIZE + 1) =
      { accesses := [MAX_TOKEN_SIZE], term_size := some MAX_TOKEN_SIZE } ∧
    ∀ (force : Bool) (size : Nat), 0 < size → size ≤ MAX_TOKEN_SIZE →
      (∀ b, 1 ≤ recalc b) →
      (∀ x ∈ (collation_reset force recalc raw size).accesses, x < MAX_TOKEN_SIZE) ∧
      ∀ term, (collation_reset force recalc raw size).term_size = some term →
        term ≤ MAX_TOKEN_SIZE := by
  have hfirst : ∀ (count i idx : Nat) (accesses : List Nat) (x : Nat), x ∈ accesses →
      x ∈ (recode_loop recalc raw count i idx accesses).accesses := by
    intro count
    induction count with
    | zero =>
      intro i idx accesses x hx
      unfold recode_loop
      exact hx
    | succ count ih =>
      intro i idx accesses x hx
      unfold recode_loop
      simp only []
      split_ifs
      · exact List.mem_append_left _ hx
      · exact ih _ _ _ x (List.mem_append_left _ hx)
      · exact ih _ _ _ x (List.mem_append_left _ hx)
  refine ⟨?_, ?_, ?_⟩
  · refine ⟨key_size - 1, ?_, by omega⟩
    unfold collation_reset
    simp only []
    split_ifs
    · exact List.mem_singleton.mpr rfl
    · exact hfirst _ _ _ _ _ (List.mem_singleton.mpr rfl)
    · exact List.mem_singleton.mpr rfl
  · unfold collation_reset
    simp
  · intro force size h0 hle hrecalc
    unfold collation_reset
    simp only []
    rw [if_neg (by omega)]
    have hacc : ∀ x ∈ [size - 1], x < MAX_TOKEN_SIZE := by
      intro x hx
      rw [List.mem_singleton.mp hx]
      omega
    cases force with
    | true =>
      simp only [if_true]
      exact recode_loop_spec recalc raw hrecalc (size - 1) 0 0 _ (by omega) (Nat.zero_le _) hacc
    | false =>
      simp only [Bool.false_eq_true, if_false]
      exact ⟨hacc, fun term h => by rw [← Option.some.inj h]; omega⟩

theorem collation_reset_reads_past_witness :
    MAX_TOKEN_SIZE < 32769 ∧
    ∃ x ∈ (collation_reset false (fun b => if b < 128 then 1 else 2) (fun _ => 0)
      32769).accesses, MAX_TOKEN_SIZE ≤ x :=
  ⟨by decide,
    (collation_reset_reads_past false (fun b => if b < 128 then 1 else 2) (fun _ => 0) 32769
      (by decide)).1⟩

theorem erase_pair_perm (pair : List Nat × List Nat) :
    ∀ l : List (List Nat × List Nat), pair ∈ l → l.Perm (pair :: erase_pair pair l)
  | [], h => absurd h (List.not_mem_nil _)
  | q :: qs, h => by
    unfold erase_pair
    by_cases e : q = pair
    · rw [if_pos e, e]
    · rw [if_neg e]
      have hmem : pair ∈ qs := by
        rcases List.mem_cons.mp h with h | h
        · exact absurd h.symm e
        · exact h
      exact ((erase_pair_perm pair qs hmem).cons q).trans (List.Perm.swap pair q _)

theorem equalTokenizers_loop_iff : ∀ (rhs : List tokenizer_entry)
    (expected : List (List Nat × List Nat)),
    equalTokenizers_loop rhs expected = true ↔
      (rhs.map (fun entry => (entry.name, entry.args))).Subperm expected
  | [], expected => by
    simp [equalTokenizers_loop, List.nil_subperm]
  | entry :: rhs, expected => by
    unfold equalTokenizers_loop
    by_cases hmem : (entry.name, entry.args) ∈ expected
    · rw [if_pos hmem, equalTokenizers_loop_iff rhs, List.map_cons]
      have hperm := erase_pair_perm (entry.name, entry.args) expected hmem
      constructor
      · intro h
        exact ((List.subperm_cons (entry.name, entry.args)).mpr h).trans hperm.symm.subperm
      · intro h
        exact (List.subperm_cons (entry.name, entry.args)).mp (h.trans hperm.subperm)
    · rw [if_neg hmem, List.map_cons]
      constructor
      · intro h
        exact absurd h (by simp)
      · intro h
        exact absurd (h.subset (List.mem_cons_self _ _)) hmem

/-- C38: `equalTokenizers(lhs, rhs)` returns true if and only if the pairs of name and
args of `lhs` are a permutation of those of `rhs`, that is, every pair occurs as often in
the one as in the other, whatever the order; it is reflexive and symmetric, and two lists
in which a pair occurs a different number of times are unequal. -/
theorem equalTokenizers_iff (lhs rhs : List tokenizer_entry) :
    (equalTokenizers lhs rhs = true ↔
      (lhs.map (fun entry => (entry.name, entry.args))).Perm
        (rhs.map (fun entry => (entry.name, entry.args)))) ∧
    (equalTokenizers lhs rhs = true ↔
      ∀ pair : List Nat × List Nat,
        (lhs.map (fun entry => (entry.name, entry.args))).countP (fun q => decide (q = pair)) =
          (rhs.map (fun entry => (entry.name, entry.args))).countP
            (fun q => decide (q = pair))) ∧
    equalTokenizers lhs lhs = true ∧
    equalTokenizers lhs rhs = equalTokenizers rhs lhs := by
  have hiff : ∀ l r : List tokenizer_entry, equalTokenizers l r = true ↔
      (l.map (fun entry => (entry.name, entry.args))).Perm
        (r.map (fun entry => (entry.name, entry.args))) := by
    intro l r
    unfold equalTokenizers
    by_cases hlen : l.length ≠ r.length
    · rw [if_pos hlen]
      constructor
      · intro h
        exact absurd h (by simp)
      · intro h
        have := h.length_eq
        simp only [List.length_map] at this
        exact absurd this hlen
    · rw [if_neg hlen, equalTokenizers_loop_iff]
      have hlen' : l.length = r.length := by
        by_contra hc
        exact hlen hc
      constructor
      · intro h
        exact (h.perm_of_length_le (by simp only [List.length_map]; omega)).symm
      · intro h
        exact h.symm.subperm
  refine ⟨hiff lhs rhs, ?_, (hiff lhs lhs).mpr (List.Perm.refl _), ?_⟩
  · rw [hiff lhs rhs]
    constructor
    · intro h pair
      exact h.countP_eq _
    · intro h
      refine (@List.perm_iff_count (List Nat × List Nat) _
        (lhs.map (fun entry => (entry.name, entry.args)))
        (rhs.map (fun entry => (entry.name, entry.args)))).mpr ?_
      intro a
      exact h a
  · cases h1 : equalTokenizers lhs rhs with
    | true => exact ((hiff rhs lhs).mpr ((hiff lhs rhs).mp h1).symm).symm
    | false =>
      cases h2 : equalTokenizers rhs lhs with
      | true =>
        rw [(hiff lhs rhs).mpr ((hiff rhs lhs).mp h2).symm] at h1
        exact absurd h1 (by simp)
      | false => rfl

theorem equalTokenizers_iff_witness :
    equalTokenizers [⟨[97], [1]⟩, ⟨[98], [2]⟩, ⟨[97], [1]⟩]
      [⟨[97], [1]⟩, ⟨[97], [1]⟩, ⟨[98], [2]⟩] = true ∧
    equalTokenizers [⟨[97], [1]⟩, ⟨[98], [2]⟩, ⟨[97], [1]⟩]
      [⟨[97], [1]⟩, ⟨[98], [2]⟩, ⟨[98], [2]⟩] = false ∧
    equalTokenizers [⟨[97], [1]⟩, ⟨[98], [2]⟩] [⟨[97], [1]⟩, ⟨[98], [2]⟩] = true :=
  ⟨by decide, by decide, (equalTokenizers_iff [⟨[97], [1]⟩, ⟨[98], [2]⟩] []).2.2.1⟩

/-- C39 fails on the code: `IResearchLinkMeta::init` passes its own `errorField` to the
call for a nested field and then builds the path from `childErrorField`, which is never
written.  When the definition of a nested field `name` under `fields` is refused, `init`
returns false with `errorField` equal to `fields=>name=>`, whatever error field the
nested call has reported; for the slice `{"fields": {"a": {"boost": true}}}` the
nested call reports `boost` and `init` reports `fields=>a=>`, not `fields=>a=>boost`. -/
theorem init_nested_error_lost (emplace : String → vpack → Bool) (name : String)
    (nested : List (vpack × vpack)) (others : List (vpack × vpack)) (index : Nat)
    (errorField : String)
    (hfail : (IResearchLinkMeta.init emplace (vpack.object nested) errorField).1 = false) :
    IResearchLinkMeta.init_fields emplace
        ((vpack.string name, vpack.object nested) :: others) index errorField =
      (false, "fields=>" ++ name ++ "=>") ∧
    IResearchLinkMeta.init emplace
        (vpack.object [(vpack.string "fields",
          vpack.object ((vpack.string name, vpack.object nested) :: others))]) errorField =
      (false, "fields=>" ++ name ++ "=>") ∧
    IResearchLinkMeta.init emplace
        (vpack.object [(vpack.string "boost", vpack.bool true)]) "" = (false, "boost") ∧
    IResearchLinkMeta.init emplace
        (vpack.object [(vpack.string "fields",
          vpack.object [(vpack.string "a",
            vpack.object [(vpack.string "boost", vpack.bool true)])])]) "" =
      (false, "fields=>a=>") := by
  have h1 : ∀ k, IResearchLinkMeta.init_fields emplace
      ((vpack.string name, vpack.object nested) :: others) k errorField =
      (false, "fields=>" ++ name ++ "=>") := by
    intro k
    rw [IResearchLinkMeta.init_fields]
    simp only [hfail, if_true]
    have e : "fields" ++ "=>" = "fields=>" := by decide
    rw [String.append_empty, e]
  have hboost : IResearchLinkMeta.init emplace
      (vpack.object [(vpack.string "boost", vpack.bool true)]) "" = (false, "boost") := by
    rw [IResearchLinkMeta.init]
    rfl
  refine ⟨h1 index, ?_, hboost, ?_⟩
  · rw [IResearchLinkMeta.init]
    have ha : init_attributes emplace [(vpack.string "fields",
        vpack.object ((vpack.string name, vpack.object nested) :: others))] = none := by
      rfl
    rw [ha]
    simp only []
    rw [IResearchLinkMeta.init_fields_of]
    have hk : (vpack.string "fields").isKey "fields" = true := by decide
    rw [if_pos hk]
    exact h1 0
  · rw [IResearchLinkMeta.init]
    have ha : init_attributes emplace [(vpack.string "fields",
        vpack.object [(vpack.string "a",
          vpack.object [(vpack.string "boost", vpack.bool true)])])] = none := by
      rfl
    rw [ha]
    simp only []
    rw [IResearchLinkMeta.init_fields_of]
    have hk : (vpack.string "fields").isKey "fields" = true := by decide
    rw [if_pos hk, IResearchLinkMeta.init_fields, hboost]
    rfl

theorem init_nested_error_lost_witness :
    (IResearchLinkMeta.init (fun _ _ => true)
      (vpack.object [(vpack.string "boost", vpack.bool true)]) "").1 = false ∧
    IResearchLinkMeta.init_fields (fun _ _ => true)
        [(vpack.string "a", vpack.object [(vpack.string "boost", vpack.bool true)])] 0 "" =
      (false, "fields=>" ++ "a" ++ "=>") ∧
    "fields=>" ++ "a" ++ "=>" ≠ "fields=>" ++ "a" ++ "=>" ++ "boost" :=
  ⟨by decide,
    (init_nested_error_lost (fun _ _ => true) "a"
      [(vpack.string "boost", vpack.bool true)] [] 0 "" (by decide)).1,
    by decide⟩

end irs

namespace irs

/-! ## C35: the assertions of `converge` and `seek_rest` -/

theorem seek_value (it : doc_iterator) (t : Nat) : (it.seek t).1.value = (it.seek t).2 := by
  unfold doc_iterator.seek
  split_ifs
  · rfl
  · cases it.docs.find? (fun d => decide (t ≤ d)) <;> rfl

theorem seek_docs (it : doc_iterator) (t : Nat) : (it.seek t).1.docs = it.docs := by
  unfold doc_iterator.seek
  split_ifs
  · rfl
  · cases it.docs.find? (fun d => decide (t ≤ d)) <;> rfl

theorem next_docs (it : doc_iterator) : it.next.1.docs = it.docs := by
  unfold doc_iterator.next
  cases it.docs.find? (fun d => decide (it.value < d)) <;> rfl

theorem next_value (it : doc_iterator) :
    (it.next.2 = true → it.next.1.value ∈ it.docs) ∧
    (it.next.2 = false → it.next.1.value = doc_limits.eof) := by
  unfold doc_iterator.next
  cases h : it.docs.find? (fun d => decide (it.value < d)) with
  | none => exact ⟨fun h' => absurd h' (by simp), fun _ => rfl⟩
  | some d => exact ⟨fun _ => List.mem_of_find?_eq_some h, fun h' => absurd h' (by simp)⟩

theorem seek_rest_docs : ∀ (tail : List doc_iterator) (target : Nat),
    (seek_rest tail target).1.map (fun it => it.docs) = tail.map (fun it => it.docs)
  | [], _ => rfl
  | it :: its, target => by
    unfold seek_rest
    simp only []
    split_ifs
    · simp only [List.map_cons, seek_docs]
    · simp only [List.map_cons, seek_docs, seek_rest_docs its target]

/-- The assertions of `converge` hold when it is entered with a target other than
`eof`. -/
theorem converge_asserts_true : ∀ (fuel : Nat) (front : doc_iterator)
    (tail : List doc_iterator) (target : Nat), target ≠ doc_limits.eof →
    converge_asserts fuel front tail target = true := by
  intro fuel
  induction fuel with
  | zero =>
    intro front tail target h
    simp [converge_asserts, target_assert, h]
  | succ fuel ih =>
    intro front tail target h
    unfold converge_asserts
    simp only [target_assert, h, ne_eq, not_false_eq_true, decide_True, Bool.true_and]
    split_ifs with h1 h2
    · rfl
    · rfl
    · exact ih _ _ _ h2

/-- The result of `converge`: the doc ids of the children are kept, and when it returns
`eof` the lead stands at `eof`. -/
theorem converge_result : ∀ (fuel : Nat) (front : doc_iterator) (tail : List doc_iterator)
    (target : Nat) (c' : conjunction) (r : Nat), target ≠ doc_limits.eof →
    converge fuel front tail target = some (c', r) →
    c'.itrs_.map (fun it => it.docs) = (front :: tail).map (fun it => it.docs) ∧
    (r = doc_limits.eof → c'.value = doc_limits.eof) := by
  intro fuel
  induction fuel with
  | zero =>
    intro front tail target c' r _ h
    simp [converge] at h
  | succ fuel ih =>
    intro front tail target c' r ht h
    unfold converge at h
    simp only [] at h
    split_ifs at h with h1 h2
    · simp only [Option.some.injEq, Prod.mk.injEq] at h
      rw [← h.1, ← h.2]
      refine ⟨?_, fun he => absurd he ht⟩
      simp only [List.map_cons, seek_rest_docs]
    · simp only [Option.some.injEq, Prod.mk.injEq] at h
      rw [← h.1, ← h.2]
      refine ⟨?_, fun _ => ?_⟩
      · simp only [List.map_cons, seek_rest_docs, seek_docs]
      · simp only [conjunction.value]
        rw [seek_value]
        exact h2
    · obtain ⟨k1, k2⟩ := ih _ _ _ c' r h2 h
      refine ⟨?_, k2⟩
      rw [k1]
      simp only [List.map_cons, seek_rest_docs, seek_docs]

theorem docs_of_map (l l' : List doc_iterator)
    (h : l'.map (fun it => it.docs) = l.map (fun it => it.docs))
    (hl : ∀ it ∈ l, ∀ d ∈ it.docs, d ≠ doc_limits.eof) :
    ∀ it ∈ l', ∀ d ∈ it.docs, d ≠ doc_limits.eof := by
  intro it hit d hd
  have hm : it.docs ∈ l'.map (fun it => it.docs) := List.mem_map.mpr ⟨it, hit, rfl⟩
  rw [h] at hm
  obtain ⟨it0, h0, e0⟩ := List.mem_map.mp hm
  exact hl it0 h0 d (by rw [e0]; exact hd)

/-- One call of `next` or `seek`: the assertions hold, the doc ids of the children are
kept, and when the call reports the end, `value()` is `eof`. -/
theorem conjunction_call_spec (c : conjunction)
    (hc : ∀ it ∈ c.itrs_, ∀ d ∈ it.docs, d ≠ doc_limits.eof) (fuel : Nat)
    (k : conjunction_call) (c' : conjunction) (record : call_record)
    (h : c.call fuel k = some (c', record)) :
    (∀ it ∈ c'.itrs_, ∀ d ∈ it.docs, d ≠ doc_limits.eof) ∧ record.asserts = true ∧
    (record.ended = true → record.value = doc_limits.eof) := by
  cases k with
  | next =>
    unfold conjunction.call at h
    cases hi : c.itrs_ with
    | nil => rw [hi] at h; simp at h
    | cons front tail =>
      rw [hi] at h
      simp only [] at h
      cases hn : c.next fuel with
      | none => rw [hn] at h; simp at h
      | some p =>
        obtain ⟨c1, b⟩ := p
        rw [hn] at h
        simp only [Option.some.injEq, Prod.mk.injEq] at h
        obtain ⟨hc1, hrec⟩ := h
        rw [← hc1, ← hrec]
        simp only []
        unfold conjunction.next at hn
        rw [hi] at hn
        simp only [] at hn
        obtain ⟨v1, v2⟩ := next_value front
        have hfront := hc front (by rw [hi]; exact List.mem_cons_self _ _)
        by_cases hb : front.next.2 = false
        · rw [if_pos hb] at hn
          simp only [Option.some.injEq, Prod.mk.injEq] at hn
          rw [← hn.1]
          refine ⟨?_, by rw [if_pos hb], fun _ => v2 hb⟩
          apply docs_of_map c.itrs_
          · rw [hi]
            simp only [List.map_cons, next_docs]
          · exact hc
        · rw [if_neg hb] at hn
          have hb' : front.next.2 = true := by
            cases hx : front.next.2 with
            | true => rfl
            | false => exact absurd hx hb
          have hne : front.next.1.value ≠ doc_limits.eof := hfront _ (v1 hb')
          cases hcv : converge fuel front.next.1 tail front.next.1.value with
          | none => rw [hcv] at hn; simp at hn
          | some q =>
            obtain ⟨c2, r⟩ := q
            rw [hcv] at hn
            simp only [Option.some.injEq, Prod.mk.injEq] at hn
            obtain ⟨k1, k2⟩ := converge_result fuel _ _ _ c2 r hne hcv
            rw [← hn.1, ← hn.2]
            refine ⟨?_, ?_, ?_⟩
            · apply docs_of_map c.itrs_
              · rw [k1, hi]
                simp only [List.map_cons, next_docs]
              · exact hc
            · rw [if_neg hb]
              exact converge_asserts_true fuel _ _ _ hne
            · intro he
              apply k2
              by_contra hr
              simp [hr] at he
  | seek target =>
    unfold conjunction.call at h
    cases hi : c.itrs_ with
    | nil => rw [hi] at h; simp at h
    | cons front tail =>
      rw [hi] at h
      simp only [] at h
      cases hn : c.seek fuel target with
      | none => rw [hn] at h; simp at h
      | some p =>
        obtain ⟨c1, r⟩ := p
        rw [hn] at h
        simp only [Option.some.injEq, Prod.mk.injEq] at h
        obtain ⟨hc1, hrec⟩ := h
        rw [← hc1, ← hrec]
        simp only []
        unfold conjunction.seek at hn
        rw [hi] at hn
        simp only [] at hn
        by_cases hb : (front.seek target).2 = doc_limits.eof
        · rw [if_pos hb] at hn
          simp only [Option.some.injEq, Prod.mk.injEq] at hn
          rw [← hn.1]
          refine ⟨?_, by rw [if_pos hb], fun _ => ?_⟩
          · apply docs_of_map c.itrs_
            · rw [hi]
              simp only [List.map_cons, seek_docs]
            · exact hc
          · simp only [conjunction.value]
            rw [seek_value]
            exact hb
        · rw [if_neg hb] at hn
          obtain ⟨k1, k2⟩ := converge_result fuel _ _ _ c1 r hb hn
          refine ⟨?_, ?_, ?_⟩
          · apply docs_of_map c.itrs_
            · rw [k1, hi]
              simp only [List.map_cons, seek_docs]
            · exact hc
          · rw [if_neg hb]
            exact converge_asserts_true fuel _ _ _ hb
          · intro he
            apply k2
            simpa using he

theorem conjunction_calls_spec (fuel : Nat) : ∀ (calls : List conjunction_call)
    (c : conjunction), (∀ it ∈ c.itrs_, ∀ d ∈ it.docs, d ≠ doc_limits.eof) →
    ∀ records, c.calls fuel calls = some records →
      ∀ record ∈ records, record.asserts = true ∧
        (record.ended = true → record.value = doc_limits.eof)
  | [], c, _, records, h, record, hrec => by
    simp only [conjunction.calls, Option.some.injEq] at h
    rw [← h] at hrec
    exact absurd hrec (List.not_mem_nil _)
  | k :: ks, c, hc, records, h, record, hrec => by
    unfold conjunction.calls at h
    cases hk : c.call fuel k with
    | none => rw [hk] at h; simp at h
    | some p =>
      obtain ⟨c', r0⟩ := p
      rw [hk] at h
      simp only [] at h
      obtain ⟨h1, h2, h3⟩ := conjunction_call_spec c hc fuel k c' r0 hk
      cases hks : conjunction.calls fuel ks c' with
      | none => rw [hks] at h; simp at h
      | some rs =>
        rw [hks] at h
        simp only [Option.some.injEq] at h
        rw [← h] at hrec
        rcases List.mem_cons.mp hrec with e | hmem
        · rw [e]
          exact ⟨h2, h3⟩
        · exact conjunction_calls_spec fuel ks c' h1 rs hks record hmem

/-- Every call on a conjunction in a state between two calls returns, given enough
iterations. -/
theorem conjunction_calls_return (fuel : Nat) : ∀ (calls : List conjunction_call)
    (c : conjunction), c.consistent → (∀ it ∈ c.itrs_, it.docs.length < fuel) →
    (∀ t, conjunction_call.seek t ∈ calls → t ≤ doc_limits.eof) →
    ∃ records, c.calls fuel calls = some records ∧ records.length = calls.length
  | [], _, _, _, _ => ⟨[], rfl, rfl⟩
  | k :: ks, c, hc, hfuel, ht => by
    have hne := hc.1
    cases hi : c.itrs_ with
    | nil => exact absurd hi hne
    | cons front tail =>
      have hstep : ∃ c' record, c.call fuel k = some (c', record) ∧ c'.consistent ∧
          c'.itrs_.map (fun it => it.docs) = c.itrs_.map (fun it => it.docs) := by
        cases k with
        | next =>
          have hrem : c.remaining ≤ fuel := by
            unfold conjunction.remaining
            rw [hi]
            simp only []
            have h1 := length_filter_le_length front.docs (fun d => decide (front.value < d))
            have h2 := hfuel front (by rw [hi]; exact List.mem_cons_self _ _)
            omega
          obtain ⟨c', b, e1, e2, e3, _⟩ := conjunction_next_spec c hc fuel hrem
          have hcall : ∃ record, c.call fuel conjunction_call.next = some (c', record) := by
            unfold conjunction.call
            rw [hi]
            simp only [e1]
            exact ⟨_, rfl⟩
          obtain ⟨record, hrec⟩ := hcall
          exact ⟨c', record, hrec, e2, e3⟩
        | seek t =>
          have htle := ht t (List.mem_cons_self _ _)
          have hpos : 0 < fuel := by
            have := hfuel front (by rw [hi]; exact List.mem_cons_self _ _)
            omega
          by_cases hfix : t ≤ c.value
          · have e1 := conjunction_seek_fixed c hc fuel t hfix hpos
            have hcall : ∃ record, c.call fuel (conjunction_call.seek t) = some (c, record) := by
              unfold conjunction.call
              rw [hi]
              simp only [e1]
              exact ⟨_, rfl⟩
            obtain ⟨record, hrec⟩ := hcall
            exact ⟨c, record, hrec, hc, rfl⟩
          · obtain ⟨c', r, e1, e2, _, e3, _⟩ := conjunction_seek_spec c hc fuel t
              (by unfold doc_limits.min; omega) htle hfuel
            have hcall : ∃ record, c.call fuel (conjunction_call.seek t) = some (c', record) := by
              unfold conjunction.call
              rw [hi]
              simp only [e1]
              exact ⟨_, rfl⟩
            obtain ⟨record, hrec⟩ := hcall
            exact ⟨c', record, hrec, e2, e3⟩
      obtain ⟨c', record, e1, e2, e3⟩ := hstep
      have hfuel' : ∀ it ∈ c'.itrs_, it.docs.length < fuel := by
        intro it hit
        have hm : it.docs ∈ c'.itrs_.map (fun it => it.docs) := List.mem_map.mpr ⟨it, hit, rfl⟩
        rw [e3] at hm
        obtain ⟨it0, h0, e0⟩ := List.mem_map.mp hm
        rw [← e0]
        exact hfuel it0 h0
      obtain ⟨rs, r1, r2⟩ := conjunction_calls_return fuel ks c' e2 hfuel'
        (fun t hmem => ht t (List.mem_cons_of_mem _ hmem))
      refine ⟨record :: rs, ?_, by simp [r2]⟩
      unfold conjunction.calls
      rw [e1]
      simp only [r1]

/-- C35: for a conjunction whose children have no doc id `eof`, so that a child reports a
value other than `eof` whenever its `next` returns true, and for every sequence of calls
of `next` and `seek`: `seek_rest` and `converge` are never entered with the target `eof`,
and whenever `next` returns false or `seek` returns `eof`, `value()` is `eof` afterwards.
From a state between two calls, with well-behaved children, every call of the sequence
returns, given enough iterations. -/
theorem conjunction_asserts_hold (c : conjunction)
    (hc : ∀ it ∈ c.itrs_, ∀ d ∈ it.docs, d ≠ doc_limits.eof) (fuel : Nat)
    (calls : List conjunction_call) :
    (∀ records, c.calls fuel calls = some records →
      ∀ record ∈ records, record.asserts = true ∧
        (record.ended = true → record.value = doc_limits.eof)) ∧
    (c.consistent → (∀ it ∈ c.itrs_, it.docs.length < fuel) →
      (∀ t, conjunction_call.seek t ∈ calls → t ≤ doc_limits.eof) →
      ∃ records, c.calls fuel calls = some records ∧ records.length = calls.length) :=
  ⟨conjunction_calls_spec fuel calls c hc, conjunction_calls_return fuel calls c⟩

theorem conjunction_asserts_hold_witness :
    (conjunction.make [scenario_A, scenario_B]).calls 6
        [conjunction_call.next, conjunction_call.seek 5, conjunction_call.next,
          conjunction_call.seek 4294967295, conjunction_call.next] =
      some [⟨true, false, 4⟩, ⟨true, false, 6⟩, ⟨true, true, 4294967295⟩,
        ⟨true, true, 4294967295⟩, ⟨true, true, 4294967295⟩] ∧
    ∀ records, (conjunction.make [scenario_A, scenario_B]).calls 6
        [conjunction_call.next, conjunction_call.seek 5, conjunction_call.next,
          conjunction_call.seek 4294967295, conjunction_call.next] = some records →
      ∀ record ∈ records, record.asserts = true ∧
        (record.ended = true → record.value = doc_limits.eof) :=
  ⟨by decide,
    (conjunction_asserts_hold (conjunction.make [scenario_A, scenario_B]) (by decide) 6
      [conjunction_call.next, conjunction_call.seek 5, conjunction_call.next,
        conjunction_call.seek 4294967295, conjunction_call.next]).1⟩

end irs

namespace irs

/-! ## The loop over the state stack: one entry and one state for each pair -/

theorem set_some_known (table : List (Option Nat)) (i j w v : Nat)
    (h : table[i]? = some (some v)) : ∃ v', (table.set j (some w))[i]? = some (some v') := by
  rw [List.getElem?_set]
  by_cases e : j = i
  · rw [if_pos e]
    have hlt : j < table.length := by
      rw [e]
      exact (List.getElem?_eq_some_iff.mp h).1
    rw [if_pos hlt]
    exact ⟨w, rfl⟩
  · rw [if_neg e]
    exact ⟨v, h⟩

theorem set_some_free (table : List (Option Nat)) (i j w : Nat)
    (h : (table.set j (some w))[i]? = some none) : table[i]? = some none := by
  rw [List.getElem?_set] at h
  by_cases e : j = i
  · rw [if_pos e] at h
    by_cases hl : j < table.length
    · rw [if_pos hl] at h
      simp at h
    · rw [if_neg hl] at h
      simp at h
  · rw [if_neg e] at h
    exact h

theorem builder_progress_refl (L : Nat) (a : automaton) (table : List (Option Nat))
    (stack : List builder_state) : builder_progress L a table stack a table stack :=
  { free := fun _ h => h
    pushed := fun _ h => Or.inl h
    states_eq := rfl
    states_le := Nat.le_refl _
    measure := Nat.le_refl _ }

theorem builder_progress_trans (L : Nat) (a0 a1 a2 : automaton)
    (t0 t1 t2 : List (Option Nat)) (s0 s1 s2 : List builder_state)
    (h1 : builder_progress L a0 t0 s0 a1 t1 s1) (h2 : builder_progress L a1 t1 s1 a2 t2 s2) :
    builder_progress L a0 t0 s0 a2 t2 s2 :=
  { free := fun i h => h1.free i (h2.free i h)
    pushed := by
      intro item hitem
      rcases h2.pushed item hitem with h | ⟨h, hne⟩
      · exact h1.pushed item h
      · exact Or.inr ⟨h1.free _ h, hne⟩
    states_eq := by
      have := h1.states_eq
      have := h2.states_eq
      omega
    states_le := Nat.le_trans (h2.states_le) (h1.states_le)
    measure := Nat.le_trans (h2.measure) (h1.measure) }

/-- The first half of an iteration of the loop over the alphabet keeps the invariant on
the pairs: a state is added, and an entry pushed, only for a pair whose slot is free. -/
theorem entry_target_once (d : parametric_description) (N L : Nat) (P : Nat → Nat → Prop)
    (state : builder_state) (a : automaton) (table : List (Option Nat))
    (stack : List builder_state) (chi : Nat)
    (hinv : builder_once N L P table (state :: stack))
    (htr : (d.transition state.state_id chi).1 ≠ 0 →
      P (d.transition state.state_id chi).1 ((d.transition state.state_id chi).2 + state.offset) ∧
      (d.transition state.state_id chi).1 * (1 + L) +
        ((d.transition state.state_id chi).2 + state.offset) < N * (1 + L) ∧
      (d.transition state.state_id chi).1 * (1 + L) +
        ((d.transition state.state_id chi).2 + state.offset) ≠ 1 + L) :
    builder_once N L P (entry_target d L state a table stack chi).2.1
      (state :: (entry_target d L state a table stack chi).2.2.1) ∧
    builder_progress L a table stack (entry_target d L state a table stack chi).1
      (entry_target d L state a table stack chi).2.1
      (entry_target d L state a table stack chi).2.2.1 := by
  unfold entry_target
  simp only []
  by_cases hdead : (d.transition state.state_id chi).1 = INVALID_STATE
  · rw [if_pos hdead]
    simp only []
    refine ⟨⟨?_, hinv.fits, ?_, hinv.nodup⟩, ⟨?_, fun _ h => Or.inl h, rfl, ?_, ?_⟩⟩
    · rw [List.length_set]
      exact hinv.table_len
    · intro item hitem
      rcases hinv.known item hitem with h | ⟨v, h⟩
      · exact Or.inl h
      · exact Or.inr (set_some_known table _ _ _ v h)
    · intro i h
      exact set_some_free table i _ _ h
    · exact Nat.add_le_add_left (count_none_set_some_le table _ _) _
    · exact Nat.add_le_add_right (count_none_set_some_le table _ _) _
  · rw [if_neg hdead]
    have hlive : (d.transition state.state_id chi).1 ≠ 0 := hdead
    obtain ⟨hP, hlt, hne⟩ := htr hlive
    have hoff : (if (d.transition state.state_id chi).1 ≠ 0 then
        (d.transition state.state_id chi).2 + state.offset else 0) =
        (d.transition state.state_id chi).2 + state.offset := if_pos hlive
    rw [hoff]
    generalize hidx : (d.transition state.state_id chi).1 * (1 + L) +
      ((d.transition state.state_id chi).2 + state.offset) = idx at hlt hne ⊢
    cases hslot : table.getD idx none with
    | some v =>
      simp only []
      exact ⟨hinv, builder_progress_refl L a table stack⟩
    | none =>
      simp only []
      have hlen : idx < table.length := by rw [hinv.table_len]; exact hlt
      have hfree : table[idx]? = some none := getD_none_eq_none table idx hlen hslot
      obtain ⟨_, hstates⟩ := new_state_spec a
        (d.distance (d.transition state.state_id chi).1
          (sub_size_t L ((d.transition state.state_id chi).2 + state.offset)))
        d.max_distance
      generalize (if d.distance (d.transition state.state_id chi).1
          (sub_size_t L ((d.transition state.state_id chi).2 + state.offset)) ≤
            d.max_distance then
          a.AddState.1.SetFinal a.AddState.2
            (d.distance (d.transition state.state_id chi).1
              (sub_size_t L ((d.transition state.state_id chi).2 + state.offset)))
        else a.AddState.1) = a' at hstates
      have hnew : builder_state.index L
          ⟨(d.transition state.state_id chi).2 + state.offset,
            (d.transition state.state_id chi).1, a.AddState.2⟩ = idx := hidx
      have hold : ∀ item ∈ state :: stack, item.index L ≠ idx := by
        intro item hitem e
        rcases hinv.known item hitem with h | ⟨v, h⟩
        · exact hne (e.symm.trans h)
        · rw [e, hfree] at h
          simp at h
      refine ⟨⟨?_, ?_, ?_, ?_⟩, ⟨?_, ?_, ?_, ?_, ?_⟩⟩
      · rw [List.length_set]
        exact hinv.table_len
      · intro item hitem
        rcases List.mem_cons.mp hitem with e | hitem
        · rw [e]
          exact hinv.fits state (List.mem_cons_self _ _)
        · rcases List.mem_cons.mp hitem with e | hitem
          · rw [e]
            exact hP
          · exact hinv.fits item (List.mem_cons_of_mem _ hitem)
      · intro item hitem
        have hcases : item ∈ state :: stack ∨
            item = ⟨(d.transition state.state_id chi).2 + state.offset,
              (d.transition state.state_id chi).1, a.AddState.2⟩ := by
          rcases List.mem_cons.mp hitem with e | hitem
          · exact Or.inl (by rw [e]; exact List.mem_cons_self _ _)
          · rcases List.mem_cons.mp hitem with e | hitem
            · exact Or.inr e
            · exact Or.inl (List.mem_cons_of_mem _ hitem)
        rcases hcases with hitem | e
        · rcases hinv.known item hitem with h | ⟨v, h⟩
          · exact Or.inl h
          · exact Or.inr (set_some_known table _ _ _ v h)
        · right
          rw [e, hnew]
          exact ⟨a.AddState.2, by rw [List.getElem?_set, if_pos rfl, if_pos hlen]⟩
      · have hnd := hinv.nodup
        simp only [List.map_cons, List.nodup_cons, List.mem_cons, List.mem_map, not_or,
          not_exists, not_and] at hnd ⊢
        rw [hnew]
        refine ⟨⟨fun e => hold state (List.mem_cons_self _ _) e, hnd.1⟩, ?_, hnd.2⟩
        intro item hitem e
        exact hold item (List.mem_cons_of_mem _ hitem) e
      · intro i h
        exact set_some_free table i _ _ h
      · intro item hitem
        rcases List.mem_cons.mp hitem with e | hitem
        · right
          rw [e, hnew]
          exact ⟨hfree, hne⟩
        · exact Or.inl hitem
      · rw [hstates]
        simp only [List.length_append, List.length_cons, List.length_nil]
        omega
      · have := count_none_set_none table idx a.AddState.2 hfree
        rw [hstates]
        simp only [List.length_append, List.length_cons, List.length_nil]
        omega
      · have := count_none_set_none table idx a.AddState.2 hfree
        simp only [List.length_cons]
        omega

theorem process_entry_transitions (d : parametric_description) (u mask : Nat)
    (state : builder_state) (s : entry_state) (e : character) :
    (process_entry d u mask state s e).transitions =
      (entry_target d u state s.a s.transitions s.stack
        (chi_bitset e.chi state.offset mask)).2.1 := by
  unfold process_entry
  simp only []
  split_ifs <;> rfl

/-- The loop over the alphabet keeps the invariant on the pairs. -/
theorem process_fold_once (d : parametric_description) (N L : Nat) (P : Nat → Nat → Prop)
    (mask : Nat) (state : builder_state) :
    ∀ (l : List character) (s : entry_state),
      (∀ e ∈ l, (d.transition state.state_id (chi_bitset e.chi state.offset mask)).1 ≠ 0 →
        P (d.transition state.state_id (chi_bitset e.chi state.offset mask)).1
          ((d.transition state.state_id (chi_bitset e.chi state.offset mask)).2 +
            state.offset) ∧
        (d.transition state.state_id (chi_bitset e.chi state.offset mask)).1 * (1 + L) +
          ((d.transition state.state_id (chi_bitset e.chi state.offset mask)).2 +
            state.offset) < N * (1 + L) ∧
        (d.transition state.state_id (chi_bitset e.chi state.offset mask)).1 * (1 + L) +
          ((d.transition state.state_id (chi_bitset e.chi state.offset mask)).2 +
            state.offset) ≠ 1 + L) →
      builder_once N L P s.transitions (state :: s.stack) →
      builder_once N L P (l.foldl (process_entry d L mask state) s).transitions
        (state :: (l.foldl (process_entry d L mask state) s).stack) ∧
      builder_progress L s.a s.transitions s.stack
        (l.foldl (process_entry d L mask state) s).a
        (l.foldl (process_entry d L mask state) s).transitions
        (l.foldl (process_entry d L mask state) s).stack
  | [], s, _, h => ⟨h, builder_progress_refl L _ _ _⟩
  | e :: l, s, hl, h => by
    rw [List.foldl_cons]
    obtain ⟨t1, t2⟩ := entry_target_once d N L P state s.a s.transitions s.stack
      (chi_bitset e.chi state.offset mask) h (hl e (List.mem_cons_self _ _))
    obtain ⟨e1, e2⟩ := process_entry_a d L mask state s e
    have e3 := process_entry_transitions d L mask state s e
    obtain ⟨r1, r2⟩ := process_fold_once d N L P mask state l
      (process_entry d L mask state s e)
      (fun e' he' => hl e' (List.mem_cons_of_mem _ he')) (by rw [e2, e3]; exact t1)
    refine ⟨r1, builder_progress_trans L _ _ _ _ _ _ _ _ _ ?_ r2⟩
    rw [e1, e2, e3]
    exact t2

theorem emit_arcs_length (p : Nat) (s : entry_state) :
    (emit_arcs p s).states.length = s.a.states.length := by
  unfold emit_arcs
  split_ifs with h1 h2
  · simp [automaton.EmplaceArc, List.length_modify]
  · exact (foldl_EmplaceArc p (fun c => label.range c c) s.arcs s.a).2.1
  · unfold Utf8TransitionsBuilder.Insert
    have hfold := (foldl_EmplaceArc p label.cp s.arcs s.a).2.1
    cases hd : s.default_state with
    | none => exact hfold
    | some ds =>
      simp only []
      rw [← hfold]
      simp [automaton.EmplaceArc, List.length_modify]

/-- The loop over the state stack ends, given as many iterations as the table has free
slots and the stack has entries: it pops one entry for each state it adds, no two of them
entries of the same pair. -/
theorem build_automaton_once (d : parametric_description) (N L : Nat)
    (P : Nat → Nat → Prop) (mask : Nat) (alphabet : List character)
    (hstep : ∀ ps off, P ps off → ∀ e ∈ alphabet,
      (d.transition ps (chi_bitset e.chi off mask)).1 ≠ 0 →
        P (d.transition ps (chi_bitset e.chi off mask)).1
          ((d.transition ps (chi_bitset e.chi off mask)).2 + off) ∧
        (d.transition ps (chi_bitset e.chi off mask)).1 * (1 + L) +
          ((d.transition ps (chi_bitset e.chi off mask)).2 + off) < N * (1 + L) ∧
        (d.transition ps (chi_bitset e.chi off mask)).1 * (1 + L) +
          ((d.transition ps (chi_bitset e.chi off mask)).2 + off) ≠ 1 + L) :
    ∀ (fuel : Nat) (a : automaton) (table : List (Option Nat)) (stack : List builder_state),
      builder_once N L P table stack → count_none table + stack.length ≤ fuel →
      ∃ a', build_automaton d alphabet L mask fuel a table stack = some a' ∧
        a'.states.length + stack.length =
          a.states.length + (build_automaton_states d alphabet L mask fuel a table stack).length ∧
        a'.states.length ≤ a.states.length + count_none table ∧
        ((build_automaton_states d alphabet L mask fuel a table stack).map
          (builder_state.index L)).Nodup ∧
        ∀ item ∈ build_automaton_states d alphabet L mask fuel a table stack,
          item ∈ stack ∨ (table[item.index L]? = some none ∧ item.index L ≠ 1 + L) := by
  intro fuel
  induction fuel with
  | zero =>
    intro a table stack _ hm
    cases stack with
    | nil =>
      exact ⟨a, by simp [build_automaton], by simp [build_automaton_states],
        Nat.le_add_right _ _, by simp [build_automaton_states],
        fun item hitem => by simp [build_automaton_states] at hitem⟩
    | cons st stack => simp at hm
  | succ fuel ih =>
    intro a table stack hinv hm
    cases stack with
    | nil =>
      exact ⟨a, by simp [build_automaton], by simp [build_automaton_states],
        Nat.le_add_right _ _, by simp [build_automaton_states],
        fun item hitem => by simp [build_automaton_states] at hitem⟩
    | cons state stack =>
      obtain ⟨r1, r2⟩ := process_fold_once d N L P mask state alphabet
        { a := a, transitions := table, stack := stack, default_state := none, arcs := [],
          ascii := true }
        (fun e he => hstep _ _ (hinv.fits state (List.mem_cons_self _ _)) e he) hinv
      simp only [List.length_cons] at hm
      have hm2 := r2.measure
      have hnd := r1.nodup
      simp only [List.map_cons, List.nodup_cons] at hnd
      obtain ⟨a', h1, h2, h3, h4, h5⟩ := ih
        (emit_arcs state.src (alphabet.foldl (process_entry d L mask state)
          { a := a, transitions := table, stack := stack, default_state := none, arcs := [],
            ascii := true }))
        (alphabet.foldl (process_entry d L mask state)
          { a := a, transitions := table, stack := stack, default_state := none, arcs := [],
            ascii := true }).transitions
        (alphabet.foldl (process_entry d L mask state)
          { a := a, transitions := table, stack := stack, default_state := none, arcs := [],
            ascii := true }).stack
        ⟨r1.table_len, fun item hitem => r1.fits item (List.mem_cons_of_mem _ hitem),
          fun item hitem => r1.known item (List.mem_cons_of_mem _ hitem), hnd.2⟩
        (by simp only [] at hm2; omega)
      rw [emit_arcs_length] at h2 h3
      have hse := r2.states_eq
      have hsl := r2.states_le
      simp only [] at hse hsl
      refine ⟨a', ?_, ?_, ?_, ?_, ?_⟩
      · rw [← h1]
        simp only [build_automaton]
      · simp only [build_automaton_states, List.length_cons]
        omega
      · omega
      · simp only [build_automaton_states, List.map_cons, List.nodup_cons]
        refine ⟨?_, h4⟩
        intro hmem
        obtain ⟨item, hitem, e⟩ := List.mem_map.mp hmem
        rcases h5 item hitem with h | ⟨h, hne⟩
        · exact hnd.1 (List.mem_map.mpr ⟨item, h, e⟩)
        · rcases r1.known state (List.mem_cons_self _ _) with k | ⟨v, k⟩
          · exact hne (e.trans k)
          · rw [← e, h] at k
            simp at k
      · intro item hitem
        simp only [build_automaton_states] at hitem
        rcases List.mem_cons.mp hitem with e | hitem
        · exact Or.inl (by rw [e]; exact List.mem_cons_self _ _)
        · rcases h5 item hitem with h | ⟨h, hne⟩
          · rcases r2.pushed item h with k | k
            · exact Or.inl (List.mem_cons_of_mem _ k)
            · exact Or.inr k
          · exact Or.inr ⟨r2.free _ h, hne⟩

/-- A transition of a built description into the initial state moves the offset on. -/
theorem built_transition_initial (fuel n : Nat) (t : Bool) (S : parametric_states)
    (T : List (Nat × Nat)) (h : parametric_description_states fuel n t = some (S, T))
    (ps cv : Nat) (hlt : cv < chi_max (chi_size n))
    (hone : ((parametric_description.mk' T (distance_table S n) n).transition ps cv).1 = 1) :
    1 ≤ ((parametric_description.mk' T (distance_table S n) n).transition ps cv).2 := by
  obtain ⟨hinv, ⟨extra, hpre⟩, hrows, h2⟩ := parametric_description_states_spec fuel n t S T h
  have h1 : S[1]? = some [⟨0, 0, false⟩] := by rw [hpre]; simp
  have htr : (parametric_description.mk' T (distance_table S n) n).transition ps cv =
      T.getD (ps * chi_max (chi_size n) + cv) (0, 0) := rfl
  rw [htr] at hone ⊢
  by_cases hps : ps < T.length / chi_max (chi_size n)
  · obtain ⟨id, e1, e2⟩ := hrows.2.2 ps cv hps hlt
    rw [List.getD_eq_getElem?_getD, e1] at hone ⊢
    simp only [Option.getD_some] at hone ⊢
    rw [hone, h1] at e2
    have e3 : (normalize (add_transition (S.getD ps []) cv n t)).2 = [⟨0, 0, false⟩] :=
      (Option.some.inj e2).symm
    have hspec := (add_transition_spec (S.getD ps []) cv n t).1
    generalize add_transition (S.getD ps []) cv n t = X at e3 hspec ⊢
    obtain ⟨hmin, hex⟩ := min_offset_spec X
    have hne : X ≠ [] := by
      intro hnil
      rw [hnil] at e3
      exact absurd e3 (by decide)
    obtain ⟨p0, hp0, e0⟩ := hex hne
    have hmem : ({ p0 with offset := p0.offset - min_offset X } : position) ∈
        (normalize X).2 := by
      unfold normalize
      simp only [mem_sort_positions, List.mem_map]
      exact ⟨p0, hp0, rfl⟩
    rw [e3] at hmem
    have hd : p0.distance = 0 := by
      have := List.mem_singleton.mp hmem
      exact congrArg position.distance this
    have hmin1 : (normalize X).1 = min_offset X := rfl
    rw [hmin1, ← e0]
    obtain ⟨pos, _, hem⟩ := hspec p0 hp0
    rcases hem with ⟨_, e⟩ | ⟨_, _, e⟩ | ⟨_, e⟩ | ⟨_, e⟩ | ⟨_, j, _, _, _, e⟩ | ⟨_, _, _, e⟩
    · rw [e]
      exact Nat.le_add_left _ _
    · rw [e]
      simp only
      omega
    · rw [e] at hd
      simp only at hd
      omega
    · rw [e] at hd
      simp only at hd
      omega
    · rw [e] at hd
      simp only at hd
      omega
    · rw [e] at hd
      simp only at hd
      omega
  · exfalso
    have hlen : T.length ≤ ps * chi_max (chi_size n) + cv := by
      have hT := hrows.1
      have : T.length / chi_max (chi_size n) ≤ ps := by omega
      calc T.length = T.length / chi_max (chi_size n) * chi_max (chi_size n) := hT
        _ ≤ ps * chi_max (chi_size n) := Nat.mul_le_mul_right _ this
        _ ≤ ps * chi_max (chi_size n) + cv := Nat.le_add_right _ _
    rw [List.getD_eq_getElem?_getD, List.getElem?_eq_none hlen] at hone
    simp at hone

/-- For a built description each of whose transitions leads to one of its states, the
automaton builder ends for every prefix and target: the loop over the state stack pops
one entry for each state other than the state 0 and the states of the chain of the
prefix, no two of them entries of the same pair, and the table bounds their number.  The
states are those that `make_levenshtein_automaton` adds itself: in the model an arc
labelled with a code point stands for the arcs of its bytes, and the states between the
bytes of a multi-byte character are left out. -/
theorem levenshtein_automaton_once (fuel n : Nat) (t : Bool) (S : parametric_states)
    (T : List (Nat × Nat)) (h : parametric_description_states fuel n t = some (S, T))
    (hn : n ≤ MAX_DISTANCE)
    (hclosed : ∀ s chi,
      ((parametric_description.mk' T (distance_table S n) n).transition s chi).1 <
        (parametric_description.mk' T (distance_table S n) n).num_states)
    (pfx W : List Nat) (fuel' : Nat)
    (hfuel : (parametric_description.mk' T (distance_table S n) n).num_states *
      (1 + W.length) + 1 ≤ fuel') :
    ∃ a, make_levenshtein_automaton fuel'
        (parametric_description.mk' T (distance_table S n) n) pfx W = some a ∧
      a.states.length = 1 + pfx.length + (levenshtein_automaton_states fuel'
        (parametric_description.mk' T (distance_table S n) n) pfx W).length ∧
      a.states.length ≤ 2 + pfx.length +
        (parametric_description.mk' T (distance_table S n) n).num_states * (W.length + 1) ∧
      ((levenshtein_automaton_states fuel'
        (parametric_description.mk' T (distance_table S n) n) pfx W).map
          (builder_state.index W.length)).Nodup := by
  unfold make_levenshtein_automaton levenshtein_automaton_states
  simp only []
  generalize hd : parametric_description.mk' T (distance_table S n) n = d at hclosed hfuel ⊢
  have hlen0 : ∀ (pfx : List Nat) (a : automaton) (start : Nat),
      ( add_prefix pfx a start).1.states.length = a.states.length + pfx.length := by
    intro pfx
    induction pfx with
    | nil => intro a start; rfl
    | cons c cs ih =>
      intro a start
      unfold add_prefix
      simp only []
      rw [ih]
      simp [automaton.EmplaceArc, automaton.AddState, List.length_modify]
      omega
  have hcount : count_none (List.replicate (d.num_states * (1 + W.length)) none) =
      d.num_states * (1 + W.length) := by
    unfold count_none
    simp [List.countP_replicate]
  have hstep : ∀ ps off, offset_fits W.length S ps off → ∀ e ∈ make_alphabet W,
      (d.transition ps (chi_bitset e.chi off ((1 <<< d.chi_size) - 1))).1 ≠ 0 →
        offset_fits W.length S
          (d.transition ps (chi_bitset e.chi off ((1 <<< d.chi_size) - 1))).1
          ((d.transition ps (chi_bitset e.chi off ((1 <<< d.chi_size) - 1))).2 + off) ∧
        (d.transition ps (chi_bitset e.chi off ((1 <<< d.chi_size) - 1))).1 *
            (1 + W.length) +
          ((d.transition ps (chi_bitset e.chi off ((1 <<< d.chi_size) - 1))).2 + off) <
            d.num_states * (1 + W.length) ∧
        (d.transition ps (chi_bitset e.chi off ((1 <<< d.chi_size) - 1))).1 *
            (1 + W.length) +
          ((d.transition ps (chi_bitset e.chi off ((1 <<< d.chi_size) - 1))).2 + off) ≠
            1 + W.length := by
    intro ps off hfit e he hlive
    have hc := hclosed ps (chi_bitset e.chi off ((1 <<< d.chi_size) - 1))
    rw [← hd] at hlive hc ⊢
    have hfit2 := built_alphabet_step fuel n t S T h hn W ps off hfit e he hlive
    have hcs : (parametric_description.mk' T (distance_table S n) n).chi_size =
        chi_size n := rfl
    have hone := built_transition_initial fuel n t S T h ps
      (chi_bitset e.chi off
        ((1 <<< (parametric_description.mk' T (distance_table S n) n).chi_size) - 1))
      (by rw [hcs]; exact (alphabet_chi W n off hn e he).2)
    generalize (parametric_description.mk' T (distance_table S n) n).transition ps
      (chi_bitset e.chi off
        ((1 <<< (parametric_description.mk' T (distance_table S n) n).chi_size) - 1)) = tr
      at hlive hc hfit2 hone ⊢
    generalize (parametric_description.mk' T (distance_table S n) n).num_states = N at hc ⊢
    have hle := hfit2.1
    refine ⟨hfit2, ?_, ?_⟩
    · have hmul : (tr.1 + 1) * (1 + W.length) ≤ N * (1 + W.length) :=
        Nat.mul_le_mul_right _ hc
      rw [Nat.add_mul] at hmul
      omega
    · intro e1
      have e2 : tr.1 * (1 + W.length) + (tr.2 + off) = 1 * (1 + W.length) + 0 := by
        rw [e1]
        omega
      obtain ⟨k1, k2⟩ := table_index_inj (1 + W.length) _ _ _ _ (by omega) (by omega) e2
      have := hone k1
      omega
  obtain ⟨hid, _⟩ := initial_tagged d W pfx (fun _ _ => True) trivial
  have hinit : builder_once d.num_states W.length (offset_fits W.length S)
      (List.replicate (d.num_states * (1 + W.length)) none)
      [⟨0, 1, ( add_prefix pfx
        (automaton.empty.AddState.1.AddState.1.SetStart automaton.empty.AddState.1.AddState.2)
        automaton.empty.AddState.1.AddState.2).2⟩] :=
    { table_len := List.length_replicate _ _
      fits := by
        intro item hitem
        rw [List.mem_singleton.mp hitem]
        exact offset_fits_start fuel n t S T h _
      known := by
        intro item hitem
        rw [List.mem_singleton.mp hitem]
        left
        simp [builder_state.index]
      nodup := by simp }
  obtain ⟨a, r1, r2, r3, r4, _⟩ := build_automaton_once d d.num_states W.length
    (offset_fits W.length S) ((1 <<< d.chi_size) - 1) (make_alphabet W) hstep fuel'
    (if d.distance 1 W.length ≤ d.max_distance then
        ( add_prefix pfx
          (automaton.empty.AddState.1.AddState.1.SetStart
            automaton.empty.AddState.1.AddState.2)
          automaton.empty.AddState.1.AddState.2).1.SetFinal
          ( add_prefix pfx
            (automaton.empty.AddState.1.AddState.1.SetStart
              automaton.empty.AddState.1.AddState.2)
            automaton.empty.AddState.1.AddState.2).2
          (d.distance 1 W.length)
      else
        ( add_prefix pfx
          (automaton.empty.AddState.1.AddState.1.SetStart
            automaton.empty.AddState.1.AddState.2)
          automaton.empty.AddState.1.AddState.2).1)
    _ _ hinit (by rw [hcount]; simpa using hfuel)
  have hlen : (if d.distance 1 W.length ≤ d.max_distance then
        ( add_prefix pfx
          (automaton.empty.AddState.1.AddState.1.SetStart
            automaton.empty.AddState.1.AddState.2)
          automaton.empty.AddState.1.AddState.2).1.SetFinal
          ( add_prefix pfx
            (automaton.empty.AddState.1.AddState.1.SetStart
              automaton.empty.AddState.1.AddState.2)
            automaton.empty.AddState.1.AddState.2).2
          (d.distance 1 W.length)
      else
        ( add_prefix pfx
          (automaton.empty.AddState.1.AddState.1.SetStart
            automaton.empty.AddState.1.AddState.2)
          automaton.empty.AddState.1.AddState.2).1).states.length = 2 + pfx.length := by
    split_ifs
    · simp only [automaton.SetFinal, List.length_modify]
      rw [hlen0]
      rfl
    · rw [hlen0]
      rfl
  rw [hlen] at r2 r3
  rw [hcount] at r3
  simp only [List.length_cons, List.length_nil] at r2
  refine ⟨a, r1, by omega, ?_, r4⟩
  have e : d.num_states * (W.length + 1) = d.num_states * (1 + W.length) := by
    rw [Nat.add_comm]
  omega

end irs

